import Mathlib

namespace Scandir

/-- A C string: the characters that precede the terminating NUL. -/
abbrev CStr := List Char

def MAX_PATH_LEN : Nat := 4096

def BLOCK_SIZE : Nat := 8192

def BKDIRNAME : CStr := ".#__hide.youcantseeme__#".toList

/-- The text `snprintf(buf, n, ...)` leaves in `buf`: the formatted text cut to `n - 1`
characters. `sprintf` is the formatted text itself (the destination is taken to be large
enough; an overflowing `sprintf` has no defined behaviour in C). -/
def snprintf (n : Nat) (s : CStr) : CStr := s.take (n - 1)

/-- The conversion `%d` of printf. -/
def fmt_d (i : Int) : CStr := (toString i).toList

/-- The conversion `%02d` of printf: at least two characters, padded with a zero. -/
def fmt_02d (i : Int) : CStr :=
  if (fmt_d i).length < 2 then '0' :: fmt_d i else fmt_d i

/-- `strncmp(a, b, n) == 0`: the strings agree on their first `n` characters. -/
def strncmp_eq (a b : CStr) (n : Nat) : Bool := a.take n == b.take n

/-- Remove the slashes that end a path. -/
def stripSlashes (s : CStr) : CStr := s.rdropWhile (· == '/')

/-- The libc function `basename` of libgen.h (the source includes libgen.h, so this is the
POSIX one): "." for the empty string, "/" for a string of slashes, otherwise the last
component, trailing slashes removed. -/
def basename (s : CStr) : CStr :=
  if s = [] then ['.']
  else if stripSlashes s = [] then ['/']
  else (stripSlashes s).rtakeWhile (· != '/')

/-- The libc function `dirname` of libgen.h, as glibc implements it: "." when the path has no
directory part, otherwise the path up to its last component, without the slashes that
separate the two; a path that is under the root gives "/", or "//" when it starts with
exactly two slashes. -/
def dirname (s : CStr) : CStr :=
  if s = [] then ['.']
  else if stripSlashes s = [] then (if s.length = 2 then ['/', '/'] else ['/'])
  else
    let u := (stripSlashes s).rdropWhile (· != '/')
    if u = [] then ['.']
    else if stripSlashes u = [] then (if u.length = 2 then ['/', '/'] else ['/'])
    else stripSlashes u

/-- The fields of `struct tm` that the program reads. -/
structure Tm where
  tm_year : Int
  tm_mon : Int
  tm_mday : Int
  tm_hour : Int
  tm_min : Int
  tm_sec : Int
deriving DecidableEq, Repr

/-- The C type `struct timeval`. -/
structure Timeval where
  tv_sec : Int
  tv_usec : Int
deriving DecidableEq, Repr

/-- The value of the C type `int` (32 bits, two's complement) that a number stands for:
what the cast `(int)` gives, and what `int` arithmetic gives where the compilers the program
is built with wrap around (an overflow of `int` arithmetic has no defined behaviour in C). -/
def to_int (i : Int) : Int := (i + 2147483648) % 4294967296 - 2147483648

/-- A number that fits the C type `int`. -/
def InInt (i : Int) : Prop := -2147483648 ≤ i ∧ i ≤ 2147483647

instance (i : Int) : Decidable (InInt i) := by
  unfold InInt
  infer_instance

/-- The tail `.%d.%02d.%d.%d%d%d.%d` of the two format strings of `make_backup_name`, with
its arguments `1900+tm->tm_year`, `1+tm->tm_mon`, `tm->tm_mday`, `tm->tm_hour`,
`tm->tm_min`, `tm->tm_sec` and `(int)tv->tv_usec`, each a value of type `int`. -/
def backup_suffix (tm : Tm) (tv : Timeval) : CStr :=
  '.' :: fmt_d (to_int (1900 + tm.tm_year)) ++ '.' :: fmt_02d (to_int (1 + tm.tm_mon))
    ++ '.' :: fmt_d (to_int tm.tm_mday) ++ '.' :: fmt_d (to_int tm.tm_hour)
    ++ fmt_d (to_int tm.tm_min) ++ fmt_d (to_int tm.tm_sec) ++ '.' :: fmt_d (to_int tv.tv_usec)

/-- The function `make_backup_name` of scandir.c. `localtime` is the libc function; the result
is the text written to `bakname` when the function returns 0, and `none` when it
returns -1. -/
def make_backup_name (localtime : Int → Option Tm) (srcname : CStr) (tv : Timeval) :
    Option CStr :=
  match localtime tv.tv_sec with
  | some tm =>
    if srcname.head? = some '/' then
      let path1 := snprintf MAX_PATH_LEN srcname
      let path2 := snprintf MAX_PATH_LEN srcname
      let dname := dirname path1
      let bname := basename path2
      some (dname ++ '/' :: BKDIRNAME ++ '/' :: bname ++ backup_suffix tm tv)
    else
      some (BKDIRNAME ++ '/' :: srcname ++ backup_suffix tm tv)
  | none => none

/-- The function `path_split` of scandir.c. `cwd` is what `getcwd` gives (`none` when it
fails); the result is `(dirpath, filename)` when the function returns 0. -/
def path_split (cwd : Option CStr) (filepath : CStr) : Option (CStr × CStr) :=
  if filepath.head? = some '/' then
    let tmppath1 := snprintf MAX_PATH_LEN filepath
    let dname := dirname tmppath1
    let tmppath2 := snprintf MAX_PATH_LEN filepath
    let fname := basename tmppath2
    if fname = ['.'] ∨ fname = ['.', '.'] ∨ fname = ['/'] then none
    else some (dname, fname)
  else
    match cwd with
    | some curdirpath =>
      let tmppath1 := snprintf MAX_PATH_LEN (curdirpath ++ '/' :: filepath)
      let dname := dirname tmppath1
      let tmppath2 := snprintf MAX_PATH_LEN (curdirpath ++ '/' :: filepath)
      let fname := basename tmppath2
      if fname = ['.'] ∨ fname = ['.', '.'] ∨ fname = ['/'] then none
      else some (dname, fname)
    | none => none

/-- The function `set_rename_path` of scandir.c; the result is the text written to `path`
when the function returns 0. `bakpath_basename + n` is the string without its first `n`
characters. -/
def set_rename_path (cwd : Option CStr) (oldpath newpath bakpath : CStr) : Option CStr :=
  match path_split cwd oldpath with
  | none => none
  | some (_, oldpath_basename) =>
    match path_split cwd newpath with
    | none => none
    | some (newpath_dirpath, newpath_basename) =>
      match path_split cwd bakpath with
      | none => none
      | some (_, bakpath_basename) =>
        let bakpath_basename_len := oldpath_basename.length
        some (newpath_dirpath ++ '/' :: BKDIRNAME ++ '/' :: newpath_basename
          ++ bakpath_basename.drop bakpath_basename_len)

/-! ## The file system

The system calls the program makes are modelled on a file system of regular files and
directories, without links. What the state does not determine, a `write` that fails or is
cut short and a `remove` that the system refuses, is a parameter of the call. A file is
known by its resolved path, the list of names from the root. -/

/-- A byte of file content. -/
abbrev Byte := UInt8

/-- A resolved path: the names from the root directory down; `[]` is the root. -/
abbrev RPath := List CStr

/-- What a directory entry refers to. -/
inductive Node where
  | file (data : List Byte)
  | dir
deriving DecidableEq, Repr

/-- The error numbers the model gives. -/
inductive Errno where
  | EEXIST | ENOENT | ENOTDIR | EISDIR | ENOTEMPTY | EINVAL | EBUSY | ENAMETOOLONG | EBADF
  | ENOSPC | EACCES
deriving DecidableEq, Repr

deriving instance DecidableEq for Except

/-- An open file descriptor. The program never renames or removes a file between opening it
and its last read or write, so the resolved path names the file the descriptor was opened
on. -/
structure OpenFile where
  fd : Nat
  file : RPath
  offset : Nat
  writable : Bool
deriving DecidableEq, Repr

/-- The state of the file system: the entries below the root in the order a directory read
enumerates them, the working directory and the open descriptors. -/
structure FS where
  entries : List (RPath × Node)
  cwd : RPath
  fds : List OpenFile
deriving DecidableEq, Repr

/-- The state with other entries. -/
def FS.setEntries (fs : FS) (entries : List (RPath × Node)) : FS := ⟨entries, fs.cwd, fs.fds⟩

/-- The state with other open descriptors. -/
def FS.setFds (fs : FS) (fds : List OpenFile) : FS := ⟨fs.entries, fs.cwd, fds⟩

/-- The Linux limit on the length of a path, terminator included; it is the program's
MAX_PATH_LEN. -/
def PATH_MAX : Nat := 4096

/-- The entry at a resolved path; the root is always a directory. -/
def FS.lookup (fs : FS) (p : RPath) : Option Node :=
  if p = [] then some Node.dir
  else (fs.entries.find? (fun e => e.1 = p)).map (·.2)

/-- The names in a directory, in enumeration order. -/
def FS.children (fs : FS) (d : RPath) : List CStr :=
  fs.entries.filterMap (fun e => if e.1.dropLast = d then e.1.getLast? else none)

/-- A path cut at its slashes. -/
def splitSlash : CStr → List CStr
  | [] => [[]]
  | c :: cs =>
    if c = '/' then [] :: splitSlash cs
    else
      match splitSlash cs with
      | [] => [[c]]
      | h :: t => (c :: h) :: t

/-- The names of a path: its maximal slash-free, non-empty pieces. -/
def names (p : CStr) : List CStr := (splitSlash p).filter (· ≠ [])

/-- One step of path resolution: `cur` must be a directory to look a name up in it. -/
def step (fs : FS) (cur : RPath) (name : CStr) : Except Errno RPath :=
  match fs.lookup cur with
  | some Node.dir =>
    if name = ['.'] then .ok cur
    else if name = ['.', '.'] then .ok cur.dropLast
    else .ok (cur ++ [name])
  | some (Node.file _) => .error Errno.ENOTDIR
  | none => .error Errno.ENOENT

/-- Resolution of a list of names from a directory. -/
def walk (fs : FS) : RPath → List CStr → Except Errno RPath
  | cur, [] => .ok cur
  | cur, n :: ns =>
    match step fs cur n with
    | .ok c => walk fs c ns
    | .error e => .error e

/-- The resolved path a path string stands for; its last name need not exist. -/
def namei (fs : FS) (p : CStr) : Except Errno RPath :=
  if p = [] then .error Errno.ENOENT
  else if PATH_MAX ≤ p.length then .error Errno.ENAMETOOLONG
  else walk fs (if p.head? = some '/' then [] else fs.cwd) (names p)

/-- Resolution of a path that is not to be created: one that ends in a slash must be a
directory. -/
def resolve (fs : FS) (p : CStr) : Except Errno RPath :=
  match namei fs p with
  | .ok c =>
    if p.getLast? = some '/' ∧ fs.lookup c ≠ some Node.dir then .error Errno.ENOTDIR
    else .ok c
  | .error e => .error e

/-- Whether the last name of a path is "." or "..". -/
def endsInDot (p : CStr) : Bool :=
  (names p).getLast? = some ['.'] ∨ (names p).getLast? = some ['.', '.']

/-- The part of `struct stat` that the program reads. -/
structure Stat where
  st_isreg : Bool
  st_isdir : Bool
  st_size : Nat
deriving DecidableEq, Repr

/-- The system call `stat`. -/
def sys_stat (fs : FS) (path : CStr) : Except Errno Stat :=
  match resolve fs path with
  | .ok c =>
    match fs.lookup c with
    | some (Node.file data) => .ok ⟨true, false, data.length⟩
    | some Node.dir => .ok ⟨false, true, 0⟩
    | none => .error Errno.ENOENT
  | .error e => .error e

/-- The content of the regular file at a path, `none` when there is no regular file. -/
def file_content (fs : FS) (path : CStr) : Option (List Byte) :=
  match resolve fs path with
  | .ok c =>
    match fs.lookup c with
    | some (Node.file data) => some data
    | _ => none
  | .error _ => none

/-- The library call `getcwd(buf, MAX_PATH_LEN)`: `none` when the buffer is too small. -/
def sys_getcwd (fs : FS) : Option CStr :=
  let s := if fs.cwd = [] then ['/'] else (fs.cwd.map (fun n => '/' :: n)).flatten
  if s.length < MAX_PATH_LEN then some s else none

/-- The system call `mkdir`. -/
def sys_mkdir (fs : FS) (path : CStr) : Except Errno FS :=
  match namei fs path with
  | .ok c =>
    match fs.lookup c with
    | some _ => .error Errno.EEXIST
    | none =>
      if fs.lookup c.dropLast = some Node.dir then
        .ok (fs.setEntries (fs.entries ++ [(c, Node.dir)]))
      else .error Errno.ENOENT
  | .error e => .error e

/-- The system call `rename`. -/
def sys_rename (fs : FS) (oldpath newpath : CStr) : Except Errno FS :=
  match resolve fs oldpath with
  | .error e => .error e
  | .ok co =>
    match fs.lookup co with
    | none => .error Errno.ENOENT
    | some node =>
      match namei fs newpath with
      | .error e => .error e
      | .ok cn =>
        if endsInDot oldpath ∨ endsInDot newpath ∨ co = [] ∨ cn = [] then .error Errno.EBUSY
        else if fs.lookup cn.dropLast ≠ some Node.dir then .error Errno.ENOENT
        else
          match node with
          | Node.file _ =>
            if newpath.getLast? = some '/' then .error Errno.ENOTDIR
            else if co = cn then .ok fs
            else if fs.lookup cn = some Node.dir then .error Errno.EISDIR
            else
              .ok (fs.setEntries ((fs.entries.filter (fun e => e.1 ≠ cn)).map
                (fun e => if e.1 = co then (cn, e.2) else e)))
          | Node.dir =>
            if co = cn then .ok fs
            else if co.isPrefixOf cn then .error Errno.EINVAL
            else
              match fs.lookup cn with
              | some (Node.file _) => .error Errno.ENOTDIR
              | other =>
                if other = some Node.dir ∧ fs.children cn ≠ [] then .error Errno.ENOTEMPTY
                else
                  .ok (fs.setEntries ((fs.entries.filter (fun e => e.1 ≠ cn)).map
                    (fun e => if co.isPrefixOf e.1 then (cn ++ e.1.drop co.length, e.2)
                      else e)))

/-- The library call `remove`: `unlink` for a file, `rmdir` for a directory. Whether the
process may take an entry out of its directory is a matter of permissions, which the state
does not hold: `denied` says for which entries the system refuses, with EACCES. -/
def sys_remove (denied : RPath → Bool) (fs : FS) (path : CStr) : Except Errno FS :=
  match resolve fs path with
  | .error e => .error e
  | .ok c =>
    match fs.lookup c with
    | none => .error Errno.ENOENT
    | some (Node.file _) =>
      if denied c then .error Errno.EACCES
      else .ok (fs.setEntries (fs.entries.filter (fun e => e.1 ≠ c)))
    | some Node.dir =>
      if c = [] ∨ endsInDot path then .error Errno.EBUSY
      else if denied c then .error Errno.EACCES
      else if fs.children c ≠ [] then .error Errno.ENOTEMPTY
      else .ok (fs.setEntries (fs.entries.filter (fun e => e.1 ≠ c)))

/-- The lowest descriptor number that is not open. -/
def fresh_fd (fds : List OpenFile) : Nat :=
  ((List.range (fds.length + 1)).find? (fun n => n ∉ fds.map (·.fd))).getD fds.length

/-- The flag sets the program passes to `open`. -/
inductive OpenFlags where
  | O_RDONLY
  | O_RDWR
  | O_CREAT_TRUNC_RDWR
deriving DecidableEq, Repr

/-- The system call `open`; the result is the new state and the descriptor. -/
def sys_open (fs : FS) (path : CStr) (flags : OpenFlags) : Except Errno (FS × Nat) :=
  let fd := fresh_fd fs.fds
  match flags with
  | OpenFlags.O_RDONLY =>
    match resolve fs path with
    | .error e => .error e
    | .ok c =>
      match fs.lookup c with
      | none => .error Errno.ENOENT
      | some _ => .ok (fs.setFds (fs.fds ++ [⟨fd, c, 0, false⟩]), fd)
  | OpenFlags.O_RDWR =>
    match resolve fs path with
    | .error e => .error e
    | .ok c =>
      match fs.lookup c with
      | none => .error Errno.ENOENT
      | some Node.dir => .error Errno.EISDIR
      | some (Node.file _) => .ok (fs.setFds (fs.fds ++ [⟨fd, c, 0, true⟩]), fd)
  | OpenFlags.O_CREAT_TRUNC_RDWR =>
    match resolve fs path with
    | .error e => .error e
    | .ok c =>
      match fs.lookup c with
      | some Node.dir => .error Errno.EISDIR
      | some (Node.file _) =>
        .ok (((fs.setEntries
          (fs.entries.map (fun e => if e.1 = c then (c, Node.file []) else e))).setFds
          (fs.fds ++ [⟨fd, c, 0, true⟩])), fd)
      | none =>
        if path.getLast? = some '/' then .error Errno.EISDIR
        else if fs.lookup c.dropLast = some Node.dir then
          .ok (((fs.setEntries (fs.entries ++ [(c, Node.file [])])).setFds
            (fs.fds ++ [⟨fd, c, 0, true⟩])), fd)
        else .error Errno.ENOENT

/-- The system call `close`. -/
def sys_close (fs : FS) (fd : Nat) : Except Errno FS :=
  if fs.fds.any (fun o => o.fd = fd) then
    .ok (fs.setFds (fs.fds.filter (fun o => o.fd ≠ fd)))
  else .error Errno.EBADF

/-- The system call `fstat`. -/
def sys_fstat (fs : FS) (fd : Nat) : Except Errno Stat :=
  match fs.fds.find? (fun o => o.fd = fd) with
  | none => .error Errno.EBADF
  | some o =>
    match fs.lookup o.file with
    | some (Node.file data) => .ok ⟨true, false, data.length⟩
    | some Node.dir => .ok ⟨false, true, 0⟩
    | none => .error Errno.EBADF

/-- The system call `lseek(fd, offset, SEEK_SET)`; the result is the new state and the
offset reached. -/
def sys_lseek_set (fs : FS) (fd : Nat) (offset : Nat) : Except Errno (FS × Nat) :=
  if fs.fds.any (fun o => o.fd = fd) then
    .ok (fs.setFds (fs.fds.map (fun o => if o.fd = fd then ⟨o.fd, o.file, offset, o.writable⟩
      else o)), offset)
  else .error Errno.EBADF

/-- What a `write` that transfers `n` bytes does: the bytes `buf 0 .. buf (n-1)` replace the
file content from the descriptor's offset on; the result is the new state and the number of
bytes written. -/
def write_bytes (fs : FS) (fd : Nat) (buf : Nat → Byte) (n : Nat) : Except Errno (FS × Nat) :=
  match fs.fds.find? (fun o => o.fd = fd) with
  | none => .error Errno.EBADF
  | some o =>
    if o.writable then
      match fs.lookup o.file with
      | some (Node.file data) =>
        let data' := (data ++ List.replicate (o.offset - data.length) 0).take o.offset
          ++ (List.range n).map buf ++ data.drop (o.offset + n)
        .ok (((fs.setEntries
          (fs.entries.map (fun e => if e.1 = o.file then (e.1, Node.file data') else e))).setFds
          (fs.fds.map (fun x => if x.fd = fd then ⟨x.fd, x.file, x.offset + n, x.writable⟩
            else x))), n)
      | _ => .error Errno.EBADF
    else .error Errno.EBADF

/-- The system call `write(fd, buf, n)`. How many of the `n` bytes the system transfers does
not follow from the state: `accept offset n` is `none` when the call fails (with ENOSPC),
and `some k` when it transfers `k` bytes, `n` at most; the result is the new state and the
number of bytes written. -/
def sys_write (accept : Nat → Nat → Option Nat) (fs : FS) (fd : Nat) (buf : Nat → Byte)
    (n : Nat) : Except Errno (FS × Nat) :=
  match fs.fds.find? (fun o => o.fd = fd) with
  | none => .error Errno.EBADF
  | some o =>
    match accept o.offset n with
    | none => .error Errno.ENOSPC
    | some k => write_bytes fs fd buf (min k n)

/-- The system call `fdatasync`. -/
def sys_fdatasync (fs : FS) (fd : Nat) : Except Errno Unit :=
  if fs.fds.any (fun o => o.fd = fd) then .ok () else .error Errno.EBADF

/-- The library calls `opendir` and `readdir_r`: the names a read of the directory returns,
the entries "." and ".." first, as they are when the directory is opened. -/
def sys_opendir (fs : FS) (path : CStr) : Except Errno (List CStr) :=
  match resolve fs path with
  | .error e => .error e
  | .ok c =>
    match fs.lookup c with
    | some Node.dir => .ok (['.'] :: ['.', '.'] :: fs.children c)
    | some (Node.file _) => .error Errno.ENOTDIR
    | none => .error Errno.ENOENT

/-- What the program takes from outside the file system: the clock, the libc `localtime`,
the bytes an uninitialised buffer holds, the value of an `int` read before it is assigned,
what the system does with a `write` of `n` bytes at an offset (see `sys_write`), and the
entries it refuses to remove (see `sys_remove`). -/
structure Env where
  gettimeofday : Option Timeval
  localtime : Int → Option Tm
  stack : Nat → Byte
  uninit : Int
  write : Nat → Nat → Option Nat
  remove_denied : RPath → Bool

/-! ## The functions of scandir.c

A function that returns `int` gives the new state and the value returned. A function with a
loop or a recursion gives `none` when it does not return: recursion deeper than the fuel, or
an assertion that fails. -/

/-- The loop of `mkdirs`: `pre` is the text before the pointer `p`, the last argument the
text from `p` on. -/
def mkdirs_loop : FS → CStr → CStr → FS × Int
  | fs, _, [] => (fs, 0)
  | fs, pre, c :: rest =>
    if c = '/' then
      match sys_mkdir fs pre with
      | .ok fs' => mkdirs_loop fs' (pre ++ [c]) rest
      | .error ec =>
        if ec = Errno.EEXIST then mkdirs_loop fs (pre ++ [c]) rest
        else (fs, -1)
    else mkdirs_loop fs (pre ++ [c]) rest

/-- The function `mkdirs` of scandir.c. -/
def mkdirs (fs : FS) (dirpath : CStr) : FS × Int :=
  if dirpath.head? = some '/' then
    let path := dirpath ++ ['/']
    mkdirs_loop fs (path.take 1) (path.drop 1)
  else
    match sys_getcwd fs with
    | some curdirpath =>
      let len := (curdirpath ++ ['/']).length
      let path := curdirpath ++ ['/'] ++ dirpath
      mkdirs_loop fs (path.take len) (path.drop len)
    | none => (fs, -1)

/-- The function `move_file` of scandir.c. -/
def move_file (fs : FS) (oldpath newpath : CStr) : FS × Int :=
  let path1 := newpath
  let dname := dirname path1
  match mkdirs fs dname with
  | (fs1, rc1) =>
    if rc1 = 0 then
      match sys_rename fs1 oldpath newpath with
      | .ok fs2 => (fs2, 0)
      | .error _ => (fs1, -1)
    else (fs1, -1)

/-- The function `file_backup_update` of scandir.c; the last component of the result is the
text written to `bakpath`, if any. -/
def file_backup_update (env : Env) (fs : FS) (oldpath : CStr) : FS × Int × Option CStr :=
  match env.gettimeofday with
  | some tv =>
    match make_backup_name env.localtime oldpath tv with
    | some realpath =>
      match move_file fs oldpath realpath with
      | (fs1, rc) =>
        if rc = 0 then (fs1, 0, some realpath)
        else (fs1, -1, none)
    | none => (fs, -1, none)
  | none => (fs, -1, none)

/-- The function `file_backup_delete` of scandir.c; the last component of the result is the
text written to `newpath`, if any. -/
def file_backup_delete (env : Env) (fs : FS) (oldpath : CStr) (newlen : Nat) :
    FS × Int × Option CStr :=
  match env.gettimeofday with
  | some tv =>
    match make_backup_name env.localtime oldpath tv with
    | some backpath =>
      match move_file fs oldpath backpath with
      | (fs1, rc3) =>
        if rc3 = 0 then (fs1, 0, some (snprintf newlen backpath))
        else (fs1, -1, none)
    | none => (fs, -1, none)
  | none => (fs, -1, none)

/-- The write loop of `__file_crush`; the fuel bounds the number of rounds, and the value
0 says the loop is left with `leftsize == 0`. -/
def __file_crush_loop (env : Env) (fd : Nat) : Nat → FS → Nat → Option (FS × Int)
  | 0, fs, leftsize => if leftsize > 0 then none else some (fs, 0)
  | fuel + 1, fs, leftsize =>
    if leftsize > 0 then
      let blocksize := if leftsize ≥ BLOCK_SIZE then BLOCK_SIZE else leftsize
      match sys_write env.write fs fd env.stack blocksize with
      | .error _ => some (fs, -1)
      | .ok (fs', _) => __file_crush_loop env fd fuel fs' (leftsize - blocksize)
    else some (fs, 0)

/-- The function `__file_crush` of scandir.c. Every round of its loop takes at least one
byte off `leftsize`, so `st_size` rounds are enough. -/
def __file_crush (env : Env) (fs : FS) (fd : Nat) : Option (FS × Int) :=
  match sys_fstat fs fd with
  | .ok s =>
    match __file_crush_loop env fd s.st_size fs s.st_size with
    | none => none
    | some (fs1, rc) =>
      if rc = 0 then
        match sys_fdatasync fs1 fd with
        | .ok _ => some (fs1, 0)
        | .error _ => some (fs1, -1)
      else some (fs1, -1)
  | .error _ => some (fs, -1)

/-- The function `file_crush` of scandir.c: the loop `for (i = 0; i < nr_crush; i++)`. -/
def file_crush (env : Env) (fd : Nat) : Nat → FS → Option (FS × Int)
  | 0, fs => some (fs, 0)
  | nr_crush + 1, fs =>
    match sys_lseek_set fs fd 0 with
    | .ok (fs1, rc2) =>
      if rc2 = 0 then
        match __file_crush env fs1 fd with
        | none => none
        | some (fs2, rc1) =>
          if rc1 = 0 then file_crush env fd nr_crush fs2
          else some (fs2, -1)
      else some (fs1, -1)
    | .error _ => some (fs, -1)

/-- The function `filepath_crush` of scandir.c. -/
def filepath_crush (env : Env) (fs : FS) (filepath : CStr) (nr_crush : Nat) :
    Option (FS × Int) :=
  if nr_crush ≥ 1 then
    match sys_open fs filepath OpenFlags.O_RDWR with
    | .ok (fs0, fd) =>
      let out (fs' : FS) (retcode : Int) : Option (FS × Int) :=
        match sys_close fs' fd with
        | .ok fs'' => some (fs'', retcode)
        | .error _ => some (fs', -1)
      match file_crush env fd nr_crush fs0 with
      | none => none
      | some (fs1, rc1) =>
        if rc1 = 0 then
          match sys_remove env.remove_denied fs1 filepath with
          | .ok fs2 => out fs2 0
          | .error _ => out fs1 (-1)
        else out fs1 (-1)
    | .error _ => some (fs, -1)
  else none

/-- The function `filepath_crush_cb` of scandir.c; `user` is the name of the origin file. -/
def filepath_crush_cb (env : Env) (user : CStr) (fs : FS) (path : CStr) (stat : Stat) :
    Option (FS × Int) :=
  if stat.st_isreg then
    match path_split (sys_getcwd fs) path with
    | some (_, filename) =>
      let origname := user
      let namelen := origname.length
      if strncmp_eq filename origname namelen then
        let max_nr_crush := 3
        filepath_crush env fs path max_nr_crush
      else some (fs, 0)
    | none => some (fs, -1)
  else some (fs, 0)

/-- The loop of `walk_tree` over the names the directory read returns; `walk` is the
recursive call. -/
def walk_entries (walk : FS → CStr → Option (FS × Int))
    (fn : FS → CStr → Stat → Option (FS × Int)) (dirpath : CStr) :
    FS → List CStr → Option (FS × Int)
  | fs, [] => some (fs, 0)
  | fs, d_name :: rest =>
    if strncmp_eq d_name ".".toList 2 ∨ strncmp_eq d_name "..".toList 3 ∨
        strncmp_eq d_name BKDIRNAME BKDIRNAME.length then
      walk_entries walk fn dirpath fs rest
    else
      let filepath := snprintf MAX_PATH_LEN (dirpath ++ '/' :: d_name)
      match sys_stat fs filepath with
      | .ok s =>
        if s.st_isreg then
          match fn fs filepath s with
          | none => none
          | some (fs', rc3) =>
            if rc3 = 0 then walk_entries walk fn dirpath fs' rest
            else some (fs', -1)
        else if s.st_isdir then
          match walk fs filepath with
          | none => none
          | some (fs', rc3) =>
            if rc3 = 0 then walk_entries walk fn dirpath fs' rest
            else some (fs', -1)
        else walk_entries walk fn dirpath fs rest
      | .error _ => some (fs, -1)

/-- The function `walk_tree` of scandir.c; the fuel bounds the depth of the recursion. The
directory stream always closes in the model. -/
def walk_tree (fn : FS → CStr → Stat → Option (FS × Int)) : Nat → FS → CStr →
    Option (FS × Int)
  | 0, _, _ => none
  | fuel + 1, fs, dirpath =>
    match sys_opendir fs dirpath with
    | .ok entries => walk_entries (walk_tree fn fuel) fn dirpath fs entries
    | .error _ => some (fs, -1)

def CRUSH_FILE : Nat := 0x0001

def CRUSH_BACK : Nat := 0x0010

/-- The function `file_backup_crush` of scandir.c. -/
def file_backup_crush (env : Env) (fuel : Nat) (fs : FS) (filepath : CStr) (how : Nat) :
    Option (FS × Int) :=
  if how ≠ 0 then
    let max_nr_crush := 3
    match path_split (sys_getcwd fs) filepath with
    | some (dirpath, filename) =>
      let realpath := snprintf MAX_PATH_LEN (dirpath ++ '/' :: filename)
      -- the statements after the first `if`, with the value `retcode` has there
      let back (fs1 : FS) (retcode : Int) : Option (FS × Int) :=
        if how &&& CRUSH_BACK ≠ 0 then
          walk_tree (filepath_crush_cb env filename) fuel fs1 dirpath
        else some (fs1, retcode)
      if how &&& CRUSH_FILE ≠ 0 then
        match filepath_crush env fs realpath max_nr_crush with
        | none => none
        | some (fs1, rc2) =>
          if rc2 = 0 then back fs1 0
          else some (fs1, -1)
      else back fs env.uninit
    | none => some (fs, -1)
  else none

/-- The C type `struct bkrename`. -/
structure bkrename where
  origname : CStr
  new_dirpath : CStr
  new_filename : CStr

/-- The function `file_backup_rename_cb` of scandir.c. -/
def file_backup_rename_cb (user : bkrename) (fs : FS) (backpath : CStr) (stat : Stat) :
    Option (FS × Int) :=
  if stat.st_isreg then
    match path_split (sys_getcwd fs) backpath with
    | some (_, back_filename) =>
      let bk := user
      let origname_len := bk.origname.length
      if strncmp_eq back_filename bk.origname origname_len then
        let new_fullpath := snprintf MAX_PATH_LEN
          (bk.new_dirpath ++ '/' :: BKDIRNAME ++ '/' :: bk.new_filename
            ++ back_filename.drop origname_len)
        match sys_rename fs backpath new_fullpath with
        | .ok fs' => some (fs', 0)
        | .error _ => some (fs, -1)
      else some (fs, 0)
    | none => some (fs, -1)
  else some (fs, 0)

def BK_RENAME_FILE : Nat := 0x0001

def BK_RENAME_BACK : Nat := 0x0010

/-- The function `file_backup_rename` of scandir.c. -/
def file_backup_rename (fuel : Nat) (fs : FS) (oldpath newpath : CStr) (how : Nat) :
    Option (FS × Int) :=
  match path_split (sys_getcwd fs) oldpath with
  | none => some (fs, -1)
  | some (old_dirpath, old_filename) =>
    match path_split (sys_getcwd fs) newpath with
    | none => some (fs, -1)
    | some (new_dirpath, new_filename) =>
      match mkdirs fs new_dirpath with
      | (fs1, rc3) =>
        if rc3 = 0 then
          -- the statements after the first `if (how & ...)`, with the value of `retcode`
          let back (fs2 : FS) (retcode : Int) : Option (FS × Int) :=
            if how &&& BK_RENAME_BACK ≠ 0 then
              let new_backdir := snprintf MAX_PATH_LEN (new_dirpath ++ '/' :: BKDIRNAME)
              match mkdirs fs2 new_backdir with
              | (fs3, rc4) =>
                if rc4 = 0 then
                  let old_backdir := snprintf MAX_PATH_LEN (old_dirpath ++ '/' :: BKDIRNAME)
                  let bk : bkrename := ⟨old_filename, new_dirpath, new_filename⟩
                  walk_tree (file_backup_rename_cb bk) fuel fs3 old_backdir
                else some (fs3, -1)
            else some (fs2, retcode)
          if how &&& BK_RENAME_FILE ≠ 0 then
            match sys_rename fs1 oldpath newpath with
            | .ok fs2 => back fs2 0
            | .error _ => some (fs1, -1)
          else back fs1 0
        else some (fs1, 0)

/-! ## More of the system interface and of scandir.c

A size of type `off_t` is an `Int`; a failing `assert` ends the program, so the function
gives `none`. -/

/-- The system call `read(fd, buf, n)`: the bytes of the file from the descriptor's offset
on, at most `n` of them; the result is the new state and the bytes read, none at the end of
the file. -/
def sys_read (fs : FS) (fd : Nat) (n : Nat) : Except Errno (FS × List Byte) :=
  match fs.fds.find? (fun o => o.fd = fd) with
  | none => .error Errno.EBADF
  | some o =>
    match fs.lookup o.file with
    | some (Node.file data) =>
      let bytes := (data.drop o.offset).take n
      .ok (fs.setFds (fs.fds.map (fun x =>
        if x.fd = fd then ⟨x.fd, x.file, x.offset + bytes.length, x.writable⟩ else x)), bytes)
    | some Node.dir => .error Errno.EISDIR
    | none => .error Errno.EBADF

/-- A call `close(fd);` whose result the program does not look at. -/
def close_ignored (fs : FS) (fd : Nat) : FS :=
  match sys_close fs fd with
  | .ok fs' => fs'
  | .error _ => fs

/-- The write loop of `write_zero_file`, whose buffer holds zeros; the fuel bounds the number
of rounds. The result is the value of `retcode` at the label `out`. -/
def write_zero_file_loop (env : Env) (fd : Nat) : Nat → FS → Int → Option (FS × Int)
  | 0, fs, leftsize =>
    if leftsize > 0 then none
    else if leftsize = 0 then some (fs, 0) else none
  | fuel + 1, fs, leftsize =>
    if leftsize > 0 then
      let blocksize : Int := if leftsize ≥ BLOCK_SIZE then BLOCK_SIZE else leftsize
      match sys_write env.write fs fd (fun _ => 0) blocksize.toNat with
      | .error _ => some (fs, -1)
      | .ok (fs', _) => write_zero_file_loop env fd fuel fs' (leftsize - blocksize)
    else if leftsize = 0 then some (fs, 0) else none

/-- The function `write_zero_file` of scandir.c. Every round of its loop takes at least one
byte off `leftsize`, so `filesize` rounds are enough. -/
def write_zero_file (env : Env) (fs : FS) (filepath : CStr) (filesize : Int) :
    Option (FS × Int) :=
  match sys_open fs filepath OpenFlags.O_CREAT_TRUNC_RDWR with
  | .ok (fs0, fd) =>
    match write_zero_file_loop env fd filesize.toNat fs0 filesize with
    | none => none
    | some (fs1, retcode) =>
      match sys_close fs1 fd with
      | .ok fs2 => some (fs2, retcode)
      | .error _ => some (fs1, -1)
  | .error _ => some (fs, -1)

/-- The read loop of `read_zero_file`; the fuel bounds the number of rounds. The result is the
value of `retcode` at the label `out`. `memcmp(buffer, zero, n) == 0` says that the `n` bytes
read are zeros. -/
def read_zero_file_loop (fd : Nat) : Nat → FS → Int → Option (FS × Int)
  | 0, fs, leftsize => if leftsize > 0 then none else some (fs, 0)
  | fuel + 1, fs, leftsize =>
    if leftsize > 0 then
      let size : Int := if leftsize ≥ BLOCK_SIZE then BLOCK_SIZE else leftsize
      match sys_read fs fd size.toNat with
      | .ok (fs', buffer) =>
        let n := buffer.length
        if n > 0 then
          if buffer = List.replicate n 0 then read_zero_file_loop fd fuel fs' (leftsize - n)
          else some (fs', -1)
        else some (fs', -1)
      | .error _ => some (fs, -1)
    else some (fs, 0)

/-- The function `read_zero_file` of scandir.c. Every round of its loop that goes on has
read at least one byte, so `len` rounds are enough. -/
def read_zero_file (fs : FS) (filepath : CStr) (len : Int) : Option (FS × Int) :=
  match sys_open fs filepath OpenFlags.O_RDONLY with
  | .ok (fs0, fd) =>
    match read_zero_file_loop fd len.toNat fs0 len with
    | none => none
    | some (fs1, retcode) =>
      match sys_close fs1 fd with
      | .ok fs2 => some (fs2, retcode)
      | .error _ => none
  | .error _ => none

/-- The write loop of `filepath_create`, whose buffer is not initialised; the fuel bounds the
number of rounds. -/
def filepath_create_loop (env : Env) (fd : Nat) : Nat → FS → Int → Option FS
  | 0, fs, leftsize =>
    if leftsize > 0 then none
    else if leftsize = 0 then some fs else none
  | fuel + 1, fs, leftsize =>
    if leftsize > 0 then
      let size : Int := if leftsize ≥ BLOCK_SIZE then BLOCK_SIZE else leftsize
      match sys_write env.write fs fd env.stack size.toNat with
      | .ok (fs', n) =>
        if (n : Int) = size then filepath_create_loop env fd fuel fs' (leftsize - n)
        else none
      | .error _ => none
    else if leftsize = 0 then some fs else none

/-- The function `filepath_create` of scandir.c. Every round of its loop that goes on has
written at least one byte, so `filesize` rounds are enough. -/
def filepath_create (env : Env) (fs : FS) (filepath : CStr) (filesize : Int) :
    Option (FS × Int) :=
  let path1 := snprintf MAX_PATH_LEN filepath
  let dirpath := dirname path1
  match mkdirs fs dirpath with
  | (fs1, rc1) =>
    if rc1 = 0 then
      match sys_open fs1 filepath OpenFlags.O_CREAT_TRUNC_RDWR with
      | .ok (fs2, fd) =>
        match filepath_create_loop env fd filesize.toNat fs2 filesize with
        | none => none
        | some fs3 =>
          match sys_close fs3 fd with
          | .ok fs4 => some (fs4, 0)
          | .error _ => some (fs3, -1)
      | .error _ => some (fs1, -1)
    else some (fs1, -1)

/-- The copy loop of `copy_file` with what follows it; the fuel bounds the number of rounds.
The buffer holds the `x` bytes just read when it is written. -/
def copy_file_loop (env : Env) (src dst : Nat) : Nat → FS → Int → Option (FS × Int)
  | 0, fs, leftsize =>
    if leftsize > 0 then none
    else if leftsize = 0 then some (close_ignored (close_ignored fs src) dst, 0) else none
  | fuel + 1, fs, leftsize =>
    if leftsize > 0 then
      match sys_read fs src BLOCK_SIZE with
      | .ok (fs1, buffer) =>
        let x := buffer.length
        if x > 0 then
          match sys_write env.write fs1 dst (fun i => buffer.getD i 0) x with
          | .ok (fs2, y) =>
            if y = x then copy_file_loop env src dst fuel fs2 (leftsize - x)
            else some (close_ignored (close_ignored fs2 src) dst, -1)
          | .error _ => some (close_ignored (close_ignored fs1 src) dst, -1)
        else some (close_ignored (close_ignored fs1 src) dst, -1)
      | .error _ => some (close_ignored (close_ignored fs src) dst, -1)
    else if leftsize = 0 then some (close_ignored (close_ignored fs src) dst, 0) else none

/-- The function `copy_file` of scandir.c. Every round of its loop that goes on has copied at
least one byte, so `st_size` rounds are enough. -/
def copy_file (env : Env) (fs : FS) (old_path new_path : CStr) : Option (FS × Int) :=
  let path1 := new_path
  let dname := dirname path1
  match mkdirs fs dname with
  | (fs1, rc) =>
    if rc = 0 then
      match sys_open fs1 old_path OpenFlags.O_RDONLY with
      | .ok (fs2, src) =>
        match sys_open fs2 new_path OpenFlags.O_CREAT_TRUNC_RDWR with
        | .ok (fs3, dst) =>
          match sys_fstat fs3 src with
          | .ok s => copy_file_loop env src dst s.st_size fs3 s.st_size
          | .error _ => some (close_ignored (close_ignored fs3 src) dst, -1)
        | .error _ => some (close_ignored fs2 src, -1)
      | .error _ => some (fs1, -1)
    else some (fs1, -1)

/-! ### The walk, with a record of what it does -/

/-- What a run of `walk_tree` does that a caller can see, in the order it happens: a
directory that does not open, a directory that is opened, an entry whose `stat` fails, and a
call of the action on a file with the value the call returns. -/
inductive Event where
  | opendir_failed (dirpath : CStr)
  | opened (dirpath : CStr)
  | stat_failed (filepath : CStr)
  | called (filepath : CStr) (stat : Stat) (rc : Int)
deriving DecidableEq, Repr

/-- The loop of `walk_tree` as in `walk_entries`, with the record of its events. -/
def walk_entries_log (walk : FS → CStr → Option (FS × Int × List Event))
    (fn : FS → CStr → Stat → Option (FS × Int)) (dirpath : CStr) :
    FS → List CStr → Option (FS × Int × List Event)
  | fs, [] => some (fs, 0, [])
  | fs, d_name :: rest =>
    if strncmp_eq d_name ".".toList 2 ∨ strncmp_eq d_name "..".toList 3 ∨
        strncmp_eq d_name BKDIRNAME BKDIRNAME.length then
      walk_entries_log walk fn dirpath fs rest
    else
      let filepath := snprintf MAX_PATH_LEN (dirpath ++ '/' :: d_name)
      match sys_stat fs filepath with
      | .ok s =>
        if s.st_isreg then
          match fn fs filepath s with
          | none => none
          | some (fs', rc3) =>
            if rc3 = 0 then
              (walk_entries_log walk fn dirpath fs' rest).map
                (fun r => (r.1, r.2.1, Event.called filepath s rc3 :: r.2.2))
            else some (fs', -1, [Event.called filepath s rc3])
        else if s.st_isdir then
          match walk fs filepath with
          | none => none
          | some (fs', rc3, log) =>
            if rc3 = 0 then
              (walk_entries_log walk fn dirpath fs' rest).map
                (fun r => (r.1, r.2.1, log ++ r.2.2))
            else some (fs', -1, log)
        else walk_entries_log walk fn dirpath fs rest
      | .error _ => some (fs, -1, [Event.stat_failed filepath])

/-- The function `walk_tree` of scandir.c as in `walk_tree`, with the record of its events. -/
def walk_tree_log (fn : FS → CStr → Stat → Option (FS × Int)) : Nat → FS → CStr →
    Option (FS × Int × List Event)
  | 0, _, _ => none
  | fuel + 1, fs, dirpath =>
    match sys_opendir fs dirpath with
    | .ok entries =>
      (walk_entries_log (walk_tree_log fn fuel) fn dirpath fs entries).map
        (fun r => (r.1, r.2.1, Event.opened dirpath :: r.2.2))
    | .error _ => some (fs, -1, [Event.opendir_failed dirpath])

/-- Whether an event is an error of the walk: a directory that does not open, a `stat` that
fails, or a call of the action that returns a value other than 0. -/
def Event.failed : Event → Bool
  | Event.opendir_failed _ => true
  | Event.opened _ => false
  | Event.stat_failed _ => true
  | Event.called _ _ rc => rc ≠ 0

/-- An action for `walk_tree` that looks at the path and the `stat` it is given and leaves
the file system as it is. -/
def observer (act : CStr → Stat → Int) : FS → CStr → Stat → Option (FS × Int) :=
  fun fs path stat => some (fs, act path stat)

/-- One round of the loop of the unit test `test_file_crush` of scandir.c, from
`write_zero_file` to `read_zero_file`: the value `rc4` that `read_zero_file` returns, and
`none` when one of the assertions of the test before it fails. -/
def test_file_crush_round (env : Env) (fs : FS) (filepath1 : CStr) (filesize : Int) :
    Option Int :=
  match write_zero_file env fs filepath1 filesize with
  | some (fs1, rc1) =>
    if rc1 = 0 then
      match sys_open fs1 filepath1 OpenFlags.O_RDWR with
      | .ok (fs2, fd) =>
        match file_crush env fd 3 fs2 with
        | some (fs3, rc2) =>
          if rc2 = 0 then
            match sys_close fs3 fd with
            | .ok fs4 => (read_zero_file fs4 filepath1 filesize).map (fun r => r.2)
            | .error _ => none
          else none
        | none => none
      | .error _ => none
    else none
  | none => none

/-- The clock of the unit test `test_make_backup_name`: 2020-03-23 15:59:21. -/
def test_localtime : Int → Option Tm := fun _ => some ⟨120, 2, 23, 15, 59, 21⟩

/-- The byte values 1, 2, ... in an uninitialised buffer of the examples. -/
def example_stack : Nat → Byte := fun i => (i % 250 + 1).toUInt8

/-- The environment of the examples: the clock of `test_make_backup_name`. -/
def example_env : Env :=
  ⟨some ⟨1584950361, 123⟩, test_localtime, example_stack, 0, fun _ n => some n, fun _ => false⟩

/-- A file system with the file /tmp/test_file_backup_update/abc of the unit test
`test_file_backup_update`, holding five bytes. -/
def update_fs : FS :=
  ⟨[(["tmp".toList], Node.dir),
    (["tmp".toList, "test_file_backup_update".toList], Node.dir),
    (["tmp".toList, "test_file_backup_update".toList, "abc".toList], Node.file [1, 2, 3, 4, 5])],
   [], []⟩

/-- The scenario of the specification: /data/x holds the file f and, in its backup
directory, a backup of f that was made on 2020-03-20 at 10:00:00, microsecond 1. -/
def delete_fs : FS :=
  ⟨[(["data".toList], Node.dir),
    (["data".toList, "x".toList], Node.dir),
    (["data".toList, "x".toList, "f".toList], Node.file [1, 2, 3, 4, 5]),
    (["data".toList, "x".toList, BKDIRNAME], Node.dir),
    (["data".toList, "x".toList, BKDIRNAME, "f.2020.03.20.1000.1".toList], Node.file [9, 9])],
   [], []⟩

/-- A clock that shows 2020-03-20 10:00:00, microsecond 1, once more. -/
def delete_env : Env :=
  ⟨some ⟨1584698400, 1⟩, fun _ => some ⟨120, 2, 20, 10, 0, 0⟩, example_stack, 0,
    fun _ n => some n, fun _ => false⟩

/-- A clock that shows 2020-03-23 15:59:21, microsecond 123. -/
def later_env : Env := example_env

/-- The file system of the unit test `test_file_backup_crush`: the file
/tmp/file_backup_crush/test111 and two backups of it in the backup directory, three zero
bytes each. -/
def crush_fs : FS :=
  ⟨[(["tmp".toList], Node.dir),
    (["tmp".toList, "file_backup_crush".toList], Node.dir),
    (["tmp".toList, "file_backup_crush".toList, BKDIRNAME], Node.dir),
    (["tmp".toList, "file_backup_crush".toList, "test111".toList], Node.file [0, 0, 0]),
    (["tmp".toList, "file_backup_crush".toList, BKDIRNAME,
      "test111.2020.03.24.153652.0".toList], Node.file [0, 0, 0]),
    (["tmp".toList, "file_backup_crush".toList, BKDIRNAME,
      "test111.2020.03.24.153733.0".toList], Node.file [0, 0, 0])],
   [], []⟩

/-- A file system in which the descriptor 3 is open for reading and writing on the file
/tmp/test_file_crush, which holds three zero bytes. -/
def crush_open_fs : FS :=
  ⟨[(["tmp".toList], Node.dir),
    (["tmp".toList, "test_file_crush".toList], Node.file [0, 0, 0])],
   [], [⟨3, ["tmp".toList, "test_file_crush".toList], 0, true⟩]⟩

/-- A file system in which /tmp/aaa, the path of the unit test `test_mkdirs`, is a regular
file; the working directory is /tmp. -/
def mkdirs_file_fs : FS :=
  ⟨[(["tmp".toList], Node.dir), (["tmp".toList, "aaa".toList], Node.file [1])],
   ["tmp".toList], []⟩

/-- A file system that holds the directory /tmp, the working directory, and nothing else. -/
def tmp_fs : FS := ⟨[(["tmp".toList], Node.dir)], ["tmp".toList], []⟩

/-- A directory /d that holds the file a, a file and a directory whose names begin with the
name of the backup directory and go on, and the directory sub with the file c. -/
def walk_fs : FS :=
  ⟨[(["d".toList], Node.dir),
    (["d".toList, "a".toList], Node.file [1]),
    (["d".toList, BKDIRNAME ++ ".old".toList], Node.file [2]),
    (["d".toList, BKDIRNAME ++ "2".toList], Node.dir),
    (["d".toList, BKDIRNAME ++ "2".toList, "b".toList], Node.file [3]),
    (["d".toList, "sub".toList], Node.dir),
    (["d".toList, "sub".toList, "c".toList], Node.file [4])],
   [], []⟩

/-- The file /tmp/test_copy_file.1 of the unit test `test_copy_file`, holding three bytes;
the working directory is /tmp. -/
def copy_fs : FS :=
  ⟨[(["tmp".toList], Node.dir),
    (["tmp".toList, "test_copy_file.1".toList], Node.file [7, 8, 9])],
   ["tmp".toList], []⟩

/-- An environment in which the buffers that are not initialised hold zeros. -/
def zero_env : Env :=
  ⟨some ⟨1584950361, 123⟩, test_localtime, fun _ => 0, 0, fun _ n => some n, fun _ => false⟩

/-- A `localtime` for two instants of 2020-03-23 in the time zone of the unit tests (eight
hours east of Greenwich): 01:23:04 and 12:03:04. -/
def two_times_localtime : Int → Option Tm := fun t =>
  if t = 1584897784 then some ⟨120, 2, 23, 1, 23, 4⟩
  else if t = 1584936184 then some ⟨120, 2, 23, 12, 3, 4⟩
  else none

/-- A directory /d with the files f and f2 and, in its backup directory, one backup of each,
made at 2020-03-23 15:59:21, microsecond 123. -/
def two_origins_fs : FS :=
  ⟨[(["d".toList], Node.dir),
    (["d".toList, "f".toList], Node.file [1]),
    (["d".toList, "f2".toList], Node.file [2]),
    (["d".toList, BKDIRNAME], Node.dir),
    (["d".toList, BKDIRNAME, "f.2020.03.23.155921.123".toList], Node.file [3]),
    (["d".toList, BKDIRNAME, "f2.2020.03.23.155921.123".toList], Node.file [4])],
   [], []⟩

/-- The file /tmp/a/old, and a regular file /tmp/f where a new path wants a directory. -/
def blocked_fs : FS :=
  ⟨[(["tmp".toList], Node.dir),
    (["tmp".toList, "a".toList], Node.dir),
    (["tmp".toList, "a".toList, "old".toList], Node.file [1, 2, 3]),
    (["tmp".toList, "f".toList], Node.file [9])],
   [], []⟩

/-- The directory /d of `two_origins_fs` after its two backups have been moved to names that
begin with c. -/
def two_origins_renamed_fs : FS :=
  ⟨[(["d".toList], Node.dir),
    (["d".toList, "f".toList], Node.file [1]),
    (["d".toList, "f2".toList], Node.file [2]),
    (["d".toList, BKDIRNAME], Node.dir),
    (["d".toList, BKDIRNAME, "c.2020.03.23.155921.123".toList], Node.file [3]),
    (["d".toList, BKDIRNAME, "c2.2020.03.23.155921.123".toList], Node.file [4])],
   [], []⟩

/-- A directory /d with the files f, f2 and g, a backup of f in the backup directory, and the
directory sub with the files f and h. -/
def sweep_fs : FS :=
  ⟨[(["d".toList], Node.dir),
    (["d".toList, "f".toList], Node.file [1]),
    (["d".toList, "f2".toList], Node.file [2]),
    (["d".toList, "g".toList], Node.file [3]),
    (["d".toList, BKDIRNAME], Node.dir),
    (["d".toList, BKDIRNAME, "f.2020.03.23.155921.123".toList], Node.file [4]),
    (["d".toList, "sub".toList], Node.dir),
    (["d".toList, "sub".toList, "f".toList], Node.file [5]),
    (["d".toList, "sub".toList, "h".toList], Node.file [6])],
   [], []⟩

/-- The directory /d of `sweep_fs` without the files f and f2 and without the file f of the
directory sub. -/
def sweep_result_fs : FS :=
  ⟨[(["d".toList], Node.dir),
    (["d".toList, "g".toList], Node.file [3]),
    (["d".toList, BKDIRNAME], Node.dir),
    (["d".toList, BKDIRNAME, "f.2020.03.23.155921.123".toList], Node.file [4]),
    (["d".toList, "sub".toList], Node.dir),
    (["d".toList, "sub".toList, "h".toList], Node.file [6])],
   [], []⟩

/-- An environment in which the buffers that are not initialised hold zeros and the system
takes one byte of every `write`. -/
def short_write_env : Env :=
  ⟨some ⟨1584950361, 123⟩, test_localtime, fun _ => 0, 0, fun _ _ => some 1, fun _ => false⟩

/-- An environment in which every `write` fails. -/
def failing_write_env : Env :=
  ⟨some ⟨1584950361, 123⟩, test_localtime, example_stack, 0, fun _ _ => none, fun _ => false⟩

/-- An environment in which the system refuses to remove any entry. -/
def no_remove_env : Env :=
  ⟨some ⟨1584950361, 123⟩, test_localtime, example_stack, 0, fun _ n => some n, fun _ => true⟩

/-- A file system in which the descriptor 3 is open for reading and writing on the file
/tmp/test_file_crush, which holds the bytes 7, 8, 9. -/
def nonzero_open_fs : FS :=
  ⟨[(["tmp".toList], Node.dir),
    (["tmp".toList, "test_file_crush".toList], Node.file [7, 8, 9])],
   [], [⟨3, ["tmp".toList, "test_file_crush".toList], 0, true⟩]⟩

/-- The directory /d with the file f, and in its backup directory a backup of f and a backup
of a file ff that were made at the same time. -/
def collide_fs : FS :=
  ⟨[(["d".toList], Node.dir),
    (["d".toList, "f".toList], Node.file [1]),
    (["d".toList, BKDIRNAME], Node.dir),
    (["d".toList, BKDIRNAME, "f.2020.03.23.155921.123".toList], Node.file [2]),
    (["d".toList, BKDIRNAME, "ff.2020.03.23.155921.123".toList], Node.file [3])],
   [], []⟩

/-- The directory /d with the file f and one backup of it. -/
def one_backup_fs : FS :=
  ⟨[(["d".toList], Node.dir),
    (["d".toList, "f".toList], Node.file [1]),
    (["d".toList, BKDIRNAME], Node.dir),
    (["d".toList, BKDIRNAME, "f.2020.03.23.155921.123".toList], Node.file [2])],
   [], []⟩

/-- The directory /d with a file whose name begins with the name of the backup directory,
and one backup of it. -/
def hidden_name_fs : FS :=
  ⟨[(["d".toList], Node.dir),
    (["d".toList, ".#__hide.youcantseeme__#f".toList], Node.file [1]),
    (["d".toList, BKDIRNAME], Node.dir),
    (["d".toList, BKDIRNAME, ".#__hide.youcantseeme__#f.2020.03.23.155921.123".toList],
      Node.file [2])],
   [], []⟩

/-- The directory /d with the file f, and in its backup directory a backup of f and the
directory sub with the file f.x. -/
def subdir_fs : FS :=
  ⟨[(["d".toList], Node.dir),
    (["d".toList, "f".toList], Node.file [1]),
    (["d".toList, BKDIRNAME], Node.dir),
    (["d".toList, BKDIRNAME, "sub".toList], Node.dir),
    (["d".toList, BKDIRNAME, "sub".toList, "f.x".toList], Node.file [7]),
    (["d".toList, BKDIRNAME, "f.2020.03.23.155921.123".toList], Node.file [2])],
   [], []⟩

/-! ## Notions used in the proofs -/

/-- The node the entry list gives for a key. -/
def lookupE (es : List (RPath × Node)) (k : RPath) : Option Node :=
  (es.find? (fun e => e.1 = k)).map (·.2)

/-- Every directory of `fs` is a directory of `fs'`, and the working directory is the
same. -/
def DirSub (fs fs' : FS) : Prop :=
  fs'.cwd = fs.cwd ∧ ∀ k, fs.lookup k = some Node.dir → fs'.lookup k = some Node.dir

/-- The state `fs'` has the entries of `fs` and new directories only. -/
def Ext (fs fs' : FS) : Prop :=
  fs'.cwd = fs.cwd ∧ (∀ k n, fs.lookup k = some n → fs'.lookup k = some n) ∧
    (∀ k data, fs'.lookup k = some (Node.file data) → fs.lookup k = some (Node.file data))

/-- Every proper prefix of the resolved path is a directory. -/
def DirsAbove (fs : FS) (c : RPath) : Prop :=
  ∀ k, k <+: c → k ≠ c → fs.lookup k = some Node.dir

/-- Whether the entry at a resolved path is a regular file. -/
def FS.isFile (fs : FS) (k : RPath) : Bool :=
  match fs.lookup k with
  | some (Node.file _) => true
  | _ => false

/-- The open descriptor with the number `fd`, if there is one. -/
def FS.fdInfo (fs : FS) (fd : Nat) : Option OpenFile := fs.fds.find? (fun o => o.fd = fd)

/-- The content of the regular file a descriptor is open on. -/
def fd_content (fs : FS) (fd : Nat) : Option (List Byte) :=
  match fs.fdInfo fd with
  | some o =>
    match fs.lookup o.file with
    | some (Node.file data) => some data
    | _ => none
  | none => none

/-- The `n` bytes that a loop leaves in a file when it writes a buffer of BLOCK_SIZE bytes
block after block from the start of the file: byte `i` is byte `i mod BLOCK_SIZE` of the
buffer. -/
def fill (buf : Nat → Byte) (n : Nat) : List Byte :=
  (List.range n).map (fun i => buf (i % BLOCK_SIZE))

/-- The content of a file after `write` has put the `n` bytes of `buf` at the offset `off`. -/
def written (data : List Byte) (off : Nat) (buf : Nat → Byte) (n : Nat) : List Byte :=
  (data ++ List.replicate (off - data.length) 0).take off ++ (List.range n).map buf
    ++ data.drop (off + n)

/-- The two states have the same working directory and the same entries. -/
def SameFiles (fs fs' : FS) : Prop :=
  fs'.cwd = fs.cwd ∧ ∀ k, fs'.lookup k = fs.lookup k

/-- The record of a walk that has returned `rc` has its first error, if any, at its end:
either `rc` is 0 and no event is an error, or `rc` is -1 and the last event is the only
one that is an error. -/
def FirstErrorLast (rc : Int) (log : List Event) : Prop :=
  (rc = 0 ∧ ∀ e ∈ log, e.failed = false) ∨
  (rc = -1 ∧ ∃ pre e, log = pre ++ [e] ∧ e.failed = true ∧ ∀ x ∈ pre, x.failed = false)

/-- The path string of a resolved path below a directory: a slash before every name. -/
def pathBelow (k : RPath) : CStr := (k.map (fun n => '/' :: n)).flatten

/-- Conditions under which the walk of `dirpath` with `fuel` levels of recursion comes to
an end: there is fuel, the path is absolute, the names of all entries are proper (not empty,
without a slash), every path the walk can form fits the buffers, and no entry lies deeper
than the fuel. -/
def WalkReady (fs : FS) (dirpath : CStr) (fuel : Nat) : Prop :=
  0 < fuel ∧ dirpath.head? = some '/' ∧
  ∀ x ∈ fs.entries, (∀ n ∈ x.1, n ≠ [] ∧ '/' ∉ n) ∧
    dirpath.length + (pathBelow x.1).length < MAX_PATH_LEN ∧ x.1.length < fuel

instance (fs : FS) (dirpath : CStr) (fuel : Nat) : Decidable (WalkReady fs dirpath fuel) := by
  unfold WalkReady
  infer_instance

/-- What `stat` reports of an entry. -/
def Node.stat : Node → Stat
  | Node.file data => ⟨true, false, data.length⟩
  | Node.dir => ⟨false, true, 0⟩

/-- The files below the directory `c` that the sweep of `file_backup_crush` for the file
name `ob` reaches in the file system `fs0`: the names `rel` lead from `c` through
directories whose names do not begin with the name of the backup directory to a regular
file whose name does not begin with it either and begins with `ob`. -/
def Swept (fs0 : FS) (ob : CStr) : RPath → List CStr → Prop
  | _, [] => False
  | c, [e] => ¬ BKDIRNAME <+: e ∧ fs0.isFile (c ++ [e]) = true ∧ ob <+: e
  | c, e :: e' :: rest =>
    ¬ BKDIRNAME <+: e ∧ fs0.lookup (c ++ [e]) = some Node.dir ∧
      Swept fs0 ob (c ++ [e]) (e' :: rest)

/-- What the sweep of `file_backup_crush` has done when it has destroyed the files `M` of
the state `fs0` it started from: they are gone, nothing else has changed. -/
def Crushed (fs0 fs : FS) (M : List RPath) : Prop :=
  fs.cwd = fs0.cwd ∧ (∀ k ∈ M, fs0.isFile k = true ∧ fs.lookup k = none) ∧
    ∀ k, k ∉ M → fs.lookup k = fs0.lookup k

/-- The conditions under which the sweep of `file_backup_crush` for `filepath` meets the
files of the file system at the paths it forms: the path is absolute and fits the buffers,
the names of all entries are proper (not empty, without a slash, not "." or ".."), every
path the walk can form fits the buffers, and every entry lies in a directory. -/
def CrushReady (fs : FS) (filepath : CStr) : Prop :=
  filepath.head? = some '/' ∧ filepath.length < MAX_PATH_LEN ∧
  ∀ x ∈ fs.entries, (∀ n ∈ x.1, n ≠ [] ∧ '/' ∉ n ∧ n ≠ ['.'] ∧ n ≠ ['.', '.']) ∧
    (dirname filepath).length + (pathBelow x.1).length < MAX_PATH_LEN ∧
    fs.lookup x.1.dropLast = some Node.dir

instance (fs : FS) (filepath : CStr) : Decidable (CrushReady fs filepath) := by
  unfold CrushReady
  infer_instance
/-! ## Notions used for the sweep of `file_backup_rename` -/

/-- The resolved path of a path that resolves (the root for one that does not). -/
def resolved (fs : FS) (p : CStr) : RPath :=
  match resolve fs p with
  | .ok c => c
  | .error _ => []

/-- The last name of a resolved path. -/
def lastName (k : RPath) : CStr := k.getLast?.getD []

/-- The entry `k` lies below the directory `c`, and `walk_tree`, started at `c`, skips no
name on the way to it: none is ".", ".." or begins with the name of the backup directory. -/
def Walked (c k : RPath) : Prop :=
  c <+: k ∧ k ≠ c ∧ ∀ n ∈ k.drop c.length, n ≠ ['.'] ∧ n ≠ ['.', '.'] ∧ ¬ BKDIRNAME <+: n

instance (c k : RPath) : Decidable (Walked c k) := by
  unfold Walked
  infer_instance

/-- The files that the sweep of `file_backup_rename` for the file name `ob` moves from below
the directory `c`: the regular files the walk reaches whose name begins with `ob`. -/
def Moved (fs : FS) (c : RPath) (ob : CStr) (k : RPath) : Prop :=
  fs.isFile k = true ∧ Walked c k ∧ ob <+: lastName k

instance (fs : FS) (c : RPath) (ob : CStr) (k : RPath) : Decidable (Moved fs c ob k) := by
  unfold Moved
  infer_instance

/-- Where the sweep moves the file `k`: into the backup directory of the directory `cND`,
under the new file name `nb` followed by what follows `ob` in the name of `k`. -/
def new_backup (cND : RPath) (ob nb : CStr) (k : RPath) : RPath :=
  cND ++ [BKDIRNAME, nb ++ (lastName k).drop ob.length]

/-- The conditions under which `file_backup_rename` moves the backups of `oldpath` to the
names `newpath` gives them, on the file system `fs` in which the directory of `newpath` has
been made. The two paths are absolute and resolve to different entries; the new path and the
paths of the two backup directories fit the buffers; the old file name does not begin with
the name of the backup directory; the directory of the new path is not the old backup
directory or below it. Every entry the walk of the old backup directory reaches has proper
names (not empty, without a slash) and a path that fits the buffers. Every file the sweep
moves has a new path that fits the buffers; its new place is not the old path, not a file
the sweep moves, and not the new place of another file the sweep moves. -/
def RenameReady (fs : FS) (oldpath newpath : CStr) : Prop :=
  oldpath.head? = some '/' ∧ newpath.head? = some '/' ∧ newpath.length < MAX_PATH_LEN ∧
  ¬ BKDIRNAME <+: basename oldpath ∧
  (dirname oldpath ++ '/' :: BKDIRNAME).length < MAX_PATH_LEN ∧
  (dirname newpath ++ '/' :: BKDIRNAME).length < MAX_PATH_LEN ∧
  resolved fs (dirname oldpath) ++ [basename oldpath] ≠
    resolved fs (dirname newpath) ++ [basename newpath] ∧
  ¬ (resolved fs (dirname oldpath) ++ [BKDIRNAME]) <+: resolved fs (dirname newpath) ∧
  ∀ x ∈ fs.entries, Walked (resolved fs (dirname oldpath) ++ [BKDIRNAME]) x.1 →
    (∀ n ∈ x.1.drop (resolved fs (dirname oldpath)).length, n ≠ [] ∧ '/' ∉ n) ∧
    (dirname oldpath).length + (pathBelow (x.1.drop (resolved fs (dirname oldpath)).length)).length
      < MAX_PATH_LEN ∧
    (Moved fs (resolved fs (dirname oldpath) ++ [BKDIRNAME]) (basename oldpath) x.1 →
      (dirname newpath ++ '/' :: BKDIRNAME ++ '/' :: basename newpath
        ++ (lastName x.1).drop (basename oldpath).length).length < MAX_PATH_LEN ∧
      new_backup (resolved fs (dirname newpath)) (basename oldpath) (basename newpath) x.1 ≠
        resolved fs (dirname oldpath) ++ [basename oldpath] ∧
      ∀ y ∈ fs.entries,
        Moved fs (resolved fs (dirname oldpath) ++ [BKDIRNAME]) (basename oldpath) y.1 →
        new_backup (resolved fs (dirname newpath)) (basename oldpath) (basename newpath) x.1
          ≠ y.1 ∧
        (lastName y.1 = lastName x.1 → y.1 = x.1))

instance (fs : FS) (oldpath newpath : CStr) : Decidable (RenameReady fs oldpath newpath) := by
  unfold RenameReady
  infer_instance

/-- What the sweep of `file_backup_rename` has done when it has moved the files `M` of the
state `fs3` it started from: each is at its new place with the content it had, and nothing
else has changed. -/
def SweepInv (fs3 fs : FS) (cOB cND : RPath) (ob nd nb : CStr) (M : List RPath) : Prop :=
  DirSub fs3 fs ∧ DirSub fs fs3 ∧
  (∀ k ∈ M, Moved fs3 cOB ob k ∧
    fs.lookup (new_backup cND ob nb k) = fs3.lookup k ∧ fs.lookup k = none ∧
    resolve fs (nd ++ '/' :: BKDIRNAME ++ '/' :: nb ++ (lastName k).drop ob.length) =
      .ok (new_backup cND ob nb k)) ∧
  (∀ key, (∀ k ∈ M, key ≠ new_backup cND ob nb k ∧ key ≠ k) → fs.lookup key = fs3.lookup key)

/-! ### Strings -/

theorem snprintf_of_lt {n : Nat} {s : CStr} (h : s.length < n) : snprintf n s = s := by
  unfold snprintf
  exact List.take_of_length_le (by omega)

theorem digitChar_ne_slash (d : Nat) : Nat.digitChar d ≠ '/' := by
  rcases Nat.lt_or_ge d 16 with h | h
  · interval_cases d <;> decide
  · have : Nat.digitChar d = '*' := by
      unfold Nat.digitChar
      repeat (rw [if_neg (by omega)])
    rw [this]; decide

theorem toDigitsCore_no_slash (b : Nat) : ∀ (fuel n : Nat) (acc : List Char),
    '/' ∉ acc → '/' ∉ Nat.toDigitsCore b fuel n acc := by
  intro fuel
  induction fuel with
  | zero => intro n acc h; simpa [Nat.toDigitsCore] using h
  | succ k ih =>
    intro n acc h
    unfold Nat.toDigitsCore
    have hd : '/' ∉ Nat.digitChar (n % b) :: acc := by
      simp only [List.mem_cons, not_or]
      exact ⟨fun e => digitChar_ne_slash _ e.symm, h⟩
    dsimp only
    split_ifs
    · exact hd
    · exact ih _ _ hd

theorem fmt_d_no_slash (i : Int) : '/' ∉ fmt_d i := by
  unfold fmt_d
  cases i with
  | ofNat m =>
    show '/' ∉ (Nat.repr m).toList
    unfold Nat.repr Nat.toDigits
    exact toDigitsCore_no_slash 10 _ _ [] (by simp)
  | negSucc m =>
    show '/' ∉ ("-" ++ Nat.repr (m + 1)).toList
    rw [String.toList, String.data_append]
    unfold Nat.repr Nat.toDigits
    simp only [List.mem_append, not_or]
    exact ⟨by decide, toDigitsCore_no_slash 10 _ _ [] (by simp)⟩

theorem fmt_02d_no_slash (i : Int) : '/' ∉ fmt_02d i := by
  unfold fmt_02d
  split_ifs
  · simp only [List.mem_cons, not_or]
    exact ⟨by decide, fmt_d_no_slash i⟩
  · exact fmt_d_no_slash i

theorem backup_suffix_no_slash (tm : Tm) (tv : Timeval) : '/' ∉ backup_suffix tm tv := by
  unfold backup_suffix
  simp only [List.mem_cons, List.mem_append, not_or, List.cons_append]
  have h1 := fmt_d_no_slash (to_int (1900 + tm.tm_year))
  have h2 := fmt_02d_no_slash (to_int (1 + tm.tm_mon))
  have h3 := fmt_d_no_slash (to_int tm.tm_mday)
  have h4 := fmt_d_no_slash (to_int tm.tm_hour)
  have h5 := fmt_d_no_slash (to_int tm.tm_min)
  have h6 := fmt_d_no_slash (to_int tm.tm_sec)
  have h7 := fmt_d_no_slash (to_int tv.tv_usec)
  have hd : ¬ ('/' = '.') := by decide
  simp [h1, h2, h3, h4, h5, h6, h7, hd]

theorem backup_suffix_ne_nil (tm : Tm) (tv : Timeval) : backup_suffix tm tv ≠ [] := by
  unfold backup_suffix
  simp

theorem stripSlashes_of_no_slash_end (p n : CStr) (hn : n ≠ []) (hs : '/' ∉ n) :
    stripSlashes (p ++ n) = p ++ n := by
  unfold stripSlashes
  rw [List.rdropWhile_eq_self_iff]
  intro hl
  have : (p ++ n).getLast hl = n.getLast hn := List.getLast_append_of_ne_nil hn
  rw [this]
  have hmem := List.getLast_mem hn
  intro hc
  simp only [beq_iff_eq] at hc
  exact hs (hc ▸ hmem)

theorem rtakeWhile_append_slash (p n : CStr) (hs : '/' ∉ n) :
    (p ++ '/' :: n).rtakeWhile (· != '/') = n := by
  unfold List.rtakeWhile
  rw [List.reverse_append, List.reverse_cons, List.append_assoc, List.singleton_append]
  rw [List.takeWhile_append_of_pos]
  · simp
  · intro a ha
    simp only [List.mem_reverse] at ha
    simp only [bne_iff_ne, ne_eq]
    intro e; exact hs (e ▸ ha)

/-- The basename of a path that ends in a slash-free, non-empty component. -/
theorem basename_append_slash (p n : CStr) (hn : n ≠ []) (hs : '/' ∉ n) :
    basename (p ++ '/' :: n) = n := by
  have hstrip : stripSlashes (p ++ '/' :: n) = p ++ '/' :: n := by
    have := stripSlashes_of_no_slash_end (p ++ ['/']) n hn hs
    simpa using this
  unfold basename
  rw [hstrip, rtakeWhile_append_slash p n hs]
  simp

theorem basename_of_no_slash (n : CStr) (hn : n ≠ []) (hs : '/' ∉ n) : basename n = n := by
  have hstrip : stripSlashes n = n := by
    simpa using stripSlashes_of_no_slash_end [] n hn hs
  unfold basename
  rw [hstrip]
  simp only [hn, if_false]
  rw [List.rtakeWhile_eq_self_iff]
  intro x hx
  simp only [bne_iff_ne, ne_eq]
  intro e; exact hs (e ▸ hx)

theorem basename_ne_nil (s : CStr) : basename s ≠ [] := by
  unfold basename
  split_ifs with h1 h2
  · simp
  · simp
  · intro h
    rw [List.rtakeWhile_eq_nil_iff] at h
    have := h h2
    have hl := List.rdropWhile_last_not (fun c : Char => c == '/') s h2
    apply this
    simp only [bne_iff_ne, ne_eq]
    intro e
    apply hl
    simp only [beq_iff_eq]
    exact e

theorem basename_no_slash (s : CStr) : basename s = ['/'] ∨ '/' ∉ basename s := by
  unfold basename
  split_ifs with h1 h2
  · right; decide
  · left; rfl
  · right
    intro h
    have := List.mem_rtakeWhile_imp h
    simp at this

theorem rdropWhile_append_rtakeWhile (p : Char → Bool) (l : CStr) :
    l.rdropWhile p ++ l.rtakeWhile p = l := by
  unfold List.rdropWhile List.rtakeWhile
  rw [← List.reverse_append, List.takeWhile_append_dropWhile, List.reverse_reverse]

/-- A path that does not end in a slash is slash-free, or ends in `/` followed by a
slash-free, non-empty component. -/
theorem last_component_split (s : CStr) (hs : s ≠ []) (hlast : s.getLast? ≠ some '/') :
    ∃ n, n ≠ [] ∧ '/' ∉ n ∧ (s = n ∨ ∃ u, s = u ++ '/' :: n) := by
  refine ⟨s.rtakeWhile (· != '/'), ?_, ?_, ?_⟩
  · intro h
    rw [List.rtakeWhile_eq_nil_iff] at h
    have := h hs
    apply hlast
    rw [List.getLast?_eq_getLast _ hs]
    simp only [bne_iff_ne, ne_eq, not_not] at this
    rw [this]
  · intro h
    have := List.mem_rtakeWhile_imp h
    simp at this
  · have hsplit := rdropWhile_append_rtakeWhile (· != '/') s
    by_cases hu : s.rdropWhile (· != '/') = []
    · left
      rw [hu] at hsplit
      simpa using hsplit.symm
    · right
      have hl := List.rdropWhile_last_not (fun c : Char => c != '/') s hu
      simp only [bne_iff_ne, ne_eq, not_not] at hl
      refine ⟨(s.rdropWhile (· != '/')).dropLast, ?_⟩
      have hd := List.dropLast_append_getLast hu
      rw [hl] at hd
      calc s = s.rdropWhile (· != '/') ++ s.rtakeWhile (· != '/') := hsplit.symm
        _ = ((s.rdropWhile (· != '/')).dropLast ++ ['/']) ++ s.rtakeWhile (· != '/') := by rw [hd]
        _ = _ := by simp

/-- Text appended to a path that does not end in a slash extends its basename. -/
theorem basename_append_of_no_slash (q s t : CStr) (hs : s ≠ [])
    (hlast : s.getLast? ≠ some '/') (ht : '/' ∉ t) :
    basename (q ++ '/' :: s ++ t) = basename s ++ t := by
  obtain ⟨n, hn, hns, h | ⟨u, h⟩⟩ := last_component_split s hs hlast
  · subst h
    rw [basename_of_no_slash s hn hns]
    have := basename_append_slash q (s ++ t) (by simp [hn]) (by simp [hns, ht])
    simpa using this
  · subst h
    rw [basename_append_slash u n hn hns]
    have := basename_append_slash (q ++ '/' :: u) (n ++ t) (by simp [hn]) (by simp [hns, ht])
    simpa using this

theorem dirname_head_of_absolute (s : CStr) (h : s.head? = some '/') :
    (dirname s).head? = some '/' := by
  have hne : s ≠ [] := by intro e; simp [e] at h
  have hpre : ∀ t : CStr, t <+: s → t ≠ [] → t.head? = some '/' := by
    intro t ht hne'
    obtain ⟨r, hr⟩ := ht
    cases t with
    | nil => exact absurd rfl hne'
    | cons a t' =>
      rw [← hr] at h
      simpa using h
  unfold dirname
  simp only [hne, if_false]
  split_ifs with h1 h2 h3 h4 h5
  · rfl
  · rfl
  · exfalso
    have hst : (stripSlashes s).head? = some '/' :=
      hpre _ (List.rdropWhile_prefix (fun c : Char => c == '/') s) h1
    rw [List.rdropWhile_eq_nil_iff] at h3
    cases hss : stripSlashes s with
    | nil => exact h1 hss
    | cons a t' =>
      rw [hss] at hst h3
      have := h3 a (List.mem_cons_self _ _)
      simp at hst this
      exact this hst
  · rfl
  · rfl
  · apply hpre _ _ h4
    exact (List.rdropWhile_prefix _ _).trans
      ((List.rdropWhile_prefix _ _).trans (List.rdropWhile_prefix _ _))

theorem make_backup_name_abs_eq (localtime : Int → Option Tm) (srcname : CStr)
    (tv : Timeval) (tm : Tm) (habs : srcname.head? = some '/')
    (hlen : srcname.length < MAX_PATH_LEN) (htm : localtime tv.tv_sec = some tm) :
    make_backup_name localtime srcname tv =
      some (dirname srcname ++ '/' :: BKDIRNAME ++ '/' :: basename srcname
        ++ backup_suffix tm tv) := by
  unfold make_backup_name
  rw [htm]
  simp only [habs, if_true, snprintf_of_lt hlen]

theorem make_backup_name_rel_eq (localtime : Int → Option Tm) (srcname : CStr)
    (tv : Timeval) (tm : Tm) (hrel : srcname.head? ≠ some '/')
    (htm : localtime tv.tv_sec = some tm) :
    make_backup_name localtime srcname tv =
      some (BKDIRNAME ++ '/' :: srcname ++ backup_suffix tm tv) := by
  unfold make_backup_name
  rw [htm]
  simp only [hrel, if_false]

/-- A name that extends a proper file name is a proper file name. -/
theorem append_not_special (ob suffix : CStr) (h1 : ob ≠ ['.']) (h2 : ob ≠ ['.', '.'])
    (h3 : ob ≠ ['/']) (h4 : ob ≠ []) :
    ¬ (ob ++ suffix = ['.'] ∨ ob ++ suffix = ['.', '.'] ∨ ob ++ suffix = ['/']) := by
  match ob, suffix with
  | [], _ => exact absurd rfl h4
  | [a], [] => simp_all
  | [a], [b] =>
    simp only [List.singleton_append, List.cons.injEq, and_true, reduceCtorEq, and_false,
      false_or, or_false, not_and]
    intro ha
    subst ha
    exact absurd rfl h1
  | [a], b :: c :: v => simp
  | [a, b], [] => simp_all
  | [a, b], c :: v => simp
  | a :: b :: c :: u, _ => simp

theorem path_split_of_absolute (cwd : Option CStr) (filepath : CStr)
    (habs : filepath.head? = some '/') (hlen : filepath.length < MAX_PATH_LEN) :
    path_split cwd filepath =
      if basename filepath = ['.'] ∨ basename filepath = ['.', '.'] ∨ basename filepath = ['/']
      then none else some (dirname filepath, basename filepath) := by
  unfold path_split
  simp only [habs, if_true, snprintf_of_lt hlen]

/-! ### Values of type `int`, and paths that do not fit the buffers -/

theorem to_int_of_inInt {i : Int} (h : InInt i) : to_int i = i := by
  unfold InInt at h
  unfold to_int
  omega

theorem snprintf_cut (pre post : CStr) (h : pre.length + 1 = MAX_PATH_LEN) :
    snprintf MAX_PATH_LEN (pre ++ post) = pre := by
  unfold snprintf
  exact List.take_left' (by omega)

theorem rdropWhile_append_slash (p n : CStr) (hs : '/' ∉ n) :
    (p ++ '/' :: n).rdropWhile (· != '/') = p ++ ['/'] := by
  have h := rdropWhile_append_rtakeWhile (· != '/') (p ++ '/' :: n)
  rw [rtakeWhile_append_slash p n hs] at h
  have h2 : (p ++ '/' :: n).rdropWhile (· != '/') ++ n = (p ++ ['/']) ++ n := by
    rw [h]
    simp
  exact List.append_cancel_right h2

/-- The dirname of a path that ends in a slash-free, non-empty component after a directory
part that does not end in a slash. -/
theorem dirname_append_slash (p n : CStr) (hp : p ≠ []) (hlast : p.getLast? ≠ some '/')
    (hn : n ≠ []) (hs : '/' ∉ n) : dirname (p ++ '/' :: n) = p := by
  have hstrip : stripSlashes (p ++ '/' :: n) = p ++ '/' :: n := by
    have := stripSlashes_of_no_slash_end (p ++ ['/']) n hn hs
    simpa using this
  have hp' : stripSlashes (p ++ ['/']) = p := by
    unfold stripSlashes
    rw [List.rdropWhile_concat_pos _ _ _ (by simp), List.rdropWhile_eq_self_iff]
    intro hl
    rw [List.getLast?_eq_getLast _ hl] at hlast
    simpa using hlast
  unfold dirname
  rw [hstrip]
  simp only [rdropWhile_append_slash p n hs, hp', hp, if_false]
  simp

/-- What `make_backup_name` writes for an absolute path, cut or not. -/
theorem make_backup_name_abs_cut (localtime : Int → Option Tm) (srcname : CStr)
    (tv : Timeval) (tm : Tm) (habs : srcname.head? = some '/')
    (htm : localtime tv.tv_sec = some tm) :
    make_backup_name localtime srcname tv =
      some (dirname (snprintf MAX_PATH_LEN srcname) ++ '/' :: BKDIRNAME
        ++ '/' :: basename (snprintf MAX_PATH_LEN srcname) ++ backup_suffix tm tv) := by
  unfold make_backup_name
  rw [htm]
  simp only [habs, if_true]

/-- What `make_backup_name` writes for a path of the root directory with a name that does
not fit the buffers: the name is cut to 4094 characters. -/
theorem make_backup_name_cut (localtime : Int → Option Tm) (x y : CStr) (tv : Timeval)
    (tm : Tm) (hx : '/' ∉ x) (hlen : x.length = 4094)
    (htm : localtime tv.tv_sec = some tm) :
    ∃ bakname, make_backup_name localtime ('/' :: (x ++ y)) tv = some bakname ∧
      basename bakname = x ++ backup_suffix tm tv := by
  have hcut : snprintf MAX_PATH_LEN ('/' :: (x ++ y)) = '/' :: x :=
    snprintf_cut ('/' :: x) y (by simp [hlen, MAX_PATH_LEN])
  have hne : x ≠ [] := by
    intro e
    rw [e] at hlen
    simp at hlen
  refine ⟨_, make_backup_name_abs_cut localtime _ tv tm rfl htm, ?_⟩
  rw [hcut]
  have := basename_append_slash (dirname ('/' :: x) ++ '/' :: BKDIRNAME)
    (basename ('/' :: x) ++ backup_suffix tm tv) (by simp [basename_ne_nil])
    (by
      have hb : basename ('/' :: x) = x := basename_append_slash [] x hne hx
      rw [hb]
      simp [hx, backup_suffix_no_slash])
  have hb : basename ('/' :: x) = x := basename_append_slash [] x hne hx
  rw [hb] at this ⊢
  simpa using this

/-- The split of a path whose first 4095 characters end in the component ".". -/
theorem path_split_cut_dot (cwd : Option CStr) (x y : CStr) (hlen : x.length = 4092) :
    path_split cwd ('/' :: (x ++ '/' :: '.' :: y)) = none := by
  have hcut : snprintf MAX_PATH_LEN ('/' :: (x ++ '/' :: '.' :: y)) = ('/' :: x) ++ ['/', '.'] := by
    have := snprintf_cut (('/' :: x) ++ ['/', '.']) y (by simp [hlen, MAX_PATH_LEN])
    simpa using this
  have hb : basename (('/' :: x) ++ ['/', '.']) = ['.'] :=
    basename_append_slash ('/' :: x) ['.'] (by simp) (by decide)
  unfold path_split
  simp only [List.head?_cons, if_true, hcut, hb]
  simp

/-- What `set_rename_path` writes when the backup path does not fit the buffers: for an old
path /x/g with 4081 characters in x, the backup path is cut inside the name of the backup
directory. -/
theorem set_rename_path_cut (cwd : Option CStr) (x suffix : CStr) (hx : '/' ∉ x)
    (hlen : x.length = 4081) :
    dirname ('/' :: (x ++ "/g".toList)) = '/' :: x ∧
    basename ('/' :: (x ++ "/g".toList)) = "g".toList ∧
    path_split cwd ('/' :: (x ++ "/g".toList)) = some ('/' :: x, "g".toList) ∧
    set_rename_path cwd ('/' :: (x ++ "/g".toList)) "/n/g".toList
        (('/' :: x) ++ '/' :: BKDIRNAME ++ '/' :: "g".toList ++ suffix) =
      some "/n/.#__hide.youcantseeme__#/g#__hide.you".toList := by
  have hne : x ≠ [] := by
    intro e
    rw [e] at hlen
    simp at hlen
  have hold : '/' :: (x ++ "/g".toList) = ('/' :: x) ++ '/' :: ['g'] := by simp
  have hlast : ('/' :: x).getLast? ≠ some '/' := by
    rw [List.getLast?_eq_getLast _ (by simp), List.getLast_cons hne]
    intro e
    simp only [Option.some.injEq] at e
    exact hx (e ▸ List.getLast_mem hne)
  have hd : dirname ('/' :: (x ++ "/g".toList)) = '/' :: x := by
    rw [hold]
    exact dirname_append_slash ('/' :: x) ['g'] (by simp) hlast (by simp) (by decide)
  have hb : basename ('/' :: (x ++ "/g".toList)) = ['g'] := by
    rw [hold]
    exact basename_append_slash ('/' :: x) ['g'] (by simp) (by decide)
  have hos : path_split cwd ('/' :: (x ++ "/g".toList)) = some ('/' :: x, ['g']) := by
    rw [path_split_of_absolute cwd ('/' :: (x ++ "/g".toList)) rfl
      (by simp [hlen, MAX_PATH_LEN]), hb, hd]
    simp
  have hns : path_split cwd "/n/g".toList = some ("/n".toList, ['g']) := by
    rw [path_split_of_absolute cwd _ (by decide) (by decide)]
    decide
  -- the backup path, cut after 4095 characters
  have hbak : ('/' :: x) ++ '/' :: BKDIRNAME ++ '/' :: "g".toList ++ suffix =
      (('/' :: x) ++ '/' :: ".#__hide.you".toList) ++
        ("cantseeme__#".toList ++ '/' :: 'g' :: suffix) := by
    have : BKDIRNAME = ".#__hide.you".toList ++ "cantseeme__#".toList := by decide
    rw [this]
    simp
  have hcut := snprintf_cut (('/' :: x) ++ '/' :: ".#__hide.you".toList)
    ("cantseeme__#".toList ++ '/' :: 'g' :: suffix) (by simp [hlen, MAX_PATH_LEN])
  have hbb : basename (('/' :: x) ++ '/' :: ".#__hide.you".toList) = ".#__hide.you".toList :=
    basename_append_slash ('/' :: x) _ (by decide) (by decide)
  have hbs : path_split cwd (('/' :: x) ++ '/' :: BKDIRNAME ++ '/' :: "g".toList ++ suffix) =
      some (dirname (('/' :: x) ++ '/' :: ".#__hide.you".toList), ".#__hide.you".toList) := by
    rw [hbak]
    unfold path_split
    simp only [List.cons_append, List.head?_cons, if_true]
    simp only [List.cons_append] at hcut hbb
    rw [hcut, hbb]
    rw [if_neg (by decide)]
  refine ⟨hd, hb, hos, ?_⟩
  unfold set_rename_path
  rw [hos, hns, hbs]
  simp only []
  decide

/-! ### Names of a path -/

theorem splitSlash_ne_nil (s : CStr) : splitSlash s ≠ [] := by
  cases s with
  | nil => simp [splitSlash]
  | cons c cs =>
    unfold splitSlash
    split_ifs
    · simp
    · split <;> simp

theorem splitSlash_append_slash (a b : CStr) :
    splitSlash (a ++ '/' :: b) = splitSlash a ++ splitSlash b := by
  induction a with
  | nil => simp [splitSlash]
  | cons c a ih =>
    rw [List.cons_append]
    by_cases hc : c = '/'
    · simp [splitSlash, hc, ih]
    · cases hs : splitSlash a with
      | nil => exact absurd hs (splitSlash_ne_nil a)
      | cons h t =>
        rw [splitSlash, if_neg hc, ih, hs, splitSlash, if_neg hc, hs]
        simp

theorem splitSlash_of_no_slash (n : CStr) (hs : '/' ∉ n) : splitSlash n = [n] := by
  induction n with
  | nil => rfl
  | cons c n ih =>
    simp only [List.mem_cons, not_or] at hs
    have hc : c ≠ '/' := fun e => hs.1 e.symm
    rw [splitSlash, if_neg hc, ih hs.2]

theorem names_append_slash (a b : CStr) : names (a ++ '/' :: b) = names a ++ names b := by
  unfold names
  rw [splitSlash_append_slash, List.filter_append]

theorem names_of_no_slash (n : CStr) (hn : n ≠ []) (hs : '/' ∉ n) : names n = [n] := by
  unfold names
  rw [splitSlash_of_no_slash n hs]
  simp [hn]

theorem names_nil : names [] = [] := by
  simp [names, splitSlash]

theorem names_slash_cons (b : CStr) : names ('/' :: b) = names b := by
  have := names_append_slash [] b
  simpa [names_nil] using this

theorem names_of_slashes (z : CStr) (hz : ∀ c ∈ z, c = '/') : names z = [] := by
  induction z with
  | nil => exact names_nil
  | cons c z ih =>
    have hc : c = '/' := hz c (List.mem_cons_self _ _)
    subst hc
    rw [names_slash_cons]
    exact ih (fun c hc => hz c (List.mem_cons_of_mem _ hc))

theorem names_append_slashes (y z : CStr) (hz : ∀ c ∈ z, c = '/') : names (y ++ z) = names y := by
  cases z with
  | nil => simp
  | cons c z =>
    have hc : c = '/' := hz c (List.mem_cons_self _ _)
    subst hc
    rw [names_append_slash, names_of_slashes z (fun c hc => hz c (List.mem_cons_of_mem _ hc))]
    simp

theorem names_stripSlashes (x : CStr) : names (stripSlashes x) = names x := by
  have h := rdropWhile_append_rtakeWhile (· == '/') x
  have hz : ∀ c ∈ x.rtakeWhile (· == '/'), c = '/' := by
    intro c hc
    have := List.mem_rtakeWhile_imp hc
    simpa using this
  conv_rhs => rw [← h]
  rw [names_append_slashes _ _ hz]
  rfl

/-- The names of a path that has one: those before the last name, and the basename. -/
theorem names_eq_append_basename (s : CStr) (h : stripSlashes s ≠ []) :
    names s = names ((stripSlashes s).rdropWhile (· != '/')) ++ [basename s] := by
  have hs : s ≠ [] := by
    intro e; apply h; rw [e]; rfl
  have hb : basename s = (stripSlashes s).rtakeWhile (· != '/') := by
    unfold basename
    simp [hs, h]
  have hbn : basename s ≠ [] := basename_ne_nil s
  have hbs : '/' ∉ basename s := by
    rw [hb]
    intro hm
    have := List.mem_rtakeWhile_imp hm
    simp at this
  have hsplit := rdropWhile_append_rtakeWhile (· != '/') (stripSlashes s)
  rw [← hb] at hsplit
  rw [← names_stripSlashes s]
  by_cases hu : (stripSlashes s).rdropWhile (· != '/') = []
  · rw [hu] at hsplit ⊢
    simp only [List.nil_append] at hsplit
    rw [← hsplit, names_of_no_slash _ hbn hbs, names_nil]
    rfl
  · have hl := List.rdropWhile_last_not (fun c : Char => c != '/') (stripSlashes s) hu
    simp only [bne_iff_ne, ne_eq, not_not] at hl
    have hd := List.dropLast_append_getLast hu
    rw [hl] at hd
    have e1 : stripSlashes s =
        ((stripSlashes s).rdropWhile (· != '/')).dropLast ++ '/' :: basename s := by
      conv_lhs => rw [← hsplit, ← hd]
      simp
    have e2 : names ((stripSlashes s).rdropWhile (· != '/')) =
        names ((stripSlashes s).rdropWhile (· != '/')).dropLast := by
      conv_lhs => rw [← hd]
      have := names_append_slash ((stripSlashes s).rdropWhile (· != '/')).dropLast []
      simpa [names_nil] using this
    rw [e2]
    conv_lhs => rw [e1]
    rw [names_append_slash, names_of_no_slash _ hbn hbs]

theorem names_getLast (s : CStr) (h : names s ≠ []) :
    (names s).getLast? = some (basename s) := by
  by_cases hst : stripSlashes s = []
  · exfalso
    apply h
    rw [← names_stripSlashes, hst]
    exact names_nil
  · rw [names_eq_append_basename s hst]
    simp

/-- The names of an absolute path that has one: the names of its dirname, and its
basename. -/
theorem names_eq_dirname_basename (s : CStr) (habs : s.head? = some '/')
    (h : stripSlashes s ≠ []) : names s = names (dirname s) ++ [basename s] := by
  rw [names_eq_append_basename s h]
  congr 1
  have hs : s ≠ [] := by
    intro e; apply h; rw [e]; rfl
  have hu : (stripSlashes s).rdropWhile (· != '/') ≠ [] := by
    intro hu
    rw [List.rdropWhile_eq_nil_iff] at hu
    have hpre : stripSlashes s <+: s := List.rdropWhile_prefix _ _
    cases hss : stripSlashes s with
    | nil => exact h hss
    | cons a t =>
      rw [hss] at hu hpre
      have ha := hu a (List.mem_cons_self _ _)
      obtain ⟨r, hr⟩ := hpre
      rw [← hr] at habs
      simp at habs ha
      exact ha habs
  unfold dirname
  simp only [hs, h, hu, if_false]
  split_ifs with h1 h2
  · rw [← names_stripSlashes, h1]
    simp [names_nil]
    decide
  · rw [← names_stripSlashes, h1]
    simp [names_nil]
    decide
  · exact (names_stripSlashes _).symm

/-! ### Lookup in the entry list -/

theorem lookup_eq (fs : FS) (k : RPath) :
    fs.lookup k = if k = [] then some Node.dir else lookupE fs.entries k := rfl

theorem lookupE_nil (k : RPath) : lookupE [] k = none := rfl

theorem lookupE_cons (e : RPath × Node) (es : List (RPath × Node)) (k : RPath) :
    lookupE (e :: es) k = if e.1 = k then some e.2 else lookupE es k := by
  unfold lookupE
  rw [List.find?_cons]
  by_cases h : e.1 = k <;> simp [h]

theorem lookupE_append (es es' : List (RPath × Node)) (k : RPath) :
    lookupE (es ++ es') k = (lookupE es k).orElse (fun _ => lookupE es' k) := by
  induction es with
  | nil => simp [lookupE_nil]
  | cons e es ih =>
    rw [List.cons_append, lookupE_cons, lookupE_cons, ih]
    split_ifs <;> simp

theorem lookupE_filter_ne (es : List (RPath × Node)) (c k : RPath) :
    lookupE (es.filter (fun e => e.1 ≠ c)) k = if k = c then none else lookupE es k := by
  induction es with
  | nil => simp [lookupE_nil]
  | cons e es ih =>
    by_cases hec : e.1 = c
    · rw [List.filter_cons_of_neg (by simpa using hec), ih, lookupE_cons]
      by_cases hk : k = c
      · simp [hk]
      · have : e.1 ≠ k := fun h => hk (h ▸ hec)
        simp [hk, this]
    · rw [List.filter_cons_of_pos (by simpa using hec), lookupE_cons, ih, lookupE_cons]
      by_cases hk : k = c
      · have : e.1 ≠ k := fun h => hec (h.trans hk)
        simp [hk, this, hec]
      · simp [hk]

/-- The entry list after a regular file is renamed from `co` to `cn`. -/
theorem lookupE_rename_file (es : List (RPath × Node)) (co cn k : RPath) (hne : co ≠ cn) :
    lookupE ((es.filter (fun e => e.1 ≠ cn)).map (fun e => if e.1 = co then (cn, e.2) else e)) k
      = if k = cn then lookupE es co else if k = co then none else lookupE es k := by
  have hne' : cn ≠ co := fun h => hne h.symm
  induction es with
  | nil => simp [lookupE_nil]
  | cons e es ih =>
    by_cases hec : e.1 = cn
    · rw [List.filter_cons_of_neg (by simpa using hec), ih, lookupE_cons, lookupE_cons]
      have h1 : e.1 ≠ co := fun h => hne (h.symm.trans hec)
      by_cases hk : k = cn
      · rw [if_pos hk, if_pos hk, if_neg h1]
      · have h2 : e.1 ≠ k := fun h => hk (h ▸ hec)
        rw [if_neg hk, if_neg hk, if_neg h2]
    · rw [List.filter_cons_of_pos (by simpa using hec), List.map_cons, lookupE_cons, ih,
        lookupE_cons, lookupE_cons]
      by_cases heo : e.1 = co
      · rw [if_pos heo, if_pos heo]
        dsimp only
        by_cases hk : k = cn
        · rw [if_pos hk, if_pos hk.symm, if_pos hk]
        · have h2 : cn ≠ k := fun h => hk h.symm
          rw [if_neg hk, if_neg hk, if_neg h2]
          by_cases hko : k = co
          · rw [if_pos hko, if_pos hko]
          · have h3 : e.1 ≠ k := fun h => hko (h.symm.trans heo)
            rw [if_neg hko, if_neg hko, if_neg h3]
      · rw [if_neg heo, if_neg heo]
        by_cases hk : k = cn
        · have h2 : e.1 ≠ k := fun h => hec (h.trans hk)
          rw [if_pos hk, if_pos hk, if_neg h2]
        · rw [if_neg hk, if_neg hk]
          by_cases hko : k = co
          · have h3 : e.1 ≠ k := fun h => heo (h.trans hko)
            rw [if_pos hko, if_pos hko, if_neg h3]
          · rw [if_neg hko, if_neg hko]

/-! ### States that keep the directories of another -/

theorem ext_refl (fs : FS) : Ext fs fs := ⟨rfl, fun _ _ h => h, fun _ _ h => h⟩

theorem ext_trans {a b c : FS} (h1 : Ext a b) (h2 : Ext b c) : Ext a c :=
  ⟨h2.1.trans h1.1, fun k n h => h2.2.1 k n (h1.2.1 k n h),
    fun k d h => h1.2.2 k d (h2.2.2 k d h)⟩

theorem ext_dirSub {a b : FS} (h : Ext a b) : DirSub a b := ⟨h.1, fun k hk => h.2.1 k _ hk⟩

theorem dirSub_refl (fs : FS) : DirSub fs fs := ⟨rfl, fun _ h => h⟩

theorem dirSub_trans {a b c : FS} (h1 : DirSub a b) (h2 : DirSub b c) : DirSub a c :=
  ⟨h2.1.trans h1.1, fun k h => h2.2 k (h1.2 k h)⟩

theorem step_ok_iff (fs : FS) (cur : RPath) (n : CStr) (c : RPath) :
    step fs cur n = .ok c ↔ fs.lookup cur = some Node.dir ∧
      c = (if n = ['.'] then cur else if n = ['.', '.'] then cur.dropLast else cur ++ [n]) := by
  unfold step
  cases h : fs.lookup cur with
  | none => simp
  | some node =>
    cases node with
    | file d => simp
    | dir =>
      simp only [true_and]
      split_ifs <;> simp [eq_comm]

theorem step_mono {fs fs' : FS} (h : DirSub fs fs') {cur : RPath} {n : CStr} {c : RPath}
    (hs : step fs cur n = .ok c) : step fs' cur n = .ok c := by
  rw [step_ok_iff] at hs ⊢
  exact ⟨h.2 _ hs.1, hs.2⟩

theorem walk_cons_ok (fs : FS) (cur : RPath) (n : CStr) (ns : List CStr) (c : RPath) :
    walk fs cur (n :: ns) = .ok c ↔ ∃ c1, step fs cur n = .ok c1 ∧ walk fs c1 ns = .ok c := by
  rw [walk]
  cases h : step fs cur n with
  | ok c1 => simp
  | error e => simp

theorem walk_mono {fs fs' : FS} (h : DirSub fs fs') : ∀ (ns : List CStr) (cur c : RPath),
    walk fs cur ns = .ok c → walk fs' cur ns = .ok c := by
  intro ns
  induction ns with
  | nil => intro cur c hw; simpa [walk] using hw
  | cons n ns ih =>
    intro cur c hw
    rw [walk_cons_ok] at hw ⊢
    obtain ⟨c1, h1, h2⟩ := hw
    exact ⟨c1, step_mono h h1, ih _ _ h2⟩

theorem walk_append_ok (fs : FS) : ∀ (a b : List CStr) (cur c : RPath),
    walk fs cur (a ++ b) = .ok c ↔ ∃ c1, walk fs cur a = .ok c1 ∧ walk fs c1 b = .ok c := by
  intro a
  induction a with
  | nil => intro b cur c; simp [walk]
  | cons n a ih =>
    intro b cur c
    rw [List.cons_append, walk_cons_ok]
    constructor
    · rintro ⟨c1, h1, h2⟩
      obtain ⟨c2, h3, h4⟩ := (ih b c1 c).1 h2
      exact ⟨c2, (walk_cons_ok _ _ _ _ _).2 ⟨c1, h1, h3⟩, h4⟩
    · rintro ⟨c2, h1, h2⟩
      obtain ⟨c1, h3, h4⟩ := (walk_cons_ok _ _ _ _ _).1 h1
      exact ⟨c1, h3, (ih b c1 c).2 ⟨c2, h4, h2⟩⟩

theorem namei_ok_iff (fs : FS) (p : CStr) (c : RPath) :
    namei fs p = .ok c ↔ p ≠ [] ∧ p.length < PATH_MAX ∧
      walk fs (if p.head? = some '/' then [] else fs.cwd) (names p) = .ok c := by
  unfold namei
  by_cases h1 : p = []
  · simp [h1]
  · by_cases h2 : PATH_MAX ≤ p.length
    · simp [h1, h2]
    · simp [h1, h2, Nat.lt_of_not_le h2]

theorem namei_mono {fs fs' : FS} (h : DirSub fs fs') {p : CStr} {c : RPath}
    (hn : namei fs p = .ok c) : namei fs' p = .ok c := by
  rw [namei_ok_iff] at hn ⊢
  refine ⟨hn.1, hn.2.1, ?_⟩
  rw [h.1]
  exact walk_mono h _ _ _ hn.2.2

theorem resolve_ok_iff (fs : FS) (p : CStr) (c : RPath) :
    resolve fs p = .ok c ↔ namei fs p = .ok c ∧
      (p.getLast? = some '/' → fs.lookup c = some Node.dir) := by
  unfold resolve
  cases h : namei fs p with
  | error e => simp
  | ok c1 =>
    simp only []
    by_cases h2 : p.getLast? = some '/' ∧ fs.lookup c1 ≠ some Node.dir
    · rw [if_pos h2]
      simp only [reduceCtorEq, Except.ok.injEq, false_iff, not_and]
      intro e
      subst e
      simp only [ne_eq] at h2
      intro h3
      exact h2.2 (h3 h2.1)
    · rw [if_neg h2]
      simp only [Except.ok.injEq]
      constructor
      · intro e
        subst e
        refine ⟨rfl, fun hl => ?_⟩
        by_contra hc
        exact h2 ⟨hl, hc⟩
      · exact fun e => e.1

theorem resolve_mono {fs fs' : FS} (h : DirSub fs fs') {p : CStr} {c : RPath}
    (hr : resolve fs p = .ok c) : resolve fs' p = .ok c := by
  rw [resolve_ok_iff] at hr ⊢
  exact ⟨namei_mono h hr.1, fun hl => h.2 _ (hr.2 hl)⟩

theorem file_content_eq_some (fs : FS) (p : CStr) (data : List Byte) :
    file_content fs p = some data ↔
      ∃ c, resolve fs p = .ok c ∧ fs.lookup c = some (Node.file data) := by
  unfold file_content
  cases h : resolve fs p with
  | error e => simp
  | ok c =>
    cases h2 : fs.lookup c with
    | none => simp [h2]
    | some node =>
      cases node with
      | dir => simp [h2]
      | file d => simp [h2]

theorem file_content_ext {fs fs' : FS} (h : Ext fs fs') {p : CStr} {data : List Byte}
    (hc : file_content fs p = some data) : file_content fs' p = some data := by
  rw [file_content_eq_some] at hc ⊢
  obtain ⟨c, h1, h2⟩ := hc
  exact ⟨c, resolve_mono (ext_dirSub h) h1, h.2.1 _ _ h2⟩

/-! ### mkdir and mkdirs only add directories -/

theorem sys_mkdir_ext {fs fs' : FS} {p : CStr} (h : sys_mkdir fs p = .ok fs') : Ext fs fs' := by
  unfold sys_mkdir at h
  cases hn : namei fs p with
  | error e => simp [hn] at h
  | ok c =>
    simp only [hn] at h
    cases hl : fs.lookup c with
    | some node => simp [hl] at h
    | none =>
      simp only [hl] at h
      split_ifs at h with hd
      simp only [Except.ok.injEq] at h
      subst h
      have hc : c ≠ [] := by
        intro e
        rw [e, lookup_eq] at hl
        simp at hl
      have hlE : lookupE fs.entries c = none := by
        rw [lookup_eq, if_neg hc] at hl
        exact hl
      refine ⟨rfl, fun k n hk => ?_, fun k d hk => ?_⟩
      · rw [lookup_eq] at hk ⊢
        by_cases hk0 : k = []
        · simpa [hk0] using hk
        · simp only [hk0, if_false, FS.setEntries] at hk ⊢
          rw [lookupE_append, hk]
          rfl
      · rw [lookup_eq] at hk ⊢
        by_cases hk0 : k = []
        · simp [hk0] at hk
        · simp only [hk0, if_false, FS.setEntries] at hk ⊢
          rw [lookupE_append] at hk
          cases hko : lookupE fs.entries k with
          | some x =>
            rw [hko] at hk
            simpa using hk
          | none =>
            rw [hko] at hk
            simp only [Option.orElse, lookupE_cons, lookupE_nil] at hk
            split_ifs at hk
            simp at hk

theorem mkdirs_loop_ext : ∀ (rest pre : CStr) (fs : FS), Ext fs (mkdirs_loop fs pre rest).1 := by
  intro rest
  induction rest with
  | nil => intro pre fs; exact ext_refl fs
  | cons c rest ih =>
    intro pre fs
    rw [mkdirs_loop]
    split_ifs with hc
    · cases hm : sys_mkdir fs pre with
      | ok fs' =>
        simp only []
        exact ext_trans (sys_mkdir_ext hm) (ih _ _)
      | error ec =>
        simp only []
        split_ifs
        · exact ih _ _
        · exact ext_refl fs
    · exact ih _ _

theorem mkdirs_ext (fs : FS) (dirpath : CStr) : Ext fs (mkdirs fs dirpath).1 := by
  unfold mkdirs
  split_ifs
  · exact mkdirs_loop_ext _ _ _
  · cases sys_getcwd fs with
    | none => exact ext_refl fs
    | some cur => exact mkdirs_loop_ext _ _ _

/-! ### Renaming a regular file -/

/-- What a successful `rename` of a regular file does. -/
theorem sys_rename_file {fs fs' : FS} {oldpath newpath : CStr} {co : RPath} {data : List Byte}
    (hr : resolve fs oldpath = .ok co) (hl : fs.lookup co = some (Node.file data))
    (h : sys_rename fs oldpath newpath = .ok fs') :
    ∃ cn, namei fs newpath = .ok cn ∧ newpath.getLast? ≠ some '/' ∧
      fs.lookup cn ≠ some Node.dir ∧ fs'.cwd = fs.cwd ∧ (co = cn → fs' = fs) ∧
      (co ≠ cn → ∀ k, fs'.lookup k =
        if k = cn then some (Node.file data) else if k = co then none else fs.lookup k) := by
  unfold sys_rename at h
  simp only [hr, hl] at h
  cases hn : namei fs newpath with
  | error e => simp [hn] at h
  | ok cn =>
    simp only [hn] at h
    split_ifs at h with h1 h2 h3 h4 h5
    · -- the same file
      simp only [Except.ok.injEq] at h
      subst h
      refine ⟨cn, rfl, h3, ?_, rfl, fun _ => rfl, fun hne => absurd h4 hne⟩
      rw [← h4, hl]
      simp
    · simp only [Except.ok.injEq] at h
      subst h
      have hco : co ≠ [] := fun e => h1 (Or.inr (Or.inr (Or.inl e)))
      have hcn : cn ≠ [] := fun e => h1 (Or.inr (Or.inr (Or.inr e)))
      refine ⟨cn, rfl, h3, h5, rfl, fun e => absurd e h4, fun _ k => ?_⟩
      rw [lookup_eq, lookup_eq]
      by_cases hk : k = []
      · have e1 : k ≠ cn := fun e => hcn (e ▸ hk)
        have e2 : k ≠ co := fun e => hco (e ▸ hk)
        simp [hk, e1, e2, hcn.symm, hco.symm]
      · simp only [hk, if_false, FS.setEntries]
        rw [lookupE_rename_file _ _ _ _ h4]
        rw [lookup_eq, if_neg hco] at hl
        rw [hl]

/-- A successful `rename` of a regular file keeps the directories. -/
theorem sys_rename_file_dirSub {fs fs' : FS} {oldpath newpath : CStr} {co : RPath}
    {data : List Byte} (hr : resolve fs oldpath = .ok co)
    (hl : fs.lookup co = some (Node.file data))
    (h : sys_rename fs oldpath newpath = .ok fs') : DirSub fs fs' ∧ DirSub fs' fs := by
  obtain ⟨cn, _, _, hnd, hcwd, hsame, hdiff⟩ := sys_rename_file hr hl h
  by_cases hc : co = cn
  · rw [hsame hc]
    exact ⟨dirSub_refl _, dirSub_refl _⟩
  · have hk := hdiff hc
    refine ⟨⟨hcwd, fun k hd => ?_⟩, ⟨hcwd.symm, fun k hd => ?_⟩⟩
    · rw [hk k]
      by_cases h1 : k = cn
      · exact absurd (h1 ▸ hd) hnd
      · by_cases h2 : k = co
        · rw [h2, hl] at hd
          simp at hd
        · simp [h1, h2, hd]
    · rw [hk k] at hd
      by_cases h1 : k = cn
      · simp [h1] at hd
      · by_cases h2 : k = co
        · simp [h1, h2] at hd
        · simpa [h1, h2] using hd

/-! ### Paths that resolve to a regular file -/

theorem dirsAbove_nil (fs : FS) : DirsAbove fs [] := by
  intro k hk hne
  exact absurd (List.prefix_nil.1 hk) hne

theorem lookup_nil (fs : FS) : fs.lookup [] = some Node.dir := rfl

theorem lookup_dropLast_of_dirsAbove {fs : FS} {c : RPath} (h : DirsAbove fs c) :
    fs.lookup c.dropLast = some Node.dir := by
  by_cases hc : c = []
  · rw [hc]; rfl
  · apply h _ (List.dropLast_prefix c)
    intro e
    have := congrArg List.length e
    rw [List.length_dropLast] at this
    have : 0 < c.length := List.length_pos.2 hc
    omega

theorem step_dirsAbove {fs : FS} {cur c : RPath} {n : CStr} (hd : DirsAbove fs cur)
    (hs : step fs cur n = .ok c) : DirsAbove fs c := by
  rw [step_ok_iff] at hs
  obtain ⟨hdir, hc⟩ := hs
  subst hc
  split_ifs
  · exact hd
  · intro k hk hne
    exact hd k (hk.trans (List.dropLast_prefix cur)) (by
      intro e
      rw [e] at hk
      have h1 := List.IsPrefix.length_le hk
      by_cases hc : cur = []
      · rw [hc] at hne e
        exact hne (by simpa using e)
      · have : (cur.dropLast).length = cur.length - 1 := List.length_dropLast _
        have : 0 < cur.length := List.length_pos.2 hc
        omega)
  · intro k hk hne
    rcases List.prefix_concat_iff.1 hk with h1 | h1
    · exact absurd h1 (by simpa using hne)
    · by_cases hkc : k = cur
      · rw [hkc]; exact hdir
      · exact hd k h1 hkc

theorem walk_dirsAbove {fs : FS} : ∀ (ns : List CStr) (cur c : RPath), DirsAbove fs cur →
    walk fs cur ns = .ok c → DirsAbove fs c := by
  intro ns
  induction ns with
  | nil =>
    intro cur c hd hw
    simp only [walk, Except.ok.injEq] at hw
    exact hw ▸ hd
  | cons n ns ih =>
    intro cur c hd hw
    rw [walk_cons_ok] at hw
    obtain ⟨c1, h1, h2⟩ := hw
    exact ih _ _ (step_dirsAbove hd h1) h2

/-- A walk from the root that ends at a regular file ends with a step to a proper name. -/
theorem walk_to_file {fs : FS} {ns : List CStr} {c : RPath} {data : List Byte}
    (hw : walk fs [] ns = .ok c) (hl : fs.lookup c = some (Node.file data)) :
    ∃ ns' last c', ns = ns' ++ [last] ∧ walk fs [] ns' = .ok c' ∧
      fs.lookup c' = some Node.dir ∧ last ≠ ['.'] ∧ last ≠ ['.', '.'] ∧ c = c' ++ [last] := by
  rcases List.eq_nil_or_concat ns with h | ⟨ns', last, h⟩
  · subst h
    simp only [walk, Except.ok.injEq] at hw
    rw [← hw, lookup_nil] at hl
    simp at hl
  · subst h
    rw [List.concat_eq_append, walk_append_ok] at hw
    obtain ⟨c', h1, h2⟩ := hw
    rw [walk_cons_ok] at h2
    obtain ⟨c2, h3, h4⟩ := h2
    simp only [walk, Except.ok.injEq] at h4
    subst h4
    have hda := walk_dirsAbove _ _ _ (dirsAbove_nil fs) h1
    rw [step_ok_iff] at h3
    obtain ⟨hdir, hc⟩ := h3
    refine ⟨ns', last, c', by simp, h1, hdir, ?_, ?_, ?_⟩
    · intro e
      rw [if_pos e] at hc
      rw [hc, hdir] at hl
      simp at hl
    · intro e
      by_cases e1 : last = ['.']
      · rw [e1] at e; simp at e
      · rw [if_neg e1, if_pos e] at hc
        rw [hc, lookup_dropLast_of_dirsAbove hda] at hl
        simp at hl
    · by_cases e1 : last = ['.']
      · rw [if_pos e1] at hc
        rw [hc, hdir] at hl
        simp at hl
      · by_cases e2 : last = ['.', '.']
        · rw [if_neg e1, if_pos e2] at hc
          rw [hc, lookup_dropLast_of_dirsAbove hda] at hl
          simp at hl
        · rw [if_neg e1, if_neg e2] at hc
          exact hc

/-- An absolute path that names a regular file: its length, and how it resolves. -/
theorem resolve_file_absolute {fs : FS} {p : CStr} {c : RPath} {data : List Byte}
    (habs : p.head? = some '/') (hr : resolve fs p = .ok c)
    (hl : fs.lookup c = some (Node.file data)) :
    p.length < MAX_PATH_LEN ∧ stripSlashes p ≠ [] ∧ basename p ≠ ['.'] ∧
      basename p ≠ ['.', '.'] ∧ '/' ∉ basename p ∧ p.getLast? ≠ some '/' ∧
      ∃ c', walk fs [] (names (dirname p)) = .ok c' ∧ fs.lookup c' = some Node.dir ∧
        c = c' ++ [basename p] := by
  rw [resolve_ok_iff, namei_ok_iff] at hr
  obtain ⟨⟨hne, hlen, hw⟩, hslash⟩ := hr
  rw [if_pos habs] at hw
  obtain ⟨ns', last, c', h1, h2, h3, h4, h5, h6⟩ := walk_to_file hw hl
  have hnn : names p ≠ [] := by rw [h1]; simp
  have hst : stripSlashes p ≠ [] := by
    intro e
    apply hnn
    rw [← names_stripSlashes, e]
    exact names_nil
  have hdb := names_eq_dirname_basename p habs hst
  rw [h1] at hdb
  have hinj := List.append_inj' hdb rfl
  have hlast : last = basename p := by simpa using hinj.2
  have hb : basename p = (stripSlashes p).rtakeWhile (· != '/') := by
    unfold basename
    simp [hne, hst]
  refine ⟨hlen, hst, hlast ▸ h4, hlast ▸ h5, ?_, ?_, c', ?_, h3, hlast ▸ h6⟩
  · rw [hb]
    intro hm
    have := List.mem_rtakeWhile_imp hm
    simp at this
  · intro e
    rw [hslash e] at hl
    simp at hl
  · rw [← hinj.1]
    exact h2

/-! ### Moving a file to its backup name -/

theorem backup_suffix_length (tm : Tm) (tv : Timeval) : 2 ≤ (backup_suffix tm tv).length := by
  unfold backup_suffix
  simp only [List.length_cons, List.length_append]
  omega

/-- A name with a backup suffix is not "." or "..". -/
theorem append_suffix_not_dot (b : CStr) (hb : b ≠ []) (tm : Tm) (tv : Timeval) :
    b ++ backup_suffix tm tv ≠ ['.'] ∧ b ++ backup_suffix tm tv ≠ ['.', '.'] := by
  have h1 := backup_suffix_length tm tv
  have h2 : 0 < b.length := List.length_pos.2 hb
  constructor <;> intro e <;> have := congrArg List.length e <;>
    simp only [List.length_append, List.length_cons, List.length_nil] at this <;> omega

/-- A step to a proper name in a directory. -/
theorem step_name {fs : FS} {cur : RPath} {n : CStr} (hd : fs.lookup cur = some Node.dir)
    (h1 : n ≠ ['.']) (h2 : n ≠ ['.', '.']) : step fs cur n = .ok (cur ++ [n]) := by
  rw [step_ok_iff]
  exact ⟨hd, by rw [if_neg h1, if_neg h2]⟩

/-- How a path `pre/n` with a slash-free, non-empty last name resolves. -/
theorem namei_append_name {fs : FS} {pre n : CStr} {c : RPath}
    (habs : pre.head? = some '/') (hn : n ≠ []) (hs : '/' ∉ n)
    (h : namei fs (pre ++ '/' :: n) = .ok c) :
    ∃ c1, walk fs [] (names pre) = .ok c1 ∧ step fs c1 n = .ok c := by
  rw [namei_ok_iff] at h
  obtain ⟨_, _, hw⟩ := h
  have hh : (pre ++ '/' :: n).head? = some '/' := by
    cases pre with
    | nil => rfl
    | cons a t => simpa using habs
  rw [if_pos hh, names_append_slash, names_of_no_slash n hn hs, walk_append_ok] at hw
  obtain ⟨c1, h1, h2⟩ := hw
  rw [walk_cons_ok] at h2
  obtain ⟨c2, h3, h4⟩ := h2
  simp only [walk, Except.ok.injEq] at h4
  exact ⟨c1, h1, h4 ▸ h3⟩

/-- What a successful `move_file` of a regular file does: the directories `mkdirs` makes
are added, then the file goes from its resolved path `co` to the resolved path `cn` of the
new path. -/
theorem move_file_ok {fs fs' : FS} {oldpath newpath : CStr} {co : RPath} {data : List Byte}
    (hr : resolve fs oldpath = .ok co) (hl : fs.lookup co = some (Node.file data))
    (h : move_file fs oldpath newpath = (fs', 0)) :
    ∃ fs1 cn, Ext fs fs1 ∧ DirSub fs1 fs' ∧ namei fs1 newpath = .ok cn ∧
      newpath.getLast? ≠ some '/' ∧ fs1.lookup co = some (Node.file data) ∧
      (co ≠ cn → ∀ k, fs'.lookup k =
        if k = cn then some (Node.file data) else if k = co then none else fs1.lookup k) := by
  unfold move_file at h
  have hext := mkdirs_ext fs (dirname newpath)
  cases hm : mkdirs fs (dirname newpath) with
  | mk fs1 rc1 =>
    rw [hm] at hext
    simp only [hm] at h
    split_ifs at h with hrc
    · cases hrn : sys_rename fs1 oldpath newpath with
      | error e => simp [hrn] at h
      | ok fs2 =>
        simp only [hrn, Prod.mk.injEq, and_true] at h
        subst h
        have hr1 := resolve_mono (ext_dirSub hext) hr
        have hl1 := hext.2.1 _ _ hl
        obtain ⟨cn, h1, h2, _, _, _, h6⟩ := sys_rename_file hr1 hl1 hrn
        exact ⟨fs1, cn, hext, (sys_rename_file_dirSub hr1 hl1 hrn).1, h1, h2, hl1, h6⟩
    · simp at h

/-- The effect of retiring the regular file at the absolute path `oldpath` to the backup
name made from it: used by `file_backup_update` and `file_backup_delete`. -/
theorem move_to_backup {fs fs' : FS} {oldpath : CStr} {data : List Byte} {tm : Tm}
    {tv : Timeval} (habs : oldpath.head? = some '/')
    (hfile : file_content fs oldpath = some data)
    (h : move_file fs oldpath (dirname oldpath ++ '/' :: BKDIRNAME ++ '/' :: basename oldpath
      ++ backup_suffix tm tv) = (fs', 0)) :
    oldpath.length < MAX_PATH_LEN ∧
    (dirname oldpath ++ '/' :: BKDIRNAME ++ '/' :: basename oldpath
      ++ backup_suffix tm tv).length < MAX_PATH_LEN ∧
    basename (dirname oldpath ++ '/' :: BKDIRNAME ++ '/' :: basename oldpath
      ++ backup_suffix tm tv) = basename oldpath ++ backup_suffix tm tv ∧
    sys_stat fs' oldpath = .error Errno.ENOENT ∧ file_content fs' oldpath = none ∧
    file_content fs' (dirname oldpath ++ '/' :: BKDIRNAME ++ '/' :: basename oldpath
      ++ backup_suffix tm tv) = some data ∧
    (∀ name qdata, '/' ∉ name → name ≠ basename oldpath ++ backup_suffix tm tv →
      file_content fs (dirname oldpath ++ '/' :: BKDIRNAME ++ '/' :: name) = some qdata →
      file_content fs' (dirname oldpath ++ '/' :: BKDIRNAME ++ '/' :: name) = some qdata) := by
  rw [file_content_eq_some] at hfile
  obtain ⟨co, hr, hl⟩ := hfile
  obtain ⟨hlen, hst, hb1, hb2, hbs, hns, c0, hw0, hd0, hco⟩ := resolve_file_absolute habs hr hl
  obtain ⟨fs1, cn, hext, hsub, hn, hnl, hl1, hlk⟩ := move_file_ok hr hl h
  have hbn : basename oldpath ≠ [] := basename_ne_nil _
  have hdabs : (dirname oldpath ++ '/' :: BKDIRNAME).head? = some '/' := by
    have := dirname_head_of_absolute oldpath habs
    cases hd : dirname oldpath with
    | nil => rw [hd] at this; simp at this
    | cons a t => rw [hd] at this; simpa using this
  have hsuf := backup_suffix_no_slash tm tv
  have hname : basename oldpath ++ backup_suffix tm tv ≠ [] := by simp [hbn]
  have hnames : '/' ∉ basename oldpath ++ backup_suffix tm tv := by simp [hbs, hsuf]
  have hnew : dirname oldpath ++ '/' :: BKDIRNAME ++ '/' :: basename oldpath
      ++ backup_suffix tm tv = (dirname oldpath ++ '/' :: BKDIRNAME) ++ '/' ::
        (basename oldpath ++ backup_suffix tm tv) := by simp
  rw [hnew] at hn hnl h ⊢
  have hblen := ((namei_ok_iff _ _ _).1 hn).2.1
  have hbase := basename_append_slash (dirname oldpath ++ '/' :: BKDIRNAME)
    (basename oldpath ++ backup_suffix tm tv) hname hnames
  -- the resolved path of the backup
  obtain ⟨cb, hwb, hsb⟩ := namei_append_name hdabs hname hnames hn
  rw [step_ok_iff] at hsb
  obtain ⟨hdb, hcn⟩ := hsb
  obtain ⟨hnd1, hnd2⟩ := append_suffix_not_dot _ hbn tm tv
  rw [if_neg hnd1, if_neg hnd2] at hcn
  -- the backup directory is below the directory of the file
  have hwb' : walk fs1 [] (names (dirname oldpath) ++ [BKDIRNAME]) = .ok cb := by
    have : names (dirname oldpath ++ '/' :: BKDIRNAME) = names (dirname oldpath) ++ [BKDIRNAME] := by
      rw [names_append_slash, names_of_no_slash BKDIRNAME (by decide) (by decide)]
    rw [← this]; exact hwb
  rw [walk_append_ok] at hwb'
  obtain ⟨c0', hw0', hstep⟩ := hwb'
  have hc0 : c0' = c0 := by
    have := walk_mono (ext_dirSub hext) _ _ _ hw0
    rw [hw0'] at this
    simpa using this
  subst hc0
  rw [walk_cons_ok] at hstep
  obtain ⟨c2, hs2, hw2⟩ := hstep
  simp only [walk, Except.ok.injEq] at hw2
  subst hw2
  rw [step_ok_iff] at hs2
  have hcb : c2 = c0' ++ [BKDIRNAME] := by
    have := hs2.2
    rw [if_neg (by decide), if_neg (by decide)] at this
    exact this
  have hne : co ≠ cn := by
    rw [hco, hcn, hcb]
    intro e
    have := congrArg List.length e
    simp at this
  have hlk' := hlk hne
  have hr' : resolve fs' oldpath = .ok co := resolve_mono hsub (resolve_mono (ext_dirSub hext) hr)
  have hco' : fs'.lookup co = none := by
    rw [hlk' co, if_neg hne, if_pos rfl]
  have hrb : resolve fs' ((dirname oldpath ++ '/' :: BKDIRNAME) ++ '/' ::
      (basename oldpath ++ backup_suffix tm tv)) = .ok cn := by
    apply resolve_mono hsub
    rw [resolve_ok_iff]
    exact ⟨hn, fun e => absurd e hnl⟩
  refine ⟨hlen, hblen, hbase, ?_, ?_, ?_, ?_⟩
  · unfold sys_stat
    rw [hr']
    simp only [hco']
  · unfold file_content
    rw [hr']
    simp only [hco']
  · rw [file_content_eq_some]
    exact ⟨cn, hrb, by rw [hlk' cn, if_pos rfl]⟩
  · intro name qdata hns' hnne hq
    rw [file_content_eq_some] at hq ⊢
    obtain ⟨cq, hrq, hlq⟩ := hq
    have hnn : name ≠ [] := by
      intro e
      rw [resolve_ok_iff] at hrq
      have hq' : (dirname oldpath ++ '/' :: BKDIRNAME ++ '/' :: name).getLast? = some '/' := by
        rw [e]
        have : dirname oldpath ++ '/' :: BKDIRNAME ++ ['/'] =
            (dirname oldpath ++ '/' :: BKDIRNAME) ++ ['/'] := by simp
        rw [this, List.getLast?_append]
        rfl
      have := hrq.2 hq'
      rw [this] at hlq
      simp at hlq
    have hq1 : resolve fs1 (dirname oldpath ++ '/' :: BKDIRNAME ++ '/' :: name) = .ok cq :=
      resolve_mono (ext_dirSub hext) hrq
    have hlq1 := hext.2.1 _ _ hlq
    have hqn := (resolve_ok_iff _ _ _).1 hq1
    obtain ⟨cq0, hwq, hsq⟩ := namei_append_name hdabs hnn hns' hqn.1
    rw [hwb] at hwq
    simp only [Except.ok.injEq] at hwq
    subst hwq
    rw [step_ok_iff] at hsq
    have hcq : cq = c2 ++ [name] := by
      have := hsq.2
      by_cases e1 : name = ['.']
      · rw [if_pos e1] at this
        rw [this, hsq.1] at hlq1
        simp at hlq1
      · by_cases e2 : name = ['.', '.']
        · rw [if_neg e1, if_pos e2] at this
          have hda : DirsAbove fs1 c2 := walk_dirsAbove _ _ _ (dirsAbove_nil fs1) hwb
          rw [this, lookup_dropLast_of_dirsAbove hda] at hlq1
          simp at hlq1
        · rw [if_neg e1, if_neg e2] at this
          exact this
    have hq_cn : cq ≠ cn := by
      rw [hcq, hcn]
      intro e
      have := List.append_inj' e rfl
      simp only [List.cons.injEq, and_true] at this
      exact hnne this.2
    have hq_co : cq ≠ co := by
      rw [hcq, hco, hcb]
      intro e
      have := congrArg List.length e
      simp at this
    refine ⟨cq, resolve_mono hsub hq1, ?_⟩
    rw [hlk' cq, if_neg hq_cn, if_neg hq_co]
    exact hlq1

/-! ### The entries `mkdirs` makes, and the names in a directory -/

theorem sys_mkdir_new {fs fs' : FS} {p : CStr} {k : RPath} (h : sys_mkdir fs p = .ok fs')
    (hk : fs.lookup k = none) (hk' : fs'.lookup k ≠ none) : namei fs p = .ok k := by
  unfold sys_mkdir at h
  cases hn : namei fs p with
  | error e => simp [hn] at h
  | ok c =>
    simp only [hn] at h
    cases hl : fs.lookup c with
    | some node => simp [hl] at h
    | none =>
      simp only [hl] at h
      split_ifs at h with hd
      simp only [Except.ok.injEq] at h
      subst h
      have hk0 : k ≠ [] := by
        intro e
        rw [e, lookup_nil] at hk
        simp at hk
      rw [lookup_eq, if_neg hk0] at hk hk'
      simp only [FS.setEntries] at hk'
      rw [lookupE_append, hk] at hk'
      simp only [Option.orElse, lookupE_cons, lookupE_nil] at hk'
      split_ifs at hk' with hc
      · rw [hc]
      · exact absurd rfl hk'

theorem lookupE_ne_none_iff (es : List (RPath × Node)) (k : RPath) :
    lookupE es k ≠ none ↔ ∃ x ∈ es, x.1 = k := by
  induction es with
  | nil =>
    constructor
    · intro h
      exact absurd (lookupE_nil k) h
    · rintro ⟨x, hx, _⟩
      cases hx
  | cons e es ih =>
    rw [lookupE_cons]
    by_cases h : e.1 = k
    · rw [if_pos h]
      exact ⟨fun _ => ⟨e, List.mem_cons_self _ _, h⟩, fun _ => Option.some_ne_none _⟩
    · rw [if_neg h, ih]
      constructor
      · rintro ⟨x, hx, hk⟩
        exact ⟨x, List.mem_cons_of_mem _ hx, hk⟩
      · rintro ⟨x, hx, hk⟩
        rcases List.mem_cons.1 hx with e1 | e1
        · exact absurd (e1 ▸ hk) h
        · exact ⟨x, e1, hk⟩

/-- The names a directory read returns are the last names of the entries in it. -/
theorem mem_children_iff (fs : FS) (d : RPath) (e : CStr) :
    e ∈ fs.children d ↔ fs.lookup (d ++ [e]) ≠ none := by
  have hne : d ++ [e] ≠ [] := by simp
  rw [lookup_eq, if_neg hne, lookupE_ne_none_iff]
  unfold FS.children
  rw [List.mem_filterMap]
  constructor
  · rintro ⟨x, hx, hf⟩
    refine ⟨x, hx, ?_⟩
    split_ifs at hf with hd
    have hxne : x.1 ≠ [] := by
      intro e0
      rw [e0] at hf
      simp at hf
    have := List.dropLast_append_getLast? e hf
    rw [← this, hd]
  · rintro ⟨x, hx, hk⟩
    refine ⟨x, hx, ?_⟩
    rw [hk]
    simp

/-! ### The sweep of `file_backup_rename` -/

theorem strncmp_eq_iff (a b : CStr) : strncmp_eq a b b.length = true ↔ b <+: a := by
  unfold strncmp_eq
  rw [beq_iff_eq, List.take_length, List.prefix_iff_eq_take]
  exact eq_comm

/-- An entry that `walk_tree` does not skip is not ".", not "..", and does not begin with
the name of the backup directory. -/
theorem not_skipped {e : CStr}
    (h : ¬ (strncmp_eq e ".".toList 2 = true ∨ strncmp_eq e "..".toList 3 = true ∨
      strncmp_eq e BKDIRNAME BKDIRNAME.length = true)) :
    e ≠ ['.'] ∧ e ≠ ['.', '.'] ∧ ¬ BKDIRNAME <+: e := by
  simp only [not_or] at h
  refine ⟨?_, ?_, ?_⟩
  · intro e1
    apply h.1
    rw [e1]
    decide
  · intro e1
    apply h.2.1
    rw [e1]
    decide
  · intro hp
    exact h.2.2 ((strncmp_eq_iff e BKDIRNAME).2 hp)

/-- How the path of an entry of a directory resolves. -/
theorem resolve_entry {fs : FS} {D e : CStr} {cD : RPath} (hD : resolve fs D = .ok cD)
    (hdir : fs.lookup cD = some Node.dir) (hDabs : D.head? = some '/')
    (he : e ≠ []) (hs : '/' ∉ e) (h1 : e ≠ ['.']) (h2 : e ≠ ['.', '.'])
    (hlen : (D ++ '/' :: e).length < MAX_PATH_LEN) :
    resolve fs (D ++ '/' :: e) = .ok (cD ++ [e]) := by
  rw [resolve_ok_iff, namei_ok_iff] at hD
  obtain ⟨⟨_, _, hw⟩, _⟩ := hD
  rw [if_pos hDabs] at hw
  have hh : (D ++ '/' :: e).head? = some '/' := by
    cases D with
    | nil => rfl
    | cons a t => simpa using hDabs
  rw [resolve_ok_iff, namei_ok_iff]
  refine ⟨⟨by simp, hlen, ?_⟩, ?_⟩
  · rw [if_pos hh, names_append_slash, names_of_no_slash e he hs, walk_append_ok]
    exact ⟨cD, hw, by rw [walk_cons_ok]; exact ⟨_, step_name hdir h1 h2, rfl⟩⟩
  · intro hl
    exfalso
    have : (D ++ '/' :: e).getLast? = e.getLast? := by
      have : D ++ '/' :: e = (D ++ ['/']) ++ e := by simp
      rw [this, List.getLast?_append]
      cases hg : e.getLast? with
      | none => exact absurd (List.getLast?_eq_none_iff.1 hg) he
      | some c => rfl
    rw [this] at hl
    exact hs (List.mem_of_getLast?_eq_some hl)

/-- What `file_backup_rename_cb` does on the path of a regular file of a directory. -/
theorem file_backup_rename_cb_entry (fs : FS) (ob nd nb D e : CStr) (st : Stat)
    (hreg : st.st_isreg = true) (hDabs : D.head? = some '/')
    (he : e ≠ []) (hs : '/' ∉ e) (h1 : e ≠ ['.']) (h2 : e ≠ ['.', '.'])
    (hlen : (D ++ '/' :: e).length < MAX_PATH_LEN) :
    file_backup_rename_cb ⟨ob, nd, nb⟩ fs (D ++ '/' :: e) st =
      if ob <+: e then
        match sys_rename fs (D ++ '/' :: e) (snprintf MAX_PATH_LEN
          (nd ++ '/' :: BKDIRNAME ++ '/' :: nb ++ e.drop ob.length)) with
        | .ok fs' => some (fs', 0)
        | .error _ => some (fs, -1)
      else some (fs, 0) := by
  have hh : (D ++ '/' :: e).head? = some '/' := by
    cases D with
    | nil => rfl
    | cons a t => simpa using hDabs
  have hb : basename (D ++ '/' :: e) = e := basename_append_slash D e he hs
  have hne : ¬ (e = ['.'] ∨ e = ['.', '.'] ∨ e = ['/']) := by
    simp only [not_or]
    refine ⟨h1, h2, ?_⟩
    intro e1
    apply hs
    rw [e1]
    simp
  unfold file_backup_rename_cb
  rw [if_pos hreg, path_split_of_absolute _ _ hh hlen, hb, if_neg hne]
  simp only []
  by_cases hm : ob <+: e
  · rw [if_pos hm, if_pos ((strncmp_eq_iff e ob).2 hm)]
  · rw [if_neg hm, if_neg (fun h => hm ((strncmp_eq_iff e ob).1 h))]

/-- Entries with a common prefix that get the same new name are the same. -/
theorem new_name_injective {ob nb e e' : CStr} (h : ob <+: e) (h' : ob <+: e')
    (heq : nb ++ e.drop ob.length = nb ++ e'.drop ob.length) : e = e' := by
  have hd := List.append_cancel_left heq
  rw [List.prefix_iff_eq_append] at h h'
  rw [← h, ← h', hd]

/-- An entry that `walk_tree` skips is ".", "..", or begins with the name of the backup
directory. -/
theorem skipped {e : CStr}
    (h : strncmp_eq e ".".toList 2 = true ∨ strncmp_eq e "..".toList 3 = true ∨
      strncmp_eq e BKDIRNAME BKDIRNAME.length = true) :
    e = ['.'] ∨ e = ['.', '.'] ∨ BKDIRNAME <+: e := by
  rcases h with h | h | h
  · left
    unfold strncmp_eq at h
    rw [beq_iff_eq] at h
    match e, h with
    | [], h => simp at h
    | [a], h => simpa using h
    | a :: b :: t, h => simp at h
  · right; left
    unfold strncmp_eq at h
    rw [beq_iff_eq] at h
    match e, h with
    | [], h => simp at h
    | [a], h => simp at h
    | [a, b], h => simpa using h
    | a :: b :: c :: t, h => simp at h
  · right; right
    exact (strncmp_eq_iff e BKDIRNAME).1 h

/-! ### The claims on backup names and path splitting -/

/-- C6, refuted as stated: the name of the path / followed by 5000 letters a does not fit
the MAX_PATH_LEN buffers `make_backup_name` copies the path to, and the backup path it
writes has a basename of 4094 letters a and the time, not the basename of the origin; and
for the microsecond count 2147483648, which the code casts to `int`, it writes
-2147483648. -/
theorem make_backup_name_absolute_counterexample :
    (∃ bakname, make_backup_name test_localtime ('/' :: List.replicate 5000 'a')
        ⟨1584950361, 123⟩ = some bakname ∧
      basename bakname = List.replicate 4094 'a' ++ ".2020.03.23.155921.123".toList ∧
      bakname ≠ dirname ('/' :: List.replicate 5000 'a') ++ "/".toList
        ++ ".#__hide.youcantseeme__#".toList ++ "/".toList
        ++ basename ('/' :: List.replicate 5000 'a') ++ ".2020.03.23.155921.123".toList) ∧
    make_backup_name test_localtime "/a".toList ⟨1584950361, 2147483648⟩ =
      some "//.#__hide.youcantseeme__#/a.2020.03.23.155921.-2147483648".toList := by
  refine ⟨?_, by decide⟩
  have hsplit : List.replicate 5000 'a' = List.replicate 4094 'a' ++ List.replicate 906 'a' :=
    List.replicate_add 4094 906 'a'
  have hs : ∀ n, '/' ∉ List.replicate n 'a' :=
    fun n h => absurd (List.eq_of_mem_replicate h) (by decide)
  have hsuf : backup_suffix ⟨120, 2, 23, 15, 59, 21⟩ ⟨1584950361, 123⟩ =
      ".2020.03.23.155921.123".toList := by decide
  obtain ⟨bakname, h1, h2⟩ := make_backup_name_cut test_localtime (List.replicate 4094 'a')
    (List.replicate 906 'a') ⟨1584950361, 123⟩ ⟨120, 2, 23, 15, 59, 21⟩ (hs _)
    (List.length_replicate _ _) rfl
  rw [← hsplit] at h1
  rw [hsuf] at h2
  refine ⟨bakname, h1, h2, ?_⟩
  intro e
  have hne : List.replicate 5000 'a' ≠ [] := by
    intro e0
    have := congrArg List.length e0
    rw [List.length_replicate] at this
    exact absurd this (by decide)
  have hb : basename ('/' :: List.replicate 5000 'a') = List.replicate 5000 'a' :=
    basename_append_slash [] _ hne (hs _)
  have h3 := basename_append_slash
    (dirname ('/' :: List.replicate 5000 'a') ++ '/' :: ".#__hide.youcantseeme__#".toList)
    (List.replicate 5000 'a' ++ ".2020.03.23.155921.123".toList)
    (by
      intro e0
      exact hne (List.append_eq_nil.1 e0).1)
    (by
      rw [List.mem_append, not_or]
      exact ⟨hs _, by decide⟩)
  rw [hb] at e
  have e' : bakname = dirname ('/' :: List.replicate 5000 'a')
      ++ '/' :: ".#__hide.youcantseeme__#".toList
      ++ '/' :: (List.replicate 5000 'a' ++ ".2020.03.23.155921.123".toList) := by
    rw [e]
    simp only [List.append_assoc, List.cons_append, List.nil_append, String.toList]
  rw [e', h3] at h2
  have := congrArg List.length h2
  rw [List.length_append, List.length_append, List.length_replicate,
    List.length_replicate] at this
  omega

/-- C6, amended: for an absolute origin path that fits the MAX_PATH_LEN buffers it is copied
to, with dirname `d` and basename `b`, and a broken-down local time and a microsecond
count whose printed values fit the C type `int`, `make_backup_name` returns 0 and writes
`d/.#__hide.youcantseeme__#/b.Y.MM.D.hms.u`: the month is padded to two digits, the other
numbers are plain decimals. -/
theorem make_backup_name_absolute (localtime : Int → Option Tm) (srcname : CStr)
    (tv : Timeval) (tm : Tm) (habs : srcname.head? = some '/')
    (hlen : srcname.length < MAX_PATH_LEN) (htm : localtime tv.tv_sec = some tm)
    (hint : InInt (1900 + tm.tm_year) ∧ InInt (1 + tm.tm_mon) ∧ InInt tm.tm_mday ∧
      InInt tm.tm_hour ∧ InInt tm.tm_min ∧ InInt tm.tm_sec ∧ InInt tv.tv_usec) :
    make_backup_name localtime srcname tv =
      some (dirname srcname ++ "/".toList ++ ".#__hide.youcantseeme__#".toList ++ "/".toList
        ++ basename srcname ++ ".".toList ++ fmt_d (1900 + tm.tm_year) ++ ".".toList
        ++ fmt_02d (1 + tm.tm_mon) ++ ".".toList ++ fmt_d tm.tm_mday ++ ".".toList
        ++ fmt_d tm.tm_hour ++ fmt_d tm.tm_min ++ fmt_d tm.tm_sec ++ ".".toList
        ++ fmt_d tv.tv_usec) := by
  obtain ⟨i1, i2, i3, i4, i5, i6, i7⟩ := hint
  unfold make_backup_name
  rw [htm]
  simp only [habs, if_true, snprintf_of_lt hlen, backup_suffix, BKDIRNAME,
    to_int_of_inInt i1, to_int_of_inInt i2, to_int_of_inInt i3, to_int_of_inInt i4,
    to_int_of_inInt i5, to_int_of_inInt i6, to_int_of_inInt i7]
  simp

/-- C6 amended, at the input of the unit test: /aaa/bbb/ccc/ddd/teeeeeest2 at 2020-03-23
15:59:21, 123 microseconds. -/
theorem make_backup_name_absolute_witness :
    make_backup_name test_localtime "/aaa/bbb/ccc/ddd/teeeeeest2".toList ⟨1584950361, 123⟩ =
      some "/aaa/bbb/ccc/ddd/.#__hide.youcantseeme__#/teeeeeest2.2020.03.23.155921.123".toList :=
  (make_backup_name_absolute test_localtime "/aaa/bbb/ccc/ddd/teeeeeest2".toList
    ⟨1584950361, 123⟩ ⟨120, 2, 23, 15, 59, 21⟩ (by decide) (by decide) rfl
    (by decide)).trans (by decide)

/-- C7, refuted as stated: for the relative origin path a/b the code keeps the directory
component, giving .#__hide.youcantseeme__#/a/b.2020.03.23.155921.123 and not the backup
directory followed directly by the basename b. -/
theorem make_backup_name_relative_counterexample :
    make_backup_name test_localtime "a/b".toList ⟨1584950361, 123⟩ =
      some ".#__hide.youcantseeme__#/a/b.2020.03.23.155921.123".toList ∧
    make_backup_name test_localtime "a/b".toList ⟨1584950361, 123⟩ ≠
      some (".#__hide.youcantseeme__#".toList ++ "/".toList ++ basename "a/b".toList
        ++ backup_suffix ⟨120, 2, 23, 15, 59, 21⟩ ⟨1584950361, 123⟩) := by
  decide

/-- C7, amended: for a relative origin path `make_backup_name` returns 0 and writes the backup
directory name, a slash, the origin path as given and the timestamp components; when the
origin path is a non-empty name without a slash this is the backup directory followed
directly by the origin's basename. -/
theorem make_backup_name_relative (localtime : Int → Option Tm) (srcname : CStr)
    (tv : Timeval) (tm : Tm) (hrel : srcname.head? ≠ some '/')
    (htm : localtime tv.tv_sec = some tm) :
    make_backup_name localtime srcname tv =
      some (".#__hide.youcantseeme__#".toList ++ "/".toList ++ srcname ++ backup_suffix tm tv) ∧
    (srcname ≠ [] → '/' ∉ srcname →
      make_backup_name localtime srcname tv =
        some (".#__hide.youcantseeme__#".toList ++ "/".toList ++ basename srcname
          ++ backup_suffix tm tv)) := by
  have h : make_backup_name localtime srcname tv =
      some (".#__hide.youcantseeme__#".toList ++ "/".toList ++ srcname ++ backup_suffix tm tv) := by
    unfold make_backup_name
    rw [htm]
    simp only [hrel, if_false, BKDIRNAME]
    simp
  refine ⟨h, fun hne hs => ?_⟩
  rw [basename_of_no_slash srcname hne hs]
  exact h

/-- C7 amended, at the input of the unit test: the relative name test2. -/
theorem make_backup_name_relative_witness :
    make_backup_name test_localtime "test2".toList ⟨1584950361, 123⟩ =
      some ".#__hide.youcantseeme__#/test2.2020.03.23.155921.123".toList :=
  (make_backup_name_relative test_localtime "test2".toList ⟨1584950361, 123⟩
    ⟨120, 2, 23, 15, 59, 21⟩ (by decide) rfl).1.trans (by decide)

/-- C8, refuted as stated: for the relative origin path a/ (basename a) the produced path is
.#__hide.youcantseeme__#/a/.2020.03.23.155921.123, whose basename .2020.03.23.155921.123
does not start with "a."; and for the path / followed by 5000 letters a, whose name does not
fit the MAX_PATH_LEN buffers, the basename of the produced path has 4094 letters a and does
not start with the basename of the origin. -/
theorem make_backup_name_prefix_counterexample :
    basename "a/".toList = "a".toList ∧
    make_backup_name test_localtime "a/".toList ⟨1584950361, 123⟩ =
      some ".#__hide.youcantseeme__#/a/.2020.03.23.155921.123".toList ∧
    ¬ (basename "a/".toList ++ ".".toList) <+:
      basename ".#__hide.youcantseeme__#/a/.2020.03.23.155921.123".toList ∧
    ∃ bakname, make_backup_name test_localtime ('/' :: List.replicate 5000 'a')
        ⟨1584950361, 123⟩ = some bakname ∧
      ¬ (basename ('/' :: List.replicate 5000 'a') ++ ".".toList) <+: basename bakname := by
  refine ⟨by decide, by decide, by decide, ?_⟩
  have hsplit : List.replicate 5000 'a' = List.replicate 4094 'a' ++ List.replicate 906 'a' :=
    List.replicate_add 4094 906 'a'
  have hs : ∀ n, '/' ∉ List.replicate n 'a' :=
    fun n h => absurd (List.eq_of_mem_replicate h) (by decide)
  obtain ⟨bakname, h1, h2⟩ := make_backup_name_cut test_localtime (List.replicate 4094 'a')
    (List.replicate 906 'a') ⟨1584950361, 123⟩ ⟨120, 2, 23, 15, 59, 21⟩ (hs _)
    (List.length_replicate _ _) rfl
  rw [← hsplit] at h1
  refine ⟨bakname, h1, ?_⟩
  intro hp
  have hne : List.replicate 5000 'a' ≠ [] := by
    intro e0
    have := congrArg List.length e0
    rw [List.length_replicate] at this
    exact absurd this (by decide)
  have hb : basename ('/' :: List.replicate 5000 'a') = List.replicate 5000 'a' :=
    basename_append_slash [] _ hne (hs _)
  have hl := hp.length_le
  have hsl : (backup_suffix ⟨120, 2, 23, 15, 59, 21⟩ ⟨1584950361, 123⟩).length = 22 := by
    decide
  rw [hb, h2, List.length_append, List.length_append, List.length_replicate,
    List.length_replicate, hsl] at hl
  simp at hl

/-- C8, amended: for an origin path that is absolute (short enough for the MAX_PATH_LEN
buffers) with a basename other than "/", or relative, non-empty and not ending in a slash,
`make_backup_name` returns 0 and the basename of the path it writes starts with the origin's
basename followed by a dot. -/
theorem make_backup_name_prefix (localtime : Int → Option Tm) (srcname : CStr)
    (tv : Timeval) (tm : Tm) (htm : localtime tv.tv_sec = some tm)
    (hsrc : (srcname.head? = some '/' ∧ srcname.length < MAX_PATH_LEN ∧
        basename srcname ≠ "/".toList) ∨
      (srcname.head? ≠ some '/' ∧ srcname ≠ [] ∧ srcname.getLast? ≠ some '/')) :
    ∃ bakname, make_backup_name localtime srcname tv = some bakname ∧
      (basename srcname ++ ".".toList) <+: basename bakname := by
  have hsuf := backup_suffix_no_slash tm tv
  have hdot : ∃ r, backup_suffix tm tv = '.' :: r := ⟨_, rfl⟩
  obtain ⟨r, hr⟩ := hdot
  rcases hsrc with ⟨habs, hlen, hb⟩ | ⟨hrel, hne, hlast⟩
  · refine ⟨_, make_backup_name_abs_eq localtime srcname tv tm habs hlen htm, ?_⟩
    have hns : '/' ∉ basename srcname := by
      rcases basename_no_slash srcname with h | h
      · exact absurd h hb
      · exact h
    have := basename_append_slash (dirname srcname ++ '/' :: BKDIRNAME)
      (basename srcname ++ backup_suffix tm tv) (by simp [basename_ne_nil])
      (by simp [hns, hsuf])
    simp only [List.append_assoc, List.cons_append] at this ⊢
    rw [this, hr]
    exact ⟨r, by simp⟩
  · refine ⟨_, make_backup_name_rel_eq localtime srcname tv tm hrel htm, ?_⟩
    have := basename_append_of_no_slash BKDIRNAME srcname (backup_suffix tm tv) hne hlast hsuf
    simp only [List.append_assoc, List.cons_append] at this ⊢
    rw [this, hr]
    exact ⟨r, by simp⟩

/-- C8 amended, at the absolute path of the unit test. -/
theorem make_backup_name_prefix_witness :
    ∃ bakname, make_backup_name test_localtime "/aaa/bbb/ccc/ddd/teeeeeest2".toList
        ⟨1584950361, 123⟩ = some bakname ∧
      (basename "/aaa/bbb/ccc/ddd/teeeeeest2".toList ++ ".".toList) <+: basename bakname :=
  make_backup_name_prefix test_localtime "/aaa/bbb/ccc/ddd/teeeeeest2".toList
    ⟨1584950361, 123⟩ ⟨120, 2, 23, 15, 59, 21⟩ rfl (Or.inl ⟨by decide, by decide, by decide⟩)

/-- C10, refuted as stated: the path /x/./bb with 4092 letters a for x has the basename bb,
and `path_split` returns -1 for it: the first 4095 characters, which are what fits its
MAX_PATH_LEN buffers, end in the component ".". -/
theorem path_split_absolute_counterexample :
    basename ('/' :: (List.replicate 4092 'a' ++ "/./bb".toList)) = "bb".toList ∧
    path_split none ('/' :: (List.replicate 4092 'a' ++ "/./bb".toList)) = none := by
  constructor
  · have := basename_append_slash ('/' :: (List.replicate 4092 'a' ++ "/.".toList))
      "bb".toList (by decide) (by decide)
    rw [← this]
    simp only [List.cons_append, List.append_assoc, String.toList]
    rfl
  · exact path_split_cut_dot none (List.replicate 4092 'a') "/bb".toList
      (List.length_replicate _ _)

/-- C10, amended: for an absolute path that fits the MAX_PATH_LEN buffers `path_split` fails
exactly when the basename is ".", ".." or "/"; otherwise it returns 0 with the dirname and
the basename of the path; and a file name it returns is never ".", ".." or "/". -/
theorem path_split_absolute (cwd : Option CStr) (filepath : CStr)
    (habs : filepath.head? = some '/') (hlen : filepath.length < MAX_PATH_LEN) :
    (path_split cwd filepath = none ↔
      (basename filepath = ".".toList ∨ basename filepath = "..".toList ∨
        basename filepath = "/".toList)) ∧
    (¬ (basename filepath = ".".toList ∨ basename filepath = "..".toList ∨
        basename filepath = "/".toList) →
      path_split cwd filepath = some (dirname filepath, basename filepath)) ∧
    (∀ dirpath filename, path_split cwd filepath = some (dirpath, filename) →
      filename ≠ ".".toList ∧ filename ≠ "..".toList ∧ filename ≠ "/".toList) := by
  have h := path_split_of_absolute cwd filepath habs hlen
  have e1 : ".".toList = ['.'] := rfl
  have e2 : "..".toList = ['.', '.'] := rfl
  have e3 : "/".toList = ['/'] := rfl
  rw [e1, e2, e3]
  refine ⟨?_, ?_, ?_⟩
  · rw [h]
    split_ifs with hc
    · simp [hc]
    · simp [hc]
  · intro hc
    rw [h, if_neg hc]
  · intro d f hdf
    rw [h] at hdf
    split_ifs at hdf with hc
    simp only [Option.some.injEq, Prod.mk.injEq] at hdf
    rw [← hdf.2]
    simpa [not_or] using hc

/-- C10 amended, at the input of the unit test `test_path_split`: /tmp/111/split111 splits into
/tmp/111 and split111. -/
theorem path_split_absolute_witness :
    path_split none "/tmp/111/split111".toList = some ("/tmp/111".toList, "split111".toList) :=
  ((path_split_absolute none "/tmp/111/split111".toList (by decide) (by decide)).2.1
    (by decide)).trans (by decide)

/-! ### The claims on update and delete -/

/-- C4: if `file_backup_update` returns 0 on an absolute path that holds a regular file,
the text written to `bakpath` is the backup name made from the path and the time of the
clock, the path no longer exists (so it no longer holds the original content), and the
backup path holds exactly the original bytes. -/
theorem file_backup_update_retires (env : Env) (fs fs' : FS) (oldpath : CStr)
    (data : List Byte) (bakpath : Option CStr) (habs : oldpath.head? = some '/')
    (hfile : file_content fs oldpath = some data)
    (hret : file_backup_update env fs oldpath = (fs', 0, bakpath)) :
    ∃ tv realpath, env.gettimeofday = some tv ∧
      make_backup_name env.localtime oldpath tv = some realpath ∧ bakpath = some realpath ∧
      sys_stat fs' oldpath = .error Errno.ENOENT ∧ file_content fs' oldpath ≠ some data ∧
      file_content fs' realpath = some data ∧
      (sys_stat fs' realpath).toOption.map (·.st_size) = some data.length := by
  unfold file_backup_update at hret
  cases htv : env.gettimeofday with
  | none => simp [htv] at hret
  | some tv =>
    simp only [htv] at hret
    cases htm : env.localtime tv.tv_sec with
    | none =>
      have : make_backup_name env.localtime oldpath tv = none := by
        unfold make_backup_name; rw [htm]
      simp [this] at hret
    | some tm =>
      have hlen : oldpath.length < MAX_PATH_LEN := by
        obtain ⟨co, hr, hl⟩ := (file_content_eq_some _ _ _).1 hfile
        exact (resolve_file_absolute habs hr hl).1
      have hmk := make_backup_name_abs_eq env.localtime oldpath tv tm habs hlen htm
      rw [hmk] at hret
      simp only [] at hret
      cases hmv : move_file fs oldpath (dirname oldpath ++ '/' :: BKDIRNAME ++
          '/' :: basename oldpath ++ backup_suffix tm tv) with
      | mk fs1 rc =>
        rw [hmv] at hret
        simp only [] at hret
        split_ifs at hret with hrc
        · simp only [Prod.mk.injEq, true_and] at hret
          obtain ⟨e1, e2⟩ := hret
          subst e1
          subst hrc
          obtain ⟨_, _, _, h1, h2, h3, _⟩ := move_to_backup habs hfile hmv
          refine ⟨tv, _, rfl, hmk, e2.symm, h1, by rw [h2]; simp, h3, ?_⟩
          rw [file_content_eq_some] at h3
          obtain ⟨c, hc1, hc2⟩ := h3
          unfold sys_stat
          rw [hc1]
          simp only [hc2]
          rfl
        · simp at hret

/-- C4, on the file of the unit test: /tmp/test_file_backup_update/abc, five bytes. -/
theorem file_backup_update_retires_witness :
    ∃ tv realpath, example_env.gettimeofday = some tv ∧
      make_backup_name example_env.localtime "/tmp/test_file_backup_update/abc".toList tv =
        some realpath ∧
      (file_backup_update example_env update_fs "/tmp/test_file_backup_update/abc".toList).2.2 =
        some realpath ∧
      sys_stat (file_backup_update example_env update_fs
        "/tmp/test_file_backup_update/abc".toList).1
        "/tmp/test_file_backup_update/abc".toList = .error Errno.ENOENT ∧
      file_content (file_backup_update example_env update_fs
        "/tmp/test_file_backup_update/abc".toList).1
        "/tmp/test_file_backup_update/abc".toList ≠ some [1, 2, 3, 4, 5] ∧
      file_content (file_backup_update example_env update_fs
        "/tmp/test_file_backup_update/abc".toList).1 realpath = some [1, 2, 3, 4, 5] ∧
      (sys_stat (file_backup_update example_env update_fs
        "/tmp/test_file_backup_update/abc".toList).1 realpath).toOption.map (·.st_size) =
        some [(1 : Byte), 2, 3, 4, 5].length :=
  file_backup_update_retires example_env update_fs _ "/tmp/test_file_backup_update/abc".toList
    [1, 2, 3, 4, 5] _ (by decide) (by decide) (by decide)

/-- C5, the code at the input of its unit test: after `file_backup_update` returns 0 on
/tmp/test_file_backup_update/abc the path does not exist (`stat` fails with ENOENT, where
the test and the claim expect an empty file), and the file is at the backup path with its
five bytes. -/
theorem file_backup_update_leaves_no_file :
    (file_backup_update example_env update_fs "/tmp/test_file_backup_update/abc".toList).2 =
      (0, some ("/tmp/test_file_backup_update/.#__hide.youcantseeme__#/"
        ++ "abc.2020.03.23.155921.123").toList) ∧
    sys_stat (file_backup_update example_env update_fs
      "/tmp/test_file_backup_update/abc".toList).1 "/tmp/test_file_backup_update/abc".toList =
      .error Errno.ENOENT ∧
    sys_stat (file_backup_update example_env update_fs
      "/tmp/test_file_backup_update/abc".toList).1
      ("/tmp/test_file_backup_update/.#__hide.youcantseeme__#/"
        ++ "abc.2020.03.23.155921.123").toList = .ok ⟨true, false, 5⟩ := by
  decide

/-- C3, refuted as stated: in the scenario of the specification, with the clock showing
the time of the backup that exists, `file_backup_delete` returns 0 and the backup that was
there before the call no longer has its content: it now holds the bytes of the deleted
file. -/
theorem file_backup_delete_counterexample :
    file_content delete_fs "/data/x/.#__hide.youcantseeme__#/f.2020.03.20.1000.1".toList =
      some [9, 9] ∧
    (file_backup_delete delete_env delete_fs "/data/x/f".toList MAX_PATH_LEN).2 =
      (0, some "/data/x/.#__hide.youcantseeme__#/f.2020.03.20.1000.1".toList) ∧
    file_content (file_backup_delete delete_env delete_fs "/data/x/f".toList MAX_PATH_LEN).1
      "/data/x/.#__hide.youcantseeme__#/f.2020.03.20.1000.1".toList =
      some [1, 2, 3, 4, 5] := by
  decide

/-- C3, amended: if `file_backup_delete`, called with a buffer of MAX_PATH_LEN characters
or more, returns 0 on an absolute path that holds a regular file, the path no longer
exists, the backup path written to the buffer holds exactly the original bytes, and every
backup file of the directory other than one with the name of the new backup is still
there with its content. -/
theorem file_backup_delete_retires (env : Env) (fs fs' : FS) (oldpath : CStr)
    (data : List Byte) (newlen : Nat) (newpath : Option CStr)
    (habs : oldpath.head? = some '/') (hfile : file_content fs oldpath = some data)
    (hnewlen : MAX_PATH_LEN ≤ newlen)
    (hret : file_backup_delete env fs oldpath newlen = (fs', 0, newpath)) :
    ∃ tv backpath, env.gettimeofday = some tv ∧
      make_backup_name env.localtime oldpath tv = some backpath ∧ newpath = some backpath ∧
      sys_stat fs' oldpath = .error Errno.ENOENT ∧
      file_content fs' backpath = some data ∧
      (∀ name qdata, '/' ∉ name → name ≠ basename backpath →
        file_content fs (dirname oldpath ++ "/".toList ++ ".#__hide.youcantseeme__#".toList
          ++ "/".toList ++ name) = some qdata →
        file_content fs' (dirname oldpath ++ "/".toList ++ ".#__hide.youcantseeme__#".toList
          ++ "/".toList ++ name) = some qdata) := by
  unfold file_backup_delete at hret
  cases htv : env.gettimeofday with
  | none => simp [htv] at hret
  | some tv =>
    simp only [htv] at hret
    cases htm : env.localtime tv.tv_sec with
    | none =>
      have : make_backup_name env.localtime oldpath tv = none := by
        unfold make_backup_name; rw [htm]
      simp [this] at hret
    | some tm =>
      have hlen : oldpath.length < MAX_PATH_LEN := by
        obtain ⟨co, hr, hl⟩ := (file_content_eq_some _ _ _).1 hfile
        exact (resolve_file_absolute habs hr hl).1
      have hmk := make_backup_name_abs_eq env.localtime oldpath tv tm habs hlen htm
      rw [hmk] at hret
      simp only [] at hret
      cases hmv : move_file fs oldpath (dirname oldpath ++ '/' :: BKDIRNAME ++
          '/' :: basename oldpath ++ backup_suffix tm tv) with
      | mk fs1 rc =>
        rw [hmv] at hret
        simp only [] at hret
        split_ifs at hret with hrc
        · simp only [Prod.mk.injEq, true_and] at hret
          obtain ⟨e1, e2⟩ := hret
          subst e1
          subst hrc
          obtain ⟨_, hbl, hbase, h1, _, h3, h4⟩ := move_to_backup habs hfile hmv
          rw [snprintf_of_lt (Nat.lt_of_lt_of_le hbl hnewlen)] at e2
          refine ⟨tv, _, rfl, hmk, e2.symm, h1, h3, ?_⟩
          intro name qdata hn hne hq
          rw [hbase] at hne
          have e : dirname oldpath ++ "/".toList ++ ".#__hide.youcantseeme__#".toList
              ++ "/".toList ++ name = dirname oldpath ++ '/' :: BKDIRNAME ++ '/' :: name := by
            simp [BKDIRNAME]
          rw [e] at hq ⊢
          exact h4 name qdata hn hne hq
        · simp at hret

/-- C3 amended, in the scenario of the specification with the clock at a later time: the
file is retired to a new backup and the backup f.2020.03.20.1000.1 keeps its content. -/
theorem file_backup_delete_retires_witness :
    file_content (file_backup_delete later_env delete_fs "/data/x/f".toList MAX_PATH_LEN).1
      "/data/x/.#__hide.youcantseeme__#/f.2020.03.20.1000.1".toList = some [9, 9] := by
  obtain ⟨tv, backpath, h1, h2, h3, h4, h5, h6⟩ :=
    file_backup_delete_retires later_env delete_fs _ "/data/x/f".toList [1, 2, 3, 4, 5]
      MAX_PATH_LEN _ (by decide) (by decide) (Nat.le_refl _) (by decide :
        file_backup_delete later_env delete_fs "/data/x/f".toList MAX_PATH_LEN =
          ((file_backup_delete later_env delete_fs "/data/x/f".toList MAX_PATH_LEN).1, 0,
            some "/data/x/.#__hide.youcantseeme__#/f.2020.03.23.155921.123".toList))
  have hb : backpath = "/data/x/.#__hide.youcantseeme__#/f.2020.03.23.155921.123".toList := by
    simpa using h3.symm
  subst hb
  exact h6 "f.2020.03.20.1000.1".toList [9, 9] (by decide) (by decide) (by decide)

/-! ### The claim on crushing a file and its backups -/

/-- C2, the code at the input of its unit test: `file_backup_crush` with
`CRUSH_FILE | CRUSH_BACK` returns 0 on /tmp/file_backup_crush/test111, the file is gone, and
the two backups in the backup directory are still there with their content: the walk
starts at the directory of the file and skips the backup directory. -/
theorem file_backup_crush_keeps_backups :
    (file_backup_crush example_env 2 crush_fs "/tmp/file_backup_crush/test111".toList
      (CRUSH_FILE ||| CRUSH_BACK)).map (·.2) = some 0 ∧
    (file_backup_crush example_env 2 crush_fs "/tmp/file_backup_crush/test111".toList
      (CRUSH_FILE ||| CRUSH_BACK)).map
        (fun r => sys_stat r.1 "/tmp/file_backup_crush/test111".toList) =
      some (.error Errno.ENOENT) ∧
    (file_backup_crush example_env 2 crush_fs "/tmp/file_backup_crush/test111".toList
      (CRUSH_FILE ||| CRUSH_BACK)).map
        (fun r => file_content r.1 ("/tmp/file_backup_crush/.#__hide.youcantseeme__#/"
          ++ "test111.2020.03.24.153652.0").toList) = some (some [0, 0, 0]) ∧
    (file_backup_crush example_env 2 crush_fs "/tmp/file_backup_crush/test111".toList
      (CRUSH_FILE ||| CRUSH_BACK)).map
        (fun r => file_content r.1 ("/tmp/file_backup_crush/.#__hide.youcantseeme__#/"
          ++ "test111.2020.03.24.153733.0").toList) = some (some [0, 0, 0]) := by
  decide
/-! ### The backup suffix and the name of the backup directory -/

theorem digitChar_ne_y (d : Nat) : Nat.digitChar d ≠ 'y' := by
  rcases Nat.lt_or_ge d 16 with h | h
  · interval_cases d <;> decide
  · have : Nat.digitChar d = '*' := by
      unfold Nat.digitChar
      repeat (rw [if_neg (by omega)])
    rw [this]; decide

theorem toDigitsCore_no_y (b : Nat) : ∀ (fuel n : Nat) (acc : List Char),
    'y' ∉ acc → 'y' ∉ Nat.toDigitsCore b fuel n acc := by
  intro fuel
  induction fuel with
  | zero => intro n acc h; simpa [Nat.toDigitsCore] using h
  | succ k ih =>
    intro n acc h
    unfold Nat.toDigitsCore
    have hd : 'y' ∉ Nat.digitChar (n % b) :: acc := by
      simp only [List.mem_cons, not_or]
      exact ⟨fun e => digitChar_ne_y _ e.symm, h⟩
    dsimp only
    split_ifs
    · exact hd
    · exact ih _ _ hd

theorem fmt_d_no_y (i : Int) : 'y' ∉ fmt_d i := by
  unfold fmt_d
  cases i with
  | ofNat m =>
    show 'y' ∉ (Nat.repr m).toList
    unfold Nat.repr Nat.toDigits
    exact toDigitsCore_no_y 10 _ _ [] (by simp)
  | negSucc m =>
    show 'y' ∉ ("-" ++ Nat.repr (m + 1)).toList
    rw [String.toList, String.data_append]
    unfold Nat.repr Nat.toDigits
    simp only [List.mem_append, not_or]
    exact ⟨by decide, toDigitsCore_no_y 10 _ _ [] (by simp)⟩

/-- A file name that does not begin with the name of the backup directory does not begin
with it when a backup suffix is added: the suffix is a dot and a number. -/
theorem not_bk_prefix_suffix (ob : CStr) (hob : ob ≠ []) (hbk : ¬ BKDIRNAME <+: ob)
    (tm : Tm) (tv : Timeval) : ¬ BKDIRNAME <+: ob ++ backup_suffix tm tv := by
  intro h
  have hlt : ob.length < BKDIRNAME.length := by
    by_contra hc
    exact hbk (List.prefix_of_prefix_length_le h (List.prefix_append _ _) (Nat.le_of_not_lt hc))
  obtain ⟨w, hw⟩ := List.prefix_of_prefix_length_le (List.prefix_append ob _) h (Nat.le_of_lt hlt)
  rw [← hw, List.prefix_append_right_inj] at h
  have hwd : w = BKDIRNAME.drop ob.length := by
    rw [← hw, List.drop_left]
  have hpos : 0 < ob.length := List.length_pos.2 hob
  have hkey : ∀ n, n < 24 → 0 < n → (BKDIRNAME.drop n).head? = some '.' → n = 8 := by decide
  have hsuf : backup_suffix tm tv = '.' :: (fmt_d (to_int (1900 + tm.tm_year)) ++
      ('.' :: fmt_02d (to_int (1 + tm.tm_mon)) ++ '.' :: fmt_d (to_int tm.tm_mday)
        ++ '.' :: fmt_d (to_int tm.tm_hour) ++ fmt_d (to_int tm.tm_min)
        ++ fmt_d (to_int tm.tm_sec) ++ '.' :: fmt_d (to_int tv.tv_usec))) := by
    unfold backup_suffix
    simp
  rw [hsuf] at h
  have hwlen : w.length = BKDIRNAME.length - ob.length := by
    rw [hwd, List.length_drop]
  cases w with
  | nil =>
    simp only [List.length_nil] at hwlen
    omega
  | cons a w' =>
    rw [List.cons_prefix_cons] at h
    have h8 : ob.length = 8 := by
      apply hkey _ hlt hpos
      rw [← hwd, h.1]
      rfl
    rw [h8] at hwd
    have e8 : List.drop 8 BKDIRNAME = '.' :: 'y' :: List.drop 10 BKDIRNAME := by decide
    rw [e8] at hwd
    simp only [List.cons.injEq] at hwd
    have hw' := h.2
    rw [hwd.2] at hw'
    have hy := fmt_d_no_y (to_int (1900 + tm.tm_year))
    cases hf : fmt_d (to_int (1900 + tm.tm_year)) with
    | nil =>
      rw [hf] at hw'
      simp only [List.nil_append, List.cons_append] at hw'
      rw [List.cons_prefix_cons] at hw'
      exact absurd hw'.1 (by decide)
    | cons c cs =>
      rw [hf] at hw' hy
      simp only [List.cons_append] at hw'
      rw [List.cons_prefix_cons] at hw'
      apply hy
      rw [hw'.1]
      simp

/-! ### Descriptors and file content -/

theorem lookupE_map_update (es : List (RPath × Node)) (key k : RPath) (v : Node) :
    lookupE (es.map (fun e => if e.1 = key then (e.1, v) else e)) k =
      if k = key then (lookupE es key).map (fun _ => v) else lookupE es k := by
  induction es with
  | nil => simp [lookupE]
  | cons e es ih =>
    obtain ⟨a, b⟩ := e
    rw [List.map_cons, lookupE_cons, lookupE_cons, ih]
    by_cases ha : a = key
    · by_cases hk : k = key
      · simp [ha, hk, lookupE_cons]
      · have hk' : ¬ key = k := fun h => hk h.symm
        simp [ha, hk, hk', lookupE_cons]
    · by_cases hk : k = key
      · simp [ha, hk, lookupE_cons]
      · simp [ha, hk, lookupE_cons]

theorem lookupE_map_update' (es : List (RPath × Node)) (key k : RPath) (v : Node) :
    lookupE (es.map (fun e => if e.1 = key then (key, v) else e)) k =
      if k = key then (lookupE es key).map (fun _ => v) else lookupE es k := by
  have : (fun e : RPath × Node => if e.1 = key then (key, v) else e) =
      (fun e => if e.1 = key then (e.1, v) else e) := by
    funext e
    by_cases he : e.1 = key
    · simp [he]
    · simp [he]
  rw [this, lookupE_map_update]

theorem lookup_ne_nil_of_file {fs : FS} {k : RPath} {data : List Byte}
    (h : fs.lookup k = some (Node.file data)) : k ≠ [] := by
  intro hk
  subst hk
  simp [FS.lookup] at h

theorem fdInfo_some {fs : FS} {fd : Nat} {o : OpenFile} (h : fs.fdInfo fd = some o) :
    o.fd = fd ∧ o ∈ fs.fds := by
  unfold FS.fdInfo at h
  have h1 := List.find?_some h
  have h2 := List.mem_of_find?_eq_some h
  exact ⟨by simpa using h1, h2⟩

theorem find_fd_map (fds : List OpenFile) (f : OpenFile → OpenFile)
    (hf : ∀ x, (f x).fd = x.fd) (fd : Nat) :
    (fds.map f).find? (fun o => o.fd = fd) = (fds.find? (fun o => o.fd = fd)).map f := by
  induction fds with
  | nil => rfl
  | cons x xs ih =>
    rw [List.map_cons, List.find?_cons, List.find?_cons, hf x]
    by_cases hx : x.fd = fd
    · simp [hx]
    · simp [hx, ih]

theorem find_fd_update (fds : List OpenFile) (fd fd' : Nat) (g : OpenFile → Nat) :
    (fds.map (fun x => if x.fd = fd then (⟨x.fd, x.file, g x, x.writable⟩ : OpenFile)
        else x)).find? (fun o => o.fd = fd') =
      if fd' = fd then (fds.find? (fun o => o.fd = fd)).map
          (fun x => (⟨x.fd, x.file, g x, x.writable⟩ : OpenFile))
      else fds.find? (fun o => o.fd = fd') := by
  rw [find_fd_map]
  · by_cases h : fd' = fd
    · subst h
      rw [if_pos rfl]
      cases hfd : fds.find? (fun o => o.fd = fd') with
      | none => rfl
      | some o =>
        have := List.find?_some hfd
        simp at this
        simp [this]
    · rw [if_neg h]
      cases hfd : fds.find? (fun o => o.fd = fd') with
      | none => rfl
      | some o =>
        have := List.find?_some hfd
        simp at this
        have hne : ¬ o.fd = fd := fun h' => h (this ▸ h')
        simp [hne]
  · intro x
    by_cases hx : x.fd = fd <;> simp [hx]

theorem find_fd_filter (fds : List OpenFile) (fd fd' : Nat) :
    (fds.filter (fun o => o.fd ≠ fd)).find? (fun o => o.fd = fd') =
      if fd' = fd then none else fds.find? (fun o => o.fd = fd') := by
  induction fds with
  | nil => simp
  | cons x xs ih =>
    by_cases hx : x.fd = fd
    · rw [List.filter_cons_of_neg (by simpa using hx), ih, List.find?_cons]
      by_cases h : fd' = fd
      · simp [h]
      · have : ¬ x.fd = fd' := fun h' => h (h' ▸ hx)
        simp [h, this]
    · rw [List.filter_cons_of_pos (by simpa using hx), List.find?_cons, List.find?_cons, ih]
      by_cases h : fd' = fd
      · have : ¬ x.fd = fd' := fun h' => hx (h' ▸ h)
        simp [h, this, hx]
      · simp [h]

theorem fresh_fd_not_mem (fds : List OpenFile) : fresh_fd fds ∉ fds.map (·.fd) := by
  unfold fresh_fd
  cases h : (List.range (fds.length + 1)).find? (fun n => n ∉ fds.map (·.fd)) with
  | some n =>
    have := List.find?_some h
    simpa using this
  | none =>
    exfalso
    have hall : ∀ n ∈ List.range (fds.length + 1), n ∈ fds.map (·.fd) := by
      intro n hn
      have := List.find?_eq_none.1 h n hn
      simpa using this
    have hsub : List.range (fds.length + 1) ⊆ fds.map (·.fd) := hall
    have hle := ((List.nodup_range (fds.length + 1)).subperm hsub).length_le
    simp at hle

theorem find_fd_append_fresh (fds : List OpenFile) (o : OpenFile) (fd' : Nat)
    (ho : o.fd = fresh_fd fds) :
    (fds ++ [o]).find? (fun x => x.fd = fd') =
      if fd' = fresh_fd fds then some o else fds.find? (fun x => x.fd = fd') := by
  rw [List.find?_append]
  by_cases h : fd' = fresh_fd fds
  · rw [if_pos h]
    have : fds.find? (fun x => x.fd = fd') = none := by
      rw [List.find?_eq_none]
      intro x hx hxfd
      apply fresh_fd_not_mem fds
      rw [← h]
      simp at hxfd
      exact List.mem_map.2 ⟨x, hx, hxfd⟩
    rw [this]
    simp [ho, h]
  · rw [if_neg h]
    cases hfd : fds.find? (fun x => x.fd = fd') with
    | some x => rfl
    | none =>
      have : ¬ o.fd = fd' := fun h' => h (by rw [← h', ho])
      simp [this]

/-! ### What the system calls do to the entries and the descriptors -/

theorem sameFiles_refl (fs : FS) : SameFiles fs fs := ⟨rfl, fun _ => rfl⟩

theorem sameFiles_trans {a b c : FS} (h1 : SameFiles a b) (h2 : SameFiles b c) :
    SameFiles a c := ⟨h2.1.trans h1.1, fun k => (h2.2 k).trans (h1.2 k)⟩

theorem sameFiles_symm {a b : FS} (h : SameFiles a b) : SameFiles b a :=
  ⟨h.1.symm, fun k => (h.2 k).symm⟩

theorem sameFiles_setFds (fs : FS) (fds : List OpenFile) : SameFiles fs (fs.setFds fds) :=
  ⟨rfl, fun _ => rfl⟩

theorem sameFiles_dirSub {a b : FS} (h : SameFiles a b) : DirSub a b :=
  ⟨h.1, fun k hk => (h.2 k).trans hk⟩

theorem any_fd_iff (fs : FS) (fd : Nat) :
    fs.fds.any (fun o => o.fd = fd) = true ↔ fs.fdInfo fd ≠ none := by
  unfold FS.fdInfo
  rw [List.any_eq_true, Ne, List.find?_eq_none]
  constructor
  · rintro ⟨x, hx, hfd⟩ h
    exact h x hx hfd
  · intro h
    by_contra hc
    apply h
    intro x hx hfd
    exact hc ⟨x, hx, hfd⟩

theorem write_bytes_ok {fs fs' : FS} {fd n m : Nat} {buf : Nat → Byte}
    (h : write_bytes fs fd buf n = .ok (fs', m)) :
    ∃ o data, fs.fdInfo fd = some o ∧ o.writable = true ∧
      fs.lookup o.file = some (Node.file data) ∧ m = n ∧ fs'.cwd = fs.cwd ∧
      (∀ k, fs'.lookup k =
        if k = o.file then some (Node.file (written data o.offset buf n)) else fs.lookup k) ∧
      (∀ fd', fs'.fdInfo fd' =
        if fd' = fd then some ⟨o.fd, o.file, o.offset + n, o.writable⟩ else fs.fdInfo fd') := by
  unfold write_bytes at h
  cases hfd : fs.fds.find? (fun o => o.fd = fd) with
  | none => rw [hfd] at h; simp at h
  | some o =>
    rw [hfd] at h
    dsimp only at h
    by_cases hw : o.writable = true
    · rw [if_pos hw] at h
      cases hl : fs.lookup o.file with
      | none => rw [hl] at h; simp at h
      | some node =>
        cases node with
        | dir => rw [hl] at h; simp at h
        | file data =>
          rw [hl] at h
          dsimp only at h
          injection h with h
          injection h with h1 h2
          refine ⟨o, data, hfd, hw, hl, h2.symm, ?_, ?_, ?_⟩
          · rw [← h1]; rfl
          · intro k
            rw [← h1]
            have hne := lookup_ne_nil_of_file hl
            show (if k = [] then some Node.dir else lookupE _ k) = _
            by_cases hk : k = []
            · rw [if_pos hk, if_neg (by rw [hk]; exact fun h' => hne h'.symm), hk]; rfl
            · rw [if_neg hk]
              dsimp only [FS.setFds, FS.setEntries]
              rw [lookupE_map_update]
              by_cases hko : k = o.file
              · rw [if_pos hko, if_pos hko]
                have : lookupE fs.entries o.file = some (Node.file data) := by
                  rw [lookup_eq, if_neg hne] at hl; exact hl
                rw [this]; rfl
              · rw [if_neg hko, if_neg hko, lookup_eq, if_neg hk]
          · intro fd'
            rw [← h1]
            show List.find? _ (List.map _ fs.fds) = _
            rw [find_fd_update fs.fds fd fd' (fun x => x.offset + n)]
            by_cases hf : fd' = fd
            · rw [if_pos hf, if_pos hf, hfd]; rfl
            · rw [if_neg hf, if_neg hf]; rfl
    · rw [if_neg hw] at h; simp at h

/-- A `write` that returns: the system has taken `m` of the `n` bytes, and the state is
that of a write of `m` bytes. -/
theorem sys_write_ok {accept : Nat → Nat → Option Nat} {fs fs' : FS} {fd n m : Nat}
    {buf : Nat → Byte} (h : sys_write accept fs fd buf n = .ok (fs', m)) :
    ∃ o data k, fs.fdInfo fd = some o ∧ o.writable = true ∧
      fs.lookup o.file = some (Node.file data) ∧ accept o.offset n = some k ∧
      m = min k n ∧ fs'.cwd = fs.cwd ∧
      (∀ key, fs'.lookup key =
        if key = o.file then some (Node.file (written data o.offset buf m))
        else fs.lookup key) ∧
      (∀ fd', fs'.fdInfo fd' =
        if fd' = fd then some ⟨o.fd, o.file, o.offset + m, o.writable⟩ else fs.fdInfo fd') := by
  unfold sys_write at h
  cases hfd : fs.fds.find? (fun o => o.fd = fd) with
  | none => rw [hfd] at h; simp at h
  | some o =>
    rw [hfd] at h
    dsimp only at h
    cases hk : accept o.offset n with
    | none => rw [hk] at h; simp at h
    | some k =>
      rw [hk] at h
      dsimp only at h
      obtain ⟨o', data, ho, hw, hl, hm, hcwd, hlk, hfds⟩ := write_bytes_ok h
      have ho' : o' = o := by
        unfold FS.fdInfo at ho
        rw [hfd] at ho
        injection ho with ho
        exact ho.symm
      subst ho'
      rw [← hm] at hlk hfds
      exact ⟨o', data, k, hfd, hw, hl, hk, hm, hcwd, hlk, hfds⟩

/-- A `write` the system takes whole. -/
theorem sys_write_whole {accept : Nat → Nat → Option Nat} {fs fs' : FS} {fd n m : Nat}
    {buf : Nat → Byte} (h : sys_write accept fs fd buf n = .ok (fs', m)) (hm : m = n) :
    write_bytes fs fd buf n = .ok (fs', n) := by
  unfold sys_write at h
  cases hfd : fs.fds.find? (fun o => o.fd = fd) with
  | none => rw [hfd] at h; simp at h
  | some o =>
    rw [hfd] at h
    dsimp only at h
    cases hk : accept o.offset n with
    | none => rw [hk] at h; simp at h
    | some k =>
      rw [hk] at h
      dsimp only at h
      obtain ⟨_, _, _, _, _, hm', _⟩ := write_bytes_ok h
      rw [hm] at hm' h
      rw [← hm'] at h
      exact h

theorem sys_read_ok {fs fs' : FS} {fd n : Nat} {bytes : List Byte}
    (h : sys_read fs fd n = .ok (fs', bytes)) :
    ∃ o data, fs.fdInfo fd = some o ∧ fs.lookup o.file = some (Node.file data) ∧
      bytes = (data.drop o.offset).take n ∧ SameFiles fs fs' ∧
      (∀ fd', fs'.fdInfo fd' =
        if fd' = fd then some ⟨o.fd, o.file, o.offset + bytes.length, o.writable⟩
        else fs.fdInfo fd') := by
  unfold sys_read at h
  cases hfd : fs.fds.find? (fun o => o.fd = fd) with
  | none => rw [hfd] at h; simp at h
  | some o =>
    rw [hfd] at h
    dsimp only at h
    cases hl : fs.lookup o.file with
    | none => rw [hl] at h; simp at h
    | some node =>
      cases node with
      | dir => rw [hl] at h; simp at h
      | file data =>
        rw [hl] at h
        dsimp only at h
        injection h with h
        injection h with h1 h2
        refine ⟨o, data, hfd, hl, h2.symm, ?_, ?_⟩
        · rw [← h1]; exact sameFiles_setFds _ _
        · intro fd'
          rw [← h1, ← h2]
          show List.find? _ (List.map _ fs.fds) = _
          rw [find_fd_update fs.fds fd fd'
            (fun x => x.offset + (List.take n (List.drop o.offset data)).length)]
          by_cases hf : fd' = fd
          · rw [if_pos hf, if_pos hf, hfd]; rfl
          · rw [if_neg hf, if_neg hf]; rfl

theorem sys_lseek_set_ok {fs fs' : FS} {fd off r : Nat}
    (h : sys_lseek_set fs fd off = .ok (fs', r)) :
    r = off ∧ SameFiles fs fs' ∧
      (∀ fd', fs'.fdInfo fd' =
        if fd' = fd then (fs.fdInfo fd).map (fun o => ⟨o.fd, o.file, off, o.writable⟩)
        else fs.fdInfo fd') := by
  unfold sys_lseek_set at h
  by_cases ha : fs.fds.any (fun o => o.fd = fd) = true
  · rw [if_pos ha] at h
    injection h with h
    injection h with h1 h2
    refine ⟨h2.symm, ?_, ?_⟩
    · rw [← h1]; exact sameFiles_setFds _ _
    · intro fd'
      rw [← h1]
      show List.find? _ (List.map _ fs.fds) = _
      rw [find_fd_update fs.fds fd fd' (fun _ => off)]
      rfl
  · rw [if_neg ha] at h; simp at h

theorem sys_close_ok {fs fs' : FS} {fd : Nat} (h : sys_close fs fd = .ok fs') :
    SameFiles fs fs' ∧
      (∀ fd', fs'.fdInfo fd' = if fd' = fd then none else fs.fdInfo fd') := by
  unfold sys_close at h
  by_cases ha : fs.fds.any (fun o => o.fd = fd) = true
  · rw [if_pos ha] at h
    injection h with h
    refine ⟨?_, ?_⟩
    · rw [← h]; exact sameFiles_setFds _ _
    · intro fd'
      rw [← h]
      exact find_fd_filter fs.fds fd fd'
  · rw [if_neg ha] at h; simp at h

theorem sys_close_error {fs : FS} {fd : Nat} {e : Errno} (h : sys_close fs fd = .error e) :
    fs.fdInfo fd = none := by
  unfold sys_close at h
  by_cases ha : fs.fds.any (fun o => o.fd = fd) = true
  · rw [if_pos ha] at h; simp at h
  · by_contra hc
    exact ha ((any_fd_iff fs fd).2 hc)

theorem sys_close_of_open {fs : FS} {fd : Nat} (h : fs.fdInfo fd ≠ none) :
    ∃ fs', sys_close fs fd = .ok fs' := by
  unfold sys_close
  rw [if_pos ((any_fd_iff fs fd).2 h)]
  exact ⟨_, rfl⟩

theorem sys_fstat_ok {fs : FS} {fd : Nat} {s : Stat} (h : sys_fstat fs fd = .ok s) :
    ∃ o, fs.fdInfo fd = some o ∧
      ((∃ data, fs.lookup o.file = some (Node.file data) ∧ s = ⟨true, false, data.length⟩) ∨
        (fs.lookup o.file = some Node.dir ∧ s = ⟨false, true, 0⟩)) := by
  unfold sys_fstat at h
  cases hfd : fs.fds.find? (fun o => o.fd = fd) with
  | none => rw [hfd] at h; simp at h
  | some o =>
    rw [hfd] at h
    dsimp only at h
    cases hl : fs.lookup o.file with
    | none => rw [hl] at h; simp at h
    | some node =>
      cases node with
      | dir =>
        rw [hl] at h
        injection h with h
        exact ⟨o, hfd, Or.inr ⟨hl, h.symm⟩⟩
      | file data =>
        rw [hl] at h
        injection h with h
        exact ⟨o, hfd, Or.inl ⟨data, hl, h.symm⟩⟩

theorem sys_open_rdwr_ok {fs fs' : FS} {p : CStr} {fd : Nat}
    (h : sys_open fs p OpenFlags.O_RDWR = .ok (fs', fd)) :
    ∃ c data, resolve fs p = .ok c ∧ fs.lookup c = some (Node.file data) ∧ SameFiles fs fs' ∧
      fs.fdInfo fd = none ∧
      (∀ fd', fs'.fdInfo fd' = if fd' = fd then some ⟨fd, c, 0, true⟩ else fs.fdInfo fd') := by
  unfold sys_open at h
  dsimp only at h
  cases hr : resolve fs p with
  | error e => rw [hr] at h; simp at h
  | ok c =>
    rw [hr] at h
    dsimp only at h
    cases hl : fs.lookup c with
    | none => rw [hl] at h; simp at h
    | some node =>
      cases node with
      | dir => rw [hl] at h; simp at h
      | file data =>
        rw [hl] at h
        dsimp only at h
        injection h with h
        injection h with h1 h2
        subst h2
        have hnone : fs.fdInfo (fresh_fd fs.fds) = none := by
          unfold FS.fdInfo
          rw [List.find?_eq_none]
          intro x hx hxfd
          apply fresh_fd_not_mem fs.fds
          simp at hxfd
          exact List.mem_map.2 ⟨x, hx, hxfd⟩
        refine ⟨c, data, rfl, hl, ?_, hnone, ?_⟩
        · rw [← h1]; exact sameFiles_setFds _ _
        · intro fd'
          rw [← h1]
          exact find_fd_append_fresh fs.fds _ fd' rfl

theorem sys_open_rdonly_ok {fs fs' : FS} {p : CStr} {fd : Nat}
    (h : sys_open fs p OpenFlags.O_RDONLY = .ok (fs', fd)) :
    ∃ c node, resolve fs p = .ok c ∧ fs.lookup c = some node ∧ SameFiles fs fs' ∧
      fs.fdInfo fd = none ∧
      (∀ fd', fs'.fdInfo fd' = if fd' = fd then some ⟨fd, c, 0, false⟩ else fs.fdInfo fd') := by
  unfold sys_open at h
  dsimp only at h
  cases hr : resolve fs p with
  | error e => rw [hr] at h; simp at h
  | ok c =>
    rw [hr] at h
    dsimp only at h
    cases hl : fs.lookup c with
    | none => rw [hl] at h; simp at h
    | some node =>
      rw [hl] at h
      dsimp only at h
      injection h with h
      injection h with h1 h2
      subst h2
      have hnone : fs.fdInfo (fresh_fd fs.fds) = none := by
        unfold FS.fdInfo
        rw [List.find?_eq_none]
        intro x hx hxfd
        apply fresh_fd_not_mem fs.fds
        simp at hxfd
        exact List.mem_map.2 ⟨x, hx, hxfd⟩
      refine ⟨c, node, rfl, hl, ?_, hnone, ?_⟩
      · rw [← h1]; exact sameFiles_setFds _ _
      · intro fd'
        rw [← h1]
        exact find_fd_append_fresh fs.fds _ fd' rfl

/-! ### The loops that write a buffer block after block -/

theorem fill_length (buf : Nat → Byte) (n : Nat) : (fill buf n).length = n := by
  simp [fill]

theorem fill_zero (buf : Nat → Byte) : fill buf 0 = [] := rfl

theorem fill_add_block (buf : Nat → Byte) (off b : Nat) (hdiv : BLOCK_SIZE ∣ off)
    (hb : b ≤ BLOCK_SIZE) : fill buf (off + b) = fill buf off ++ (List.range b).map buf := by
  unfold fill
  rw [List.range_add, List.map_append, List.map_map]
  congr 1
  apply List.map_congr_left
  intro i hi
  have hi' : i < b := List.mem_range.1 hi
  obtain ⟨q, rfl⟩ := hdiv
  show buf ((BLOCK_SIZE * q + i) % BLOCK_SIZE) = buf i
  rw [Nat.mul_add_mod, Nat.mod_eq_of_lt (by omega)]

theorem written_fill (buf : Nat → Byte) (off b : Nat) (tail : List Byte)
    (hdiv : BLOCK_SIZE ∣ off) (hb : b ≤ BLOCK_SIZE) :
    written (fill buf off ++ tail) off buf b = fill buf (off + b) ++ tail.drop b := by
  unfold written
  rw [fill_add_block buf off b hdiv hb]
  have h1 : ((fill buf off ++ tail) ++
      List.replicate (off - (fill buf off ++ tail).length) 0).take off = fill buf off := by
    rw [List.append_assoc]
    exact List.take_left' (fill_length buf off)
  have h2 : (fill buf off ++ tail).drop (off + b) = tail.drop b := by
    have := @List.drop_append _ (fill buf off) tail b
    rw [fill_length] at this
    exact this
  rw [h1, h2]

/-- One block written by a loop that has written `off` bytes so far. -/
theorem write_block_bytes {fs fs' : FS} {fd m : Nat} {c : RPath} {off b : Nat} {w : Bool}
    {buf : Nat → Byte} {tail : List Byte}
    (hfd : fs.fdInfo fd = some ⟨fd, c, off, w⟩)
    (hl : fs.lookup c = some (Node.file (fill buf off ++ tail)))
    (hdiv : BLOCK_SIZE ∣ off) (hb : b ≤ BLOCK_SIZE)
    (h : write_bytes fs fd buf b = .ok (fs', m)) :
    m = b ∧ fs'.fdInfo fd = some ⟨fd, c, off + b, w⟩ ∧
    fs'.lookup c = some (Node.file (fill buf (off + b) ++ tail.drop b)) ∧
    fs'.cwd = fs.cwd ∧ (∀ k, k ≠ c → fs'.lookup k = fs.lookup k) ∧
    (∀ fd', fd' ≠ fd → fs'.fdInfo fd' = fs.fdInfo fd') := by
  obtain ⟨o, data, ho, _, hol, hm, hcwd, hlk, hfds⟩ := write_bytes_ok h
  rw [hfd] at ho
  injection ho with ho
  subst ho
  dsimp only at hol hlk hfds
  rw [hl] at hol
  injection hol with hol
  injection hol with hol
  subst hol
  refine ⟨hm, ?_, ?_, hcwd, ?_, ?_⟩
  · rw [hfds fd, if_pos rfl]
  · rw [hlk c, if_pos rfl, written_fill buf off b tail hdiv hb]
  · intro k hk
    rw [hlk k, if_neg hk]
  · intro fd' hne
    rw [hfds fd', if_neg hne]

/-- One block written whole by a loop that has written `off` bytes so far. -/
theorem write_block {accept : Nat → Nat → Option Nat} {fs fs' : FS} {fd m : Nat} {c : RPath}
    {off b : Nat} {w : Bool} {buf : Nat → Byte} {tail : List Byte}
    (hfd : fs.fdInfo fd = some ⟨fd, c, off, w⟩)
    (hl : fs.lookup c = some (Node.file (fill buf off ++ tail)))
    (hdiv : BLOCK_SIZE ∣ off) (hb : b ≤ BLOCK_SIZE)
    (h : sys_write accept fs fd buf b = .ok (fs', m)) (hm : m = b) :
    fs'.fdInfo fd = some ⟨fd, c, off + b, w⟩ ∧
    fs'.lookup c = some (Node.file (fill buf (off + b) ++ tail.drop b)) ∧
    fs'.cwd = fs.cwd ∧ (∀ k, k ≠ c → fs'.lookup k = fs.lookup k) ∧
    (∀ fd', fd' ≠ fd → fs'.fdInfo fd' = fs.fdInfo fd') :=
  (write_block_bytes hfd hl hdiv hb (sys_write_whole h hm)).2

/-- The number of bytes of a `write` that the system does not cut short. -/
theorem sys_write_count {accept : Nat → Nat → Option Nat} {fs fs' : FS} {fd m : Nat}
    {c : RPath} {off b : Nat} {w : Bool} {buf : Nat → Byte}
    (hfd : fs.fdInfo fd = some ⟨fd, c, off, w⟩)
    (hk : ∀ k, accept off b = some k → b ≤ k)
    (h : sys_write accept fs fd buf b = .ok (fs', m)) : m = b := by
  obtain ⟨o, _, k, ho, _, _, hacc, hm, _⟩ := sys_write_ok h
  rw [hfd] at ho
  injection ho with ho
  subst ho
  rw [hm]
  exact Nat.min_eq_right (hk k hacc)

/-! ### The functions that crush a file -/

theorem file_crush_loop_returns (env : Env) (fd : Nat) : ∀ (fuel : Nat) (fs : FS)
    (leftsize : Nat), leftsize ≤ fuel → ∃ r, __file_crush_loop env fd fuel fs leftsize = some r := by
  intro fuel
  induction fuel with
  | zero =>
    intro fs leftsize h
    have : leftsize = 0 := by omega
    subst this
    exact ⟨_, rfl⟩
  | succ fuel ih =>
    intro fs leftsize h
    unfold __file_crush_loop
    by_cases hpos : leftsize > 0
    · rw [if_pos hpos]
      dsimp only
      cases hw : sys_write env.write fs fd env.stack
          (if leftsize ≥ BLOCK_SIZE then BLOCK_SIZE else leftsize) with
      | error e => exact ⟨_, rfl⟩
      | ok r =>
        obtain ⟨fs1, m⟩ := r
        dsimp only
        apply ih
        have hB : 0 < BLOCK_SIZE := by decide
        split_ifs <;> omega
    · rw [if_neg hpos]
      exact ⟨_, rfl⟩

theorem file_crush_pass_returns (env : Env) (fs : FS) (fd : Nat) :
    ∃ r, __file_crush env fs fd = some r := by
  unfold __file_crush
  cases hs : sys_fstat fs fd with
  | error e => exact ⟨_, rfl⟩
  | ok s =>
    dsimp only
    obtain ⟨r, hr⟩ := file_crush_loop_returns env fd s.st_size fs s.st_size (le_refl _)
    rw [hr]
    obtain ⟨fs1, rc⟩ := r
    dsimp only
    by_cases hrc : rc = 0
    · rw [if_pos hrc]
      cases sys_fdatasync fs1 fd with
      | error e => exact ⟨_, rfl⟩
      | ok u => exact ⟨_, rfl⟩
    · rw [if_neg hrc]
      exact ⟨_, rfl⟩

theorem file_crush_returns (env : Env) (fd : Nat) : ∀ (nr_crush : Nat) (fs : FS),
    ∃ r, file_crush env fd nr_crush fs = some r := by
  intro n
  induction n with
  | zero => intro fs; exact ⟨_, rfl⟩
  | succ n ih =>
    intro fs
    unfold file_crush
    cases hs : sys_lseek_set fs fd 0 with
    | error e => exact ⟨_, rfl⟩
    | ok r =>
      obtain ⟨fs1, rc2⟩ := r
      dsimp only
      by_cases hrc : rc2 = 0
      · rw [if_pos hrc]
        obtain ⟨r1, hr1⟩ := file_crush_pass_returns env fs1 fd
        rw [hr1]
        obtain ⟨fs2, rc1⟩ := r1
        dsimp only
        by_cases hrc1 : rc1 = 0
        · rw [if_pos hrc1]; exact ih fs2
        · rw [if_neg hrc1]; exact ⟨_, rfl⟩
      · rw [if_neg hrc]; exact ⟨_, rfl⟩

/-- The loop of `__file_crush`, when it ends well, has written the buffer block after block
over the `leftsize` bytes from the offset on, and nothing else. -/
theorem file_crush_loop_fill (env : Env) (fd : Nat) (c : RPath) (w : Bool) :
    ∀ (fuel : Nat) (fs : FS) (leftsize off : Nat) (tail : List Byte) (fs' : FS),
    fs.fdInfo fd = some ⟨fd, c, off, w⟩ →
    fs.lookup c = some (Node.file (fill env.stack off ++ tail)) →
    (0 < leftsize → BLOCK_SIZE ∣ off) →
    (∀ o n k, off ≤ o → o + n ≤ off + leftsize → env.write o n = some k → n ≤ k) →
    __file_crush_loop env fd fuel fs leftsize = some (fs', 0) →
    fs'.fdInfo fd = some ⟨fd, c, off + leftsize, w⟩ ∧
    fs'.lookup c = some (Node.file (fill env.stack (off + leftsize) ++ tail.drop leftsize)) ∧
    fs'.cwd = fs.cwd ∧ (∀ k, k ≠ c → fs'.lookup k = fs.lookup k) ∧
    (∀ fd', fd' ≠ fd → fs'.fdInfo fd' = fs.fdInfo fd') := by
  intro fuel
  induction fuel with
  | zero =>
    intro fs leftsize off tail fs' hfd hl _ _ h
    unfold __file_crush_loop at h
    by_cases hpos : leftsize > 0
    · rw [if_pos hpos] at h; simp at h
    · rw [if_neg hpos] at h
      have h0 : leftsize = 0 := by omega
      subst h0
      injection h with h
      injection h with h1 _
      subst h1
      exact ⟨hfd, by simpa using hl, rfl, fun _ _ => rfl, fun _ _ => rfl⟩
  | succ fuel ih =>
    intro fs leftsize off tail fs' hfd hl hdiv hwhole h
    unfold __file_crush_loop at h
    by_cases hpos : leftsize > 0
    · rw [if_pos hpos] at h
      dsimp only at h
      have hB : 0 < BLOCK_SIZE := by decide
      have hb : (if leftsize ≥ BLOCK_SIZE then BLOCK_SIZE else leftsize) ≤ BLOCK_SIZE := by
        split_ifs <;> omega
      cases hw : sys_write env.write fs fd env.stack
          (if leftsize ≥ BLOCK_SIZE then BLOCK_SIZE else leftsize) with
      | error e => rw [hw] at h; simp at h
      | ok r =>
        obtain ⟨fs1, m⟩ := r
        rw [hw] at h
        dsimp only at h
        have hm : m = (if leftsize ≥ BLOCK_SIZE then BLOCK_SIZE else leftsize) :=
          sys_write_count hfd
            (fun k hk => hwhole off _ k (le_refl _) (by split_ifs <;> omega) hk) hw
        obtain ⟨hfd1, hl1, hcwd1, hlk1, hfds1⟩ := write_block hfd hl (hdiv hpos) hb hw hm
        by_cases hge : leftsize ≥ BLOCK_SIZE
        · rw [if_pos hge] at h hfd1 hl1
          have hdiv1 : 0 < leftsize - BLOCK_SIZE → BLOCK_SIZE ∣ off + BLOCK_SIZE :=
            fun _ => Dvd.dvd.add (hdiv hpos) (dvd_refl _)
          obtain ⟨g1, g2, g3, g4, g5⟩ := ih fs1 (leftsize - BLOCK_SIZE) (off + BLOCK_SIZE)
            (tail.drop BLOCK_SIZE) fs' hfd1 hl1 hdiv1
            (fun o n k h1 h2 h3 => hwhole o n k (by omega) (by omega) h3) h
          have e1 : off + BLOCK_SIZE + (leftsize - BLOCK_SIZE) = off + leftsize := by omega
          have e2 : (tail.drop BLOCK_SIZE).drop (leftsize - BLOCK_SIZE) = tail.drop leftsize := by
            rw [List.drop_drop]
            first
              | rw [Nat.sub_add_cancel hge]
              | rw [Nat.add_sub_cancel' hge]
          rw [e1] at g1 g2
          rw [e2] at g2
          exact ⟨g1, g2, g3.trans hcwd1, fun k hk => (g4 k hk).trans (hlk1 k hk),
            fun fd' hne => (g5 fd' hne).trans (hfds1 fd' hne)⟩
        · rw [if_neg hge] at h hfd1 hl1
          obtain ⟨g1, g2, g3, g4, g5⟩ := ih fs1 (leftsize - leftsize) (off + leftsize)
            (tail.drop leftsize) fs' hfd1 hl1 (fun h0 => by omega)
            (fun o n k h1 h2 h3 => hwhole o n k (by omega) (by omega) h3) h
          have e1 : off + leftsize + (leftsize - leftsize) = off + leftsize := by omega
          have e2 : (tail.drop leftsize).drop (leftsize - leftsize) = tail.drop leftsize := by
            rw [Nat.sub_self]; rfl
          rw [e1] at g1 g2
          rw [e2] at g2
          exact ⟨g1, g2, g3.trans hcwd1, fun k hk => (g4 k hk).trans (hlk1 k hk),
            fun fd' hne => (g5 fd' hne).trans (hfds1 fd' hne)⟩
    · rw [if_neg hpos] at h
      have h0 : leftsize = 0 := by omega
      subst h0
      injection h with h
      injection h with h1 _
      subst h1
      exact ⟨hfd, by simpa using hl, rfl, fun _ _ => rfl, fun _ _ => rfl⟩

/-- The loop of `__file_crush`, however it ends, leaves the descriptor on its file, changes
the content of that file only, and does not change its length when it is given the length
that is left of the file. -/
theorem file_crush_loop_frame (env : Env) (fd : Nat) (c : RPath) (w : Bool) :
    ∀ (fuel : Nat) (fs : FS) (leftsize off : Nat) (data : List Byte) (fs' : FS) (rc : Int),
    fs.fdInfo fd = some ⟨fd, c, off, w⟩ →
    fs.lookup c = some (Node.file data) →
    __file_crush_loop env fd fuel fs leftsize = some (fs', rc) →
    (∃ off', fs'.fdInfo fd = some ⟨fd, c, off', w⟩) ∧
    (∃ data', fs'.lookup c = some (Node.file data')) ∧
    fs'.cwd = fs.cwd ∧ (∀ k, k ≠ c → fs'.lookup k = fs.lookup k) ∧
    (∀ fd', fd' ≠ fd → fs'.fdInfo fd' = fs.fdInfo fd') := by
  intro fuel
  induction fuel with
  | zero =>
    intro fs leftsize off data fs' rc hfd hl h
    unfold __file_crush_loop at h
    by_cases hpos : leftsize > 0
    · rw [if_pos hpos] at h; simp at h
    · rw [if_neg hpos] at h
      injection h with h
      injection h with h1 _
      subst h1
      exact ⟨⟨_, hfd⟩, ⟨_, hl⟩, rfl, fun _ _ => rfl, fun _ _ => rfl⟩
  | succ fuel ih =>
    intro fs leftsize off data fs' rc hfd hl h
    unfold __file_crush_loop at h
    by_cases hpos : leftsize > 0
    · rw [if_pos hpos] at h
      dsimp only at h
      cases hw : sys_write env.write fs fd env.stack
          (if leftsize ≥ BLOCK_SIZE then BLOCK_SIZE else leftsize) with
      | error e =>
        rw [hw] at h
        injection h with h
        injection h with h1 _
        subst h1
        exact ⟨⟨_, hfd⟩, ⟨_, hl⟩, rfl, fun _ _ => rfl, fun _ _ => rfl⟩
      | ok r =>
        obtain ⟨fs1, m⟩ := r
        rw [hw] at h
        dsimp only at h
        obtain ⟨o, data0, k, ho, _, hol, _, _, hcwd1, hlk1, hfds1⟩ := sys_write_ok hw
        rw [hfd] at ho
        injection ho with ho
        subst ho
        dsimp only at hol hlk1 hfds1
        have hfd1 : fs1.fdInfo fd = some ⟨fd, c, off + m, w⟩ := by rw [hfds1 fd, if_pos rfl]
        have hl1 : fs1.lookup c = some (Node.file (written data0 off env.stack m)) := by
          rw [hlk1 c, if_pos rfl]
        obtain ⟨g1, g2, g3, g4, g5⟩ := ih fs1 _ _ _ fs' rc hfd1 hl1 h
        exact ⟨g1, g2, g3.trans hcwd1,
          fun key hk => (g4 key hk).trans (by rw [hlk1 key, if_neg hk]),
          fun fd' hne => (g5 fd' hne).trans (by rw [hfds1 fd', if_neg hne])⟩
    · rw [if_neg hpos] at h
      injection h with h
      injection h with h1 _
      subst h1
      exact ⟨⟨_, hfd⟩, ⟨_, hl⟩, rfl, fun _ _ => rfl, fun _ _ => rfl⟩

theorem sys_fstat_of_file {fs : FS} {fd : Nat} {o : OpenFile} {data : List Byte}
    (hfd : fs.fdInfo fd = some o) (hl : fs.lookup o.file = some (Node.file data)) :
    sys_fstat fs fd = .ok ⟨true, false, data.length⟩ := by
  unfold FS.fdInfo at hfd
  unfold sys_fstat
  rw [hfd]
  dsimp only
  rw [hl]

/-- One pass of `__file_crush` that ends well from the offset 0. -/
theorem file_crush_pass_fill {env : Env} {fs fs' : FS} {fd : Nat} {c : RPath} {w : Bool}
    {data : List Byte} (hfd : fs.fdInfo fd = some ⟨fd, c, 0, w⟩)
    (hl : fs.lookup c = some (Node.file data))
    (hwhole : ∀ o n k, o + n ≤ data.length → env.write o n = some k → n ≤ k)
    (h : __file_crush env fs fd = some (fs', 0)) :
    fs'.fdInfo fd = some ⟨fd, c, data.length, w⟩ ∧
    fs'.lookup c = some (Node.file (fill env.stack data.length)) ∧
    fs'.cwd = fs.cwd ∧ (∀ k, k ≠ c → fs'.lookup k = fs.lookup k) ∧
    (∀ fd', fd' ≠ fd → fs'.fdInfo fd' = fs.fdInfo fd') := by
  unfold __file_crush at h
  rw [sys_fstat_of_file hfd hl] at h
  dsimp only at h
  cases hloop : __file_crush_loop env fd data.length fs data.length with
  | none => rw [hloop] at h; simp at h
  | some r =>
    obtain ⟨fs1, rc⟩ := r
    rw [hloop] at h
    dsimp only at h
    by_cases hrc : rc = 0
    · subst hrc
      rw [if_pos rfl] at h
      have hfs : fs1 = fs' := by
        cases hsync : sys_fdatasync fs1 fd with
        | error e => rw [hsync] at h; simp at h
        | ok u =>
          rw [hsync] at h
          injection h with h
          injection h with h1 _
      subst hfs
      have := file_crush_loop_fill env fd c w data.length fs data.length 0 data fs1 hfd
        (by simpa [fill_zero] using hl) (fun _ => dvd_zero _)
        (fun o n k _ h2 h3 => hwhole o n k (by omega) h3) hloop
      simpa using this
    · rw [if_neg hrc] at h
      simp at h

/-- The passes of `file_crush`, when they end well. -/
theorem file_crush_fill (env : Env) (fd : Nat) (c : RPath) (w : Bool) :
    ∀ (nr_crush : Nat) (fs : FS) (off : Nat) (data : List Byte) (fs' : FS),
    fs.fdInfo fd = some ⟨fd, c, off, w⟩ → fs.lookup c = some (Node.file data) →
    (∀ o n k, o + n ≤ data.length → env.write o n = some k → n ≤ k) →
    file_crush env fd nr_crush fs = some (fs', 0) →
    (∃ off', fs'.fdInfo fd = some ⟨fd, c, off', w⟩) ∧
    fs'.lookup c = some (Node.file (if nr_crush = 0 then data else fill env.stack data.length)) ∧
    fs'.cwd = fs.cwd ∧ (∀ k, k ≠ c → fs'.lookup k = fs.lookup k) ∧
    (∀ fd', fd' ≠ fd → fs'.fdInfo fd' = fs.fdInfo fd') := by
  intro n
  induction n with
  | zero =>
    intro fs off data fs' hfd hl _ h
    unfold file_crush at h
    injection h with h
    injection h with h1 _
    subst h1
    exact ⟨⟨off, hfd⟩, by simpa using hl, rfl, fun _ _ => rfl, fun _ _ => rfl⟩
  | succ n ih =>
    intro fs off data fs' hfd hl hwhole h
    unfold file_crush at h
    cases hs : sys_lseek_set fs fd 0 with
    | error e => rw [hs] at h; simp at h
    | ok r =>
      obtain ⟨fs1, rc2⟩ := r
      rw [hs] at h
      dsimp only at h
      obtain ⟨hrc2, hsame, hfds⟩ := sys_lseek_set_ok hs
      subst hrc2
      rw [if_pos rfl] at h
      have hfd1 : fs1.fdInfo fd = some ⟨fd, c, 0, w⟩ := by
        rw [hfds fd, if_pos rfl, hfd]; rfl
      have hl1 : fs1.lookup c = some (Node.file data) := (hsame.2 c).trans hl
      cases hp : __file_crush env fs1 fd with
      | none => rw [hp] at h; simp at h
      | some r1 =>
        obtain ⟨fs2, rc1⟩ := r1
        rw [hp] at h
        dsimp only at h
        by_cases hrc1 : rc1 = 0
        · subst hrc1
          rw [if_pos rfl] at h
          obtain ⟨p1, p2, p3, p4, p5⟩ := file_crush_pass_fill hfd1 hl1 hwhole hp
          obtain ⟨q1, q2, q3, q4, q5⟩ := ih fs2 data.length (fill env.stack data.length) fs'
            p1 p2 (by rw [fill_length]; exact hwhole) h
          refine ⟨q1, ?_, (q3.trans p3).trans hsame.1, ?_, ?_⟩
          · rw [q2, if_neg (Nat.succ_ne_zero n)]
            by_cases hn : n = 0
            · rw [if_pos hn]
            · rw [if_neg hn, fill_length]
          · intro k hk
            rw [q4 k hk, p4 k hk, hsame.2 k]
          · intro fd' hne
            rw [q5 fd' hne, p5 fd' hne, hfds fd', if_neg hne]
        · rw [if_neg hrc1] at h
          simp at h

/-- One pass of `__file_crush`, however it ends, leaves the descriptor on its file and
changes the content of that file only. -/
theorem file_crush_pass_frame {env : Env} {fs fs' : FS} {fd : Nat} {c : RPath} {w : Bool}
    {off : Nat} {data : List Byte} {rc : Int} (hfd : fs.fdInfo fd = some ⟨fd, c, off, w⟩)
    (hl : fs.lookup c = some (Node.file data))
    (h : __file_crush env fs fd = some (fs', rc)) :
    (∃ off', fs'.fdInfo fd = some ⟨fd, c, off', w⟩) ∧
    (∃ data', fs'.lookup c = some (Node.file data')) ∧
    fs'.cwd = fs.cwd ∧ (∀ k, k ≠ c → fs'.lookup k = fs.lookup k) ∧
    (∀ fd', fd' ≠ fd → fs'.fdInfo fd' = fs.fdInfo fd') := by
  unfold __file_crush at h
  rw [sys_fstat_of_file hfd hl] at h
  dsimp only at h
  cases hloop : __file_crush_loop env fd data.length fs data.length with
  | none => rw [hloop] at h; simp at h
  | some r =>
    obtain ⟨fs1, rc1⟩ := r
    rw [hloop] at h
    dsimp only at h
    have hfs : fs1 = fs' := by
      by_cases hrc : rc1 = 0
      · rw [if_pos hrc] at h
        cases hsync : sys_fdatasync fs1 fd with
        | error e =>
          rw [hsync] at h
          injection h with h
          injection h with h1 _
        | ok u =>
          rw [hsync] at h
          injection h with h
          injection h with h1 _
      · rw [if_neg hrc] at h
        injection h with h
        injection h with h1 _
    subst hfs
    exact file_crush_loop_frame env fd c w data.length fs data.length off data fs1 rc1 hfd hl
      hloop

/-- The passes of `file_crush`, however they end, leave the descriptor on its file and
change the content of that file only. -/
theorem file_crush_frame (env : Env) (fd : Nat) (c : RPath) (w : Bool) :
    ∀ (nr_crush : Nat) (fs : FS) (off : Nat) (data : List Byte) (fs' : FS) (rc : Int),
    fs.fdInfo fd = some ⟨fd, c, off, w⟩ → fs.lookup c = some (Node.file data) →
    file_crush env fd nr_crush fs = some (fs', rc) →
    (∃ off', fs'.fdInfo fd = some ⟨fd, c, off', w⟩) ∧
    (∃ data', fs'.lookup c = some (Node.file data')) ∧
    fs'.cwd = fs.cwd ∧ (∀ k, k ≠ c → fs'.lookup k = fs.lookup k) ∧
    (∀ fd', fd' ≠ fd → fs'.fdInfo fd' = fs.fdInfo fd') := by
  intro n
  induction n with
  | zero =>
    intro fs off data fs' rc hfd hl h
    unfold file_crush at h
    injection h with h
    injection h with h1 _
    subst h1
    exact ⟨⟨off, hfd⟩, ⟨_, hl⟩, rfl, fun _ _ => rfl, fun _ _ => rfl⟩
  | succ n ih =>
    intro fs off data fs' rc hfd hl h
    unfold file_crush at h
    cases hs : sys_lseek_set fs fd 0 with
    | error e =>
      rw [hs] at h
      injection h with h
      injection h with h1 _
      subst h1
      exact ⟨⟨off, hfd⟩, ⟨_, hl⟩, rfl, fun _ _ => rfl, fun _ _ => rfl⟩
    | ok r =>
      obtain ⟨fs1, rc2⟩ := r
      rw [hs] at h
      dsimp only at h
      obtain ⟨hrc2, hsame, hfds⟩ := sys_lseek_set_ok hs
      subst hrc2
      rw [if_pos rfl] at h
      have hfd1 : fs1.fdInfo fd = some ⟨fd, c, 0, w⟩ := by
        rw [hfds fd, if_pos rfl, hfd]; rfl
      have hl1 : fs1.lookup c = some (Node.file data) := (hsame.2 c).trans hl
      cases hp : __file_crush env fs1 fd with
      | none => rw [hp] at h; simp at h
      | some r1 =>
        obtain ⟨fs2, rc1⟩ := r1
        rw [hp] at h
        dsimp only at h
        obtain ⟨⟨o2, p1⟩, ⟨d2, p2⟩, p3, p4, p5⟩ := file_crush_pass_frame hfd1 hl1 hp
        have hto : ∀ k, k ≠ c → fs2.lookup k = fs.lookup k :=
          fun k hk => (p4 k hk).trans (hsame.2 k)
        have htf : ∀ fd', fd' ≠ fd → fs2.fdInfo fd' = fs.fdInfo fd' :=
          fun fd' hne => (p5 fd' hne).trans (by rw [hfds fd', if_neg hne])
        by_cases hrc1 : rc1 = 0
        · rw [if_pos hrc1] at h
          obtain ⟨q1, q2, q3, q4, q5⟩ := ih fs2 o2 d2 fs' rc p1 p2 h
          exact ⟨q1, q2, (q3.trans p3).trans hsame.1,
            fun k hk => (q4 k hk).trans (hto k hk),
            fun fd' hne => (q5 fd' hne).trans (htf fd' hne)⟩
        · rw [if_neg hrc1] at h
          injection h with h
          injection h with h1 _
          subst h1
          exact ⟨⟨o2, p1⟩, ⟨d2, p2⟩, p3.trans hsame.1, hto, htf⟩

theorem fd_content_eq_some {fs : FS} {fd : Nat} {data : List Byte} :
    fd_content fs fd = some data ↔
      ∃ o, fs.fdInfo fd = some o ∧ fs.lookup o.file = some (Node.file data) := by
  unfold fd_content
  cases hfd : fs.fdInfo fd with
  | none => simp
  | some o =>
    dsimp only
    cases hl : fs.lookup o.file with
    | none => simp [hl]
    | some node =>
      cases node with
      | dir => simp [hl]
      | file d => simp [hl]

theorem fill_getElem? (buf : Nat → Byte) (n i : Nat) (h : i < n) :
    (fill buf n)[i]? = some (buf (i % BLOCK_SIZE)) := by
  unfold fill
  rw [List.getElem?_map, List.getElem?_range h]
  rfl

theorem sys_remove_file {denied : RPath → Bool} {fs fs' : FS} {p : CStr} {c : RPath}
    {data : List Byte}
    (hr : resolve fs p = .ok c) (hl : fs.lookup c = some (Node.file data))
    (h : sys_remove denied fs p = .ok fs') :
    denied c = false ∧ fs'.cwd = fs.cwd ∧ fs'.fds = fs.fds ∧
      ∀ k, fs'.lookup k = if k = c then none else fs.lookup k := by
  unfold sys_remove at h
  rw [hr] at h
  dsimp only at h
  rw [hl] at h
  dsimp only at h
  cases hd : denied c with
  | true => rw [hd] at h; simp at h
  | false =>
  rw [hd] at h
  simp only [Bool.false_eq_true, if_false] at h
  injection h with h
  subst h
  refine ⟨rfl, rfl, rfl, ?_⟩
  intro k
  have hne := lookup_ne_nil_of_file hl
  show (if k = [] then some Node.dir else lookupE _ k) = _
  by_cases hk : k = []
  · rw [if_pos hk, if_neg (by rw [hk]; exact fun h' => hne h'.symm), hk]; rfl
  · rw [if_neg hk]
    dsimp only [FS.setEntries]
    rw [lookupE_filter_ne, lookup_eq, if_neg hk]

theorem sys_stat_enoent {fs : FS} {p : CStr} {c : RPath} (hr : resolve fs p = .ok c)
    (hl : fs.lookup c = none) : sys_stat fs p = .error Errno.ENOENT := by
  unfold sys_stat
  rw [hr]
  dsimp only
  rw [hl]

/-! ### file_crush -/

/-- C13, refuted as stated: on a file of three zero bytes `file_crush` with three passes
returns 0 and leaves the bytes 1, 2, 3 that its buffer, which it does not initialise, holds
in this example; the bytes of the file are not zero. And when the system takes one byte of
every `write`, which `__file_crush` does not notice because it tests the result for a
negative value only, `file_crush` returns 0 on a file that holds 7, 8, 9 and leaves 0, 8, 9:
two of the three bytes have not been overwritten at all. -/
theorem file_crush_counterexample :
    fd_content crush_open_fs 3 = some [0, 0, 0] ∧
    (file_crush example_env 3 3 crush_open_fs).map (fun r => (r.2, fd_content r.1 3)) =
      some (0, some [1, 2, 3]) ∧
    fd_content nonzero_open_fs 3 = some [7, 8, 9] ∧
    (file_crush short_write_env 3 3 nonzero_open_fs).map (fun r => (r.2, fd_content r.1 3)) =
      some (0, some [0, 8, 9]) := by
  decide

/-- C13, amended: if `file_crush` with at least one pass returns 0 on a descriptor that is
open on a regular file of length L, and the system cuts no `write` within the file short
(it transfers as many bytes as the call asks for), then the file still has length L and
each of its bytes has been overwritten with the content of the buffer of `__file_crush`,
which the code does not initialise: byte `i` of the file is byte `i mod BLOCK_SIZE` of that
buffer. -/
theorem file_crush_overwrites (env : Env) (fs fs' : FS) (fd nr_crush : Nat)
    (data : List Byte) (hn : 1 ≤ nr_crush) (hopen : fd_content fs fd = some data)
    (hwhole : ∀ off n k, off + n ≤ data.length → env.write off n = some k → n ≤ k)
    (h : file_crush env fd nr_crush fs = some (fs', 0)) :
    sys_fstat fs' fd = .ok ⟨true, false, data.length⟩ ∧
    ∃ data', fd_content fs' fd = some data' ∧ data'.length = data.length ∧
      ∀ i, i < data.length → data'[i]? = some (env.stack (i % BLOCK_SIZE)) := by
  obtain ⟨o, hfd, hl⟩ := fd_content_eq_some.1 hopen
  have hofd := (fdInfo_some hfd).1
  have ho : o = ⟨fd, o.file, o.offset, o.writable⟩ := by
    cases o
    simp only [OpenFile.mk.injEq, and_true, true_and] at hofd ⊢
    exact hofd
  rw [ho] at hfd
  obtain ⟨⟨off', q1⟩, q2, _, _, _⟩ :=
    file_crush_fill env fd o.file o.writable nr_crush fs o.offset data fs' hfd hl hwhole h
  rw [if_neg (by omega)] at q2
  have hc : fd_content fs' fd = some (fill env.stack data.length) :=
    fd_content_eq_some.2 ⟨_, q1, q2⟩
  refine ⟨?_, fill env.stack data.length, hc, fill_length _ _, ?_⟩
  · have := sys_fstat_of_file q1 q2
    rw [fill_length] at this
    exact this
  · intro i hi
    exact fill_getElem? env.stack data.length i hi

/-- C13 amended, on a file of three bytes with three passes. -/
theorem file_crush_overwrites_witness :
    sys_fstat
      (⟨[(["tmp".toList], Node.dir),
         (["tmp".toList, "test_file_crush".toList], Node.file [1, 2, 3])],
        [], [⟨3, ["tmp".toList, "test_file_crush".toList], 3, true⟩]⟩ : FS) 3 =
        .ok ⟨true, false, 3⟩ ∧
    ∃ data', fd_content
      (⟨[(["tmp".toList], Node.dir),
         (["tmp".toList, "test_file_crush".toList], Node.file [1, 2, 3])],
        [], [⟨3, ["tmp".toList, "test_file_crush".toList], 3, true⟩]⟩ : FS) 3 = some data' ∧
      data'.length = 3 ∧
      ∀ i, i < 3 → data'[i]? = some (example_env.stack (i % BLOCK_SIZE)) :=
  file_crush_overwrites example_env crush_open_fs _ 3 3 [0, 0, 0] (by decide) (by decide)
    (fun _ n k _ hk => by
      have e : some n = some k := hk
      injection e with e
      exact e ▸ le_refl n)
    (by decide)

/-! ### filepath_crush -/

/-- The statements of `filepath_crush` from the label `out` on. -/
theorem filepath_crush_out (fs1 : FS) (fd : Nat) (retcode : Int) :
    ∃ fs' rc, (match sys_close fs1 fd with
        | .ok fs'' => some (fs'', retcode)
        | .error _ => some (fs1, -1)) = some (fs', rc) ∧
      SameFiles fs1 fs' ∧ fs'.fdInfo fd = none ∧ (rc = retcode ∨ rc = -1) := by
  cases hc : sys_close fs1 fd with
  | ok fs2 =>
    obtain ⟨hs, hf⟩ := sys_close_ok hc
    exact ⟨fs2, retcode, rfl, hs, by rw [hf fd, if_pos rfl], Or.inl rfl⟩
  | error e =>
    exact ⟨fs1, -1, rfl, sameFiles_refl _, sys_close_error hc, Or.inr rfl⟩

/-- C15: `filepath_crush`, called with at least one pass, returns 0 or -1. It returns -1 when
the file does not open for reading and writing, when `file_crush` fails (a pass has failed:
the system has failed a `write`, say), and when `remove` fails (the system refuses to remove
the entry); when the file has been opened, the descriptor is no longer open on return; and
when the value returned is 0, `stat` on the path fails with ENOENT. -/
theorem filepath_crush_reports (env : Env) (fs : FS) (filepath : CStr) (nr_crush : Nat)
    (hn : 1 ≤ nr_crush) :
    ∃ fs' rc, filepath_crush env fs filepath nr_crush = some (fs', rc) ∧ (rc = 0 ∨ rc = -1) ∧
      (∀ e, sys_open fs filepath OpenFlags.O_RDWR = .error e → rc = -1) ∧
      (∀ fs0 fd, sys_open fs filepath OpenFlags.O_RDWR = .ok (fs0, fd) →
        (∀ o ∈ fs'.fds, o.fd ≠ fd) ∧
        ∃ fs1 rc1, file_crush env fd nr_crush fs0 = some (fs1, rc1) ∧ (rc1 ≠ 0 → rc = -1) ∧
          (rc1 = 0 → ∀ e, sys_remove env.remove_denied fs1 filepath = .error e → rc = -1)) ∧
      (rc = 0 → sys_stat fs' filepath = .error Errno.ENOENT) := by
  have closed : ∀ (g : FS) (fd : Nat), g.fdInfo fd = none → ∀ o ∈ g.fds, o.fd ≠ fd := by
    intro g fd hg o ho hfd
    unfold FS.fdInfo at hg
    have := List.find?_eq_none.1 hg o ho
    simp [hfd] at this
  unfold filepath_crush
  rw [if_pos hn]
  cases hopen : sys_open fs filepath OpenFlags.O_RDWR with
  | error e =>
    refine ⟨fs, -1, rfl, Or.inr rfl, fun _ _ => rfl, ?_, ?_⟩
    · intro fs0 fd h; cases h
    · intro h; exact absurd h (by decide)
  | ok r0 =>
    obtain ⟨fs0, fd⟩ := r0
    dsimp only
    obtain ⟨c, data, hres, hl, hsame0, _, hfds0⟩ := sys_open_rdwr_ok hopen
    obtain ⟨r1, hr1⟩ := file_crush_returns env fd nr_crush fs0
    obtain ⟨fs1, rc1⟩ := r1
    rw [hr1]
    dsimp only
    by_cases hrc1 : rc1 = 0
    · subst hrc1
      rw [if_pos rfl]
      have hfd0 : fs0.fdInfo fd = some ⟨fd, c, 0, true⟩ := by rw [hfds0 fd, if_pos rfl]
      have hl0 : fs0.lookup c = some (Node.file data) := (hsame0.2 c).trans hl
      obtain ⟨_, ⟨data1, q2⟩, q3, q4, _⟩ :=
        file_crush_frame env fd c true nr_crush fs0 0 data fs1 0 hfd0 hl0 hr1
      cases hrem : sys_remove env.remove_denied fs1 filepath with
      | error e =>
        dsimp only
        obtain ⟨fs', rc, hout, _, hclosed, hrc⟩ := filepath_crush_out fs1 fd (-1)
        have hrc' : rc = -1 := by rcases hrc with h | h <;> exact h
        refine ⟨fs', rc, hout, Or.inr hrc', ?_, ?_, ?_⟩
        · intro e h; cases h
        · intro fs0' fd' h
          injection h with h
          injection h with h1 h2
          subst h1; subst h2
          exact ⟨closed fs' fd hclosed, fs1, 0, hr1, fun h => absurd rfl h, fun _ _ _ => hrc'⟩
        · intro h; rw [hrc'] at h; exact absurd h (by decide)
      | ok fs2 =>
        dsimp only
        obtain ⟨fs', rc, hout, hsame, hclosed, hrc⟩ := filepath_crush_out fs2 fd 0
        refine ⟨fs', rc, hout, hrc, ?_, ?_, ?_⟩
        · intro e h; cases h
        · intro fs0' fd' h
          injection h with h
          injection h with h1 h2
          subst h1; subst h2
          refine ⟨closed fs' fd hclosed, fs1, 0, hr1, fun h => absurd rfl h, ?_⟩
          intro _ e he
          rw [hrem] at he
          cases he
        · intro _
          have hsub01 : DirSub fs fs1 := by
            refine ⟨q3.trans hsame0.1, ?_⟩
            intro k hk
            have hkc : k ≠ c := by
              intro hkc; rw [hkc, hl] at hk; cases hk
            rw [q4 k hkc, hsame0.2 k]; exact hk
          have hres1 : resolve fs1 filepath = .ok c := resolve_mono hsub01 hres
          obtain ⟨_, r1, _, r3⟩ := sys_remove_file hres1 q2 hrem
          have hsub12 : DirSub fs1 fs2 := by
            refine ⟨r1, ?_⟩
            intro k hk
            have hkc : k ≠ c := by
              intro hkc; rw [hkc, q2] at hk; cases hk
            rw [r3 k, if_neg hkc]; exact hk
          have hres' : resolve fs' filepath = .ok c :=
            resolve_mono (sameFiles_dirSub hsame) (resolve_mono hsub12 hres1)
          apply sys_stat_enoent hres'
          rw [hsame.2 c, r3 c, if_pos rfl]
    · rw [if_neg hrc1]
      obtain ⟨fs', rc, hout, _, hclosed, hrc⟩ := filepath_crush_out fs1 fd (-1)
      have hrc' : rc = -1 := by rcases hrc with h | h <;> exact h
      refine ⟨fs', rc, hout, Or.inr hrc', ?_, ?_, ?_⟩
      · intro e h; cases h
      · intro fs0' fd' h
        injection h with h
        injection h with h1 h2
        subst h1; subst h2
        exact ⟨closed fs' fd hclosed, fs1, rc1, hr1, fun _ => hrc', fun h => absurd h hrc1⟩
      · intro h; rw [hrc'] at h; exact absurd h (by decide)

/-- C15, on the file of the unit test `test_file_backup_crush`, three passes: the theorem
where all goes well; and the returns of -1 with the descriptor closed and the file in its
place when the path is missing, when the system fails the writes, and when it refuses to
remove the file. -/
theorem filepath_crush_reports_witness :
    (∃ fs' rc, filepath_crush example_env crush_fs "/tmp/file_backup_crush/test111".toList 3 =
        some (fs', rc) ∧ (rc = 0 ∨ rc = -1) ∧
      (∀ e, sys_open crush_fs "/tmp/file_backup_crush/test111".toList OpenFlags.O_RDWR =
        .error e → rc = -1) ∧
      (∀ fs0 fd, sys_open crush_fs "/tmp/file_backup_crush/test111".toList OpenFlags.O_RDWR =
          .ok (fs0, fd) →
        (∀ o ∈ fs'.fds, o.fd ≠ fd) ∧
        ∃ fs1 rc1, file_crush example_env fd 3 fs0 = some (fs1, rc1) ∧ (rc1 ≠ 0 → rc = -1) ∧
          (rc1 = 0 → ∀ e, sys_remove example_env.remove_denied fs1
            "/tmp/file_backup_crush/test111".toList = .error e → rc = -1)) ∧
      (rc = 0 → sys_stat fs' "/tmp/file_backup_crush/test111".toList =
        .error Errno.ENOENT)) ∧
    (filepath_crush example_env crush_fs "/tmp/file_backup_crush/test111".toList 3).map
        (fun r => (r.2, r.1.fds, sys_stat r.1 "/tmp/file_backup_crush/test111".toList)) =
      some (0, [], .error Errno.ENOENT) ∧
    (filepath_crush example_env crush_fs "/tmp/file_backup_crush/missing".toList 3).map
        (fun r => (r.2, r.1.fds)) = some (-1, []) ∧
    (filepath_crush failing_write_env crush_fs "/tmp/file_backup_crush/test111".toList 3).map
        (fun r => (r.2, r.1.fds, file_content r.1 "/tmp/file_backup_crush/test111".toList)) =
      some (-1, [], some [0, 0, 0]) ∧
    (filepath_crush no_remove_env crush_fs "/tmp/file_backup_crush/test111".toList 3).map
        (fun r => (r.2, r.1.fds, file_content r.1 "/tmp/file_backup_crush/test111".toList)) =
      some (-1, [], some [1, 2, 3]) :=
  ⟨filepath_crush_reports example_env crush_fs "/tmp/file_backup_crush/test111".toList 3
    (by decide), by decide, by decide, by decide, by decide⟩

/-! ### mkdirs -/

theorem sys_mkdir_ok {fs fs' : FS} {p : CStr} (h : sys_mkdir fs p = .ok fs') :
    ∃ c, namei fs p = .ok c ∧ fs.lookup c = none ∧ fs'.lookup c = some Node.dir := by
  unfold sys_mkdir at h
  cases hn : namei fs p with
  | error e => rw [hn] at h; simp at h
  | ok c =>
    rw [hn] at h
    dsimp only at h
    cases hl : fs.lookup c with
    | some n => rw [hl] at h; simp at h
    | none =>
      rw [hl] at h
      dsimp only at h
      by_cases hd : fs.lookup c.dropLast = some Node.dir
      · rw [if_pos hd] at h
        injection h with h
        refine ⟨c, rfl, hl, ?_⟩
        rw [← h]
        have hne : c ≠ [] := by
          intro hc; rw [hc] at hl; simp [FS.lookup] at hl
        rw [lookup_eq, if_neg hne] at hl
        show (if c = [] then some Node.dir else lookupE _ c) = _
        rw [if_neg hne]
        dsimp only [FS.setEntries]
        rw [lookupE_append, hl]
        simp [lookupE_cons, lookupE_nil]
      · rw [if_neg hd] at h; simp at h

theorem walk_ne_eexist (fs : FS) : ∀ (ns : List CStr) (cur : RPath),
    walk fs cur ns ≠ .error Errno.EEXIST := by
  intro ns
  induction ns with
  | nil => intro cur hc; simp [walk] at hc
  | cons n ns ih =>
    intro cur hc
    unfold walk at hc
    cases hs : step fs cur n with
    | ok c1 => rw [hs] at hc; exact ih c1 hc
    | error e' =>
      rw [hs] at hc
      dsimp only at hc
      injection hc with hc
      subst hc
      unfold step at hs
      cases hl : fs.lookup cur with
      | none => rw [hl] at hs; cases hs
      | some nd =>
        cases nd with
        | file d => rw [hl] at hs; cases hs
        | dir =>
          rw [hl] at hs
          dsimp only at hs
          by_cases h1 : n = ['.']
          · rw [if_pos h1] at hs; cases hs
          · rw [if_neg h1] at hs
            by_cases h2 : n = ['.', '.']
            · rw [if_pos h2] at hs; cases hs
            · rw [if_neg h2] at hs; cases hs

theorem namei_ne_eexist (fs : FS) (p : CStr) : namei fs p ≠ .error Errno.EEXIST := by
  unfold namei
  by_cases hp : p = []
  · rw [if_pos hp]; intro h; cases h
  · rw [if_neg hp]
    by_cases hlen : PATH_MAX ≤ p.length
    · rw [if_pos hlen]; intro h; cases h
    · rw [if_neg hlen]; exact walk_ne_eexist fs _ _

theorem sys_mkdir_eexist {fs : FS} {p : CStr} (h : sys_mkdir fs p = .error Errno.EEXIST) :
    ∃ c n, namei fs p = .ok c ∧ fs.lookup c = some n := by
  unfold sys_mkdir at h
  cases hn : namei fs p with
  | error e =>
    exfalso
    rw [hn] at h
    dsimp only at h
    injection h with h
    subst h
    exact namei_ne_eexist fs p hn
  | ok c =>
    rw [hn] at h
    dsimp only at h
    cases hl : fs.lookup c with
    | some n => exact ⟨c, n, rfl, hl⟩
    | none =>
      exfalso
      rw [hl] at h
      dsimp only at h
      by_cases hd : fs.lookup c.dropLast = some Node.dir
      · rw [if_pos hd] at h; cases h
      · rw [if_neg hd] at h; cases h

theorem sys_mkdir_of_exists {fs : FS} {p : CStr} {c : RPath} {n : Node}
    (hn : namei fs p = .ok c) (hl : fs.lookup c = some n) :
    sys_mkdir fs p = .error Errno.EEXIST := by
  unfold sys_mkdir
  rw [hn]
  dsimp only
  rw [hl]

/-- A run of the loop of `mkdirs` that ends well ends well again, and changes nothing, in
every state that has the entries the first run left. -/
theorem mkdirs_loop_again : ∀ (rest pre : CStr) (fs fs' : FS),
    mkdirs_loop fs pre rest = (fs', 0) → ∀ g, Ext fs' g → mkdirs_loop g pre rest = (g, 0) := by
  intro rest
  induction rest with
  | nil => intro pre fs fs' _ g _; rfl
  | cons c rest ih =>
    intro pre fs fs' h g hg
    unfold mkdirs_loop at h ⊢
    by_cases hc : c = '/'
    · rw [if_pos hc] at h ⊢
      cases hm : sys_mkdir fs pre with
      | ok fs1 =>
        rw [hm] at h
        dsimp only at h
        obtain ⟨c0, hn0, _, hl1⟩ := sys_mkdir_ok hm
        have hext1 : Ext fs fs1 := sys_mkdir_ext hm
        have hext' : Ext fs1 fs' := by
          have := mkdirs_loop_ext rest (pre ++ [c]) fs1
          rw [h] at this
          exact this
        have hg1 : Ext fs1 g := ext_trans hext' hg
        have hn : namei g pre = .ok c0 := namei_mono (ext_dirSub (ext_trans hext1 hg1)) hn0
        rw [sys_mkdir_of_exists hn (hg1.2.1 c0 _ hl1)]
        dsimp only
        rw [if_pos rfl]
        exact ih (pre ++ [c]) fs1 fs' h g hg
      | error ec =>
        rw [hm] at h
        dsimp only at h
        by_cases hec : ec = Errno.EEXIST
        · rw [if_pos hec] at h
          subst hec
          obtain ⟨c0, n, hn0, hl0⟩ := sys_mkdir_eexist hm
          have hext' : Ext fs fs' := by
            have := mkdirs_loop_ext rest (pre ++ [c]) fs
            rw [h] at this
            exact this
          have hg0 : Ext fs g := ext_trans hext' hg
          rw [sys_mkdir_of_exists (namei_mono (ext_dirSub hg0) hn0) (hg0.2.1 c0 _ hl0)]
          dsimp only
          rw [if_pos rfl]
          exact ih (pre ++ [c]) fs fs' h g hg
        · rw [if_neg hec] at h
          injection h with _ h2
          exact absurd h2 (by decide)
    · rw [if_neg hc] at h ⊢
      exact ih (pre ++ [c]) fs fs' h g hg

theorem sys_getcwd_congr {fs fs' : FS} (h : fs'.cwd = fs.cwd) :
    sys_getcwd fs' = sys_getcwd fs := by
  unfold sys_getcwd
  rw [h]

/-- C20: when `mkdirs` returns 0, a second call with the same path on the state the first
call left returns 0 as well and leaves that state as it is. -/
theorem mkdirs_idempotent (fs : FS) (dirpath : CStr) (h : (mkdirs fs dirpath).2 = 0) :
    mkdirs (mkdirs fs dirpath).1 dirpath = ((mkdirs fs dirpath).1, 0) := by
  have hext := mkdirs_ext fs dirpath
  have hcwd := sys_getcwd_congr hext.1
  generalize hfs' : (mkdirs fs dirpath).1 = fs' at hext hcwd ⊢
  have hm : mkdirs fs dirpath = (fs', 0) := by
    rw [← hfs', ← h]
  unfold mkdirs at hm ⊢
  by_cases habs : dirpath.head? = some '/'
  · rw [if_pos habs] at hm ⊢
    exact mkdirs_loop_again _ _ fs fs' hm fs' (ext_refl fs')
  · rw [if_neg habs] at hm ⊢
    rw [hcwd]
    cases hg : sys_getcwd fs with
    | none => rw [hg] at hm; injection hm with _ h2; exact absurd h2 (by decide)
    | some cur =>
      rw [hg] at hm
      exact mkdirs_loop_again _ _ fs fs' hm fs' (ext_refl fs')

/-- C20, on the path of the unit test `test_mkdirs`: /tmp/aaa/bbb/ccc under /tmp. -/
theorem mkdirs_idempotent_witness :
    mkdirs (mkdirs tmp_fs "/tmp/aaa/bbb/ccc".toList).1 "/tmp/aaa/bbb/ccc".toList =
      ((mkdirs tmp_fs "/tmp/aaa/bbb/ccc".toList).1, 0) :=
  mkdirs_idempotent tmp_fs "/tmp/aaa/bbb/ccc".toList (by decide)

/-- C18, the code where a regular file is in the way: /tmp/aaa is a regular file, `mkdirs`
on /tmp/aaa returns 0 and changes nothing, and /tmp/aaa is still a regular file, not a
directory. -/
theorem mkdirs_file_in_the_way :
    sys_stat mkdirs_file_fs "/tmp/aaa".toList = .ok ⟨true, false, 1⟩ ∧
    mkdirs mkdirs_file_fs "/tmp/aaa".toList = (mkdirs_file_fs, 0) := by
  decide

/-- C19, the code on a relative path: in the working directory /tmp the call `mkdirs` on
aaa returns 0 and creates nothing, and on aaa/bbb it returns 0 and creates aaa only; the
same directories given as absolute paths are created. -/
theorem mkdirs_relative_leaf :
    mkdirs tmp_fs "aaa".toList = (tmp_fs, 0) ∧
    sys_stat (mkdirs tmp_fs "aaa".toList).1 "/tmp/aaa".toList = .error Errno.ENOENT ∧
    (mkdirs tmp_fs "aaa/bbb".toList).2 = 0 ∧
    sys_stat (mkdirs tmp_fs "aaa/bbb".toList).1 "/tmp/aaa".toList = .ok ⟨false, true, 0⟩ ∧
    sys_stat (mkdirs tmp_fs "aaa/bbb".toList).1 "/tmp/aaa/bbb".toList =
      .error Errno.ENOENT ∧
    (mkdirs tmp_fs "/tmp/aaa".toList).2 = 0 ∧
    sys_stat (mkdirs tmp_fs "/tmp/aaa".toList).1 "/tmp/aaa".toList = .ok ⟨false, true, 0⟩ ∧
    (mkdirs tmp_fs "/tmp/aaa/bbb".toList).2 = 0 ∧
    sys_stat (mkdirs tmp_fs "/tmp/aaa/bbb".toList).1 "/tmp/aaa/bbb".toList =
      .ok ⟨false, true, 0⟩ := by
  decide

/-! ### The walk and its record -/

theorem walk_entries_erase (W : FS → CStr → Option (FS × Int))
    (W' : FS → CStr → Option (FS × Int × List Event))
    (fn : FS → CStr → Stat → Option (FS × Int)) (dirpath : CStr)
    (hW : ∀ fs p, W fs p = (W' fs p).map (fun r => (r.1, r.2.1))) :
    ∀ (L : List CStr) (fs : FS), walk_entries W fn dirpath fs L =
      (walk_entries_log W' fn dirpath fs L).map (fun r => (r.1, r.2.1)) := by
  intro L
  induction L with
  | nil => intro fs; rfl
  | cons d_name rest ih =>
    intro fs
    unfold walk_entries walk_entries_log
    by_cases hskip : strncmp_eq d_name ".".toList 2 = true ∨
        strncmp_eq d_name "..".toList 3 = true ∨
        strncmp_eq d_name BKDIRNAME BKDIRNAME.length = true
    · rw [if_pos hskip, if_pos hskip]
      exact ih fs
    · rw [if_neg hskip, if_neg hskip]
      dsimp only
      cases hstat : sys_stat fs (snprintf MAX_PATH_LEN (dirpath ++ '/' :: d_name)) with
      | error e => rfl
      | ok s =>
        dsimp only
        by_cases hreg : s.st_isreg = true
        · rw [if_pos hreg, if_pos hreg]
          cases hfn : fn fs (snprintf MAX_PATH_LEN (dirpath ++ '/' :: d_name)) s with
          | none => rfl
          | some r =>
            obtain ⟨fs', rc3⟩ := r
            dsimp only
            by_cases hrc : rc3 = 0
            · rw [if_pos hrc, if_pos hrc, ih fs', Option.map_map]
              rfl
            · rw [if_neg hrc, if_neg hrc]
              rfl
        · rw [if_neg hreg, if_neg hreg]
          by_cases hdir : s.st_isdir = true
          · rw [if_pos hdir, if_pos hdir, hW]
            cases hw : W' fs (snprintf MAX_PATH_LEN (dirpath ++ '/' :: d_name)) with
            | none => rfl
            | some r =>
              obtain ⟨fs', rc3, log⟩ := r
              dsimp only [Option.map_some']
              by_cases hrc : rc3 = 0
              · rw [if_pos hrc, if_pos hrc, ih fs', Option.map_map]
                rfl
              · rw [if_neg hrc, if_neg hrc]
                rfl
          · rw [if_neg hdir, if_neg hdir]
            exact ih fs

/-- The walk with the record is the walk: without the record, its result is that of
`walk_tree`. -/
theorem walk_tree_erase (fn : FS → CStr → Stat → Option (FS × Int)) :
    ∀ (fuel : Nat) (fs : FS) (dirpath : CStr), walk_tree fn fuel fs dirpath =
      (walk_tree_log fn fuel fs dirpath).map (fun r => (r.1, r.2.1)) := by
  intro fuel
  induction fuel with
  | zero => intro fs dirpath; rfl
  | succ fuel ih =>
    intro fs dirpath
    unfold walk_tree walk_tree_log
    cases ho : sys_opendir fs dirpath with
    | error e => rfl
    | ok entries =>
      dsimp only
      rw [walk_entries_erase (walk_tree fn fuel) (walk_tree_log fn fuel) fn dirpath ih,
        Option.map_map]
      rfl

theorem firstErrorLast_cons {rc : Int} {log : List Event} (e : Event)
    (he : e.failed = false) (h : FirstErrorLast rc log) : FirstErrorLast rc (e :: log) := by
  rcases h with ⟨h0, hall⟩ | ⟨h1, pre, x, hlog, hx, hpre⟩
  · left
    refine ⟨h0, ?_⟩
    intro y hy
    rcases List.mem_cons.1 hy with rfl | hy
    · exact he
    · exact hall y hy
  · right
    refine ⟨h1, e :: pre, x, by rw [hlog]; rfl, hx, ?_⟩
    intro y hy
    rcases List.mem_cons.1 hy with rfl | hy
    · exact he
    · exact hpre y hy

theorem firstErrorLast_append {rc : Int} {log : List Event} (l : List Event)
    (hl : ∀ e ∈ l, e.failed = false) (h : FirstErrorLast rc log) :
    FirstErrorLast rc (l ++ log) := by
  induction l with
  | nil => exact h
  | cons e l ih =>
    exact firstErrorLast_cons e (hl e (List.mem_cons_self _ _))
      (ih (fun x hx => hl x (List.mem_cons_of_mem _ hx)))

theorem firstErrorLast_single (e : Event) (he : e.failed = true) : FirstErrorLast (-1) [e] :=
  Or.inr ⟨rfl, [], e, rfl, he, fun _ hx => absurd hx (List.not_mem_nil _)⟩

theorem walk_entries_firstErrorLast (W' : FS → CStr → Option (FS × Int × List Event))
    (fn : FS → CStr → Stat → Option (FS × Int)) (dirpath : CStr)
    (hW : ∀ fs p r, W' fs p = some r → FirstErrorLast r.2.1 r.2.2) :
    ∀ (L : List CStr) (fs : FS) (r : FS × Int × List Event),
      walk_entries_log W' fn dirpath fs L = some r → FirstErrorLast r.2.1 r.2.2 := by
  intro L
  induction L with
  | nil =>
    intro fs r h
    unfold walk_entries_log at h
    injection h with h
    subst h
    exact Or.inl ⟨rfl, fun _ hx => absurd hx (List.not_mem_nil _)⟩
  | cons d_name rest ih =>
    intro fs r h
    unfold walk_entries_log at h
    by_cases hskip : strncmp_eq d_name ".".toList 2 = true ∨
        strncmp_eq d_name "..".toList 3 = true ∨
        strncmp_eq d_name BKDIRNAME BKDIRNAME.length = true
    · rw [if_pos hskip] at h
      exact ih fs r h
    · rw [if_neg hskip] at h
      dsimp only at h
      cases hstat : sys_stat fs (snprintf MAX_PATH_LEN (dirpath ++ '/' :: d_name)) with
      | error e =>
        rw [hstat] at h
        injection h with h
        subst h
        exact firstErrorLast_single _ rfl
      | ok s =>
        rw [hstat] at h
        dsimp only at h
        by_cases hreg : s.st_isreg = true
        · rw [if_pos hreg] at h
          cases hfn : fn fs (snprintf MAX_PATH_LEN (dirpath ++ '/' :: d_name)) s with
          | none => rw [hfn] at h; cases h
          | some r1 =>
            obtain ⟨fs', rc3⟩ := r1
            rw [hfn] at h
            dsimp only at h
            by_cases hrc : rc3 = 0
            · rw [if_pos hrc] at h
              cases hrest : walk_entries_log W' fn dirpath fs' rest with
              | none => rw [hrest] at h; cases h
              | some r2 =>
                rw [hrest] at h
                injection h with h
                subst h
                exact firstErrorLast_cons _ (by simp [Event.failed, hrc]) (ih fs' r2 hrest)
            · rw [if_neg hrc] at h
              injection h with h
              subst h
              exact firstErrorLast_single _ (by simp [Event.failed, hrc])
        · rw [if_neg hreg] at h
          by_cases hdir : s.st_isdir = true
          · rw [if_pos hdir] at h
            cases hw : W' fs (snprintf MAX_PATH_LEN (dirpath ++ '/' :: d_name)) with
            | none => rw [hw] at h; cases h
            | some r1 =>
              have hr1 := hW _ _ r1 hw
              obtain ⟨fs', rc3, log⟩ := r1
              rw [hw] at h
              dsimp only at h hr1
              by_cases hrc : rc3 = 0
              · rw [if_pos hrc] at h
                cases hrest : walk_entries_log W' fn dirpath fs' rest with
                | none => rw [hrest] at h; cases h
                | some r2 =>
                  rw [hrest] at h
                  injection h with h
                  subst h
                  have hlog : ∀ e ∈ log, e.failed = false := by
                    rcases hr1 with ⟨_, hall⟩ | ⟨h1, _⟩
                    · exact hall
                    · rw [hrc] at h1; exact absurd h1 (by decide)
                  exact firstErrorLast_append log hlog (ih fs' r2 hrest)
              · rw [if_neg hrc] at h
                injection h with h
                subst h
                rcases hr1 with ⟨h0, _⟩ | ⟨h1, hx⟩
                · exact absurd h0 hrc
                · exact Or.inr ⟨rfl, hx⟩
          · rw [if_neg hdir] at h
            exact ih fs r h

theorem walk_tree_firstErrorLast (fn : FS → CStr → Stat → Option (FS × Int)) :
    ∀ (fuel : Nat) (fs : FS) (dirpath : CStr) (r : FS × Int × List Event),
      walk_tree_log fn fuel fs dirpath = some r → FirstErrorLast r.2.1 r.2.2 := by
  intro fuel
  induction fuel with
  | zero => intro fs dirpath r h; cases h
  | succ fuel ih =>
    intro fs dirpath r h
    unfold walk_tree_log at h
    cases ho : sys_opendir fs dirpath with
    | error e =>
      rw [ho] at h
      injection h with h
      subst h
      exact firstErrorLast_single _ rfl
    | ok entries =>
      rw [ho] at h
      dsimp only at h
      cases hrest : walk_entries_log (walk_tree_log fn fuel) fn dirpath fs entries with
      | none => rw [hrest] at h; cases h
      | some r2 =>
        rw [hrest] at h
        injection h with h
        subst h
        exact firstErrorLast_cons _ rfl
          (walk_entries_firstErrorLast _ fn dirpath (fun fs p r => ih fs p r) entries fs r2 hrest)

theorem firstErrorLast_stops {rc : Int} {log : List Event} (h : FirstErrorLast rc log) :
    (rc = 0 ∨ rc = -1) ∧ (rc = 0 ↔ ∀ e ∈ log, e.failed = false) ∧
      ∀ pre e post, log = pre ++ e :: post → e.failed = true → post = [] := by
  rcases h with ⟨h0, hall⟩ | ⟨h1, pre', x, hlog, hx, hpre⟩
  · refine ⟨Or.inl h0, ⟨fun _ => hall, fun _ => h0⟩, ?_⟩
    intro pre e post hl he
    have : e ∈ log := by rw [hl]; simp
    rw [hall e this] at he
    cases he
  · refine ⟨Or.inr h1, ⟨?_, ?_⟩, ?_⟩
    · intro h0; rw [h1] at h0; exact absurd h0 (by decide)
    · intro hall
      have : x ∈ log := by rw [hlog]; simp
      rw [hall x this] at hx
      cases hx
    · intro pre e post hl he
      by_contra hpost
      have hd : log.dropLast = pre ++ e :: post.dropLast := by
        rw [hl, List.dropLast_append_of_ne_nil _ (by simp), List.dropLast_cons_of_ne_nil hpost]
      rw [hlog, List.dropLast_concat] at hd
      have : e ∈ pre' := by rw [hd]; simp
      rw [hpre e this] at he
      cases he

theorem pathBelow_append (c : RPath) (e : CStr) :
    pathBelow (c ++ [e]) = pathBelow c ++ '/' :: e := by
  simp [pathBelow]

theorem sys_opendir_of_dir {fs : FS} {D : CStr} {c : RPath} (hD : resolve fs D = .ok c)
    (hdir : fs.lookup c = some Node.dir) :
    sys_opendir fs D = .ok (['.'] :: ['.', '.'] :: fs.children c) := by
  unfold sys_opendir
  rw [hD]
  dsimp only
  rw [hdir]

theorem sys_opendir_ok {fs : FS} {D : CStr} {L : List CStr} (h : sys_opendir fs D = .ok L) :
    ∃ c, resolve fs D = .ok c ∧ fs.lookup c = some Node.dir ∧
      L = ['.'] :: ['.', '.'] :: fs.children c := by
  unfold sys_opendir at h
  cases hD : resolve fs D with
  | error e => rw [hD] at h; cases h
  | ok c =>
    rw [hD] at h
    dsimp only at h
    cases hl : fs.lookup c with
    | none => rw [hl] at h; cases h
    | some node =>
      cases node with
      | file d => rw [hl] at h; cases h
      | dir =>
        rw [hl] at h
        injection h with h
        exact ⟨c, rfl, hl, h.symm⟩

theorem sys_stat_of_lookup {fs : FS} {p : CStr} {c : RPath} {node : Node}
    (hr : resolve fs p = .ok c) (hl : fs.lookup c = some node) :
    sys_stat fs p = .ok node.stat := by
  unfold sys_stat
  rw [hr]
  dsimp only
  rw [hl]
  cases node <;> rfl

/-- The loop of the walk over the entries of a directory returns, and leaves the state as
it is, when the action is an observer, the entries are proper and the walks of the
sub-directories return. -/
theorem walk_entries_observer (act : CStr → Stat → Int) (fs : FS)
    (W' : FS → CStr → Option (FS × Int × List Event)) (D : CStr) (c : RPath) (B : Nat)
    (hnames : ∀ x ∈ fs.entries, ∀ n ∈ x.1, n ≠ [] ∧ '/' ∉ n)
    (hlen : ∀ x ∈ fs.entries, B + (pathBelow x.1).length < MAX_PATH_LEN)
    (hD : resolve fs D = .ok c) (hdir : fs.lookup c = some Node.dir)
    (habs : D.head? = some '/') (hDlen : D.length ≤ B + (pathBelow c).length)
    (hW : ∀ e, fs.lookup (c ++ [e]) = some Node.dir →
      resolve fs (D ++ '/' :: e) = .ok (c ++ [e]) →
      (D ++ '/' :: e).length ≤ B + (pathBelow (c ++ [e])).length →
      ∃ rc log, W' fs (D ++ '/' :: e) = some (fs, rc, log)) :
    ∀ L : List CStr, (∀ e ∈ L, e = ['.'] ∨ e = ['.', '.'] ∨ e ∈ fs.children c) →
      ∃ rc log, walk_entries_log W' (observer act) D fs L = some (fs, rc, log) := by
  intro L
  induction L with
  | nil => intro _; exact ⟨0, [], rfl⟩
  | cons e rest ih =>
    intro hL
    obtain ⟨rc', log', hrest⟩ := ih (fun x hx => hL x (List.mem_cons_of_mem _ hx))
    unfold walk_entries_log
    by_cases hskip : strncmp_eq e ".".toList 2 = true ∨
        strncmp_eq e "..".toList 3 = true ∨
        strncmp_eq e BKDIRNAME BKDIRNAME.length = true
    · rw [if_pos hskip]
      exact ⟨rc', log', hrest⟩
    · rw [if_neg hskip]
      dsimp only
      obtain ⟨h1, h2, _⟩ := not_skipped hskip
      have hmem : e ∈ fs.children c := by
        rcases hL e (List.mem_cons_self _ _) with h | h | h
        · exact absurd h h1
        · exact absurd h h2
        · exact h
      have hlk : fs.lookup (c ++ [e]) ≠ none := (mem_children_iff fs c e).1 hmem
      have hne : c ++ [e] ≠ [] := by simp
      obtain ⟨x, hx, hxk⟩ : ∃ x ∈ fs.entries, x.1 = c ++ [e] := by
        rw [lookup_eq, if_neg hne] at hlk
        exact (lookupE_ne_none_iff _ _).1 hlk
      have hex : e ∈ x.1 := by rw [hxk]; simp
      obtain ⟨he, hs⟩ := hnames x hx e hex
      have hlen' : (D ++ '/' :: e).length ≤ B + (pathBelow (c ++ [e])).length := by
        rw [pathBelow_append]
        simp only [List.length_append, List.length_cons]
        omega
      have hlt : (D ++ '/' :: e).length < MAX_PATH_LEN := by
        have := hlen x hx
        rw [hxk] at this
        omega
      rw [snprintf_of_lt hlt]
      have hres := resolve_entry hD hdir habs he hs h1 h2 hlt
      cases hnode : fs.lookup (c ++ [e]) with
      | none => exact absurd hnode hlk
      | some node =>
        rw [sys_stat_of_lookup hres hnode]
        cases node with
        | file data =>
          have hst : (Node.file data).stat = ⟨true, false, data.length⟩ := rfl
          rw [hst]
          dsimp only
          rw [if_pos rfl]
          have hobs : observer act fs (D ++ '/' :: e) ⟨true, false, data.length⟩ =
              some (fs, act (D ++ '/' :: e) ⟨true, false, data.length⟩) := rfl
          rw [hobs]
          dsimp only
          by_cases hrc : act (D ++ '/' :: e) ⟨true, false, data.length⟩ = 0
          · rw [if_pos hrc, hrest]
            exact ⟨_, _, rfl⟩
          · rw [if_neg hrc]
            exact ⟨_, _, rfl⟩
        | dir =>
          have hst : Node.dir.stat = ⟨false, true, 0⟩ := rfl
          rw [hst]
          dsimp only
          rw [if_neg (by decide), if_pos rfl]
          obtain ⟨rc3, log3, hw⟩ := hW e hnode hres hlen'
          rw [hw]
          dsimp only
          by_cases hrc : rc3 = 0
          · rw [if_pos hrc, hrest]
            exact ⟨_, _, rfl⟩
          · rw [if_neg hrc]
            exact ⟨_, _, rfl⟩

/-- The walk with an observer returns, and leaves the state as it is, when the entries are
proper, the paths fit the buffers and the fuel covers the depth of the directory tree. -/
theorem walk_tree_observer_returns (act : CStr → Stat → Int) (fs : FS) (B : Nat)
    (hnames : ∀ x ∈ fs.entries, ∀ n ∈ x.1, n ≠ [] ∧ '/' ∉ n)
    (hlen : ∀ x ∈ fs.entries, B + (pathBelow x.1).length < MAX_PATH_LEN) :
    ∀ (n : Nat) (D : CStr) (c : RPath), D.head? = some '/' → resolve fs D = .ok c →
      fs.lookup c = some Node.dir → D.length ≤ B + (pathBelow c).length →
      (∀ x ∈ fs.entries, x.1.length ≤ n + c.length) →
      ∃ rc log, walk_tree_log (observer act) (n + 1) fs D = some (fs, rc, log) := by
  intro n
  induction n with
  | zero =>
    intro D c habs hD hdir hDlen hdepth
    unfold walk_tree_log
    rw [sys_opendir_of_dir hD hdir]
    dsimp only
    obtain ⟨rc, log, h⟩ := walk_entries_observer act fs (walk_tree_log (observer act) 0) D c B
      hnames hlen hD hdir habs hDlen (by
        intro e hnode _ _
        exfalso
        have hne : c ++ [e] ≠ [] := by simp
        have hlk : fs.lookup (c ++ [e]) ≠ none := by rw [hnode]; simp
        rw [lookup_eq, if_neg hne] at hlk
        obtain ⟨x, hx, hxk⟩ := (lookupE_ne_none_iff _ _).1 hlk
        have := hdepth x hx
        rw [hxk] at this
        simp at this)
      (['.'] :: ['.', '.'] :: fs.children c) (by
        intro e he
        rcases List.mem_cons.1 he with h | he
        · exact Or.inl h
        · rcases List.mem_cons.1 he with h | he
          · exact Or.inr (Or.inl h)
          · exact Or.inr (Or.inr he))
    rw [h]
    exact ⟨_, _, rfl⟩
  | succ n ih =>
    intro D c habs hD hdir hDlen hdepth
    unfold walk_tree_log
    rw [sys_opendir_of_dir hD hdir]
    dsimp only
    obtain ⟨rc, log, h⟩ := walk_entries_observer act fs
      (walk_tree_log (observer act) (n + 1)) D c B hnames hlen hD hdir habs hDlen (by
        intro e hnode hres hlen'
        apply ih (D ++ '/' :: e) (c ++ [e]) _ hres hnode hlen'
        · intro x hx
          have := hdepth x hx
          simp only [List.length_append, List.length_cons, List.length_nil]
          omega
        · cases D with
          | nil => cases habs
          | cons d ds => exact habs)
      (['.'] :: ['.', '.'] :: fs.children c) (by
        intro e he
        rcases List.mem_cons.1 he with h | he
        · exact Or.inl h
        · rcases List.mem_cons.1 he with h | he
          · exact Or.inr (Or.inl h)
          · exact Or.inr (Or.inr he))
    rw [h]
    exact ⟨_, _, rfl⟩

/-- C11, the code on a directory that holds entries whose names begin with the name of the
backup directory and go on: the walk of /d calls the action on /d/a and /d/sub/c only. The
regular file /d/.#__hide.youcantseeme__#.old is not passed to the action and the directory
/d/.#__hide.youcantseeme__#2, which holds the file b, is not opened. -/
theorem walk_tree_skips_by_prefix :
    walk_tree_log (observer (fun _ _ => 0)) 3 walk_fs "/d".toList =
      some (walk_fs, 0,
        [Event.opened "/d".toList, Event.called "/d/a".toList ⟨true, false, 1⟩ 0,
         Event.opened "/d/sub".toList, Event.called "/d/sub/c".toList ⟨true, false, 1⟩ 0]) ∧
    walk_tree (observer (fun _ _ => 0)) 3 walk_fs "/d".toList = some (walk_fs, 0) ∧
    sys_stat walk_fs "/d/.#__hide.youcantseeme__#.old".toList = .ok ⟨true, false, 1⟩ ∧
    sys_stat walk_fs "/d/.#__hide.youcantseeme__#2".toList = .ok ⟨false, true, 0⟩ ∧
    sys_stat walk_fs "/d/.#__hide.youcantseeme__#2/b".toList = .ok ⟨true, false, 1⟩ := by
  decide

/-- C12: `walk_tree` stops at its first error. The record of a walk that returns has its
first error (a directory that does not open, a `stat` that fails, a call of the action that
returns a value other than 0, in this directory or in one below) as its last event, so that
no call of the action and no other step comes after it; the value returned is -1 when there
is such an error and 0 when there is none. The walk returns when the action is an observer
and the directory tree is proper and within the fuel (`WalkReady`). -/
theorem walk_tree_stops_at_first_error (act : CStr → Stat → Int) (fs : FS) (dirpath : CStr)
    (fuel : Nat) (hready : WalkReady fs dirpath fuel) :
    (∃ rc log, walk_tree_log (observer act) fuel fs dirpath = some (fs, rc, log)) ∧
    ∀ (fn : FS → CStr → Stat → Option (FS × Int)) (n : Nat) (fs0 : FS) (d : CStr),
      walk_tree fn n fs0 d = (walk_tree_log fn n fs0 d).map (fun r => (r.1, r.2.1)) ∧
      (∀ e, sys_opendir fs0 d = .error e →
        walk_tree_log fn (n + 1) fs0 d = some (fs0, -1, [Event.opendir_failed d])) ∧
      ∀ fs' rc log, walk_tree_log fn n fs0 d = some (fs', rc, log) →
        (rc = 0 ∨ rc = -1) ∧ (rc = 0 ↔ ∀ e ∈ log, e.failed = false) ∧
        ∀ pre e post, log = pre ++ e :: post → e.failed = true → post = [] := by
  constructor
  · obtain ⟨hfuel, habs, hall⟩ := hready
    obtain ⟨n, rfl⟩ : ∃ n, fuel = n + 1 := ⟨fuel - 1, by omega⟩
    cases ho : sys_opendir fs dirpath with
    | error e =>
      refine ⟨-1, [Event.opendir_failed dirpath], ?_⟩
      unfold walk_tree_log
      rw [ho]
    | ok L =>
      obtain ⟨c, hD, hdir, _⟩ := sys_opendir_ok ho
      exact walk_tree_observer_returns act fs dirpath.length (fun x hx => (hall x hx).1)
        (fun x hx => (hall x hx).2.1) n dirpath c habs hD hdir (by omega)
        (fun x hx => by have := (hall x hx).2.2; omega)
  · intro fn n fs0 d
    refine ⟨walk_tree_erase fn n fs0 d, ?_, ?_⟩
    · intro e he
      unfold walk_tree_log
      rw [he]
    · intro fs' rc log h
      exact firstErrorLast_stops (walk_tree_firstErrorLast fn n fs0 d _ h)

/-- C12, on the directory /d of the example, with an action that fails on /d/sub/c. -/
theorem walk_tree_stops_at_first_error_witness :
    WalkReady walk_fs "/d".toList 4 ∧
    ∃ rc log, walk_tree_log (observer (fun p _ => if p = "/d/sub/c".toList then 5 else 0)) 4
      walk_fs "/d".toList = some (walk_fs, rc, log) :=
  ⟨by decide,
    (walk_tree_stops_at_first_error (fun p _ => if p = "/d/sub/c".toList then 5 else 0)
      walk_fs "/d".toList 4 (by decide)).1⟩

/-! ### The directory of a path that is created -/

theorem dirsAbove_mono {fs fs' : FS} (h : DirSub fs fs') {c : RPath} (hd : DirsAbove fs c) :
    DirsAbove fs' c := fun k hk hne => h.2 k (hd k hk hne)

theorem head_of_initial {u s : CStr} (hpre : u <+: s) (hu : u ≠ []) : u.head? = s.head? := by
  obtain ⟨r, hr⟩ := hpre
  cases u with
  | nil => exact absurd rfl hu
  | cons a t => rw [← hr]; rfl

theorem stripSlashes_eq_nil_head {s : CStr} (hs : s ≠ []) (h : stripSlashes s = []) :
    s.head? = some '/' := by
  unfold stripSlashes at h
  rw [List.rdropWhile_eq_nil_iff] at h
  cases s with
  | nil => exact absurd rfl hs
  | cons a t =>
    have := h a (List.mem_cons_self _ _)
    simp at this
    rw [this]; rfl

/-- What `dirname` gives for a path that has a last name: "." for a relative path of one
name, otherwise a path of the same kind (absolute or relative) whose names are those of the
path without the last. -/
theorem dirname_spec (s : CStr) (h : stripSlashes s ≠ []) :
    dirname s ≠ [] ∧ (dirname s).length ≤ s.length ∧
    ((dirname s = ['.'] ∧ names s = [basename s] ∧ s.head? ≠ some '/') ∨
      (names s = names (dirname s) ++ [basename s] ∧ (dirname s).head? = s.head?)) := by
  have hs : s ≠ [] := by
    intro e; apply h; rw [e]; rfl
  have hslen : 1 ≤ s.length := by
    cases s with
    | nil => exact absurd rfl hs
    | cons a t => simp
  have hpre1 : stripSlashes s <+: s := List.rdropWhile_prefix _ _
  have hnames := names_eq_append_basename s h
  by_cases hu : (stripSlashes s).rdropWhile (· != '/') = []
  · have hd : dirname s = ['.'] := by
      unfold dirname
      simp only [hs, h, hu, if_false, if_true]
    rw [hd]
    refine ⟨by simp, by simpa using hslen, Or.inl ⟨rfl, ?_, ?_⟩⟩
    · rw [hnames, hu, names_nil]; rfl
    · intro habs
      rw [List.rdropWhile_eq_nil_iff] at hu
      rw [← head_of_initial hpre1 h] at habs
      cases hss : stripSlashes s with
      | nil => exact h hss
      | cons a t =>
        rw [hss] at hu habs
        have ha := hu a (List.mem_cons_self _ _)
        simp at habs ha
        exact ha habs
  · have hpre2 : (stripSlashes s).rdropWhile (· != '/') <+: s :=
      (List.rdropWhile_prefix _ _).trans hpre1
    have hulen := hpre2.length_le
    have hhead := head_of_initial hpre2 hu
    by_cases h1 : stripSlashes ((stripSlashes s).rdropWhile (· != '/')) = []
    · have hn : names ((stripSlashes s).rdropWhile (· != '/')) = [] := by
        rw [← names_stripSlashes, h1, names_nil]
      have hh : s.head? = some '/' := by
        rw [← hhead]; exact stripSlashes_eq_nil_head hu h1
      by_cases h2 : ((stripSlashes s).rdropWhile (· != '/')).length = 2
      · have hd : dirname s = ['/', '/'] := by
          unfold dirname
          simp only [hs, h, hu, h1, h2, if_false, if_true]
        rw [hd]
        refine ⟨by simp, by simp only [List.length_cons, List.length_nil]; omega,
          Or.inr ⟨?_, ?_⟩⟩
        · rw [hnames, hn]; rfl
        · rw [hh]; rfl
      · have hd : dirname s = ['/'] := by
          unfold dirname
          simp only [hs, h, hu, h1, h2, if_false, if_true]
        rw [hd]
        refine ⟨by simp, by simpa using hslen, Or.inr ⟨?_, ?_⟩⟩
        · rw [hnames, hn]; rfl
        · rw [hh]; rfl
    · have hd : dirname s = stripSlashes ((stripSlashes s).rdropWhile (· != '/')) := by
        unfold dirname
        simp only [hs, h, hu, h1, if_false]
      rw [hd]
      have hpre3 : stripSlashes ((stripSlashes s).rdropWhile (· != '/')) <+:
          (stripSlashes s).rdropWhile (· != '/') := List.rdropWhile_prefix _ _
      refine ⟨h1, le_trans hpre3.length_le hulen, Or.inr ⟨?_, ?_⟩⟩
      · rw [names_stripSlashes]; exact hnames
      · rw [head_of_initial hpre3 h1, hhead]

/-- A path that resolves to something other than a directory has a proper last name, and
its `dirname` resolves to the directory that holds it. For a relative path the working
directory must be proper. -/
theorem parent_of_resolved {fs : FS} {p : CStr} {c : RPath} (hn : namei fs p = .ok c)
    (hnd : fs.lookup c ≠ some Node.dir)
    (hcwd : p.head? = some '/' ∨ DirsAbove fs fs.cwd) :
    ∃ cur, resolve fs (dirname p) = .ok cur ∧ fs.lookup cur = some Node.dir ∧
      c = cur ++ [basename p] := by
  obtain ⟨hne, hlen, hw⟩ := (namei_ok_iff fs p c).1 hn
  have hstart : DirsAbove fs (if p.head? = some '/' then [] else fs.cwd) := by
    by_cases habs : p.head? = some '/'
    · rw [if_pos habs]; exact dirsAbove_nil fs
    · rw [if_neg habs]
      rcases hcwd with h | h
      · exact absurd h habs
      · exact h
  have hstrip : stripSlashes p ≠ [] := by
    intro h0
    have habs := stripSlashes_eq_nil_head hne h0
    rw [if_pos habs, ← names_stripSlashes, h0, names_nil] at hw
    simp only [walk] at hw
    injection hw with hw
    apply hnd
    rw [← hw]
    rfl
  obtain ⟨hdne, hdlen, hcases⟩ := dirname_spec p hstrip
  -- the step that looks the last name up
  have hlast : ∀ cur, DirsAbove fs cur → step fs cur (basename p) = .ok c →
      fs.lookup cur = some Node.dir ∧ c = cur ++ [basename p] := by
    intro cur hda hstep
    obtain ⟨hdir, hc⟩ := (step_ok_iff fs cur (basename p) c).1 hstep
    refine ⟨hdir, ?_⟩
    by_cases h1 : basename p = ['.']
    · rw [if_pos h1] at hc
      rw [hc] at hnd
      exact absurd hdir hnd
    · rw [if_neg h1] at hc
      by_cases h2 : basename p = ['.', '.']
      · rw [if_pos h2] at hc
        rw [hc] at hnd
        exact absurd (lookup_dropLast_of_dirsAbove hda) hnd
      · rw [if_neg h2] at hc
        exact hc
  rcases hcases with ⟨hd, hnames, hrel⟩ | ⟨hnames, hhead⟩
  · rw [if_neg hrel, hnames] at hw
    rw [if_neg hrel] at hstart
    have hstep : step fs fs.cwd (basename p) = .ok c := by
      obtain ⟨c1, h1, h2⟩ := (walk_cons_ok fs fs.cwd (basename p) [] c).1 hw
      simp only [walk] at h2
      injection h2 with h2
      rw [← h2]; exact h1
    obtain ⟨hdir, hc⟩ := hlast fs.cwd hstart hstep
    refine ⟨fs.cwd, ?_, hdir, hc⟩
    rw [resolve_ok_iff]
    refine ⟨?_, fun _ => hdir⟩
    rw [namei_ok_iff, hd]
    refine ⟨by simp, by decide, ?_⟩
    have : names ['.'] = [['.']] := by decide
    rw [if_neg (by decide), this]
    simp only [walk]
    have : step fs fs.cwd ['.'] = .ok fs.cwd := by
      rw [step_ok_iff]; exact ⟨hdir, by simp⟩
    rw [this]
  · rw [hnames] at hw
    obtain ⟨cur, hw1, hw2⟩ := (walk_append_ok fs _ _ _ c).1 hw
    have hda : DirsAbove fs cur := walk_dirsAbove _ _ _ hstart hw1
    have hstep : step fs cur (basename p) = .ok c := by
      obtain ⟨c1, h1, h2⟩ := (walk_cons_ok fs cur (basename p) [] c).1 hw2
      simp only [walk] at h2
      injection h2 with h2
      rw [← h2]; exact h1
    obtain ⟨hdir, hc⟩ := hlast cur hda hstep
    refine ⟨cur, ?_, hdir, hc⟩
    rw [resolve_ok_iff]
    refine ⟨?_, fun _ => hdir⟩
    rw [namei_ok_iff]
    refine ⟨hdne, by omega, ?_⟩
    rw [hhead]
    exact hw1

theorem fresh_fd_none (fs : FS) : fs.fdInfo (fresh_fd fs.fds) = none := by
  unfold FS.fdInfo
  rw [List.find?_eq_none]
  intro x hx hxfd
  apply fresh_fd_not_mem fs.fds
  simp at hxfd
  exact List.mem_map.2 ⟨x, hx, hxfd⟩

theorem sys_open_creat_ok {fs fs' : FS} {p : CStr} {fd : Nat}
    (h : sys_open fs p OpenFlags.O_CREAT_TRUNC_RDWR = .ok (fs', fd)) :
    ∃ c, resolve fs p = .ok c ∧ fs.lookup c ≠ some Node.dir ∧ fs'.cwd = fs.cwd ∧
      (∀ k, fs'.lookup k = if k = c then some (Node.file []) else fs.lookup k) ∧
      fs.fdInfo fd = none ∧
      (∀ fd', fs'.fdInfo fd' = if fd' = fd then some ⟨fd, c, 0, true⟩ else fs.fdInfo fd') := by
  unfold sys_open at h
  dsimp only at h
  cases hr : resolve fs p with
  | error e => rw [hr] at h; cases h
  | ok c =>
    rw [hr] at h
    dsimp only at h
    cases hl : fs.lookup c with
    | some node =>
      cases node with
      | dir => rw [hl] at h; cases h
      | file data =>
        rw [hl] at h
        dsimp only at h
        injection h with h
        injection h with h1 h2
        subst h2
        have hne := lookup_ne_nil_of_file hl
        refine ⟨c, rfl, by rw [hl]; simp, ?_, ?_, fresh_fd_none fs, ?_⟩
        · rw [← h1]; rfl
        · intro k
          rw [← h1]
          show (if k = [] then some Node.dir else lookupE _ k) = _
          by_cases hk : k = []
          · rw [if_pos hk, if_neg (by rw [hk]; exact fun h' => hne h'.symm), hk]; rfl
          · rw [if_neg hk]
            dsimp only [FS.setFds, FS.setEntries]
            rw [lookupE_map_update']
            by_cases hkc : k = c
            · rw [if_pos hkc, if_pos hkc]
              have : lookupE fs.entries c = some (Node.file data) := by
                rw [lookup_eq, if_neg hne] at hl; exact hl
              rw [this]; rfl
            · rw [if_neg hkc, if_neg hkc, lookup_eq, if_neg hk]
        · intro fd'
          rw [← h1]
          exact find_fd_append_fresh fs.fds _ fd' rfl
    | none =>
      rw [hl] at h
      dsimp only at h
      by_cases hs : p.getLast? = some '/'
      · rw [if_pos hs] at h; cases h
      · rw [if_neg hs] at h
        by_cases hd : fs.lookup c.dropLast = some Node.dir
        · rw [if_pos hd] at h
          injection h with h
          injection h with h1 h2
          subst h2
          have hne : c ≠ [] := by
            intro hc; rw [hc] at hl; simp [FS.lookup] at hl
          refine ⟨c, rfl, by rw [hl]; simp, ?_, ?_, fresh_fd_none fs, ?_⟩
          · rw [← h1]; rfl
          · intro k
            rw [← h1]
            show (if k = [] then some Node.dir else lookupE _ k) = _
            by_cases hk : k = []
            · rw [if_pos hk, if_neg (by rw [hk]; exact fun h' => hne h'.symm), hk]; rfl
            · rw [if_neg hk]
              dsimp only [FS.setFds, FS.setEntries]
              rw [lookupE_append]
              by_cases hkc : k = c
              · rw [if_pos hkc, hkc]
                have : lookupE fs.entries c = none := by
                  rw [lookup_eq, if_neg hne] at hl; exact hl
                rw [this]
                simp [lookupE_cons]
              · rw [if_neg hkc, lookup_eq, if_neg hk]
                have hck : ¬ c = k := fun h' => hkc h'.symm
                cases lookupE fs.entries k with
                | none => simp [lookupE_cons, lookupE_nil, hck]
                | some n => rfl
          · intro fd'
            rw [← h1]
            exact find_fd_append_fresh fs.fds _ fd' rfl
        · rw [if_neg hd] at h; cases h

/-- The loop of `filepath_create`, when it ends: the size is not negative and the buffer has
been written block after block from the offset on. -/
theorem filepath_create_loop_fill (env : Env) (fd : Nat) (c : RPath) (w : Bool) :
    ∀ (fuel : Nat) (fs : FS) (leftsize : Int) (off : Nat) (tail : List Byte) (fs' : FS),
    fs.fdInfo fd = some ⟨fd, c, off, w⟩ →
    fs.lookup c = some (Node.file (fill env.stack off ++ tail)) →
    (0 < leftsize → BLOCK_SIZE ∣ off) →
    filepath_create_loop env fd fuel fs leftsize = some fs' →
    0 ≤ leftsize ∧ fs'.fdInfo fd = some ⟨fd, c, off + leftsize.toNat, w⟩ ∧
    fs'.lookup c = some (Node.file (fill env.stack (off + leftsize.toNat)
      ++ tail.drop leftsize.toNat)) ∧
    fs'.cwd = fs.cwd ∧ (∀ k, k ≠ c → fs'.lookup k = fs.lookup k) ∧
    (∀ fd', fd' ≠ fd → fs'.fdInfo fd' = fs.fdInfo fd') := by
  have hB : 0 < BLOCK_SIZE := by decide
  have done : ∀ (fs : FS) (leftsize : Int) (off : Nat) (tail : List Byte) (fs' : FS),
      fs.fdInfo fd = some ⟨fd, c, off, w⟩ →
      fs.lookup c = some (Node.file (fill env.stack off ++ tail)) → ¬ leftsize > 0 →
      (if leftsize = 0 then some fs else none) = some fs' →
      0 ≤ leftsize ∧ fs'.fdInfo fd = some ⟨fd, c, off + leftsize.toNat, w⟩ ∧
      fs'.lookup c = some (Node.file (fill env.stack (off + leftsize.toNat)
        ++ tail.drop leftsize.toNat)) ∧
      fs'.cwd = fs.cwd ∧ (∀ k, k ≠ c → fs'.lookup k = fs.lookup k) ∧
      (∀ fd', fd' ≠ fd → fs'.fdInfo fd' = fs.fdInfo fd') := by
    intro fs leftsize off tail fs' hfd hl hpos h
    by_cases h0 : leftsize = 0
    · rw [if_pos h0] at h
      injection h with h
      subst h
      subst h0
      exact ⟨le_refl _, hfd, by simpa using hl, rfl, fun _ _ => rfl, fun _ _ => rfl⟩
    · rw [if_neg h0] at h; cases h
  intro fuel
  induction fuel with
  | zero =>
    intro fs leftsize off tail fs' hfd hl _ h
    unfold filepath_create_loop at h
    by_cases hpos : leftsize > 0
    · rw [if_pos hpos] at h; cases h
    · rw [if_neg hpos] at h
      exact done fs leftsize off tail fs' hfd hl hpos h
  | succ fuel ih =>
    intro fs leftsize off tail fs' hfd hl hdiv h
    unfold filepath_create_loop at h
    by_cases hpos : leftsize > 0
    · rw [if_pos hpos] at h
      dsimp only at h
      by_cases hge : leftsize ≥ (BLOCK_SIZE : Int)
      · rw [if_pos hge] at h
        have hbn : (BLOCK_SIZE : Int).toNat = BLOCK_SIZE := Int.toNat_ofNat _
        rw [hbn] at h
        cases hw : sys_write env.write fs fd env.stack BLOCK_SIZE with
        | error e => rw [hw] at h; cases h
        | ok r =>
          obtain ⟨fs1, m⟩ := r
          rw [hw] at h
          dsimp only at h
          have hm : m = BLOCK_SIZE := by
            by_contra hne
            rw [if_neg (fun e => hne (by exact_mod_cast e))] at h
            cases h
          obtain ⟨hfd1, hl1, hcwd1, hlk1, hfds1⟩ :=
            write_block hfd hl (hdiv hpos) (le_refl _) hw hm
          subst hm
          rw [if_pos rfl] at h
          obtain ⟨g0, g1, g2, g3, g4, g5⟩ := ih fs1 (leftsize - (BLOCK_SIZE : Nat))
            (off + BLOCK_SIZE) (tail.drop BLOCK_SIZE) fs' hfd1 hl1
            (fun _ => Dvd.dvd.add (hdiv hpos) (dvd_refl _)) h
          have e0 : leftsize.toNat = BLOCK_SIZE + (leftsize - (BLOCK_SIZE : Nat)).toNat := by
            omega
          have e1 : off + BLOCK_SIZE + (leftsize - (BLOCK_SIZE : Nat)).toNat =
              off + leftsize.toNat := by omega
          have e2 : (tail.drop BLOCK_SIZE).drop (leftsize - (BLOCK_SIZE : Nat)).toNat =
              tail.drop leftsize.toNat := by
            rw [List.drop_drop, e0]
          rw [e1] at g1 g2
          rw [e2] at g2
          exact ⟨by omega, g1, g2, g3.trans hcwd1, fun k hk => (g4 k hk).trans (hlk1 k hk),
            fun fd' hne => (g5 fd' hne).trans (hfds1 fd' hne)⟩
      · rw [if_neg hge] at h
        have hlt : leftsize.toNat ≤ BLOCK_SIZE := by omega
        cases hw : sys_write env.write fs fd env.stack leftsize.toNat with
        | error e => rw [hw] at h; cases h
        | ok r =>
          obtain ⟨fs1, m⟩ := r
          rw [hw] at h
          dsimp only at h
          have hm : m = leftsize.toNat := by
            by_contra hne
            rw [if_neg (fun e => hne (by omega))] at h
            cases h
          obtain ⟨hfd1, hl1, hcwd1, hlk1, hfds1⟩ :=
            write_block hfd hl (hdiv hpos) hlt hw hm
          subst hm
          have hcast : ((leftsize.toNat : Nat) : Int) = leftsize := Int.toNat_of_nonneg (by omega)
          rw [if_pos hcast, hcast, sub_self] at h
          obtain ⟨_, g1, g2, g3, g4, g5⟩ := ih fs1 0 (off + leftsize.toNat)
            (tail.drop leftsize.toNat) fs' hfd1 hl1 (fun h0 => absurd h0 (by decide)) h
          simp only [Int.toNat_zero, Nat.add_zero, List.drop_zero] at g1 g2
          exact ⟨by omega, g1, g2, g3.trans hcwd1, fun k hk => (g4 k hk).trans (hlk1 k hk),
            fun fd' hne => (g5 fd' hne).trans (hfds1 fd' hne)⟩
    · rw [if_neg hpos] at h
      exact done fs leftsize off tail fs' hfd hl hpos h

/-! ### filepath_create -/

/-- C16, refuted as stated: `filepath_create` on /tmp/filepath_create/test123, the path of
the unit test, with the size 3 returns 0 and the file holds the bytes 1, 2, 3 that the
buffer, which the code does not initialise, holds in this example; they are not zero. -/
theorem filepath_create_counterexample :
    (filepath_create example_env tmp_fs "/tmp/filepath_create/test123".toList 3).map
        (fun r => (r.2, file_content r.1 "/tmp/filepath_create/test123".toList)) =
      some (0, some [1, 2, 3]) := by
  decide

/-- C16, amended: if `filepath_create` returns 0 (for a relative path, in a working
directory whose ancestors are directories), then the size given is not negative, the
directory of the path exists, the path is a regular file of exactly that size, and byte `i`
of the file is byte `i mod BLOCK_SIZE` of the buffer of `filepath_create`, which the code
does not initialise. -/
theorem filepath_create_creates (env : Env) (fs fs' : FS) (filepath : CStr) (filesize : Int)
    (hcwd : filepath.head? = some '/' ∨ DirsAbove fs fs.cwd)
    (h : filepath_create env fs filepath filesize = some (fs', 0)) :
    0 ≤ filesize ∧ sys_stat fs' (dirname filepath) = .ok ⟨false, true, 0⟩ ∧
    sys_stat fs' filepath = .ok ⟨true, false, filesize.toNat⟩ ∧
    ∃ data, file_content fs' filepath = some data ∧ data.length = filesize.toNat ∧
      ∀ i, i < filesize.toNat → data[i]? = some (env.stack (i % BLOCK_SIZE)) := by
  unfold filepath_create at h
  dsimp only at h
  have hext := mkdirs_ext fs (dirname (snprintf MAX_PATH_LEN filepath))
  cases hm : mkdirs fs (dirname (snprintf MAX_PATH_LEN filepath)) with
  | mk fs1 rc1 =>
    rw [hm] at h hext
    dsimp only at h hext
    by_cases hrc1 : rc1 = 0
    · rw [if_pos hrc1] at h
      cases hopen : sys_open fs1 filepath OpenFlags.O_CREAT_TRUNC_RDWR with
      | error e => rw [hopen] at h; injection h with h; injection h with _ h2; cases h2
      | ok r =>
        obtain ⟨fs2, fd⟩ := r
        rw [hopen] at h
        dsimp only at h
        cases hloop : filepath_create_loop env fd filesize.toNat fs2 filesize with
        | none => rw [hloop] at h; cases h
        | some fs3 =>
          rw [hloop] at h
          dsimp only at h
          cases hclose : sys_close fs3 fd with
          | error e => rw [hclose] at h; injection h with h; injection h with _ h2; cases h2
          | ok fs4 =>
            rw [hclose] at h
            injection h with h
            injection h with h _
            subst h
            obtain ⟨c, hres1, hnd, hcwd2, hlk2, _, hfd2⟩ := sys_open_creat_ok hopen
            have hcwd1 : filepath.head? = some '/' ∨ DirsAbove fs1 fs1.cwd := by
              rcases hcwd with h | h
              · exact Or.inl h
              · right
                rw [hext.1]
                exact dirsAbove_mono (ext_dirSub hext) h
            obtain ⟨cur, hrd, hdir, _⟩ :=
              parent_of_resolved ((resolve_ok_iff fs1 filepath c).1 hres1).1 hnd hcwd1
            obtain ⟨hsize, _, g2, g3, g4, _⟩ := filepath_create_loop_fill env fd c true
              filesize.toNat fs2 filesize 0 [] fs3 (by rw [hfd2 fd, if_pos rfl])
              (by rw [hlk2 c, if_pos rfl]; rfl) (fun _ => dvd_zero _) hloop
            obtain ⟨hsame, _⟩ := sys_close_ok hclose
            simp only [Nat.zero_add, List.drop_nil, List.append_nil] at g2
            have hl4 : fs4.lookup c = some (Node.file (fill env.stack filesize.toNat)) :=
              (hsame.2 c).trans g2
            have hother : ∀ k, k ≠ c → fs4.lookup k = fs1.lookup k := by
              intro k hk
              rw [hsame.2 k, g4 k hk, hlk2 k, if_neg hk]
            have hsub : DirSub fs1 fs4 := by
              refine ⟨(hsame.1.trans g3).trans hcwd2, ?_⟩
              intro k hk
              have hkc : k ≠ c := by
                intro hkc; rw [hkc] at hk; exact hnd hk
              rw [hother k hkc]; exact hk
            have hres4 : resolve fs4 filepath = .ok c := resolve_mono hsub hres1
            refine ⟨hsize, ?_, ?_, fill env.stack filesize.toNat, ?_, fill_length _ _, ?_⟩
            · have := sys_stat_of_lookup (resolve_mono hsub hrd) (hsub.2 cur hdir)
              exact this
            · have := sys_stat_of_lookup hres4 hl4
              rw [this]
              show Except.ok (⟨true, false, (fill env.stack filesize.toNat).length⟩ : Stat) = _
              rw [fill_length]
            · exact (file_content_eq_some fs4 filepath _).2 ⟨c, hres4, hl4⟩
            · intro i hi
              exact fill_getElem? env.stack filesize.toNat i hi
    · rw [if_neg hrc1] at h
      injection h with h; injection h with _ h2; cases h2

/-- C16 amended, on the path of the unit test `test_filepath_create` with the size 3. -/
theorem filepath_create_creates_witness :
    (0 : Int) ≤ 3 ∧
    sys_stat
      (⟨[(["tmp".toList], Node.dir),
         (["tmp".toList, "filepath_create".toList], Node.dir),
         (["tmp".toList, "filepath_create".toList, "test123".toList], Node.file [1, 2, 3])],
        ["tmp".toList], []⟩ : FS) (dirname "/tmp/filepath_create/test123".toList) =
      .ok ⟨false, true, 0⟩ ∧
    sys_stat
      (⟨[(["tmp".toList], Node.dir),
         (["tmp".toList, "filepath_create".toList], Node.dir),
         (["tmp".toList, "filepath_create".toList, "test123".toList], Node.file [1, 2, 3])],
        ["tmp".toList], []⟩ : FS) "/tmp/filepath_create/test123".toList =
      .ok ⟨true, false, (3 : Int).toNat⟩ ∧
    ∃ data, file_content
      (⟨[(["tmp".toList], Node.dir),
         (["tmp".toList, "filepath_create".toList], Node.dir),
         (["tmp".toList, "filepath_create".toList, "test123".toList], Node.file [1, 2, 3])],
        ["tmp".toList], []⟩ : FS) "/tmp/filepath_create/test123".toList = some data ∧
      data.length = (3 : Int).toNat ∧
      ∀ i, i < (3 : Int).toNat → data[i]? = some (example_env.stack (i % BLOCK_SIZE)) :=
  filepath_create_creates example_env tmp_fs _ "/tmp/filepath_create/test123".toList 3
    (Or.inl (by decide)) (by decide)

/-! ### copy_file -/

theorem close_ignored_same (fs : FS) (fd : Nat) : SameFiles fs (close_ignored fs fd) := by
  unfold close_ignored
  cases hc : sys_close fs fd with
  | ok fs' => exact (sys_close_ok hc).1
  | error e => exact sameFiles_refl fs

theorem map_getD_range (bytes : List Byte) :
    (List.range bytes.length).map (fun i => bytes.getD i 0) = bytes := by
  apply List.ext_getElem
  · simp
  · intro i h1 h2
    simp [List.getD_eq_getElem?_getD, List.getElem?_eq_getElem h2]

theorem take_of_length_take {l : List Byte} {n x : Nat} (h : (l.take n).length = x) :
    l.take x = l.take n := by
  rw [List.length_take] at h
  rcases Nat.le_total n l.length with hn | hn
  · rw [Nat.min_eq_left hn] at h; rw [h]
  · rw [Nat.min_eq_right hn] at h
    rw [← h, List.take_of_length_le (le_refl _), List.take_of_length_le hn]

/-- One round of the copy loop puts the next bytes of the source at the end of what the
destination holds. -/
theorem written_copy (data : List Byte) (off : Nat) (hoff : off ≤ data.length) :
    written (data.take off) off (fun i => ((data.drop off).take BLOCK_SIZE).getD i 0)
        ((data.drop off).take BLOCK_SIZE).length =
      data.take (off + ((data.drop off).take BLOCK_SIZE).length) := by
  unfold written
  have hlen : (data.take off).length = off := by
    rw [List.length_take]; exact Nat.min_eq_left hoff
  have h1 : (data.take off ++ List.replicate (off - (data.take off).length) 0).take off =
      data.take off := by
    rw [hlen, Nat.sub_self, List.replicate_zero, List.append_nil]
    exact List.take_of_length_le (by omega)
  have h3 : (data.take off).drop (off + ((data.drop off).take BLOCK_SIZE).length) = [] :=
    List.drop_of_length_le (by omega)
  rw [h1, map_getD_range, h3, List.append_nil, List.take_add, take_of_length_take rfl]

/-- The copy loop changes the content of the destination file and nothing else of the
entries. -/
theorem copy_file_loop_frame (env : Env) (src dst : Nat) (cd : RPath) (hfdne : src ≠ dst) :
    ∀ (fuel : Nat) (fs : FS) (leftsize : Int) (fs' : FS) (rc : Int),
    (∃ off w, fs.fdInfo dst = some ⟨dst, cd, off, w⟩) → (∃ d, fs.lookup cd = some (Node.file d)) →
    copy_file_loop env src dst fuel fs leftsize = some (fs', rc) →
    fs'.cwd = fs.cwd ∧ (∀ k, k ≠ cd → fs'.lookup k = fs.lookup k) ∧
      ∃ d', fs'.lookup cd = some (Node.file d') := by
  have closes : ∀ (fs : FS), (∃ d, fs.lookup cd = some (Node.file d)) →
      (close_ignored (close_ignored fs src) dst).cwd = fs.cwd ∧
      (∀ k, k ≠ cd → (close_ignored (close_ignored fs src) dst).lookup k = fs.lookup k) ∧
      ∃ d', (close_ignored (close_ignored fs src) dst).lookup cd = some (Node.file d') := by
    intro fs hd
    have hs := sameFiles_trans (close_ignored_same fs src)
      (close_ignored_same (close_ignored fs src) dst)
    obtain ⟨d, hd⟩ := hd
    exact ⟨hs.1, fun k _ => hs.2 k, d, (hs.2 cd).trans hd⟩
  intro fuel
  induction fuel with
  | zero =>
    intro fs leftsize fs' rc _ hd h
    unfold copy_file_loop at h
    by_cases hpos : leftsize > 0
    · rw [if_pos hpos] at h; cases h
    · rw [if_neg hpos] at h
      by_cases h0 : leftsize = 0
      · rw [if_pos h0] at h
        injection h with h
        injection h with h1 _
        rw [← h1]
        exact closes fs hd
      · rw [if_neg h0] at h; cases h
  | succ fuel ih =>
    intro fs leftsize fs' rc hfd hd h
    unfold copy_file_loop at h
    by_cases hpos : leftsize > 0
    · rw [if_pos hpos] at h
      cases hread : sys_read fs src BLOCK_SIZE with
      | error e =>
        rw [hread] at h
        injection h with h
        injection h with h1 _
        rw [← h1]
        exact closes fs hd
      | ok r =>
        obtain ⟨fs1, buffer⟩ := r
        rw [hread] at h
        dsimp only at h
        obtain ⟨_, _, _, _, _, hsame1, hfds1⟩ := sys_read_ok hread
        have hd1 : ∃ d, fs1.lookup cd = some (Node.file d) := by
          obtain ⟨d, hd⟩ := hd
          exact ⟨d, (hsame1.2 cd).trans hd⟩
        have to1 : ∀ g : FS, (g.cwd = fs1.cwd ∧ (∀ k, k ≠ cd → g.lookup k = fs1.lookup k) ∧
            ∃ d', g.lookup cd = some (Node.file d')) →
            g.cwd = fs.cwd ∧ (∀ k, k ≠ cd → g.lookup k = fs.lookup k) ∧
            ∃ d', g.lookup cd = some (Node.file d') := by
          intro g hg
          exact ⟨hg.1.trans hsame1.1, fun k hk => (hg.2.1 k hk).trans (hsame1.2 k), hg.2.2⟩
        by_cases hx : buffer.length > 0
        · rw [if_pos hx] at h
          cases hwrite : sys_write env.write fs1 dst (fun i => buffer.getD i 0) buffer.length with
          | error e =>
            rw [hwrite] at h
            injection h with h
            injection h with h1 _
            rw [← h1]
            exact to1 _ (closes fs1 hd1)
          | ok r2 =>
            obtain ⟨fs2, y⟩ := r2
            rw [hwrite] at h
            dsimp only at h
            obtain ⟨o, d, _, ho, _, hol, _, _, hcwd2, hlk2, hfds2⟩ := sys_write_ok hwrite
            obtain ⟨off, w, hfd0⟩ := hfd
            have ho' : o = ⟨dst, cd, off, w⟩ := by
              rw [hfds1 dst, if_neg (fun h' => hfdne h'.symm), hfd0] at ho
              injection ho with ho
              exact ho.symm
            subst ho'
            dsimp only at hol hlk2 hfds2
            have hd2 : ∃ d', fs2.lookup cd = some (Node.file d') :=
              ⟨_, by rw [hlk2 cd, if_pos rfl]⟩
            have to2 : ∀ g : FS, (g.cwd = fs2.cwd ∧
                (∀ k, k ≠ cd → g.lookup k = fs2.lookup k) ∧
                ∃ d', g.lookup cd = some (Node.file d')) →
                g.cwd = fs.cwd ∧ (∀ k, k ≠ cd → g.lookup k = fs.lookup k) ∧
                ∃ d', g.lookup cd = some (Node.file d') := by
              intro g hg
              apply to1
              refine ⟨hg.1.trans hcwd2, ?_, hg.2.2⟩
              intro k hk
              rw [hg.2.1 k hk, hlk2 k, if_neg hk]
            by_cases hy : y = buffer.length
            · rw [if_pos hy] at h
              apply to2
              exact ih fs2 _ fs' rc ⟨_, _, by rw [hfds2 dst, if_pos rfl]⟩ hd2 h
            · rw [if_neg hy] at h
              injection h with h
              injection h with h1 _
              rw [← h1]
              exact to2 _ (closes fs2 hd2)
        · rw [if_neg hx] at h
          injection h with h
          injection h with h1 _
          rw [← h1]
          exact to1 _ (closes fs1 hd1)
    · rw [if_neg hpos] at h
      by_cases h0 : leftsize = 0
      · rw [if_pos h0] at h
        injection h with h
        injection h with h1 _
        rw [← h1]
        exact closes fs hd
      · rw [if_neg h0] at h; cases h

/-- The copy loop, when it ends well on two different files, leaves the content of the
source in the destination. -/
theorem copy_file_loop_copies (env : Env) (src dst : Nat) (cs cd : RPath) (ws wd : Bool)
    (data : List Byte) (hne : cs ≠ cd) (hfdne : src ≠ dst) :
    ∀ (fuel : Nat) (fs : FS) (leftsize : Int) (off : Nat) (fs' : FS),
    fs.fdInfo src = some ⟨src, cs, off, ws⟩ → fs.fdInfo dst = some ⟨dst, cd, off, wd⟩ →
    fs.lookup cs = some (Node.file data) → fs.lookup cd = some (Node.file (data.take off)) →
    off ≤ data.length → leftsize = (data.length : Int) - off →
    copy_file_loop env src dst fuel fs leftsize = some (fs', 0) →
    fs'.lookup cd = some (Node.file data) ∧ fs'.lookup cs = some (Node.file data) := by
  have closes : ∀ (fs : FS) (off : Nat), fs.lookup cs = some (Node.file data) →
      fs.lookup cd = some (Node.file (data.take off)) → off ≤ data.length →
      (0 : Int) = (data.length : Int) - off →
      (close_ignored (close_ignored fs src) dst).lookup cd = some (Node.file data) ∧
      (close_ignored (close_ignored fs src) dst).lookup cs = some (Node.file data) := by
    intro fs off hs hd hoff h0
    have hsame := sameFiles_trans (close_ignored_same fs src)
      (close_ignored_same (close_ignored fs src) dst)
    have : off = data.length := by omega
    rw [this, List.take_of_length_le (le_refl _)] at hd
    exact ⟨(hsame.2 cd).trans hd, (hsame.2 cs).trans hs⟩
  intro fuel
  induction fuel with
  | zero =>
    intro fs leftsize off fs' _ _ hs hd hoff hleft h
    unfold copy_file_loop at h
    by_cases hpos : leftsize > 0
    · rw [if_pos hpos] at h; cases h
    · rw [if_neg hpos] at h
      by_cases h0 : leftsize = 0
      · rw [if_pos h0] at h
        injection h with h
        injection h with h1 _
        rw [← h1]
        exact closes fs off hs hd hoff (by rw [← hleft, h0])
      · rw [if_neg h0] at h; cases h
  | succ fuel ih =>
    intro fs leftsize off fs' hfs hfd hs hd hoff hleft h
    unfold copy_file_loop at h
    by_cases hpos : leftsize > 0
    · rw [if_pos hpos] at h
      cases hread : sys_read fs src BLOCK_SIZE with
      | error e =>
        rw [hread] at h
        injection h with h
        injection h with _ h2
        cases h2
      | ok r =>
        obtain ⟨fs1, buffer⟩ := r
        rw [hread] at h
        dsimp only at h
        obtain ⟨o, d, ho, hol, hbytes, hsame1, hfds1⟩ := sys_read_ok hread
        rw [hfs] at ho
        injection ho with ho
        subst ho
        dsimp only at hol hbytes hfds1
        rw [hs] at hol
        injection hol with hol
        injection hol with hol
        subst hol
        by_cases hx : buffer.length > 0
        · rw [if_pos hx] at h
          cases hwrite : sys_write env.write fs1 dst (fun i => buffer.getD i 0) buffer.length with
          | error e =>
            rw [hwrite] at h
            injection h with h
            injection h with _ h2
            cases h2
          | ok r2 =>
            obtain ⟨fs2, y⟩ := r2
            rw [hwrite] at h
            dsimp only at h
            obtain ⟨o2, d2, _, ho2, _, hol2, _, _, _, hlk2, hfds2⟩ := sys_write_ok hwrite
            have hy : y = buffer.length := by
              by_contra hne
              rw [if_neg hne] at h
              injection h with h
              injection h with _ h2
              cases h2
            subst hy
            rw [hfds1 dst, if_neg (fun h' => hfdne h'.symm), hfd] at ho2
            injection ho2 with ho2
            subst ho2
            dsimp only at hol2 hlk2 hfds2
            rw [hsame1.2 cd, hd] at hol2
            injection hol2 with hol2
            injection hol2 with hol2
            subst hol2
            rw [if_pos rfl] at h
            have hxle : buffer.length ≤ data.length - off := by
              rw [hbytes, List.length_take, List.length_drop]
              exact Nat.min_le_right _ _
            have hcd2 : fs2.lookup cd =
                some (Node.file (data.take (off + buffer.length))) := by
              rw [hlk2 cd, if_pos rfl]
              have := written_copy data off hoff
              rw [← hbytes] at this
              rw [this]
            have hcs2 : fs2.lookup cs = some (Node.file data) := by
              rw [hlk2 cs, if_neg hne, hsame1.2 cs, hs]
            have hsrc2 : fs2.fdInfo src = some ⟨src, cs, off + buffer.length, ws⟩ := by
              rw [hfds2 src, if_neg hfdne, hfds1 src, if_pos rfl]
            have hdst2 : fs2.fdInfo dst = some ⟨dst, cd, off + buffer.length, wd⟩ := by
              rw [hfds2 dst, if_pos rfl]
            exact ih fs2 _ (off + buffer.length) fs' hsrc2 hdst2 hcs2 hcd2 (by omega)
              (by rw [hleft]; push_cast; ring) h
        · rw [if_neg hx] at h
          injection h with h
          injection h with _ h2
          cases h2
    · rw [if_neg hpos] at h
      by_cases h0 : leftsize = 0
      · rw [if_pos h0] at h
        injection h with h
        injection h with h1 _
        rw [← h1]
        exact closes fs off hs hd hoff (by rw [← hleft, h0])
      · rw [if_neg h0] at h; cases h

/-- C17, refuted as stated: `copy_file` with the source as the destination returns 0 and
leaves the file empty, because the destination is truncated when it is opened and the size
of the source is read after that; the three bytes it held are lost. -/
theorem copy_file_counterexample :
    file_content copy_fs "/tmp/test_copy_file.1".toList = some [7, 8, 9] ∧
    (copy_file example_env copy_fs "/tmp/test_copy_file.1".toList
        "/tmp/test_copy_file.1".toList).map
        (fun r => (r.2, file_content r.1 "/tmp/test_copy_file.1".toList)) =
      some (0, some []) := by
  decide

/-- C17, amended: if the source path holds a regular file, `copy_file` returns 0 and the
two paths do not name the same file afterwards (for a relative destination, in a working
directory whose ancestors are directories), then the directory of the destination exists,
the destination holds exactly the bytes the source held before the call, and the source
still holds them. -/
theorem copy_file_copies (env : Env) (fs fs' : FS) (old_path new_path : CStr)
    (data : List Byte)
    (hold : file_content fs old_path = some data)
    (hcwd : new_path.head? = some '/' ∨ DirsAbove fs fs.cwd)
    (h : copy_file env fs old_path new_path = some (fs', 0))
    (hne : resolve fs' new_path ≠ resolve fs' old_path) :
    sys_stat fs' (dirname new_path) = .ok ⟨false, true, 0⟩ ∧
    file_content fs' new_path = some data ∧ file_content fs' old_path = some data := by
  unfold copy_file at h
  dsimp only at h
  have hext := mkdirs_ext fs (dirname new_path)
  cases hm : mkdirs fs (dirname new_path) with
  | mk fs1 rc1 =>
    rw [hm] at h hext
    dsimp only at h hext
    by_cases hrc1 : rc1 = 0
    · rw [if_pos hrc1] at h
      cases hopen1 : sys_open fs1 old_path OpenFlags.O_RDONLY with
      | error e => rw [hopen1] at h; injection h with h; injection h with _ h2; cases h2
      | ok r =>
        obtain ⟨fs2, src⟩ := r
        rw [hopen1] at h
        dsimp only at h
        cases hopen2 : sys_open fs2 new_path OpenFlags.O_CREAT_TRUNC_RDWR with
        | error e => rw [hopen2] at h; injection h with h; injection h with _ h2; cases h2
        | ok r2 =>
          obtain ⟨fs3, dst⟩ := r2
          rw [hopen2] at h
          dsimp only at h
          cases hstat : sys_fstat fs3 src with
          | error e => rw [hstat] at h; injection h with h; injection h with _ h2; cases h2
          | ok s =>
            rw [hstat] at h
            dsimp only at h
            -- the source
            obtain ⟨c0, hres0, hl0⟩ := (file_content_eq_some fs old_path data).1 hold
            obtain ⟨cs, node, hres1, hl1, hsame12, _, hfds2⟩ := sys_open_rdonly_ok hopen1
            have hcs : cs = c0 := by
              have := resolve_mono (ext_dirSub hext) hres0
              rw [hres1] at this
              injection this
            subst hcs
            have hfile1 : fs1.lookup cs = some (Node.file data) := hext.2.1 cs _ hl0
            -- the destination
            obtain ⟨cd, hres2, hnd, hcwd3, hlk3, hdstnone, hfds3⟩ := sys_open_creat_ok hopen2
            have hfdne : src ≠ dst := by
              intro hsd
              rw [← hsd, hfds2 src, if_pos rfl] at hdstnone
              cases hdstnone
            have hdst3 : fs3.fdInfo dst = some ⟨dst, cd, 0, true⟩ := by
              rw [hfds3 dst, if_pos rfl]
            have hsrc3 : fs3.fdInfo src = some ⟨src, cs, 0, false⟩ := by
              rw [hfds3 src, if_neg hfdne, hfds2 src, if_pos rfl]
            have hcd3 : fs3.lookup cd = some (Node.file []) := by rw [hlk3 cd, if_pos rfl]
            obtain ⟨f1, f2, f3⟩ := copy_file_loop_frame env src dst cd hfdne s.st_size fs3
              s.st_size fs' 0 ⟨0, true, hdst3⟩ ⟨[], hcd3⟩ h
            -- the directories are those of the state after `mkdirs`
            have hsub12 : DirSub fs1 fs2 := sameFiles_dirSub hsame12
            have hsub23 : DirSub fs2 fs3 := by
              refine ⟨hcwd3, ?_⟩
              intro k hk
              have hkc : k ≠ cd := by
                intro hkc; rw [hkc] at hk; exact hnd hk
              rw [hlk3 k, if_neg hkc]; exact hk
            have hsub3' : DirSub fs3 fs' := by
              refine ⟨f1, ?_⟩
              intro k hk
              have hkc : k ≠ cd := by
                intro hkc; rw [hkc, hcd3] at hk; cases hk
              rw [f2 k hkc]; exact hk
            have hsub2' : DirSub fs2 fs' := dirSub_trans hsub23 hsub3'
            have hresn : resolve fs' new_path = .ok cd := resolve_mono hsub2' hres2
            have hreso : resolve fs' old_path = .ok cs :=
              resolve_mono (dirSub_trans hsub12 hsub2') hres1
            have hcne : cs ≠ cd := by
              intro hc
              apply hne
              rw [hresn, hreso, hc]
            -- the copy
            have hcs3 : fs3.lookup cs = some (Node.file data) := by
              rw [hlk3 cs, if_neg hcne, hsame12.2 cs, hfile1]
            have hs := sys_fstat_of_file hsrc3 hcs3
            rw [hstat] at hs
            injection hs with hs
            subst hs
            dsimp only at h
            obtain ⟨g1, g2⟩ := copy_file_loop_copies env src dst cs cd false true data hcne hfdne
              data.length fs3 (data.length : Int) 0 fs' hsrc3 hdst3 hcs3
              (by rw [hcd3]; rfl) (Nat.zero_le _) (by simp) h
            -- the directory of the destination
            have hcwd2 : new_path.head? = some '/' ∨ DirsAbove fs2 fs2.cwd := by
              rcases hcwd with hc | hc
              · exact Or.inl hc
              · right
                rw [hsame12.1, hext.1]
                exact dirsAbove_mono (dirSub_trans (ext_dirSub hext) hsub12) hc
            obtain ⟨cur, hrd, hdir, _⟩ :=
              parent_of_resolved ((resolve_ok_iff fs2 new_path cd).1 hres2).1 hnd hcwd2
            refine ⟨?_, ?_, ?_⟩
            · exact sys_stat_of_lookup (resolve_mono hsub2' hrd) (hsub2'.2 cur hdir)
            · exact (file_content_eq_some fs' new_path data).2 ⟨cd, hresn, g1⟩
            · exact (file_content_eq_some fs' old_path data).2 ⟨cs, hreso, g2⟩
    · rw [if_neg hrc1] at h
      injection h with h; injection h with _ h2; cases h2

/-- C17 amended, on the paths of the unit test `test_copy_file`. -/
theorem copy_file_copies_witness :
    sys_stat
      (⟨[(["tmp".toList], Node.dir),
         (["tmp".toList, "test_copy_file.1".toList], Node.file [7, 8, 9]),
         (["tmp".toList, "4".toList], Node.dir),
         (["tmp".toList, "4".toList, "5".toList], Node.dir),
         (["tmp".toList, "4".toList, "5".toList, "6".toList], Node.dir),
         (["tmp".toList, "4".toList, "5".toList, "6".toList, "test_copy_file.2".toList],
           Node.file [7, 8, 9])],
        ["tmp".toList], []⟩ : FS) (dirname "/tmp/4/5/6/test_copy_file.2".toList) =
      .ok ⟨false, true, 0⟩ ∧
    file_content
      (⟨[(["tmp".toList], Node.dir),
         (["tmp".toList, "test_copy_file.1".toList], Node.file [7, 8, 9]),
         (["tmp".toList, "4".toList], Node.dir),
         (["tmp".toList, "4".toList, "5".toList], Node.dir),
         (["tmp".toList, "4".toList, "5".toList, "6".toList], Node.dir),
         (["tmp".toList, "4".toList, "5".toList, "6".toList, "test_copy_file.2".toList],
           Node.file [7, 8, 9])],
        ["tmp".toList], []⟩ : FS) "/tmp/4/5/6/test_copy_file.2".toList = some [7, 8, 9] ∧
    file_content
      (⟨[(["tmp".toList], Node.dir),
         (["tmp".toList, "test_copy_file.1".toList], Node.file [7, 8, 9]),
         (["tmp".toList, "4".toList], Node.dir),
         (["tmp".toList, "4".toList, "5".toList], Node.dir),
         (["tmp".toList, "4".toList, "5".toList, "6".toList], Node.dir),
         (["tmp".toList, "4".toList, "5".toList, "6".toList, "test_copy_file.2".toList],
           Node.file [7, 8, 9])],
        ["tmp".toList], []⟩ : FS) "/tmp/test_copy_file.1".toList = some [7, 8, 9] :=
  copy_file_copies example_env copy_fs _ "/tmp/test_copy_file.1".toList
    "/tmp/4/5/6/test_copy_file.2".toList [7, 8, 9] (by decide) (Or.inl (by decide)) (by decide) (by decide)

/-! ### The unit test of file_crush -/

/-- C14, the code against the assertion `assert(rc4 == -1)` of its unit test
`test_file_crush`: one round of the test (`write_zero_file`, `open`, `file_crush` with three
passes, `close`, `read_zero_file`, every assertion before the last one holding) ends with
`read_zero_file` returning 0, not -1, for the size 0, where there is no byte to overwrite
and none to compare, and for the size 3 when the buffer of `__file_crush`, which the code
does not initialise, holds zeros. -/
theorem test_file_crush_round_returns_zero :
    test_file_crush_round example_env tmp_fs "/tmp/test_file_crush.0.0".toList 0 = some 0 ∧
    test_file_crush_round zero_env tmp_fs "/tmp/test_file_crush.0.3".toList 3 = some 0 := by
  decide

/-! ## The composite operations on failure, and renaming against backup naming -/

/-- What `set_rename_path` writes for a backup path made of the old path's directory, the
backup directory and the old path's file name with a slash-free suffix. -/
theorem set_rename_path_eq (cwd : Option CStr) (oldpath newpath : CStr)
    (od ob nd nb suffix : CStr)
    (hold : oldpath.head? = some '/')
    (hos : path_split cwd oldpath = some (od, ob))
    (hns : path_split cwd newpath = some (nd, nb))
    (hsuf : '/' ∉ suffix)
    (hlen : (od ++ '/' :: BKDIRNAME ++ '/' :: ob ++ suffix).length < MAX_PATH_LEN) :
    set_rename_path cwd oldpath newpath (od ++ '/' :: BKDIRNAME ++ '/' :: ob ++ suffix) =
      some (nd ++ '/' :: BKDIRNAME ++ '/' :: nb ++ suffix) := by
  have hsplit := hos
  unfold path_split at hsplit
  simp only [hold, if_true] at hsplit
  split_ifs at hsplit with hc
  simp only [Option.some.injEq, Prod.mk.injEq] at hsplit
  obtain ⟨hd, hb⟩ := hsplit
  simp only [not_or] at hc
  rw [hb] at hc
  have hne : ob ≠ [] := by rw [← hb]; exact basename_ne_nil _
  have hslash : '/' ∉ ob := by
    rcases basename_no_slash (snprintf MAX_PATH_LEN oldpath) with h | h
    · rw [hb] at h; exact absurd h hc.2.2
    · rw [hb] at h; exact h
  have hod : od.head? = some '/' := by
    rw [← hd]
    apply dirname_head_of_absolute
    unfold snprintf
    cases oldpath with
    | nil => simp at hold
    | cons a t => simpa [MAX_PATH_LEN] using hold
  have hbase : basename (od ++ '/' :: BKDIRNAME ++ '/' :: ob ++ suffix) = ob ++ suffix := by
    have := basename_append_slash (od ++ '/' :: BKDIRNAME) (ob ++ suffix) (by simp [hne])
      (by simp [hslash, hsuf])
    simpa using this
  have hbabs : (od ++ '/' :: BKDIRNAME ++ '/' :: ob ++ suffix).head? = some '/' := by
    cases od with
    | nil => simp at hod
    | cons a t => simpa using hod
  have hbs := path_split_of_absolute cwd _ hbabs hlen
  rw [hbase, if_neg (append_not_special ob suffix hc.1 hc.2.1 hc.2.2 hne)] at hbs
  unfold set_rename_path
  rw [hos, hns]
  simp only [hbs, List.drop_left]

/-- What `path_split` gives for an absolute path when it returns 0. -/
theorem path_split_absolute_eq (cwd : Option CStr) (filepath : CStr)
    (habs : filepath.head? = some '/') (h : path_split cwd filepath ≠ none) :
    path_split cwd filepath = some (dirname (snprintf MAX_PATH_LEN filepath),
      basename (snprintf MAX_PATH_LEN filepath)) := by
  unfold path_split at h ⊢
  simp only [habs, if_true] at h ⊢
  split_ifs at h ⊢ with hc
  · exact absurd rfl h
  · rfl

/-- A failing `file_backup_update` has done at most the `mkdirs` of `move_file`, and has
written no backup path. -/
theorem file_backup_update_failed (env : Env) (fs : FS) (oldpath : CStr) :
    (file_backup_update env fs oldpath).2.1 ≠ 0 →
      Ext fs (file_backup_update env fs oldpath).1 ∧
      (file_backup_update env fs oldpath).2.2 = none := by
  unfold file_backup_update
  cases env.gettimeofday with
  | none => intro _; exact ⟨ext_refl fs, rfl⟩
  | some tv =>
    dsimp only
    cases make_backup_name env.localtime oldpath tv with
    | none => intro _; exact ⟨ext_refl fs, rfl⟩
    | some realpath =>
      dsimp only
      unfold move_file
      dsimp only
      have hm := mkdirs_ext fs (dirname realpath)
      generalize mkdirs fs (dirname realpath) = m at hm ⊢
      obtain ⟨fs1, rc1⟩ := m
      dsimp only at hm ⊢
      by_cases hrc : rc1 = 0
      · subst hrc
        cases sys_rename fs1 oldpath realpath with
        | ok fs2 => intro h; simp at h
        | error e => intro _; exact ⟨hm, rfl⟩
      · intro _
        simp only [hrc, if_false]
        exact ⟨hm, rfl⟩

/-- C21: with a regular file /tmp/f where the new path /tmp/f/x/new wants a directory,
`mkdirs` of the new directory /tmp/f/x returns -1, and `file_backup_rename` of /tmp/a/old to
that path, told to rename the file and its backups, returns 0 and has renamed nothing: the
file system is as it was. -/
theorem file_backup_rename_mkdirs_failure :
    path_split (sys_getcwd blocked_fs) "/tmp/f/x/new".toList =
      some ("/tmp/f/x".toList, "new".toList) ∧
    (mkdirs blocked_fs "/tmp/f/x".toList).2 = -1 ∧
    file_backup_rename 2 blocked_fs "/tmp/a/old".toList "/tmp/f/x/new".toList
      (BK_RENAME_FILE ||| BK_RENAME_BACK) = some (blocked_fs, 0) := by
  decide

/-- C23, refuted as stated: for the old path /x/g with 4081 letters a for x and the new
path /n/g, on both of which `path_split` returns 0, the backup path that `make_backup_name`
writes for the old path does not fit the MAX_PATH_LEN buffers of `set_rename_path`, which
writes /n/.#__hide.youcantseeme__#/g#__hide.you for it, while `make_backup_name` of the new
path at the same time gives /n/.#__hide.youcantseeme__#/g.2020.03.23.155921.123. -/
theorem set_rename_path_of_backup_name_counterexample :
    path_split none ('/' :: (List.replicate 4081 'a' ++ "/g".toList)) ≠ none ∧
    path_split none "/n/g".toList ≠ none ∧
    (∃ bakpath, make_backup_name test_localtime
        ('/' :: (List.replicate 4081 'a' ++ "/g".toList)) ⟨1584950361, 123⟩ = some bakpath ∧
      set_rename_path none ('/' :: (List.replicate 4081 'a' ++ "/g".toList)) "/n/g".toList
        bakpath = some "/n/.#__hide.youcantseeme__#/g#__hide.you".toList) ∧
    make_backup_name test_localtime "/n/g".toList ⟨1584950361, 123⟩ =
      some "/n/.#__hide.youcantseeme__#/g.2020.03.23.155921.123".toList := by
  obtain ⟨hd, hb, hos, hset⟩ := set_rename_path_cut none (List.replicate 4081 'a')
    (backup_suffix ⟨120, 2, 23, 15, 59, 21⟩ ⟨1584950361, 123⟩)
    (fun h => absurd (List.eq_of_mem_replicate h) (by decide)) (List.length_replicate _ _)
  refine ⟨by rw [hos]; exact Option.some_ne_none _, by decide, ⟨_, ?_, hset⟩, by decide⟩
  have hlen : ('/' :: (List.replicate 4081 'a' ++ "/g".toList)).length < MAX_PATH_LEN := by
    rw [List.length_cons, List.length_append, List.length_replicate]
    decide
  rw [make_backup_name_abs_eq test_localtime ('/' :: (List.replicate 4081 'a' ++ "/g".toList))
    ⟨1584950361, 123⟩ ⟨120, 2, 23, 15, 59, 21⟩ rfl hlen rfl, hd, hb]

/-- C23, amended: for absolute paths `oldpath` and `newpath` on which `path_split` returns 0,
and a time for which `make_backup_name` of `oldpath` returns 0 with a backup path that fits
the MAX_PATH_LEN buffers, `set_rename_path` of that backup path returns 0 and writes what
`make_backup_name` of `newpath` writes for the same time. -/
theorem set_rename_path_of_backup_name (cwd : Option CStr) (localtime : Int → Option Tm)
    (oldpath newpath bakpath : CStr) (tv : Timeval)
    (hold : oldpath.head? = some '/') (hnew : newpath.head? = some '/')
    (hos : path_split cwd oldpath ≠ none) (hns : path_split cwd newpath ≠ none)
    (hbak : make_backup_name localtime oldpath tv = some bakpath)
    (hlen : bakpath.length < MAX_PATH_LEN) :
    ∃ r, set_rename_path cwd oldpath newpath bakpath = some r ∧
      make_backup_name localtime newpath tv = some r := by
  unfold make_backup_name at hbak ⊢
  cases htm : localtime tv.tv_sec with
  | none => simp [htm] at hbak
  | some tm =>
    simp only [htm, hold, hnew, if_true, Option.some.injEq] at hbak ⊢
    subst hbak
    exact ⟨_, set_rename_path_eq cwd oldpath newpath _ _ _ _ _ hold
      (path_split_absolute_eq cwd oldpath hold hos)
      (path_split_absolute_eq cwd newpath hnew hns) (backup_suffix_no_slash tm tv) hlen, rfl⟩

/-- C23 amended, for the file /a.c directly under the root directory renamed to /789/b.txt, and for
/123/a.c renamed to /b.txt directly under the root directory, at the time of the unit test
`test_make_backup_name`. -/
theorem set_rename_path_of_backup_name_witness :
    (∃ r, set_rename_path none "/a.c".toList "/789/b.txt".toList
        "//.#__hide.youcantseeme__#/a.c.2020.03.23.155921.123".toList = some r ∧
      make_backup_name test_localtime "/789/b.txt".toList ⟨1584950361, 123⟩ = some r) ∧
    (∃ r, set_rename_path none "/123/a.c".toList "/b.txt".toList
        "/123/.#__hide.youcantseeme__#/a.c.2020.03.23.155921.123".toList = some r ∧
      make_backup_name test_localtime "/b.txt".toList ⟨1584950361, 123⟩ = some r) :=
  ⟨set_rename_path_of_backup_name none test_localtime "/a.c".toList "/789/b.txt".toList
      "//.#__hide.youcantseeme__#/a.c.2020.03.23.155921.123".toList ⟨1584950361, 123⟩
      (by decide) (by decide) (by decide) (by decide) (by decide) (by decide),
    set_rename_path_of_backup_name none test_localtime "/123/a.c".toList "/b.txt".toList
      "/123/.#__hide.youcantseeme__#/a.c.2020.03.23.155921.123".toList ⟨1584950361, 123⟩
      (by decide) (by decide) (by decide) (by decide) (by decide) (by decide)⟩

/-- C25: in the directory /d with the files f and f2 and one backup of each,
`file_backup_rename` of /d/f to /d/c, told to rename the backups, returns 0 and moves the
backup named by `make_backup_name` of /d/f2 as well: afterwards there is no file at that
name, its content is at the name c2.2020.03.23.155921.123 of the backup directory, which
does not begin with "f2.", and no entry of the file system has a name that begins with
"f2.". -/
theorem file_backup_rename_sweeps_other_origin :
    "f".toList ≠ "f2".toList ∧ "f".toList <+: "f2".toList ∧
    make_backup_name test_localtime "/d/f2".toList ⟨1584950361, 123⟩ =
      some "/d/.#__hide.youcantseeme__#/f2.2020.03.23.155921.123".toList ∧
    file_content two_origins_fs "/d/.#__hide.youcantseeme__#/f2.2020.03.23.155921.123".toList =
      some [4] ∧
    file_backup_rename 2 two_origins_fs "/d/f".toList "/d/c".toList BK_RENAME_BACK =
      some (two_origins_renamed_fs, 0) ∧
    file_content two_origins_renamed_fs
      "/d/.#__hide.youcantseeme__#/f2.2020.03.23.155921.123".toList = none ∧
    file_content two_origins_renamed_fs
      "/d/.#__hide.youcantseeme__#/c2.2020.03.23.155921.123".toList = some [4] ∧
    file_content two_origins_renamed_fs "/d/f2".toList = some [2] ∧
    ¬ "f2.".toList <+: "c2.2020.03.23.155921.123".toList ∧
    ∀ x ∈ two_origins_renamed_fs.entries, ¬ "f2.".toList <+: x.1.getLast?.getD [] := by
  decide

/-- C26: for the path /d/f and the microsecond 5, the times 01:23:04 and 12:03:04 of
2020-03-23 are distinct, and `make_backup_name` returns 0 with the same backup path for
both, the time field being "1234" in both. -/
theorem make_backup_name_time_collision :
    (1584897784 : Int) ≠ 1584936184 ∧
    two_times_localtime 1584897784 = some ⟨120, 2, 23, 1, 23, 4⟩ ∧
    two_times_localtime 1584936184 = some ⟨120, 2, 23, 12, 3, 4⟩ ∧
    fmt_d 1 ++ fmt_d 23 ++ fmt_d 4 = "1234".toList ∧
    fmt_d 12 ++ fmt_d 3 ++ fmt_d 4 = "1234".toList ∧
    make_backup_name two_times_localtime "/d/f".toList ⟨1584897784, 5⟩ =
      some "/d/.#__hide.youcantseeme__#/f.2020.03.23.1234.5".toList ∧
    make_backup_name two_times_localtime "/d/f".toList ⟨1584936184, 5⟩ =
      some "/d/.#__hide.youcantseeme__#/f.2020.03.23.1234.5".toList := by
  decide

/-! ## The sweep of `file_backup_crush` -/

theorem isFile_iff (fs : FS) (k : RPath) :
    fs.isFile k = true ↔ ∃ data, fs.lookup k = some (Node.file data) := by
  unfold FS.isFile
  cases h : fs.lookup k with
  | none => simp
  | some node =>
    cases node with
    | file data => simp
    | dir => simp

theorem entry_of_lookup {fs : FS} {k : RPath} (hk : k ≠ []) (h : fs.lookup k ≠ none) :
    ∃ x ∈ fs.entries, x.1 = k := by
  rw [lookup_eq, if_neg hk] at h
  exact (lookupE_ne_none_iff _ _).1 h

theorem crushed_dirSub {fs0 fs : FS} {M : List RPath} (h : Crushed fs0 fs M) :
    DirSub fs0 fs ∧ DirSub fs fs0 := by
  obtain ⟨hcwd, hM, hrest⟩ := h
  refine ⟨⟨hcwd, fun k hk => ?_⟩, ⟨hcwd.symm, fun k hk => ?_⟩⟩
  · by_cases hm : k ∈ M
    · obtain ⟨data, hd⟩ := (isFile_iff fs0 k).1 (hM k hm).1
      rw [hk] at hd
      cases hd
    · rw [hrest k hm]; exact hk
  · by_cases hm : k ∈ M
    · rw [(hM k hm).2] at hk; cases hk
    · rw [← hrest k hm]; exact hk

/-- An entry of the current state is the entry of the state the sweep started from. -/
theorem crushed_lookup {fs0 fs : FS} {M : List RPath} (h : Crushed fs0 fs M) {k : RPath}
    {node : Node} (hk : fs.lookup k = some node) : k ∉ M ∧ fs0.lookup k = some node := by
  have hm : k ∉ M := by
    intro hm
    rw [(h.2.1 k hm).2] at hk
    cases hk
  exact ⟨hm, by rw [← h.2.2 k hm]; exact hk⟩

theorem crushed_step {fs0 fs fs' : FS} {M : List RPath} {kc : RPath} {data : List Byte}
    (h : Crushed fs0 fs M) (hl : fs.lookup kc = some (Node.file data))
    (hcwd : fs'.cwd = fs.cwd)
    (hlk : ∀ k, fs'.lookup k = if k = kc then none else fs.lookup k) :
    Crushed fs0 fs' (kc :: M) := by
  obtain ⟨hm, hl0⟩ := crushed_lookup h hl
  refine ⟨hcwd.trans h.1, ?_, ?_⟩
  · intro k hk
    rcases List.mem_cons.1 hk with e1 | e1
    · subst e1
      exact ⟨(isFile_iff fs0 k).2 ⟨data, hl0⟩, by rw [hlk k, if_pos rfl]⟩
    · refine ⟨(h.2.1 k e1).1, ?_⟩
      rw [hlk k]
      split_ifs
      · rfl
      · exact (h.2.1 k e1).2
  · intro k hk
    simp only [List.mem_cons, not_or] at hk
    rw [hlk k, if_neg hk.1]
    exact h.2.2 k hk.2

/-- What `filepath_crush` has done when it returns 0: the file at the path is gone, nothing
else has changed. -/
theorem filepath_crush_removes {env : Env} {fs fs' : FS} {p : CStr} {n : Nat}
    (h : filepath_crush env fs p n = some (fs', 0)) :
    ∃ c data, resolve fs p = .ok c ∧ fs.lookup c = some (Node.file data) ∧
      fs'.cwd = fs.cwd ∧ ∀ k, fs'.lookup k = if k = c then none else fs.lookup k := by
  have hout : ∀ (g : FS) (fd : Nat) (retcode : Int),
      (match sys_close g fd with
        | .ok fs'' => some (fs'', retcode)
        | .error _ => some (g, -1)) = some (fs', 0) → retcode = 0 ∧ SameFiles g fs' := by
    intro g fd retcode hq
    obtain ⟨f2, rc, h1, h2, _, h4⟩ := filepath_crush_out g fd retcode
    have hq2 : some (f2, rc) = some (fs', (0 : Int)) := h1.symm.trans hq
    simp only [Option.some.injEq, Prod.mk.injEq] at hq2
    obtain ⟨q1, q2⟩ := hq2
    subst q1; subst q2
    refine ⟨?_, h2⟩
    rcases h4 with h | h
    · exact h.symm
    · exact absurd h (by decide)
  unfold filepath_crush at h
  split_ifs at h with hn
  cases hopen : sys_open fs p OpenFlags.O_RDWR with
  | error e =>
    rw [hopen] at h
    simp at h
  | ok r0 =>
    obtain ⟨fs0, fd⟩ := r0
    rw [hopen] at h
    dsimp only at h
    obtain ⟨c, data, hres, hl, hsame0, _, hfds0⟩ := sys_open_rdwr_ok hopen
    cases hr1 : file_crush env fd n fs0 with
    | none =>
      rw [hr1] at h
      cases h
    | some r1 =>
      obtain ⟨fs1, rc1⟩ := r1
      rw [hr1] at h
      dsimp only at h
      by_cases hrc1 : rc1 = 0
      · subst hrc1
        rw [if_pos rfl] at h
        have hfd0 : fs0.fdInfo fd = some ⟨fd, c, 0, true⟩ := by rw [hfds0 fd, if_pos rfl]
        have hl0 : fs0.lookup c = some (Node.file data) := (hsame0.2 c).trans hl
        obtain ⟨_, ⟨data1, q2⟩, q3, q4, _⟩ :=
          file_crush_frame env fd c true n fs0 0 data fs1 0 hfd0 hl0 hr1
        cases hrem : sys_remove env.remove_denied fs1 p with
        | error e =>
          rw [hrem] at h
          exact absurd (hout _ _ _ h).1 (by decide)
        | ok fs2 =>
          rw [hrem] at h
          obtain ⟨_, hsame⟩ := hout _ _ _ h
          have hsub01 : DirSub fs fs1 := by
            refine ⟨q3.trans hsame0.1, ?_⟩
            intro k hk
            have hkc : k ≠ c := by
              intro hkc; rw [hkc, hl] at hk; cases hk
            rw [q4 k hkc, hsame0.2 k]; exact hk
          have hres1 : resolve fs1 p = .ok c := resolve_mono hsub01 hres
          obtain ⟨_, r1, _, r3⟩ := sys_remove_file hres1 q2 hrem
          refine ⟨c, data, hres, hl, ?_, ?_⟩
          · exact hsame.1.trans (r1.trans (q3.trans hsame0.1))
          · intro k
            rw [hsame.2 k, r3 k]
            split_ifs with hkc
            · rfl
            · rw [q4 k hkc, hsame0.2 k]
      · rw [if_neg hrc1] at h
        exact absurd (hout _ _ _ h).1 (by decide)

/-- The action of the crush sweep on a regular file `e` of the directory `D`. -/
theorem filepath_crush_cb_entry (env : Env) (fs : FS) (ob D e : CStr) (st : Stat)
    (hreg : st.st_isreg = true) (hDabs : D.head? = some '/')
    (he : e ≠ []) (hs : '/' ∉ e) (h1 : e ≠ ['.']) (h2 : e ≠ ['.', '.'])
    (hlen : (D ++ '/' :: e).length < MAX_PATH_LEN) :
    filepath_crush_cb env ob fs (D ++ '/' :: e) st =
      if ob <+: e then filepath_crush env fs (D ++ '/' :: e) 3 else some (fs, 0) := by
  have hh : (D ++ '/' :: e).head? = some '/' := by
    cases D with
    | nil => rfl
    | cons a t => simpa using hDabs
  have hb : basename (D ++ '/' :: e) = e := basename_append_slash D e he hs
  have hne : ¬ (e = ['.'] ∨ e = ['.', '.'] ∨ e = ['/']) := by
    simp only [not_or]
    refine ⟨h1, h2, ?_⟩
    intro e1
    apply hs
    rw [e1]
    simp
  unfold filepath_crush_cb
  rw [if_pos hreg, path_split_of_absolute _ _ hh hlen, hb, if_neg hne]
  simp only []
  by_cases hm : ob <+: e
  · rw [if_pos hm, if_pos ((strncmp_eq_iff e ob).2 hm)]
  · rw [if_neg hm, if_neg (fun h => hm ((strncmp_eq_iff e ob).1 h))]

/-- What a swept path says of its first name. -/
theorem swept_cons {fs0 : FS} {ob : CStr} {c : RPath} {e : CStr} {rel : List CStr}
    (h : Swept fs0 ob c (e :: rel)) :
    ¬ BKDIRNAME <+: e ∧ fs0.lookup (c ++ [e]) ≠ none ∧
      (rel = [] → fs0.isFile (c ++ [e]) = true ∧ ob <+: e) ∧
      (rel ≠ [] → fs0.lookup (c ++ [e]) = some Node.dir ∧ Swept fs0 ob (c ++ [e]) rel) := by
  cases rel with
  | nil =>
    obtain ⟨h1, h2, h3⟩ := h
    obtain ⟨data, hd⟩ := (isFile_iff _ _).1 h2
    refine ⟨h1, ?_, fun _ => ⟨h2, h3⟩, fun hx => absurd rfl hx⟩
    rw [hd]
    simp
  | cons e' rest =>
    obtain ⟨h1, h2, h3⟩ := h
    refine ⟨h1, ?_, ?_, fun _ => ⟨h2, h3⟩⟩
    · rw [h2]
      simp
    · intro hx
      cases hx

/-- The loop of the crush sweep over the entries of the directory `c`: when it returns 0,
the files destroyed are those the sweep reaches through the entries of the loop. -/
theorem crush_entries (env : Env) (ob : CStr) (fs0 : FS) (B : Nat)
    (W : FS → CStr → Option (FS × Int)) (D : CStr) (c : RPath)
    (hnames : ∀ x ∈ fs0.entries, ∀ n ∈ x.1, n ≠ [] ∧ '/' ∉ n ∧ n ≠ ['.'] ∧ n ≠ ['.', '.'])
    (hlen : ∀ x ∈ fs0.entries, B + (pathBelow x.1).length < MAX_PATH_LEN)
    (hD : resolve fs0 D = .ok c) (hdir : fs0.lookup c = some Node.dir)
    (habs : D.head? = some '/') (hDlen : D.length ≤ B + (pathBelow c).length)
    (hW : ∀ (e : CStr) (fs : FS) (M : List RPath) (fs' : FS),
      fs0.lookup (c ++ [e]) = some Node.dir →
      resolve fs0 (D ++ '/' :: e) = .ok (c ++ [e]) →
      (D ++ '/' :: e).length ≤ B + (pathBelow (c ++ [e])).length →
      Crushed fs0 fs M → W fs (D ++ '/' :: e) = some (fs', 0) →
      ∃ M', Crushed fs0 fs' M' ∧
        ∀ k, k ∈ M' ↔ k ∈ M ∨ ∃ rel, k = c ++ e :: rel ∧ Swept fs0 ob (c ++ [e]) rel) :
    ∀ (L : List CStr) (fs : FS) (M : List RPath) (fs' : FS),
      (∀ e ∈ L, e = ['.'] ∨ e = ['.', '.'] ∨ fs0.lookup (c ++ [e]) ≠ none) →
      Crushed fs0 fs M →
      walk_entries W (filepath_crush_cb env ob) D fs L = some (fs', 0) →
      ∃ M', Crushed fs0 fs' M' ∧
        ∀ k, k ∈ M' ↔
          k ∈ M ∨ ∃ e ∈ L, ∃ rel, k = c ++ e :: rel ∧ Swept fs0 ob c (e :: rel) := by
  intro L
  induction L with
  | nil =>
    intro fs M fs' _ hinv hw
    simp only [walk_entries, Option.some.injEq, Prod.mk.injEq, and_true] at hw
    subst hw
    exact ⟨M, hinv, fun k => by simp⟩
  | cons e L ih =>
    intro fs M fs' hL hinv hw
    have hLrest : ∀ e' ∈ L, e' = ['.'] ∨ e' = ['.', '.'] ∨ fs0.lookup (c ++ [e']) ≠ none :=
      fun e' he' => hL e' (List.mem_cons_of_mem _ he')
    -- what the name of an entry of `fs0` is like
    have hproper : fs0.lookup (c ++ [e]) ≠ none →
        e ≠ [] ∧ '/' ∉ e ∧ e ≠ ['.'] ∧ e ≠ ['.', '.'] ∧
          (D ++ '/' :: e).length < MAX_PATH_LEN := by
      intro hne
      obtain ⟨x, hx, hxk⟩ := entry_of_lookup (by simp) hne
      obtain ⟨p1, p2, p3, p4⟩ := hnames x hx e (by rw [hxk]; simp)
      refine ⟨p1, p2, p3, p4, ?_⟩
      have := hlen x hx
      rw [hxk, pathBelow_append] at this
      simp only [List.length_append, List.length_cons] at this ⊢
      omega
    rw [walk_entries] at hw
    by_cases hskip : strncmp_eq e ".".toList 2 = true ∨ strncmp_eq e "..".toList 3 = true ∨
        strncmp_eq e BKDIRNAME BKDIRNAME.length = true
    · rw [if_pos hskip] at hw
      obtain ⟨M', h1, h2⟩ := ih fs M fs' hLrest hinv hw
      refine ⟨M', h1, fun k => ?_⟩
      rw [h2 k]
      constructor
      · rintro (h | ⟨e', he', rel, hk, hs⟩)
        · exact Or.inl h
        · exact Or.inr ⟨e', List.mem_cons_of_mem _ he', rel, hk, hs⟩
      · rintro (h | ⟨e', he', rel, hk, hs⟩)
        · exact Or.inl h
        · rcases List.mem_cons.1 he' with e1 | e1
          · subst e1
            obtain ⟨s1, s2, _, _⟩ := swept_cons hs
            obtain ⟨_, _, p3, p4, _⟩ := hproper s2
            rcases skipped hskip with h | h | h
            · exact absurd h p3
            · exact absurd h p4
            · exact absurd h s1
          · exact Or.inr ⟨e', e1, rel, hk, hs⟩
    · rw [if_neg hskip] at hw
      obtain ⟨hd1, hd2, hnbk⟩ := not_skipped hskip
      have hne0 : fs0.lookup (c ++ [e]) ≠ none := by
        rcases hL e (List.mem_cons_self _ _) with h | h | h
        · exact absurd h hd1
        · exact absurd h hd2
        · exact h
      obtain ⟨hene, hes, _, _, helen⟩ := hproper hne0
      rw [snprintf_of_lt helen] at hw
      simp only [] at hw
      obtain ⟨hsub, hsub'⟩ := crushed_dirSub hinv
      have hDfs : resolve fs D = .ok c := resolve_mono hsub hD
      have hdirfs : fs.lookup c = some Node.dir := hsub.2 _ hdir
      have hres := resolve_entry hDfs hdirfs habs hene hes hd1 hd2 helen
      have hres0 := resolve_entry hD hdir habs hene hes hd1 hd2 helen
      cases hlk : fs.lookup (c ++ [e]) with
      | none =>
        rw [sys_stat_enoent hres hlk] at hw
        simp at hw
      | some node =>
        obtain ⟨hnotM, hlk0⟩ := crushed_lookup hinv hlk
        rw [sys_stat_of_lookup hres hlk] at hw
        cases node with
        | file data =>
          simp only [Node.stat, if_true] at hw
          rw [filepath_crush_cb_entry env fs ob D e _ rfl habs hene hes hd1 hd2 helen] at hw
          by_cases hm : ob <+: e
          · rw [if_pos hm] at hw
            cases hcr : filepath_crush env fs (D ++ '/' :: e) 3 with
            | none =>
              rw [hcr] at hw
              cases hw
            | some r =>
              obtain ⟨fs'', rc3⟩ := r
              rw [hcr] at hw
              simp only [] at hw
              by_cases hrc : rc3 = 0
              · subst hrc
                rw [if_pos rfl] at hw
                obtain ⟨c2, data2, q1, q2, q3, q4⟩ := filepath_crush_removes hcr
                have hc2 : c2 = c ++ [e] := by
                  rw [hres] at q1
                  injection q1 with q1
                  exact q1.symm
                subst hc2
                have hinv' := crushed_step hinv q2 q3 q4
                obtain ⟨M', h1, h2⟩ := ih fs'' _ fs' hLrest hinv' hw
                refine ⟨M', h1, fun k => ?_⟩
                rw [h2 k]
                constructor
                · rintro (h | ⟨e', he', rel, hk, hs⟩)
                  · rcases List.mem_cons.1 h with e1 | e1
                    · refine Or.inr ⟨e, List.mem_cons_self _ _, [], e1, hnbk, ?_, hm⟩
                      exact (isFile_iff _ _).2 ⟨data, hlk0⟩
                    · exact Or.inl e1
                  · exact Or.inr ⟨e', List.mem_cons_of_mem _ he', rel, hk, hs⟩
                · rintro (h | ⟨e', he', rel, hk, hs⟩)
                  · exact Or.inl (List.mem_cons_of_mem _ h)
                  · rcases List.mem_cons.1 he' with e1 | e1
                    · subst e1
                      obtain ⟨_, _, _, s4⟩ := swept_cons hs
                      by_cases hrel : rel = []
                      · subst hrel
                        exact Or.inl (hk ▸ List.mem_cons_self _ _)
                      · have := (s4 hrel).1
                        rw [hlk0] at this
                        cases this
                    · exact Or.inr ⟨e', e1, rel, hk, hs⟩
              · rw [if_neg hrc] at hw
                simp at hw
          · rw [if_neg hm] at hw
            simp only [if_true] at hw
            obtain ⟨M', h1, h2⟩ := ih fs M fs' hLrest hinv hw
            refine ⟨M', h1, fun k => ?_⟩
            rw [h2 k]
            constructor
            · rintro (h | ⟨e', he', rel, hk, hs⟩)
              · exact Or.inl h
              · exact Or.inr ⟨e', List.mem_cons_of_mem _ he', rel, hk, hs⟩
            · rintro (h | ⟨e', he', rel, hk, hs⟩)
              · exact Or.inl h
              · rcases List.mem_cons.1 he' with e1 | e1
                · subst e1
                  obtain ⟨_, _, s3, s4⟩ := swept_cons hs
                  by_cases hrel : rel = []
                  · exact absurd (s3 hrel).2 hm
                  · have := (s4 hrel).1
                    rw [hlk0] at this
                    cases this
                · exact Or.inr ⟨e', e1, rel, hk, hs⟩
        | dir =>
          simp only [Node.stat, Bool.false_eq_true, if_false, if_true] at hw
          have hlen' : (D ++ '/' :: e).length ≤ B + (pathBelow (c ++ [e])).length := by
            rw [pathBelow_append]
            simp only [List.length_append, List.length_cons] at hDlen ⊢
            omega
          cases hwr : W fs (D ++ '/' :: e) with
          | none =>
            rw [hwr] at hw
            cases hw
          | some r =>
            obtain ⟨fs'', rc3⟩ := r
            rw [hwr] at hw
            simp only [] at hw
            by_cases hrc : rc3 = 0
            · subst hrc
              rw [if_pos rfl] at hw
              obtain ⟨M'', g1, g2⟩ := hW e fs M fs'' hlk0 hres0 hlen' hinv hwr
              obtain ⟨M', h1, h2⟩ := ih fs'' M'' fs' hLrest g1 hw
              refine ⟨M', h1, fun k => ?_⟩
              rw [h2 k, g2 k]
              constructor
              · rintro ((h | ⟨rel, hk, hs⟩) | ⟨e', he', rel, hk, hs⟩)
                · exact Or.inl h
                · refine Or.inr ⟨e, List.mem_cons_self _ _, rel, hk, ?_⟩
                  cases rel with
                  | nil => exact absurd hs (by simp [Swept])
                  | cons e2 rest => exact ⟨hnbk, hlk0, hs⟩
                · exact Or.inr ⟨e', List.mem_cons_of_mem _ he', rel, hk, hs⟩
              · rintro (h | ⟨e', he', rel, hk, hs⟩)
                · exact Or.inl (Or.inl h)
                · rcases List.mem_cons.1 he' with e1 | e1
                  · subst e1
                    obtain ⟨_, _, s3, s4⟩ := swept_cons hs
                    by_cases hrel : rel = []
                    · obtain ⟨d2, hd⟩ := (isFile_iff _ _).1 (s3 hrel).1
                      rw [hlk0] at hd
                      cases hd
                    · exact Or.inl (Or.inr ⟨rel, hk, (s4 hrel).2⟩)
                  · exact Or.inr ⟨e', e1, rel, hk, hs⟩
            · rw [if_neg hrc] at hw
              simp at hw

/-- The crush sweep of a directory: when `walk_tree` returns 0, the files destroyed are
those the sweep reaches from the directory. -/
theorem crush_walk (env : Env) (ob : CStr) (fs0 : FS) (B : Nat)
    (hnames : ∀ x ∈ fs0.entries, ∀ n ∈ x.1, n ≠ [] ∧ '/' ∉ n ∧ n ≠ ['.'] ∧ n ≠ ['.', '.'])
    (hlen : ∀ x ∈ fs0.entries, B + (pathBelow x.1).length < MAX_PATH_LEN) :
    ∀ (n : Nat) (D : CStr) (c : RPath) (fs : FS) (M : List RPath) (fs' : FS),
      D.head? = some '/' → resolve fs0 D = .ok c → fs0.lookup c = some Node.dir →
      D.length ≤ B + (pathBelow c).length → Crushed fs0 fs M →
      walk_tree (filepath_crush_cb env ob) n fs D = some (fs', 0) →
      ∃ M', Crushed fs0 fs' M' ∧
        ∀ k, k ∈ M' ↔ k ∈ M ∨ ∃ rel, k = c ++ rel ∧ Swept fs0 ob c rel := by
  intro n
  induction n with
  | zero =>
    intro D c fs M fs' _ _ _ _ _ hw
    simp [walk_tree] at hw
  | succ n ih =>
    intro D c fs M fs' habs hD hdir hDlen hinv hw
    obtain ⟨hsub, _⟩ := crushed_dirSub hinv
    rw [walk_tree, sys_opendir_of_dir (resolve_mono hsub hD) (hsub.2 _ hdir)] at hw
    simp only [] at hw
    have hL : ∀ e ∈ ['.'] :: ['.', '.'] :: fs.children c,
        e = ['.'] ∨ e = ['.', '.'] ∨ fs0.lookup (c ++ [e]) ≠ none := by
      intro e he
      simp only [List.mem_cons] at he
      rcases he with h | h | h
      · exact Or.inl h
      · exact Or.inr (Or.inl h)
      · right; right
        have hne := (mem_children_iff fs c e).1 h
        cases hlk : fs.lookup (c ++ [e]) with
        | none => exact absurd hlk hne
        | some node =>
          rw [(crushed_lookup hinv hlk).2]
          simp
    obtain ⟨M', h1, h2⟩ := crush_entries env ob fs0 B (walk_tree (filepath_crush_cb env ob) n)
      D c hnames hlen hD hdir habs hDlen
      (by
        intro e fs1 M1 fs1' q1 q2 q3 q4 q5
        obtain ⟨M2, r1, r2⟩ := ih (D ++ '/' :: e) (c ++ [e]) fs1 M1 fs1'
          (by cases D with
            | nil => rfl
            | cons a t => simpa using habs) q2 q1 q3 q4 q5
        refine ⟨M2, r1, fun k => ?_⟩
        rw [r2 k]
        simp only [List.append_assoc, List.singleton_append])
      _ fs M fs' hL hinv hw
    refine ⟨M', h1, fun k => ?_⟩
    rw [h2 k]
    constructor
    · rintro (h | ⟨e, _, rel, hk, hs⟩)
      · exact Or.inl h
      · exact Or.inr ⟨e :: rel, hk, hs⟩
    · rintro (h | ⟨rel, hk, hs⟩)
      · exact Or.inl h
      · cases rel with
        | nil => exact absurd hs (by simp [Swept])
        | cons e rel =>
          obtain ⟨_, s2, s3, s4⟩ := swept_cons hs
          by_cases hm : c ++ [e] ∈ M
          · left
            by_cases hrel : rel = []
            · subst hrel
              exact hk ▸ hm
            · obtain ⟨d2, hd⟩ := (isFile_iff _ _).1 (hinv.2.1 _ hm).1
              rw [(s4 hrel).1] at hd
              cases hd
          · right
            refine ⟨e, ?_, rel, hk, hs⟩
            simp only [List.mem_cons]
            right; right
            rw [mem_children_iff, hinv.2.2 _ hm]
            exact s2

/-- In a file system whose entries lie in directories, what has an entry below it is a
directory. -/
theorem ancestor_dir {fs : FS}
    (hwf : ∀ x ∈ fs.entries, fs.lookup x.1.dropLast = some Node.dir) :
    ∀ (b : List CStr) (a : RPath), b ≠ [] → fs.lookup (a ++ b) ≠ none →
      fs.lookup a = some Node.dir := by
  intro b
  induction b using List.reverseRecOn with
  | nil => intro a hb; exact absurd rfl hb
  | append_singleton b x ih =>
    intro a _ hl
    obtain ⟨y, hy, hyk⟩ := entry_of_lookup (by simp) hl
    have hp := hwf y hy
    rw [hyk, ← List.append_assoc, List.dropLast_concat] at hp
    by_cases hb : b = []
    · subst hb
      simpa using hp
    · exact ih a hb (by rw [hp]; simp)

/-- The files the sweep reaches, in a file system whose entries lie in directories: the
regular files below the directory with no name on the way that begins with the name of the
backup directory, and a file name that begins with `ob`. -/
theorem swept_iff {fs : FS} (ob : CStr)
    (hwf : ∀ x ∈ fs.entries, fs.lookup x.1.dropLast = some Node.dir) :
    ∀ (rel : List CStr) (c : RPath), Swept fs ob c rel ↔
      rel ≠ [] ∧ fs.isFile (c ++ rel) = true ∧ (∀ n ∈ rel, ¬ BKDIRNAME <+: n) ∧
        ob <+: rel.getLast?.getD [] := by
  intro rel
  induction rel with
  | nil => intro c; simp [Swept]
  | cons e rel ih =>
    intro c
    cases rel with
    | nil =>
      simp only [Swept, ne_eq, List.cons_ne_self, not_false_eq_true, List.mem_singleton,
        forall_eq, List.getLast?_singleton, Option.getD_some, true_and]
      tauto
    | cons e' rest =>
      have hih := ih (c ++ [e])
      simp only [Swept] at hih ⊢
      rw [List.getLast?_cons_cons]
      constructor
      · rintro ⟨h1, h2, h3⟩
        obtain ⟨_, q2, q3, q4⟩ := hih.1 h3
        refine ⟨by simp, by simpa using q2, ?_, q4⟩
        intro n hn
        rcases List.mem_cons.1 hn with e1 | e1
        · rw [e1]; exact h1
        · exact q3 n e1
      · rintro ⟨_, q2, q3, q4⟩
        have hfile : fs.isFile (c ++ [e] ++ e' :: rest) = true := by simpa using q2
        refine ⟨q3 e (List.mem_cons_self _ _), ?_, hih.2 ⟨by simp, hfile,
          fun n hn => q3 n (List.mem_cons_of_mem _ hn), q4⟩⟩
        apply ancestor_dir hwf (e' :: rest) (c ++ [e]) (by simp)
        obtain ⟨data, hd⟩ := (isFile_iff _ _).1 hfile
        rw [hd]
        simp

/-- What `file_backup_crush` does when it is told to crush the backups only. -/
theorem file_backup_crush_back_eq (env : Env) (fuel : Nat) (fs : FS) (filepath : CStr)
    (habs : filepath.head? = some '/') (hlen : filepath.length < MAX_PATH_LEN) :
    file_backup_crush env fuel fs filepath CRUSH_BACK =
      if basename filepath = ['.'] ∨ basename filepath = ['.', '.'] ∨
          basename filepath = ['/'] then some (fs, -1)
      else walk_tree (filepath_crush_cb env (basename filepath)) fuel fs (dirname filepath) := by
  unfold file_backup_crush
  rw [if_pos (by decide), path_split_of_absolute _ _ habs hlen]
  by_cases hc : basename filepath = ['.'] ∨ basename filepath = ['.', '.'] ∨
      basename filepath = ['/']
  · rw [if_pos hc, if_pos hc]
  · rw [if_neg hc, if_neg hc]
    dsimp only
    rw [if_neg (by decide), if_pos (by decide)]

theorem resolved_eq {fs : FS} {p : CStr} {c : RPath} (h : resolve fs p = .ok c) :
    resolved fs p = c := by
  unfold resolved
  rw [h]

theorem lastName_concat (c : RPath) (e : CStr) : lastName (c ++ [e]) = e := by
  unfold lastName
  simp

/-- Every directory the loop of `mkdirs` makes is what a part of the path that ends before
a slash resolves to afterwards. -/
theorem mkdirs_loop_created : ∀ (rest pre : CStr) (fs : FS) (k : RPath), fs.lookup k = none →
    (mkdirs_loop fs pre rest).1.lookup k ≠ none →
    ∃ a b, rest = a ++ '/' :: b ∧ namei (mkdirs_loop fs pre rest).1 (pre ++ a) = .ok k := by
  intro rest
  induction rest with
  | nil =>
    intro pre fs k hk hk'
    simp only [mkdirs_loop] at hk'
    exact absurd hk hk'
  | cons c rest ih =>
    intro pre fs k hk hk'
    rw [mkdirs_loop] at hk' ⊢
    by_cases hc : c = '/'
    · rw [if_pos hc] at hk' ⊢
      cases hm : sys_mkdir fs pre with
      | ok fs1 =>
        rw [hm] at hk'
        dsimp only at hk' ⊢
        by_cases hk1 : fs1.lookup k = none
        · obtain ⟨a, b, h1, h2⟩ := ih (pre ++ [c]) fs1 k hk1 hk'
          exact ⟨c :: a, b, by rw [h1]; simp, by simpa using h2⟩
        · have hn := sys_mkdir_new hm hk hk1
          refine ⟨[], rest, by rw [hc]; simp, ?_⟩
          rw [List.append_nil]
          exact namei_mono (ext_dirSub (ext_trans (sys_mkdir_ext hm)
            (mkdirs_loop_ext rest (pre ++ [c]) fs1))) hn
      | error ec =>
        rw [hm] at hk'
        dsimp only at hk' ⊢
        by_cases he : ec = Errno.EEXIST
        · rw [if_pos he] at hk' ⊢
          obtain ⟨a, b, h1, h2⟩ := ih (pre ++ [c]) fs k hk hk'
          exact ⟨c :: a, b, by rw [h1]; simp, by simpa using h2⟩
        · rw [if_neg he] at hk'
          exact absurd hk hk'
    · rw [if_neg hc] at hk' ⊢
      obtain ⟨a, b, h1, h2⟩ := ih (pre ++ [c]) fs k hk hk'
      exact ⟨c :: a, b, by rw [h1]; simp, by simpa using h2⟩

/-- Every directory `mkdirs` makes for an absolute path is what a part of the path that
ends before a slash resolves to afterwards. -/
theorem mkdirs_created {fs : FS} {p : CStr} (habs : p.head? = some '/') {k : RPath}
    (hk : fs.lookup k = none) (hk' : (mkdirs fs p).1.lookup k ≠ none) :
    ∃ q b, p ++ ['/'] = q ++ '/' :: b ∧ q.head? = some '/' ∧
      namei (mkdirs fs p).1 q = .ok k := by
  cases p with
  | nil => simp at habs
  | cons c t =>
    have hc : c = '/' := by simpa using habs
    subst hc
    have e : mkdirs fs ('/' :: t) = mkdirs_loop fs ['/'] (t ++ ['/']) := by
      unfold mkdirs
      simp
    rw [e] at hk' ⊢
    obtain ⟨a, b, h1, h2⟩ := mkdirs_loop_created _ _ _ _ hk hk'
    exact ⟨'/' :: a, b, by simp [h1], rfl, by simpa using h2⟩

theorem append_singleton_cases {x q b : CStr} {s : Char} (h : x ++ [s] = q ++ s :: b) :
    x = q ∨ ∃ b', x = q ++ s :: b' := by
  rcases List.eq_nil_or_concat b with hb | ⟨b', s', hb⟩
  · subst hb
    left
    exact (List.append_inj' h rfl).1
  · subst hb
    right
    have : x ++ [s] = (q ++ s :: b') ++ [s'] := by simpa using h
    exact ⟨b', (List.append_inj' this rfl).1⟩

/-- Two ways to cut a path at a slash, the second one at its last slash. -/
theorem slash_split {a b c d : CStr} (hd : '/' ∉ d) (h : a ++ '/' :: b = c ++ '/' :: d) :
    a = c ∨ ∃ x, c = a ++ '/' :: x := by
  rw [List.append_eq_append_iff] at h
  rcases h with ⟨a', h1, h2⟩ | ⟨c', h1, h2⟩
  · cases a' with
    | nil =>
      left
      simpa using h1.symm
    | cons y a' =>
      right
      simp only [List.cons_append, List.cons.injEq] at h2
      exact ⟨a', by rw [h1, ← h2.1]⟩
  · cases c' with
    | nil =>
      left
      simpa using h1
    | cons y c' =>
      exfalso
      simp only [List.cons_append, List.cons.injEq] at h2
      apply hd
      rw [h2.2]
      simp

/-- A walk that ends in a directory starts in one. -/
theorem walk_from_dir {fs : FS} : ∀ (ns : List CStr) (c c' : RPath),
    walk fs c ns = .ok c' → fs.lookup c' = some Node.dir → fs.lookup c = some Node.dir := by
  intro ns
  cases ns with
  | nil =>
    intro c c' hw hd
    simp only [walk, Except.ok.injEq] at hw
    exact hw ▸ hd
  | cons n ns =>
    intro c c' hw _
    rw [walk_cons_ok] at hw
    obtain ⟨c1, h1, _⟩ := hw
    exact ((step_ok_iff _ _ _ _).1 h1).1

/-- How the path of the backup directory of a directory resolves. -/
theorem walk_backup_dir {fs : FS} {nd : CStr} {cND c : RPath}
    (hw : walk fs [] (names nd) = .ok cND)
    (h : walk fs [] (names (nd ++ '/' :: BKDIRNAME)) = .ok c) :
    c = cND ++ [BKDIRNAME] ∧ fs.lookup cND = some Node.dir := by
  rw [names_append_slash, names_of_no_slash BKDIRNAME (by decide) (by decide),
    walk_append_ok] at h
  obtain ⟨c1, h3, h4⟩ := h
  rw [hw] at h3
  injection h3 with h3
  subst h3
  rw [walk_cons_ok] at h4
  obtain ⟨c2, h5, h6⟩ := h4
  simp only [walk, Except.ok.injEq] at h6
  rw [step_ok_iff, if_neg (by decide), if_neg (by decide)] at h5
  exact ⟨h6 ▸ h5.2, h5.1⟩

/-- When the directory `nd` exists, `mkdirs` of its backup directory makes that directory
at most. -/
theorem mkdirs_backup_dir {fs : FS} {nd : CStr} {cND : RPath} (habs : nd.head? = some '/')
    (hw : walk fs [] (names nd) = .ok cND) (hdir : fs.lookup cND = some Node.dir)
    {k : RPath} (hk : k ≠ cND ++ [BKDIRNAME]) :
    (mkdirs fs (nd ++ '/' :: BKDIRNAME)).1.lookup k = fs.lookup k := by
  have hext := mkdirs_ext fs (nd ++ '/' :: BKDIRNAME)
  cases hl : fs.lookup k with
  | some n => exact hext.2.1 k n hl
  | none =>
    by_contra hc
    have habs' : (nd ++ '/' :: BKDIRNAME).head? = some '/' := by
      cases nd with
      | nil => rfl
      | cons a t => simpa using habs
    obtain ⟨q, b, h1, hq, h2⟩ := mkdirs_created habs' hl hc
    have hsub := ext_dirSub hext
    have hw' := walk_mono hsub _ _ _ hw
    rw [namei_ok_iff, if_pos hq] at h2
    obtain ⟨_, _, h2⟩ := h2
    rcases append_singleton_cases h1 with e | ⟨b', e⟩
    · rw [← e] at h2
      exact hk (walk_backup_dir hw' h2).1
    · rcases slash_split (by decide : '/' ∉ BKDIRNAME) e.symm with e1 | ⟨x, e1⟩
      · rw [e1, hw'] at h2
        injection h2 with h2
        rw [← h2, hdir] at hl
        cases hl
      · rw [e1, names_append_slash, walk_append_ok] at hw
        obtain ⟨c1, h3, h4⟩ := hw
        have hd1 := walk_from_dir _ _ _ h4 hdir
        rw [walk_mono hsub _ _ _ h3] at h2
        injection h2 with h2
        rw [← h2, hd1] at hl
        cases hl

/-! ### The sweep of `file_backup_rename` over the tree below the old backup directory -/

theorem walked_concat {cOB : RPath} {rel : List CStr} {e : CStr}
    (hrel : ∀ n ∈ rel, n ≠ ['.'] ∧ n ≠ ['.', '.'] ∧ ¬ BKDIRNAME <+: n)
    (he : e ≠ ['.'] ∧ e ≠ ['.', '.'] ∧ ¬ BKDIRNAME <+: e) :
    Walked cOB (cOB ++ rel ++ [e]) := by
  refine ⟨by rw [List.append_assoc]; exact List.prefix_append _ _, ?_, ?_⟩
  · intro h
    have := congrArg List.length h
    simp only [List.length_append, List.length_singleton] at this
    omega
  · rw [List.append_assoc, List.drop_left]
    intro n hn
    rcases List.mem_append.1 hn with h | h
    · exact hrel n h
    · rw [List.mem_singleton.1 h]
      exact he

theorem new_backup_injective {cND : RPath} {ob nb : CStr} {k k' : RPath}
    (h : ob <+: lastName k) (h' : ob <+: lastName k')
    (heq : new_backup cND ob nb k' = new_backup cND ob nb k) : lastName k' = lastName k := by
  unfold new_backup at heq
  have := List.append_cancel_left heq
  simp only [List.cons.injEq, true_and, and_true] at this
  exact new_name_injective h' h this

/-- One move of the sweep keeps the invariant. -/
theorem sweep_step {fs3 fs fs' : FS} {cOB cND : RPath} {ob nd nb : CStr} {M : List RPath}
    {k : RPath}
    (hHM : ∀ k, Moved fs3 cOB ob k → ∀ k', Moved fs3 cOB ob k' →
      new_backup cND ob nb k ≠ k' ∧ (lastName k' = lastName k → k' = k))
    (hinv : SweepInv fs3 fs cOB cND ob nd nb M) (hk : Moved fs3 cOB ob k)
    (hsub : DirSub fs fs' ∧ DirSub fs' fs)
    (hlk : ∀ key, fs'.lookup key =
      if key = new_backup cND ob nb k then fs.lookup k
      else if key = k then none else fs.lookup key)
    (hsrc : fs.lookup k ≠ none)
    (hres : resolve fs (nd ++ '/' :: BKDIRNAME ++ '/' :: nb ++ (lastName k).drop ob.length) =
      .ok (new_backup cND ob nb k)) :
    SweepInv fs3 fs' cOB cND ob nd nb (k :: M) := by
  obtain ⟨hd1, hd2, hM, hframe⟩ := hinv
  -- the source is not one of the moved files, nor one of their new places
  have hsrc_eq : fs.lookup k = fs3.lookup k := by
    apply hframe
    intro k' hk'
    obtain ⟨hm', _, hgone, _⟩ := hM k' hk'
    exact ⟨fun e => (hHM k' hm' k hk).1 e.symm, fun e => hsrc (e ▸ hgone)⟩
  have hST : k ≠ new_backup cND ob nb k := fun e => (hHM k hk k hk).1 e.symm
  refine ⟨dirSub_trans hd1 hsub.1, dirSub_trans hsub.2 hd2, ?_, ?_⟩
  · intro k' hk'
    rcases List.mem_cons.1 hk' with e1 | e1
    · subst e1
      refine ⟨hk, ?_, ?_, resolve_mono hsub.1 hres⟩
      · rw [hlk, if_pos rfl, hsrc_eq]
      · rw [hlk, if_neg hST, if_pos rfl]
    · obtain ⟨hm', hT', hS', hR'⟩ := hM k' e1
      have hne : k' ≠ k := fun e => hsrc (e ▸ hS')
      refine ⟨hm', ?_, ?_, resolve_mono hsub.1 hR'⟩
      · rw [hlk]
        have e2 : new_backup cND ob nb k' ≠ new_backup cND ob nb k := by
          intro e
          exact hne ((hHM k hk k' hm').2 (new_backup_injective hk.2.2 hm'.2.2 e))
        rw [if_neg e2, if_neg (hHM k' hm' k hk).1, hT']
      · rw [hlk, if_neg (fun e => (hHM k hk k' hm').1 e.symm), if_neg hne]
        exact hS'
  · intro key hkey
    have hk0 := hkey k (List.mem_cons_self _ _)
    rw [hlk, if_neg hk0.1, if_neg hk0.2]
    exact hframe key (fun k' hk' => hkey k' (List.mem_cons_of_mem _ hk'))

/-- The loop of the sweep over the names of a directory below the old backup directory: when
it returns 0, the files of the directory that the sweep moves are moved, and the invariant
holds. -/
theorem rename_entries (W : FS → CStr → Option (FS × Int)) {fs3 : FS} {cOB cND : RPath}
    {ob nd nb D0 : CStr}
    (hHE : ∀ k, fs3.lookup k ≠ none → Walked cOB k →
      (∀ n ∈ k.drop cOB.length, n ≠ [] ∧ '/' ∉ n) ∧
      D0.length + (pathBelow (k.drop cOB.length)).length < MAX_PATH_LEN)
    (hHL : ∀ k, Moved fs3 cOB ob k →
      (nd ++ '/' :: BKDIRNAME ++ '/' :: nb ++ (lastName k).drop ob.length).length
        < MAX_PATH_LEN)
    (hHM : ∀ k, Moved fs3 cOB ob k → ∀ k', Moved fs3 cOB ob k' →
      new_backup cND ob nb k ≠ k' ∧ (lastName k' = lastName k → k' = k))
    (hND : walk fs3 [] (names nd) = .ok cND) (hNabs : nd.head? = some '/')
    (hnb : nb ≠ [] ∧ nb ≠ ['.'] ∧ nb ≠ ['.', '.'] ∧ nb ≠ ['/'] ∧ '/' ∉ nb)
    {D : CStr} {rel : List CStr}
    (hrel : ∀ n ∈ rel, n ≠ ['.'] ∧ n ≠ ['.', '.'] ∧ ¬ BKDIRNAME <+: n)
    (hD : resolve fs3 D = .ok (cOB ++ rel)) (hDdir : fs3.lookup (cOB ++ rel) = some Node.dir)
    (hDabs : D.head? = some '/') (hDlen : D.length ≤ D0.length + (pathBelow rel).length)
    (hW : ∀ (e : CStr) (fs : FS) (M : List RPath) (fs' : FS),
      (e ≠ ['.'] ∧ e ≠ ['.', '.'] ∧ ¬ BKDIRNAME <+: e) →
      fs3.lookup (cOB ++ rel ++ [e]) = some Node.dir →
      resolve fs3 (D ++ '/' :: e) = .ok (cOB ++ rel ++ [e]) →
      (D ++ '/' :: e).length ≤ D0.length + (pathBelow (rel ++ [e])).length →
      SweepInv fs3 fs cOB cND ob nd nb M → W fs (D ++ '/' :: e) = some (fs', 0) →
      ∃ M', SweepInv fs3 fs' cOB cND ob nd nb M' ∧ ∀ k ∈ M, k ∈ M') :
    ∀ (L : List CStr) (fs : FS) (M : List RPath) (fs' : FS),
      (∀ e ∈ L, e = ['.'] ∨ e = ['.', '.'] ∨ fs3.lookup (cOB ++ rel ++ [e]) ≠ none) →
      SweepInv fs3 fs cOB cND ob nd nb M →
      walk_entries W (file_backup_rename_cb ⟨ob, nd, nb⟩) D fs L = some (fs', 0) →
      ∃ M', SweepInv fs3 fs' cOB cND ob nd nb M' ∧ (∀ k ∈ M, k ∈ M') ∧
        ∀ e ∈ L, Moved fs3 cOB ob (cOB ++ rel ++ [e]) → cOB ++ rel ++ [e] ∈ M' := by
  intro L
  induction L with
  | nil =>
    intro fs M fs' _ hinv hw
    simp only [walk_entries, Option.some.injEq, Prod.mk.injEq, and_true] at hw
    subst hw
    exact ⟨M, hinv, fun k hk => hk, fun e he => absurd he (List.not_mem_nil e)⟩
  | cons e L ih =>
    intro fs M fs' hL hinv hw
    have hLrest : ∀ e' ∈ L, e' = ['.'] ∨ e' = ['.', '.'] ∨
        fs3.lookup (cOB ++ rel ++ [e']) ≠ none :=
      fun e' he' => hL e' (List.mem_cons_of_mem _ he')
    -- what is left to show once the rest of the loop is done, when `e` is not moved
    have hskipcase : ¬ Moved fs3 cOB ob (cOB ++ rel ++ [e]) →
        walk_entries W (file_backup_rename_cb ⟨ob, nd, nb⟩) D fs L = some (fs', 0) →
        ∃ M', SweepInv fs3 fs' cOB cND ob nd nb M' ∧ (∀ k ∈ M, k ∈ M') ∧
          ∀ e' ∈ e :: L, Moved fs3 cOB ob (cOB ++ rel ++ [e']) →
            cOB ++ rel ++ [e'] ∈ M' := by
      intro hnm hw'
      obtain ⟨M', h1, h2, h3⟩ := ih fs M fs' hLrest hinv hw'
      refine ⟨M', h1, h2, fun e' he' hm' => ?_⟩
      rcases List.mem_cons.1 he' with e1 | e1
      · exact absurd (e1 ▸ hm') hnm
      · exact h3 e' e1 hm'
    rw [walk_entries] at hw
    by_cases hskip : strncmp_eq e ".".toList 2 = true ∨ strncmp_eq e "..".toList 3 = true ∨
        strncmp_eq e BKDIRNAME BKDIRNAME.length = true
    · rw [if_pos hskip] at hw
      apply hskipcase _ hw
      intro hm
      have hn := hm.2.1.2.2 e (by
        rw [List.append_assoc, List.drop_left]
        simp)
      rcases skipped hskip with h | h | h
      · exact hn.1 h
      · exact hn.2.1 h
      · exact hn.2.2 h
    · rw [if_neg hskip] at hw
      have hns := not_skipped hskip
      obtain ⟨hd1, hd2, hnbk⟩ := hns
      have hne3 : fs3.lookup (cOB ++ rel ++ [e]) ≠ none := by
        rcases hL e (List.mem_cons_self _ _) with h | h | h
        · exact absurd h hd1
        · exact absurd h hd2
        · exact h
      have hwk : Walked cOB (cOB ++ rel ++ [e]) := walked_concat hrel ⟨hd1, hd2, hnbk⟩
      obtain ⟨hproper, hlen0⟩ := hHE _ hne3 hwk
      rw [List.append_assoc, List.drop_left] at hproper hlen0
      obtain ⟨hene, hes⟩ := hproper e (by simp)
      rw [pathBelow_append] at hlen0
      have helen : (D ++ '/' :: e).length < MAX_PATH_LEN := by
        simp only [List.length_append, List.length_cons] at hlen0 ⊢
        omega
      rw [snprintf_of_lt helen] at hw
      simp only [] at hw
      have hDfs : resolve fs D = .ok (cOB ++ rel) := resolve_mono hinv.1 hD
      have hdirfs : fs.lookup (cOB ++ rel) = some Node.dir := hinv.1.2 _ hDdir
      have hres := resolve_entry hDfs hdirfs hDabs hene hes hd1 hd2 helen
      have hres3 := resolve_entry hD hDdir hDabs hene hes hd1 hd2 helen
      cases hlk : fs.lookup (cOB ++ rel ++ [e]) with
      | none =>
        rw [sys_stat_enoent hres hlk] at hw
        simp at hw
      | some node =>
        rw [sys_stat_of_lookup hres hlk] at hw
        cases node with
        | dir =>
          simp only [Node.stat, Bool.false_eq_true, if_false, if_true] at hw
          have hdir3 : fs3.lookup (cOB ++ rel ++ [e]) = some Node.dir := hinv.2.1.2 _ hlk
          have hlen' : (D ++ '/' :: e).length ≤ D0.length + (pathBelow (rel ++ [e])).length := by
            rw [pathBelow_append]
            simp only [List.length_append, List.length_cons] at hDlen ⊢
            omega
          cases hwr : W fs (D ++ '/' :: e) with
          | none =>
            rw [hwr] at hw
            cases hw
          | some r =>
            obtain ⟨fs'', rc3⟩ := r
            rw [hwr] at hw
            simp only [] at hw
            by_cases hrc : rc3 = 0
            · subst hrc
              rw [if_pos rfl] at hw
              obtain ⟨M'', g1, g2⟩ := hW e fs M fs'' ⟨hd1, hd2, hnbk⟩ hdir3 hres3 hlen' hinv hwr
              obtain ⟨M', h1, h2, h3⟩ := ih fs'' M'' fs' hLrest g1 hw
              refine ⟨M', h1, fun k hk => h2 k (g2 k hk), fun e' he' hm' => ?_⟩
              rcases List.mem_cons.1 he' with e1 | e1
              · exfalso
                rw [e1] at hm'
                obtain ⟨d, hd⟩ := (isFile_iff _ _).1 hm'.1
                rw [hdir3] at hd
                cases hd
              · exact h3 e' e1 hm'
            · rw [if_neg hrc] at hw
              simp at hw
        | file data =>
          simp only [Node.stat, if_true] at hw
          rw [file_backup_rename_cb_entry fs ob nd nb D e _ rfl hDabs hene hes hd1 hd2 helen]
            at hw
          by_cases hm : ob <+: e
          · rw [if_pos hm] at hw
            have hfile3 : fs3.isFile (cOB ++ rel ++ [e]) = true := by
              cases h3 : fs3.lookup (cOB ++ rel ++ [e]) with
              | none => exact absurd h3 hne3
              | some node3 =>
                cases node3 with
                | dir =>
                  have := hinv.1.2 _ h3
                  rw [hlk] at this
                  cases this
                | file d3 => exact (isFile_iff _ _).2 ⟨d3, h3⟩
            have hmoved : Moved fs3 cOB ob (cOB ++ rel ++ [e]) :=
              ⟨hfile3, hwk, by rw [lastName_concat]; exact hm⟩
            have hnlen := hHL _ hmoved
            rw [lastName_concat] at hnlen
            rw [snprintf_of_lt hnlen] at hw
            cases hrn : sys_rename fs (D ++ '/' :: e)
                (nd ++ '/' :: BKDIRNAME ++ '/' :: nb ++ e.drop ob.length) with
            | error er =>
              rw [hrn] at hw
              simp at hw
            | ok fs'' =>
              rw [hrn] at hw
              simp only [if_true] at hw
              obtain ⟨cn, hn, hnl, _, _, _, hdiff⟩ := sys_rename_file hres hlk hrn
              -- the resolved path of the new name
              have hnew : nd ++ '/' :: BKDIRNAME ++ '/' :: nb ++ e.drop ob.length =
                  (nd ++ '/' :: BKDIRNAME) ++ '/' :: (nb ++ e.drop ob.length) := by simp
              have hxs : '/' ∉ nb ++ e.drop ob.length := by
                simp only [List.mem_append, not_or]
                exact ⟨hnb.2.2.2.2, fun h => hes (List.mem_of_mem_drop h)⟩
              have hxne : nb ++ e.drop ob.length ≠ [] := by simp [hnb.1]
              have hNBabs : (nd ++ '/' :: BKDIRNAME).head? = some '/' := by
                cases nd with
                | nil => rfl
                | cons a t => simpa using hNabs
              have hrT := (resolve_ok_iff _ _ _).2 ⟨hn, fun h => absurd h hnl⟩
              rw [hnew] at hn
              obtain ⟨c1, hw1, hs1⟩ := namei_append_name hNBabs hxne hxs hn
              obtain ⟨hc1, _⟩ := walk_backup_dir (walk_mono hinv.1 _ _ _ hND) hw1
              subst hc1
              rw [step_ok_iff] at hs1
              have hsp := append_not_special nb (e.drop ob.length) hnb.2.1 hnb.2.2.1
                hnb.2.2.2.1 hnb.1
              simp only [not_or] at hsp
              have hcn : cn = new_backup cND ob nb (cOB ++ rel ++ [e]) := by
                have := hs1.2
                rw [if_neg hsp.1, if_neg hsp.2.1] at this
                rw [this]
                unfold new_backup
                rw [lastName_concat]
                simp
              subst hcn
              have hne : cOB ++ rel ++ [e] ≠ new_backup cND ob nb (cOB ++ rel ++ [e]) :=
                fun e1 => (hHM _ hmoved _ hmoved).1 e1.symm
              have hlk' : ∀ key, fs''.lookup key =
                  if key = new_backup cND ob nb (cOB ++ rel ++ [e]) then
                    fs.lookup (cOB ++ rel ++ [e])
                  else if key = cOB ++ rel ++ [e] then none else fs.lookup key := by
                intro key
                rw [hdiff hne key, hlk]
              have hinv' := sweep_step hHM hinv hmoved (sys_rename_file_dirSub hres hlk hrn)
                hlk' (by rw [hlk]; simp) (by rw [lastName_concat]; exact hrT)
              obtain ⟨M', h1, h2, h3⟩ := ih fs'' _ fs' hLrest hinv' hw
              refine ⟨M', h1, fun k hk => h2 k (List.mem_cons_of_mem _ hk),
                fun e' he' hm' => ?_⟩
              rcases List.mem_cons.1 he' with e1 | e1
              · rw [e1]
                exact h2 _ (List.mem_cons_self _ _)
              · exact h3 e' e1 hm'
          · rw [if_neg hm] at hw
            simp only [if_true] at hw
            apply hskipcase _ hw
            intro hmv
            have := hmv.2.2
            rw [lastName_concat] at this
            exact hm this

/-- The sweep of a directory below the old backup directory: when `walk_tree` returns 0, the
files of the directory that the sweep moves are moved, and the invariant holds. -/
theorem rename_walk {fs3 : FS} {cOB cND : RPath} {ob nd nb D0 : CStr}
    (hHE : ∀ k, fs3.lookup k ≠ none → Walked cOB k →
      (∀ n ∈ k.drop cOB.length, n ≠ [] ∧ '/' ∉ n) ∧
      D0.length + (pathBelow (k.drop cOB.length)).length < MAX_PATH_LEN)
    (hHL : ∀ k, Moved fs3 cOB ob k →
      (nd ++ '/' :: BKDIRNAME ++ '/' :: nb ++ (lastName k).drop ob.length).length
        < MAX_PATH_LEN)
    (hHM : ∀ k, Moved fs3 cOB ob k → ∀ k', Moved fs3 cOB ob k' →
      new_backup cND ob nb k ≠ k' ∧ (lastName k' = lastName k → k' = k))
    (hND : walk fs3 [] (names nd) = .ok cND) (hNabs : nd.head? = some '/')
    (hnb : nb ≠ [] ∧ nb ≠ ['.'] ∧ nb ≠ ['.', '.'] ∧ nb ≠ ['/'] ∧ '/' ∉ nb) :
    ∀ (n : Nat) (D : CStr) (rel : List CStr) (fs : FS) (M : List RPath) (fs' : FS),
      (∀ x ∈ rel, x ≠ ['.'] ∧ x ≠ ['.', '.'] ∧ ¬ BKDIRNAME <+: x) →
      resolve fs3 D = .ok (cOB ++ rel) → fs3.lookup (cOB ++ rel) = some Node.dir →
      D.head? = some '/' → D.length ≤ D0.length + (pathBelow rel).length →
      (M ≠ [] → cOB ++ rel ≠ cND ++ [BKDIRNAME]) →
      SweepInv fs3 fs cOB cND ob nd nb M →
      walk_tree (file_backup_rename_cb ⟨ob, nd, nb⟩) n fs D = some (fs', 0) →
      ∃ M', SweepInv fs3 fs' cOB cND ob nd nb M' ∧ (∀ k ∈ M, k ∈ M') ∧
        ∀ e, Moved fs3 cOB ob (cOB ++ rel ++ [e]) → cOB ++ rel ++ [e] ∈ M' := by
  intro n
  induction n with
  | zero =>
    intro D rel fs M fs' _ _ _ _ _ _ _ hw
    simp [walk_tree] at hw
  | succ n ih =>
    intro D rel fs M fs' hrel hD hdir habs hDlen hfresh hinv hw
    rw [walk_tree, sys_opendir_of_dir (resolve_mono hinv.1 hD) (hinv.1.2 _ hdir)] at hw
    simp only [] at hw
    have hL : ∀ e ∈ ['.'] :: ['.', '.'] :: fs.children (cOB ++ rel),
        e = ['.'] ∨ e = ['.', '.'] ∨ fs3.lookup (cOB ++ rel ++ [e]) ≠ none := by
      intro e he
      simp only [List.mem_cons] at he
      rcases he with h | h | h
      · exact Or.inl h
      · exact Or.inr (Or.inl h)
      · right; right
        have hne := (mem_children_iff fs _ e).1 h
        by_cases hall : ∀ k ∈ M, cOB ++ rel ++ [e] ≠ new_backup cND ob nb k ∧
            cOB ++ rel ++ [e] ≠ k
        · rw [← hinv.2.2.2 _ hall]
          exact hne
        · exfalso
          push_neg at hall
          obtain ⟨k, hk, hk2⟩ := hall
          by_cases e1 : cOB ++ rel ++ [e] = new_backup cND ob nb k
          · apply hfresh (List.ne_nil_of_mem hk)
            unfold new_backup at e1
            have e2 : cOB ++ rel ++ [e] =
                (cND ++ [BKDIRNAME]) ++ [nb ++ (lastName k).drop ob.length] := by
              rw [e1]
              simp
            exact (List.append_inj' e2 rfl).1
          · rw [hk2 e1] at hne
            exact hne (hinv.2.2.1 k hk).2.2.1
    obtain ⟨M', h1, h2, h3⟩ := rename_entries (walk_tree (file_backup_rename_cb ⟨ob, nd, nb⟩) n)
      hHE hHL hHM hND hNabs hnb hrel hD hdir habs hDlen
      (by
        intro e fs1 M1 fs1' q0 q1 q2 q3 q4 q5
        have hrel' : ∀ x ∈ rel ++ [e], x ≠ ['.'] ∧ x ≠ ['.', '.'] ∧ ¬ BKDIRNAME <+: x := by
          intro x hx
          rcases List.mem_append.1 hx with h | h
          · exact hrel x h
          · rw [List.mem_singleton.1 h]
            exact q0
        have hfresh' : M1 ≠ [] → cOB ++ (rel ++ [e]) ≠ cND ++ [BKDIRNAME] := by
          intro _ e1
          rw [← List.append_assoc] at e1
          have := (List.append_inj' e1 rfl).2
          simp only [List.cons.injEq, and_true] at this
          exact q0.2.2 (this ▸ List.prefix_refl _)
        rw [List.append_assoc] at q1 q2
        obtain ⟨M2, r1, r2, _⟩ := ih (D ++ '/' :: e) (rel ++ [e]) fs1 M1 fs1' hrel' q2 q1
          (by cases D with
            | nil => rfl
            | cons a t => simpa using habs) q3 hfresh' q4 q5
        exact ⟨M2, r1, r2⟩)
      _ fs M fs' hL hinv hw
    refine ⟨M', h1, h2, fun e hm => ?_⟩
    by_cases hmem : cOB ++ rel ++ [e] ∈ M
    · exact h2 _ hmem
    · apply h3 e _ hm
      simp only [List.mem_cons]
      right; right
      rw [mem_children_iff]
      have : fs.lookup (cOB ++ rel ++ [e]) = fs3.lookup (cOB ++ rel ++ [e]) := by
        apply hinv.2.2.2
        intro k hk
        refine ⟨fun e1 => (hHM k (hinv.2.2.1 k hk).1 _ hm).1 e1.symm, fun e1 => hmem (e1 ▸ hk)⟩
      rw [this]
      obtain ⟨d, hd⟩ := (isFile_iff _ _).1 hm.1
      rw [hd]
      simp

/-! ### The claim on renaming a file and its backups -/

theorem pathBelow_cons (n : CStr) (r : RPath) : pathBelow (n :: r) = '/' :: n ++ pathBelow r := by
  simp [pathBelow]

/-- The sweep of `file_backup_rename`, for every entry of the old backup directory that is
the old file name followed by a slash-free suffix. -/
theorem file_backup_rename_sweep (fuel : Nat) (fs fs' : FS) (oldpath newpath : CStr)
    (data : List Byte)
    (hfile : file_content fs oldpath = some data)
    (hmk : (mkdirs fs (dirname newpath)).2 = 0)
    (hready : RenameReady (mkdirs fs (dirname newpath)).1 oldpath newpath)
    (hret : file_backup_rename fuel fs oldpath newpath (BK_RENAME_FILE ||| BK_RENAME_BACK) =
      some (fs', 0)) :
    sys_stat fs' oldpath = .error Errno.ENOENT ∧ file_content fs' newpath = some data ∧
    ∀ suffix bdata, '/' ∉ suffix → ¬ BKDIRNAME <+: basename oldpath ++ suffix →
      file_content fs (dirname oldpath ++ '/' :: BKDIRNAME ++ '/' :: basename oldpath
        ++ suffix) = some bdata →
      sys_stat fs' (dirname oldpath ++ '/' :: BKDIRNAME ++ '/' :: basename oldpath
        ++ suffix) = .error Errno.ENOENT ∧
      file_content fs' (dirname newpath ++ '/' :: BKDIRNAME ++ '/' :: basename newpath
        ++ suffix) = some bdata := by
  obtain ⟨hOabs, hNabs, hNlen, hbk, hDlen, hDnlen, hneq, hnotunder, hentries⟩ := hready
  obtain ⟨co, hrO, hlO⟩ := (file_content_eq_some _ _ _).1 hfile
  obtain ⟨hOlen, hOst, hob1, hob2, hobs, _, cOD, hwOD, hdOD, hco⟩ :=
    resolve_file_absolute hOabs hrO hlO
  have hob0 := basename_ne_nil oldpath
  have hob3 : basename oldpath ≠ ['/'] := by
    intro e
    apply hobs
    rw [e]
    simp
  have hsplitO : path_split (sys_getcwd fs) oldpath =
      some (dirname oldpath, basename oldpath) := by
    rw [path_split_of_absolute _ _ hOabs hOlen, if_neg (by simp [hob1, hob2, hob3])]
  have hsplitN0 := path_split_of_absolute (sys_getcwd fs) newpath hNabs hNlen
  have hbit1 : (BK_RENAME_FILE ||| BK_RENAME_BACK) &&& BK_RENAME_FILE ≠ 0 := by decide
  have hbit2 : (BK_RENAME_FILE ||| BK_RENAME_BACK) &&& BK_RENAME_BACK ≠ 0 := by decide
  unfold file_backup_rename at hret
  rw [hsplitO] at hret
  simp only [] at hret
  by_cases hspecial : basename newpath = ['.'] ∨ basename newpath = ['.', '.'] ∨
      basename newpath = ['/']
  · rw [hsplitN0, if_pos hspecial] at hret
    simp at hret
  rw [hsplitN0, if_neg hspecial] at hret
  simp only [] at hret
  simp only [not_or] at hspecial
  obtain ⟨hnb1, hnb2, hnb3⟩ := hspecial
  have hnb0 := basename_ne_nil newpath
  have hnbs : '/' ∉ basename newpath := (basename_no_slash newpath).resolve_left hnb3
  cases hm1 : mkdirs fs (dirname newpath) with
  | mk fs1 rc3 =>
    rw [hm1] at hret hmk hneq hnotunder hentries
    simp only [] at hmk hneq hnotunder hentries
    subst hmk
    simp only [if_true, if_pos hbit1, if_pos hbit2] at hret
    cases hrn : sys_rename fs1 oldpath newpath with
    | error er =>
      rw [hrn] at hret
      simp at hret
    | ok fs2 =>
      rw [hrn] at hret
      simp only [] at hret
      rw [snprintf_of_lt hDnlen, snprintf_of_lt hDlen] at hret
      cases hm2 : mkdirs fs2 (dirname newpath ++ '/' :: BKDIRNAME) with
      | mk fs3 rc4 =>
        rw [hm2] at hret
        simp only [] at hret
        by_cases hrc4 : rc4 = 0
        swap
        · rw [if_neg hrc4] at hret
          simp at hret
        rw [if_pos hrc4] at hret
        subst hrc4
        -- the chain of states
        have hext1 : Ext fs fs1 := by
          have := mkdirs_ext fs (dirname newpath)
          rw [hm1] at this
          exact this
        have hext3 : Ext fs2 fs3 := by
          have := mkdirs_ext fs2 (dirname newpath ++ '/' :: BKDIRNAME)
          rw [hm2] at this
          exact this
        have hrO1 := resolve_mono (ext_dirSub hext1) hrO
        have hlO1 := hext1.2.1 _ _ hlO
        obtain ⟨cn, hnN, hNl, _, _, _, hdiff⟩ := sys_rename_file hrO1 hlO1 hrn
        have hds2 := sys_rename_file_dirSub hrO1 hlO1 hrn
        have hNne : newpath ≠ [] := by
          intro e
          rw [e] at hNabs
          simp at hNabs
        have hNst : stripSlashes newpath ≠ [] := by
          intro e
          apply hnb3
          unfold basename
          simp [e, hNne]
        -- how the new path resolves
        have hwN := ((namei_ok_iff _ _ _).1 hnN).2.2
        rw [if_pos hNabs, names_eq_dirname_basename newpath hNabs hNst, walk_append_ok] at hwN
        obtain ⟨cND, hwND, hwlast⟩ := hwN
        rw [walk_cons_ok] at hwlast
        obtain ⟨c2, hs2, hw2⟩ := hwlast
        simp only [walk, Except.ok.injEq] at hw2
        rw [step_ok_iff, if_neg hnb1, if_neg hnb2] at hs2
        obtain ⟨hdND, hc2⟩ := hs2
        have hcn : cn = cND ++ [basename newpath] := hw2 ▸ hc2
        subst hcn
        subst hco
        -- the directories of the two paths
        have hodabs := dirname_head_of_absolute oldpath hOabs
        have hndabs := dirname_head_of_absolute newpath hNabs
        have hrOD1 : resolve fs1 (dirname oldpath) = .ok cOD := by
          rw [resolve_ok_iff, namei_ok_iff]
          refine ⟨⟨?_, ?_, ?_⟩, fun _ => hext1.2.1 _ _ hdOD⟩
          · intro e
            rw [e] at hodabs
            simp at hodabs
          · have := hDlen
            simp only [List.length_append, List.length_cons] at this
            unfold MAX_PATH_LEN at this
            unfold PATH_MAX
            omega
          · rw [if_pos hodabs]
            exact walk_mono (ext_dirSub hext1) _ _ _ hwOD
        have hrND1 : resolve fs1 (dirname newpath) = .ok cND := by
          rw [resolve_ok_iff, namei_ok_iff]
          refine ⟨⟨?_, ?_, ?_⟩, fun _ => hdND⟩
          · intro e
            rw [e] at hndabs
            simp at hndabs
          · have := hDnlen
            simp only [List.length_append, List.length_cons] at this
            unfold MAX_PATH_LEN at this
            unfold PATH_MAX
            omega
          · rw [if_pos hndabs]
            exact hwND
        rw [resolved_eq hrOD1, resolved_eq hrND1] at hneq hnotunder hentries
        have hlk2 := hdiff hneq
        -- where the two paths are not
        have hBKob : BKDIRNAME ≠ basename oldpath := fun e => hbk (e ▸ List.prefix_refl _)
        have hOout : ∀ k, (cOD ++ [BKDIRNAME]) <+: k → k ≠ cOD ++ [basename oldpath] := by
          intro k hp e
          rw [e] at hp
          rcases List.prefix_concat_iff.1 hp with h | h
          · have := (List.append_inj' h rfl).2
            simp only [List.cons.injEq, and_true] at this
            exact hBKob this
          · have := h.length_le
            simp only [List.length_append, List.length_singleton] at this
            omega
        have hNout : ∀ k, (cOD ++ [BKDIRNAME]) <+: k → k ≠ cOD ++ [BKDIRNAME] →
            k ≠ cND ++ [basename newpath] := by
          intro k hp hne e
          rw [e] at hp
          rcases List.prefix_concat_iff.1 hp with h | h
          · exact hne (e.trans h.symm)
          · exact hnotunder h
        have hBout : ∀ k, (cOD ++ [BKDIRNAME]) <+: k → k ≠ cOD ++ [BKDIRNAME] →
            k ≠ cND ++ [BKDIRNAME] := by
          intro k hp hne e
          rw [e] at hp
          rcases List.prefix_concat_iff.1 hp with h | h
          · exact hne (e.trans h.symm)
          · exact hnotunder h
        -- below the old backup directory, the sweep starts from what was there
        have hwND2 : walk fs2 [] (names (dirname newpath)) = .ok cND :=
          walk_mono hds2.1 _ _ _ hwND
        have hB3 : ∀ k, k ≠ cND ++ [BKDIRNAME] → fs3.lookup k = fs2.lookup k := by
          intro k hk
          have := @mkdirs_backup_dir fs2 (dirname newpath) cND hndabs hwND2
            (hds2.1.2 _ hdND) k hk
          rw [hm2] at this
          exact this
        have hA : ∀ k, (cOD ++ [BKDIRNAME]) <+: k → k ≠ cOD ++ [BKDIRNAME] →
            fs3.lookup k = fs1.lookup k := by
          intro k hp hne
          rw [hB3 k (hBout k hp hne), hlk2, if_neg (hNout k hp hne), if_neg (hOout k hp)]
        have hmoved1 : ∀ k, Moved fs3 (cOD ++ [BKDIRNAME]) (basename oldpath) k →
            Moved fs1 (cOD ++ [BKDIRNAME]) (basename oldpath) k := by
          intro k hk
          refine ⟨?_, hk.2.1, hk.2.2⟩
          have := hk.1
          unfold FS.isFile at this ⊢
          rw [hA k hk.2.1.1 hk.2.1.2.1] at this
          exact this
        have hentry : ∀ k, fs3.lookup k ≠ none → Walked (cOD ++ [BKDIRNAME]) k →
            ∃ x ∈ fs1.entries, x.1 = k := by
          intro k hk hwk
          rw [hA k hwk.1 hwk.2.1] at hk
          apply entry_of_lookup _ hk
          intro e
          rw [e] at hwk
          have := hwk.1.length_le
          simp at this
        have hmoved_ne : ∀ k, Moved fs3 (cOD ++ [BKDIRNAME]) (basename oldpath) k →
            fs3.lookup k ≠ none := by
          intro k hk
          obtain ⟨d, hd⟩ := (isFile_iff _ _).1 hk.1
          rw [hd]
          simp
        have hHE : ∀ k, fs3.lookup k ≠ none → Walked (cOD ++ [BKDIRNAME]) k →
            (∀ n ∈ k.drop (cOD ++ [BKDIRNAME]).length, n ≠ [] ∧ '/' ∉ n) ∧
            (dirname oldpath ++ '/' :: BKDIRNAME).length +
              (pathBelow (k.drop (cOD ++ [BKDIRNAME]).length)).length < MAX_PATH_LEN := by
          intro k hk hwk
          obtain ⟨x, hx, hxk⟩ := hentry k hk hwk
          obtain ⟨p1, p2, _⟩ := hentries x hx (hxk ▸ hwk)
          rw [hxk] at p1 p2
          obtain ⟨r, hr⟩ := hwk.1
          subst hr
          rw [List.drop_left]
          rw [List.append_assoc, List.drop_left, List.singleton_append] at p1 p2
          rw [pathBelow_cons] at p2
          refine ⟨fun n hn => p1 n (List.mem_cons_of_mem _ hn), ?_⟩
          simp only [List.length_append, List.length_cons] at p2 ⊢
          omega
        have hHL : ∀ k, Moved fs3 (cOD ++ [BKDIRNAME]) (basename oldpath) k →
            (dirname newpath ++ '/' :: BKDIRNAME ++ '/' :: basename newpath
              ++ (lastName k).drop (basename oldpath).length).length < MAX_PATH_LEN := by
          intro k hk
          obtain ⟨x, hx, hxk⟩ := hentry k (hmoved_ne k hk) hk.2.1
          have := ((hentries x hx (hxk ▸ hk.2.1)).2.2 (hxk ▸ hmoved1 k hk)).1
          rw [hxk] at this
          exact this
        have hHO : ∀ k, Moved fs3 (cOD ++ [BKDIRNAME]) (basename oldpath) k →
            new_backup cND (basename oldpath) (basename newpath) k ≠
              cOD ++ [basename oldpath] := by
          intro k hk
          obtain ⟨x, hx, hxk⟩ := hentry k (hmoved_ne k hk) hk.2.1
          have := ((hentries x hx (hxk ▸ hk.2.1)).2.2 (hxk ▸ hmoved1 k hk)).2.1
          rw [hxk] at this
          exact this
        have hHM : ∀ k, Moved fs3 (cOD ++ [BKDIRNAME]) (basename oldpath) k →
            ∀ k', Moved fs3 (cOD ++ [BKDIRNAME]) (basename oldpath) k' →
            new_backup cND (basename oldpath) (basename newpath) k ≠ k' ∧
              (lastName k' = lastName k → k' = k) := by
          intro k hk k' hk'
          obtain ⟨x, hx, hxk⟩ := hentry k (hmoved_ne k hk) hk.2.1
          obtain ⟨y, hy, hyk⟩ := hentry k' (hmoved_ne k' hk') hk'.2.1
          have := ((hentries x hx (hxk ▸ hk.2.1)).2.2 (hxk ▸ hmoved1 k hk)).2.2 y hy
            (hyk ▸ hmoved1 k' hk')
          rw [hxk, hyk] at this
          exact this
        -- the old backup directory opens
        have hsub13 : DirSub fs1 fs3 := dirSub_trans hds2.1 (ext_dirSub hext3)
        have hsub03 : DirSub fs fs3 := dirSub_trans (ext_dirSub hext1) hsub13
        have hwOD3 : walk fs3 [] (names (dirname oldpath)) = .ok cOD :=
          walk_mono hsub03 _ _ _ hwOD
        have hDabs : (dirname oldpath ++ '/' :: BKDIRNAME).head? = some '/' := by
          cases hd : dirname oldpath with
          | nil => rfl
          | cons a t =>
            rw [hd] at hodabs
            simpa using hodabs
        obtain ⟨c, hD, hdir⟩ : ∃ c, resolve fs3 (dirname oldpath ++ '/' :: BKDIRNAME) = .ok c ∧
            fs3.lookup c = some Node.dir := by
          cases fuel with
          | zero => simp [walk_tree] at hret
          | succ n =>
            rw [walk_tree] at hret
            cases hop : sys_opendir fs3 (dirname oldpath ++ '/' :: BKDIRNAME) with
            | error e =>
              rw [hop] at hret
              simp at hret
            | ok L =>
              obtain ⟨c, q1, q2, _⟩ := sys_opendir_ok hop
              exact ⟨c, q1, q2⟩
        have hc : c = cOD ++ [BKDIRNAME] := by
          have := ((namei_ok_iff _ _ _).1 ((resolve_ok_iff _ _ _).1 hD).1).2.2
          rw [if_pos hDabs] at this
          exact (walk_backup_dir hwOD3 this).1
        subst hc
        -- the sweep
        obtain ⟨M', hinv, _, hall⟩ := rename_walk hHE hHL hHM
          (walk_mono hsub13 _ _ _ hwND) hndabs ⟨hnb0, hnb1, hnb2, hnb3, hnbs⟩
          fuel (dirname oldpath ++ '/' :: BKDIRNAME) [] fs3 [] fs'
          (fun x hx => absurd hx (List.not_mem_nil x)) (by simpa using hD) (by simpa using hdir)
          hDabs (Nat.le_add_right _ _) (fun h => absurd rfl h)
          ⟨dirSub_refl _, dirSub_refl _, fun k hk => absurd hk (List.not_mem_nil k),
            fun _ _ => rfl⟩ hret
        simp only [List.append_nil] at hall
        obtain ⟨hd3, _, hMfacts, hframe⟩ := hinv
        have hsubAll : DirSub fs fs' := dirSub_trans hsub03 hd3
        refine ⟨?_, ?_, ?_⟩
        · -- the old path
          have hO3 : fs3.lookup (cOD ++ [basename oldpath]) = none := by
            rw [hB3, hlk2, if_neg hneq, if_pos rfl]
            intro e
            have := (List.append_inj' e rfl).2
            simp only [List.cons.injEq, and_true] at this
            exact hBKob this.symm
          have hfr : fs'.lookup (cOD ++ [basename oldpath]) =
              fs3.lookup (cOD ++ [basename oldpath]) := by
            apply hframe
            intro k hk
            have hm := (hMfacts k hk).1
            exact ⟨(hHO k hm).symm, (hOout k hm.2.1.1).symm⟩
          rw [sys_stat_enoent (resolve_mono hsubAll hrO) (hfr.trans hO3)]
        · -- the new path
          rw [file_content_eq_some]
          refine ⟨cND ++ [basename newpath], ?_, ?_⟩
          · have : resolve fs1 newpath = .ok (cND ++ [basename newpath]) :=
              (resolve_ok_iff _ _ _).2 ⟨hnN, fun h => absurd h hNl⟩
            exact resolve_mono hd3 (resolve_mono hsub13 this)
          · have hfr : fs'.lookup (cND ++ [basename newpath]) =
                fs3.lookup (cND ++ [basename newpath]) := by
              apply hframe
              intro k hk
              have hm := (hMfacts k hk).1
              constructor
              · intro e
                have := congrArg List.length e
                unfold new_backup at this
                simp only [List.length_append, List.length_cons, List.length_nil] at this
                omega
              · exact (hNout k hm.2.1.1 hm.2.1.2.1).symm
            rw [hfr]
            exact hext3.2.1 _ _ (by rw [hlk2, if_pos rfl])
        · intro suffix bdata hsuf hnbk' hB
          obtain ⟨cB, hrB, hlB⟩ := (file_content_eq_some _ _ _).1 hB
          have hBstr : dirname oldpath ++ '/' :: BKDIRNAME ++ '/' :: basename oldpath
              ++ suffix = (dirname oldpath ++ '/' :: BKDIRNAME) ++ '/' ::
                (basename oldpath ++ suffix) := by simp
          have hes : '/' ∉ basename oldpath ++ suffix := by simp [hobs, hsuf]
          have hene : basename oldpath ++ suffix ≠ [] := by simp [hob0]
          have hdots := append_not_special (basename oldpath) suffix hob1 hob2 hob3 hob0
          simp only [not_or] at hdots
          have hrB' := hrB
          rw [hBstr] at hrB'
          obtain ⟨c1, hw1, hs1⟩ := namei_append_name hDabs hene hes
            ((resolve_ok_iff _ _ _).1 hrB').1
          obtain ⟨hc1, _⟩ := walk_backup_dir hwOD hw1
          subst hc1
          rw [step_ok_iff, if_neg hdots.1, if_neg hdots.2.1] at hs1
          have hcB := hs1.2
          subst hcB
          have hwk : Walked (cOD ++ [BKDIRNAME])
              (cOD ++ [BKDIRNAME] ++ [basename oldpath ++ suffix]) := by
            have := @walked_concat (cOD ++ [BKDIRNAME]) [] (basename oldpath ++ suffix)
              (fun n hn => absurd hn (List.not_mem_nil n)) ⟨hdots.1, hdots.2.1, hnbk'⟩
            simpa using this
          have hl3 : fs3.lookup (cOD ++ [BKDIRNAME] ++ [basename oldpath ++ suffix]) =
              some (Node.file bdata) := by
            rw [hA _ hwk.1 hwk.2.1]
            exact hext1.2.1 _ _ hlB
          have hmv : Moved fs3 (cOD ++ [BKDIRNAME]) (basename oldpath)
              (cOD ++ [BKDIRNAME] ++ [basename oldpath ++ suffix]) :=
            ⟨(isFile_iff _ _).2 ⟨bdata, hl3⟩, hwk,
              by rw [lastName_concat]; exact List.prefix_append _ _⟩
          obtain ⟨_, hTe, hSe, hRe⟩ := hMfacts _ (hall _ hmv)
          rw [lastName_concat, List.drop_left] at hRe
          constructor
          · rw [sys_stat_enoent (resolve_mono hsubAll hrB) hSe]
          · rw [file_content_eq_some]
            exact ⟨_, hRe, by rw [hTe, hl3]⟩

end Scandir
